import Mathlib

/-! # wallClockProfiler: aggregation, backtrace parsing, debugger fetch and sampling

A shallow embedding of the parts of `wallClockProfiler.cpp`, `StringUtil.hpp`,
`wcprof.cpp` and `sampling_methods.hpp` that aggregate sampled stacks, rank them
for the report, parse GDB backtraces, fetch debugger responses and run the
sampling loops, followed by theorems about them.

Conventions of the embedding:

* C strings and `std::string`s are `List Char`, one `Char` for each byte; a
  `char*` into a C string is the list of characters from that position to the
  terminating NUL.
* `int` counters (`sampleCount`, sizes) are `Int`/`Nat` without wrap-around:
  signed overflow is undefined in C++, so the embedding describes runs in
  which fewer than `2^31` samples are taken.
* `SimpleVector<T>` and `std::vector<T>` are `List T`: `push_back` appends at the
  end, `getElement(i)` is the `i`-th element.  A `std::map` is the list of its
  entries.
* A `float` is the rational it stands for: conversions and divisions round to
  the nearest IEEE 754 binary32 value, ties to even; an infinity or a NaN is
  `none`.
* What the debugger answers is a script, the list of the results of successive
  `read` calls; a loop that may go on for ever takes a bound on its iterations.
* Namespace `WallClockProfiler` holds the first front-end
  (`wallClockProfiler.cpp`), namespace `Wcprof` the second (`wcprof.cpp`,
  `sampling_methods.hpp`), namespace `GdbPipe` the pipe they both read.
-/

namespace WallClockProfiler

/-! ## Data model (`wallClockProfiler.cpp`, lines 214-237) -/

/-- `struct StackFrame`: `address` is the `void*` read by `%p`. -/
structure StackFrame where
  address : Nat
  funcName : List Char
  fileName : List Char
  lineNum : Int
  deriving DecidableEq, Repr

/-- `struct Stack`. -/
structure Stack where
  frames : List StackFrame
  sampleCount : Int
  deriving DecidableEq, Repr

/-- `struct FunctionRecord`. -/
structure FunctionRecord where
  funcName : List Char
  sampleCount : Int
  deriving DecidableEq, Repr

/-- `#define NUM_ROOT_STACKS_TO_TRACK 15`. -/
def NUM_ROOT_STACKS_TO_TRACK : Nat := 15

/-- The two global tables `stackLog` and `stackRootLog[NUM_ROOT_STACKS_TO_TRACK]`.
The array of root tables is a function of the index; only the indices
`1 .. 14` are ever read or written. -/
structure Aggregator where
  stackLog : List Stack
  stackRootLog : Nat → List Stack

/-- The tables at program start: every `SimpleVector` is empty. -/
def Aggregator.empty : Aggregator :=
  { stackLog := [], stackRootLog := fun _ => [] }

/-! ## Aggregation (`getRoot`, `stackCompare`, tail of `logGDBStackResponse`) -/

/-- `getRoot`: the frames from index `size - inDepth` to the end, with
`sampleCount = 1`.  The source only calls it with `inDepth < size`. -/
def getRoot (inFullStack : Stack) (inDepth : Nat) : Stack :=
  { frames := inFullStack.frames.drop (inFullStack.frames.length - inDepth),
    sampleCount := 1 }

/-- The element-wise loop of `stackCompare` over two frame vectors of the
same size: `false` at the first index whose addresses differ. -/
def sameAddresses : List StackFrame → List StackFrame → Bool
  | a :: as, b :: bs => if a.address ≠ b.address then false else sameAddresses as bs
  | _, _ => true

/-- `stackCompare`: sizes equal and all addresses equal. -/
def stackCompare (inA inB : Stack) : Bool :=
  if inA.frames.length ≠ inB.frames.length then false
  else sameAddresses inA.frames inB.frames

/-- The search loop `for (i = 0; i < log.size(); i++)` used on `stackLog` and
on each `stackRootLog[i]`: at the first entry that `stackCompare`s equal to
`thisStack`, increment its `sampleCount` and `break`.  Returns the updated
table and a copy of the incremented entry (`insertedStack = *inOld`), or
`none` when no entry matched (`match == false`). -/
def matchLoop (thisStack : Stack) : List Stack → Option (List Stack × Stack)
  | [] => none
  | inOld :: rest =>
      if stackCompare inOld thisStack then
        let bumped : Stack := { inOld with sampleCount := inOld.sampleCount + 1 }
        some (bumped :: rest, bumped)
      else
        (matchLoop thisStack rest).map (fun p => (inOld :: p.1, p.2))

/-- One table update: the search loop followed by `push_back` when there was
no match. -/
def logInTable (table : List Stack) (thisStack : Stack) : List Stack :=
  match matchLoop thisStack table with
  | some p => p.1
  | none => table ++ [thisStack]

/-- The loop over root depths,
`for (i = 1; i < insertedStack.frames.size() && i < NUM_ROOT_STACKS_TO_TRACK; i++)`,
started at `i` with `fuel` iterations left. -/
def rootLoop (insertedStack : Stack) :
    Nat → Nat → (Nat → List Stack) → (Nat → List Stack)
  | 0, _, roots => roots
  | fuel + 1, i, roots =>
      if i < insertedStack.frames.length ∧ i < NUM_ROOT_STACKS_TO_TRACK then
        rootLoop insertedStack fuel (i + 1)
          (Function.update roots i (logInTable (roots i) (getRoot insertedStack i)))
      else roots

/-- Lines 405-446 of `logGDBStackResponse`: match-or-insert `thisStack` in
`stackLog`, then log the roots of `insertedStack` (the matched old entry, or
`thisStack` itself when it was pushed). -/
def recordStack (agg : Aggregator) (thisStack : Stack) : Aggregator :=
  let insertedStack : Stack :=
    match matchLoop thisStack agg.stackLog with
    | some p => p.2
    | none => thisStack
  { stackLog := logInTable agg.stackLog thisStack,
    stackRootLog :=
      rootLoop insertedStack NUM_ROOT_STACKS_TO_TRACK 1 agg.stackRootLog }

/-- A freshly parsed stack: `thisStack.sampleCount = 1` with the parsed frames. -/
def newStack (frames : List StackFrame) : Stack :=
  { frames := frames, sampleCount := 1 }

/-- The aggregator after recording the parsed stacks `S₁ … Sₙ` in order,
starting from the empty tables. -/
def recordAll (samples : List (List StackFrame)) : Aggregator :=
  samples.foldl (fun agg frames => recordStack agg (newStack frames)) Aggregator.empty

/-- The frame-address sequence of a frame vector. -/
def addresses (frames : List StackFrame) : List Nat :=
  frames.map StackFrame.address

/-- Sum of `sampleCount` over a table. -/
def totalSamples (table : List Stack) : Int :=
  (table.map Stack.sampleCount).sum

/-- Total sample count of the entries of a table whose address sequence is `k`. -/
def keyCount (table : List Stack) (k : List Nat) : Int :=
  ((table.filter (fun e => decide (addresses e.frames = k))).map Stack.sampleCount).sum

/-! ## Function table (`main`, lines 776-812) -/

/-- The search loop over `functions` (lines 799-806): at the first record whose
`funcName` is `strcmp`-equal to `funcName`, add `sampleCount` and `break`;
`none` when no record matched. -/
def creditLoop (funcName : List Char) (sampleCount : Int) :
    List FunctionRecord → Option (List FunctionRecord)
  | [] => none
  | r :: rest =>
      if r.funcName = funcName then
        some ({ r with sampleCount := r.sampleCount + sampleCount } :: rest)
      else (creditLoop funcName sampleCount rest).map (fun l => r :: l)

/-- Lines 798-810: credit `funcName` with `sampleCount`, pushing a new
`FunctionRecord` when there is none yet. -/
def credit (functions : List FunctionRecord) (funcName : List Char) (sampleCount : Int) :
    List FunctionRecord :=
  match creditLoop funcName sampleCount functions with
  | some l => l
  | none => functions ++ [{ funcName := funcName, sampleCount := sampleCount }]

/-- The loop over the frames of one stack (lines 783-811).  `earlier` holds the
frames at indices `< f`, scanned by the `fdup` loop; a frame whose name already
occurs among them is skipped (`continue`). -/
def creditFrames (sampleCount : Int) :
    List StackFrame → List StackFrame → List FunctionRecord → List FunctionRecord
  | _, [], functions => functions
  | earlier, fr :: rest, functions =>
      if earlier.any (fun d => decide (fr.funcName = d.funcName)) then
        creditFrames sampleCount (earlier ++ [fr]) rest functions
      else
        creditFrames sampleCount (earlier ++ [fr]) rest
          (credit functions fr.funcName sampleCount)

/-- The function table built at report time from `stackLog` (lines 776-812). -/
def buildFunctionTable (stackLog : List Stack) : List FunctionRecord :=
  stackLog.foldl (fun functions s => creditFrames s.sampleCount [] s.frames functions) []

/-- The function names occurring in a frame vector. -/
def funcNames (frames : List StackFrame) : List (List Char) :=
  frames.map StackFrame.funcName

/-- The `sampleCount`s of all records of the function table named `f`
(the empty list when `f` has no record). -/
def functionCounts (functions : List FunctionRecord) (f : List Char) : List Int :=
  (functions.filter (fun r => decide (r.funcName = f))).map FunctionRecord.sampleCount

/-- Number of samples `Sᵢ` in which `f` names at least one frame. -/
def samplesWithFunction (samples : List (List StackFrame)) (f : List Char) : Nat :=
  (samples.filter (fun S => decide (f ∈ funcNames S))).length

/-- Total sample count of the table entries whose frames satisfy `P`. -/
def sumWhere (P : List StackFrame → Bool) (table : List Stack) : Int :=
  ((table.filter (fun e => P e.frames)).map Stack.sampleCount).sum

/-- Number of samples with more than `d` frames. -/
def samplesDeeperThan (samples : List (List StackFrame)) (d : Nat) : Nat :=
  (samples.filter (fun S => decide (d < S.length))).length

/-- Number of samples with at least `d` frames. -/
def samplesOfDepthAtLeast (samples : List (List StackFrame)) (d : Nat) : Nat :=
  (samples.filter (fun S => decide (d ≤ S.length))).length

end WallClockProfiler

namespace WallClockProfiler

/-! ## C string primitives (`<cstring>`, `<cstdio>`, `StringUtil.hpp`) -/

/-- `strstr(hay, needle)`: the index of the first occurrence of `needle` in
`hay`, or `none` for a `NULL` result. -/
def strstr : List Char → List Char → Option Nat
  | [], needle => if needle.isEmpty then some 0 else none
  | c :: cs, needle =>
      if needle.isPrefixOf (c :: cs) then some 0
      else (strstr cs needle).map (fun i => i + 1)

/-- The loop of `split` (`StringUtil.hpp`, lines 29-42) on `workingString`:
cut at each found separator, skip it, and finally add the remaining part.
`fuel` bounds the number of separators found; each non-empty separator
consumes at least one character, so the length of the string is enough. -/
def splitLoop (inSeparator : List Char) : Nat → List Char → List (List Char)
  | 0, workingString => [workingString]
  | fuel + 1, workingString =>
      match strstr workingString inSeparator with
      | none => [workingString]
      | some i =>
          workingString.take i ::
            splitLoop inSeparator fuel (workingString.drop (i + inSeparator.length))

/-- `split(inString, inSeparator, &numParts)`; both call sites pass a
non-empty separator (`","` and `"frame="`). -/
def split (inString inSeparator : List Char) : List (List Char) :=
  splitLoop inSeparator inString.length inString

/-- `isspace` in the C locale. -/
def isspace (c : Char) : Bool :=
  c = ' ' || c = '\t' || c = '\n' || c = '\x0b' || c = '\x0c' || c = '\r'

/-- Value of a hexadecimal digit (`0` for any other character). -/
def hexDigitValue (c : Char) : Nat :=
  if '0' ≤ c ∧ c ≤ '9' then c.toNat - '0'.toNat
  else if 'a' ≤ c ∧ c ≤ 'f' then c.toNat - 'a'.toNat + 10
  else if 'A' ≤ c ∧ c ≤ 'F' then c.toNat - 'A'.toNat + 10
  else 0

/-- `isxdigit`. -/
def isxdigit (c : Char) : Bool :=
  ('0' ≤ c ∧ c ≤ '9') || ('a' ≤ c ∧ c ≤ 'f') || ('A' ≤ c ∧ c ≤ 'F')

/-- `isdigit`. -/
def isdigit (c : Char) : Bool := '0' ≤ c ∧ c ≤ '9'

/-- Positional value of a string of hexadecimal digits. -/
def hexValue (digits : List Char) : Nat :=
  digits.foldl (fun acc c => acc * 16 + hexDigitValue c) 0

/-- Positional value of a string of decimal digits. -/
def decValue (digits : List Char) : Nat :=
  digits.foldl (fun acc c => acc * 10 + (c.toNat - '0'.toNat)) 0

/-- The optional sign read by the numeric conversions of `sscanf`: whether it
was `-`, and the text after it. -/
def scanSign : List Char → Bool × List Char
  | [] => (false, [])
  | c :: t => if c = '-' then (true, t) else if c = '+' then (false, t) else (false, c :: t)

/-- The digits read by `%p`: after a leading `0x` or `0X` the `0` and the
hexadecimal digits that follow, otherwise the leading hexadecimal digits. -/
def scanHexDigits : List Char → List Char
  | c0 :: c1 :: t =>
      if c0 = '0' ∧ (c1 = 'x' ∨ c1 = 'X') then '0' :: t.takeWhile isxdigit
      else (c0 :: c1 :: t).takeWhile isxdigit
  | t => t.takeWhile isxdigit

/-- `sscanf(s, "<literal>%p\"", &address)` as glibc performs it: the literal
must match, then white space is skipped, an optional sign and an optional
`0x`/`0X` prefix are read, then hexadecimal digits; the value is converted as
by `strtoull`: `2^64 - 1` when the digits overflow, whatever the sign, and
otherwise the value, negated modulo `2^64` after `-`.  With no sign and no
digit, the text `(nil)` in any letter case gives `NULL`.  `none` when nothing
is assigned. -/
def sscanfPointer (literal s : List Char) : Option Nat :=
  if literal.isPrefixOf s then
    let r := (s.drop literal.length).dropWhile isspace
    let signed := scanSign r
    let digits := scanHexDigits signed.2
    if digits.isEmpty then
      if (r.take 5).map Char.toLower = "(nil)".toList then some 0 else none
    else
      let v := hexValue digits
      some (if 2 ^ 64 - 1 < v then 2 ^ 64 - 1
        else if signed.1 then (2 ^ 64 - v) % 2 ^ 64 else v)
  else none

/-- `sscanf(s, "<literal>%499s\"", buffer)`: the literal must match, then white
space is skipped and at most `width` non-space characters are stored.  `none`
when nothing is assigned (the buffer is left as it was). -/
def sscanfWord (literal : List Char) (width : Nat) (s : List Char) : Option (List Char) :=
  if literal.isPrefixOf s then
    let r := (s.drop literal.length).dropWhile isspace
    let w := (r.takeWhile (fun c => !isspace c)).take width
    if w.isEmpty then none else some w
  else none

/-- Two's-complement truncation of an integer to a 32-bit `int`. -/
def toInt32 (v : Int) : Int :=
  (v + 2 ^ 31) % 2 ^ 32 - 2 ^ 31

/-- `sscanf(s, "<literal>%d\"", &n)` as glibc performs it: the literal must
match, white space is skipped, an optional sign and decimal digits are read,
converted as by `strtol` (saturating to the range of `long`) and stored in the
`int`.  `none` when nothing is assigned. -/
def sscanfInt (literal s : List Char) : Option Int :=
  if literal.isPrefixOf s then
    let signed := scanSign ((s.drop literal.length).dropWhile isspace)
    let digits := signed.2.takeWhile isdigit
    if digits.isEmpty then none
    else
      let v : Int := if signed.1 then - (decValue digits : Int) else (decValue digits : Int)
      some (toInt32 (max (-(2 ^ 63)) (min v (2 ^ 63 - 1))))
  else none

/-! ## `parseFrame` (`wallClockProfiler.cpp`, lines 277-348) -/

/-- The first loop of `parseFrame` (lines 302-307): at the first value that
starts with `addr=`, scan the pointer and `break`; `address` stays `NULL`
when the scan assigns nothing or no value starts with `addr=`. -/
def scanAddress : List (List Char) → Nat
  | [] => 0
  | v :: rest =>
      if strstr v "addr=".toList = some 0 then
        (sscanfPointer "addr=\"".toList v).getD 0
      else scanAddress rest

/-- The fields set by the second loop of `parseFrame`; `none` is a `NULL`
`char*`. -/
structure FrameFields where
  funcName : Option (List Char)
  fileName : Option (List Char)
  lineNum : Int
  deriving DecidableEq, Repr

/-- The second loop of `parseFrame` (lines 314-324).  `uninit` is the content,
read as a C string, of a fresh `new char[500]`, which is what the buffer
holds when `sscanf` assigns nothing. -/
def scanFields (uninit : List Char) : List (List Char) → FrameFields → FrameFields
  | [], acc => acc
  | v :: rest, acc =>
      if strstr v "func=".toList = some 0 then
        scanFields uninit rest
          { acc with funcName := some ((sscanfWord "func=\"".toList 499 v).getD uninit) }
      else if strstr v "file=".toList = some 0 then
        scanFields uninit rest
          { acc with fileName := some ((sscanfWord "file=\"".toList 499 v).getD uninit) }
      else if strstr v "line=".toList = some 0 then
        scanFields uninit rest
          { acc with lineNum := (sscanfInt "line=\"".toList v).getD acc.lineNum }
      else scanFields uninit rest acc

/-- Lines 333-340: `strstr(name, "\"")` and, when found, `quotePos[0] = '\0'`. -/
def cutAtQuote (name : List Char) : List Char :=
  match strstr name ['"'] with
  | some q => name.take q
  | none => name

/-- `parseFrame`; `none` stands for the two `exit(1)` paths (no `{`, or no `}`
after it). -/
def parseFrame (uninit inFrameString : List Char) : Option StackFrame :=
  match strstr inFrameString ['{'] with
  | none => none
  | some o =>
      let openPos := inFrameString.drop (o + 1)
      match strstr openPos ['}'] with
      | none => none
      | some c =>
          let vals := split (openPos.take c) [',']
          let fields := scanFields uninit vals
            { funcName := none, fileName := none, lineNum := -1 }
          some
            { address := scanAddress vals,
              funcName := cutAtQuote (fields.funcName.getD []),
              fileName := cutAtQuote (fields.fileName.getD []),
              lineNum := fields.lineNum }

/-! ## The structured parser of `logGDBStackResponse` (lines 366-403) -/

/-- The loop `for (i = 0; i < numFrames; i++) push_back(parseFrame(frames[i]))`;
`none` when some `parseFrame` call exits the process. -/
def parseFrames (uninit : List Char) : List (List Char) → Option (List StackFrame)
  | [] => some []
  | part :: rest =>
      match parseFrame uninit part with
      | none => none
      | some f =>
          match parseFrames uninit rest with
          | none => none
          | some fs => some (f :: fs)

/-- What lines 366-403 produce from the C string in `readBuff`. -/
inductive Parsed where
  /-- An early `return`: no sample is recorded. -/
  | dropped
  /-- A `parseFrame` call ran `exit(1)`. -/
  | exited
  /-- The frames of `thisStack`. -/
  | stack (frames : List StackFrame)
  deriving DecidableEq, Repr

/-- Lines 366-403 of `logGDBStackResponse` on the C string `readBuff`. -/
def parseStackResponse (uninit readBuff : List Char) : Parsed :=
  match strstr readBuff ",stack=[".toList with
  | none => Parsed.dropped
  | some p =>
      let stackStart := readBuff.drop (p + ",stack=[".toList.length)
      match strstr stackStart "]\n".toList with
      | none => Parsed.dropped
      | some c =>
          let block := stackStart.take c
          if strstr block "frame=".toList ≠ some 0 then Parsed.dropped
          else
            match parseFrames uninit
                (split (block.drop "frame=".toList.length) "frame=".toList) with
            | none => Parsed.exited
            | some frames => Parsed.stack frames

/-- Result of a call that may terminate the process. -/
inductive Outcome (α : Type) where
  /-- The call returned to its caller. -/
  | returned (value : α)
  /-- The call ran `exit(1)`. -/
  | exited

/-- Lines 366-446 of `logGDBStackResponse`: parse the C string in `readBuff`
and record the parsed stack. -/
def logStackText (uninit : List Char) (agg : Aggregator) (readBuff : List Char) :
    Outcome Aggregator :=
  match parseStackResponse uninit readBuff with
  | Parsed.dropped => Outcome.returned agg
  | Parsed.exited => Outcome.exited
  | Parsed.stack frames => Outcome.returned (recordStack agg (newStack frames))

end WallClockProfiler

namespace WallClockProfiler

/-! ## GDB/MI text of a structured backtrace

The text the debugger sends for `-stack-list-frames`:
`^done,stack=[frame={level="0",addr="0x…",func="…",…},frame={…}]` and a newline.
These definitions describe the inputs of the parser; they are not part of the
program. -/

/-- The text `key="value"` of one result of a record. -/
def renderField (f : List Char × List Char) : List Char :=
  f.1 ++ '=' :: '"' :: f.2 ++ ['"']

/-- A frame record: the results before `addr` (such as `level`), the
hexadecimal digits of the `addr` value after its `0x`, and the results after
it (such as `func`, `file`, `fullname`, `line`, `arch`). -/
structure FrameRecord where
  before : List (List Char × List Char)
  addr : List Char
  after : List (List Char × List Char)

/-- The results before `addr`, each followed by a comma. -/
def renderBefore : List (List Char × List Char) → List Char
  | [] => []
  | f :: fs => renderField f ++ ',' :: renderBefore fs

/-- The results after `addr`, each preceded by a comma. -/
def renderAfter : List (List Char × List Char) → List Char
  | [] => []
  | f :: fs => ',' :: renderField f ++ renderAfter fs

/-- The text `addr="0x<digits>"`. -/
def renderAddr (digits : List Char) : List Char :=
  "addr=\"0x".toList ++ digits ++ ['"']

/-- The text between the braces of a frame record. -/
def renderBody (r : FrameRecord) : List Char :=
  renderBefore r.before ++ renderAddr r.addr ++ renderAfter r.after

/-- The text `frame={…}` of a frame record. -/
def renderFrame (r : FrameRecord) : List Char :=
  "frame=\x7b".toList ++ renderBody r ++ ['}']

/-- The comma-separated frame records between `,stack=[` and `]`. -/
def renderBlock : List FrameRecord → List Char
  | [] => []
  | [r] => renderFrame r
  | r :: rs => renderFrame r ++ ',' :: renderBlock rs

/-- A response: any text `pre`, then `,stack=[`, the frame records, `]` and a
newline, then any text `post`. -/
def renderResponse (pre : List Char) (records : List FrameRecord) (post : List Char) :
    List Char :=
  pre ++ ",stack=[".toList ++ renderBlock records ++ "]\n".toList ++ post

/-- A well-formed frame record: the results before `addr` contain neither a
comma nor a closing brace and none of them starts with `addr=`; the address is
at most 16 hexadecimal digits; and the text of the record contains neither a
newline nor the text `frame=`. -/
def WellFormedRecord (r : FrameRecord) : Prop :=
  (∀ f ∈ r.before, ',' ∉ renderField f ∧ '}' ∉ renderField f ∧
      ¬ "addr=".toList <+: renderField f) ∧
    (∀ c ∈ r.addr, isxdigit c = true) ∧ r.addr.length ≤ 16 ∧
    '\n' ∉ renderBody r ∧ ¬ "frame=".toList <:+: renderBody r

instance (r : FrameRecord) : Decidable (WellFormedRecord r) := by
  unfold WellFormedRecord
  infer_instance

end WallClockProfiler

namespace WallClockProfiler

/-- The parts between the `frame=` markers of a block: each record's braces,
followed by the separating comma except after the last record. -/
def frameParts : List FrameRecord → List (List Char)
  | [] => []
  | [r] => ['{' :: (renderBody r ++ ['}'])]
  | r :: rs => ('{' :: (renderBody r ++ ['}', ','])) :: frameParts rs

end WallClockProfiler

namespace WallClockProfiler

/-! ## Frame records as lists of comma-separated parts (inputs of `parseFrame`) -/

/-- A part of the text between the braces of a frame record, the text being cut
at its commas: one of the three results that `parseFrame` reads, with its
value, or any other text (a result with another key, or a piece of one whose
value holds commas). -/
inductive RecordPart where
  /-- The result `func="value"`. -/
  | func (value : List Char)
  /-- The result `file="value"`. -/
  | file (value : List Char)
  /-- The result `line="value"`. -/
  | line (value : List Char)
  /-- Any other text. -/
  | other (text : List Char)
  deriving DecidableEq, Repr

/-- The text of a part. -/
def RecordPart.text : RecordPart → List Char
  | RecordPart.func value => renderField ("func".toList, value)
  | RecordPart.file value => renderField ("file".toList, value)
  | RecordPart.line value => renderField ("line".toList, value)
  | RecordPart.other text => text

/-- The parts joined by commas. -/
def renderParts : List RecordPart → List Char
  | [] => []
  | [p] => p.text
  | p :: ps => p.text ++ ',' :: renderParts ps

/-- The value of a `func` part. -/
def RecordPart.funcValue : RecordPart → Option (List Char)
  | RecordPart.func value => some value
  | _ => none

/-- The value of a `file` part. -/
def RecordPart.fileValue : RecordPart → Option (List Char)
  | RecordPart.file value => some value
  | _ => none

/-- The value of a `line` part. -/
def RecordPart.lineValue : RecordPart → Option (List Char)
  | RecordPart.line value => some value
  | _ => none

/-- The value selected by `sel` in the last part that has one. -/
def lastValue (sel : RecordPart → Option (List Char)) : List RecordPart → Option (List Char)
  | [] => none
  | p :: ps =>
      match lastValue sel ps with
      | some v => some v
      | none => sel p

/-- A name that `%499s` reads back in full: no quotation mark, comma, closing
brace or white space, and at most 499 characters. -/
def PlainName (value : List Char) : Prop :=
  '"' ∉ value ∧ ',' ∉ value ∧ '}' ∉ value ∧ (∀ c ∈ value, isspace c = false) ∧
    value.length ≤ 499

instance (value : List Char) : Decidable (PlainName value) := by
  unfold PlainName
  infer_instance

/-- The integer written by a decimal numeral with an optional sign. -/
def intOfNumeral (value : List Char) : Int :=
  if (scanSign value).1 then - (decValue (scanSign value).2 : Int)
  else (decValue (scanSign value).2 : Int)

/-- A decimal numeral, with an optional sign, of an integer that an `int`
holds. -/
def IntNumeral (value : List Char) : Prop :=
  (scanSign value).2 ≠ [] ∧ (∀ c ∈ (scanSign value).2, isdigit c = true) ∧
    -(2 ^ 31) ≤ intOfNumeral value ∧ intOfNumeral value < 2 ^ 31

instance (value : List Char) : Decidable (IntNumeral value) := by
  unfold IntNumeral
  infer_instance

/-- The parts covered by the statement about `parseFrame`: the value of a
`func` or `file` part is a plain name, the value of a `line` part is the
numeral of an `int`, and any other part is a text without comma and closing
brace (the characters at which the record is cut) that does not begin with
`func=`, `file=` or `line=`. -/
def ReadablePart : RecordPart → Prop
  | RecordPart.func value => PlainName value
  | RecordPart.file value => PlainName value
  | RecordPart.line value => IntNumeral value
  | RecordPart.other text =>
      ',' ∉ text ∧ '}' ∉ text ∧ ¬ "func=".toList <+: text ∧ ¬ "file=".toList <+: text ∧
        ¬ "line=".toList <+: text

instance (p : RecordPart) : Decidable (ReadablePart p) := by
  cases p <;> unfold ReadablePart <;> infer_instance

end WallClockProfiler

namespace WallClockProfiler

/-- The text of a frame part after its first `{` (empty when it has none). -/
def afterOpenBrace (part : List Char) : List Char :=
  (part.dropWhile (fun c => decide (c ≠ '{'))).drop 1

/-- A frame part with unbalanced braces: it has no `{`, or no `}` after its
first `{`. -/
def Unbalanced (part : List Char) : Prop :=
  '{' ∉ part ∨ '}' ∉ afterOpenBrace part

instance (part : List Char) : Decidable (Unbalanced part) := by
  unfold Unbalanced
  infer_instance

end WallClockProfiler

namespace WallClockProfiler

/-! ## Printing an address back (not part of the program) -/

/-- A hexadecimal digit as GDB prints it: `0`-`9` or `a`-`f`. -/
def isLowerHexDigit (c : Char) : Bool :=
  ('0' ≤ c ∧ c ≤ '9') || ('a' ≤ c ∧ c ≤ 'f')

/-- The lower-case hexadecimal digit of value `d < 16`. -/
def hexDigitChar (d : Nat) : Char :=
  if d < 10 then Char.ofNat ('0'.toNat + d) else Char.ofNat ('a'.toNat + (d - 10))

/-- The `width` least significant hexadecimal digits of `n`, most significant
first (what `printf("%0*lx", width, n)` prints for `n < 16^width`). -/
def printHex : Nat → Nat → List Char
  | 0, _ => []
  | width + 1, n => printHex width (n / 16) ++ [hexDigitChar (n % 16)]

end WallClockProfiler

namespace GdbPipe

/-! ## The debugger's output pipe

Both front-ends read GDB's output from a non-blocking pipe with `read`.  The
environment is a script: the list of what successive `read` calls find. -/

/-- What a `read` on the pipe finds. -/
inductive ReadResult where
  /-- Bytes waiting in the pipe.  `read` returns as many of them as the caller
  asked for and leaves the others in the pipe; with no byte waiting it returns
  `0` (end of file). -/
  | data (bytes : List Char)
  /-- `read` returns `-1` with `errno` `EAGAIN` or `EWOULDBLOCK`. -/
  | wouldBlock
  /-- `read` returns `-1` with any other `errno`. -/
  | error
  deriving DecidableEq, Repr

/-- `read(inPipe, buffer, count)`: the result of the call (`data got` for
`numRead = got.length`) and the script that remains; `none` when the script
says nothing about this call. -/
def readPipe (count : Nat) : List ReadResult → Option (ReadResult × List ReadResult)
  | [] => none
  | ReadResult.data bytes :: rest =>
      if bytes.length ≤ count then some (ReadResult.data bytes, rest)
      else some (ReadResult.data (bytes.take count), ReadResult.data (bytes.drop count) :: rest)
  | r :: rest => some (r, rest)

/-- All bytes that a script delivers, in order. -/
def allBytes : List ReadResult → List Char
  | [] => []
  | ReadResult.data bytes :: rest => bytes ++ allBytes rest
  | _ :: rest => allBytes rest

/-- A bound on the number of `read` calls that a script can answer when every
call asks for at least one byte. -/
def scriptSize : List ReadResult → Nat
  | [] => 0
  | ReadResult.data bytes :: rest => bytes.length + 1 + scriptSize rest
  | _ :: rest => 1 + scriptSize rest

/-- The C string that a byte array holds: its bytes up to the first NUL. -/
def cString (bytes : List Char) : List Char :=
  bytes.takeWhile (fun c => decide (c ≠ '\x00'))

end GdbPipe

namespace WallClockProfiler

open GdbPipe

/-! ## `fillBufferWithResponse` and `checkProgramExited` (lines 53-153) -/

/-- `#define READ_BUFF_SIZE 65536`. -/
def READ_BUFF_SIZE : Nat := 65536

/-- `#define BUFF_TAIL_SIZE 32768`. -/
def BUFF_TAIL_SIZE : Nat := 32768

/-- The global driver state: the C string held in `readBuff` and the flags
(`char` variables used as booleans, and the `char` counter
`numReadAttempts`). -/
structure Driver where
  readBuff : List Char
  anythingInReadBuff : Bool
  numReadAttempts : Int
  programExited : Bool
  detatchJustSent : Bool
  deriving DecidableEq, Repr

/-- `strstr(hay, needle) != NULL`. -/
def found (hay needle : List Char) : Bool :=
  (strstr hay needle).isSome

/-- Conversion of an `int` value to a signed 8-bit `char`. -/
def toChar8 (v : Int) : Int :=
  (v + 128) % 256 - 128

/-- The test of lines 102-104: the prompt is in the buffer and, when the
caller waits for an anchor, the anchor too. -/
def responseComplete (inWaitingFor : Option (List Char)) (readBuff : List Char) : Bool :=
  found readBuff "(gdb)".toList &&
    (match inWaitingFor with
      | none => true
      | some w => found readBuff w)

/-- Lines 76-88: when `readSoFar >= READ_BUFF_SIZE - 1`, the two `memcpy`s move
the `BUFF_TAIL_SIZE` bytes that end at the terminating NUL,
`readBuff[readSoFar + 1 - BUFF_TAIL_SIZE .. readSoFar]`, to the start of the
buffer and `readSoFar` becomes `BUFF_TAIL_SIZE - 1`; otherwise nothing
changes. -/
def keepTail (bytes : List Char) : List Char :=
  if READ_BUFF_SIZE - 1 ≤ bytes.length then bytes.drop (bytes.length + 1 - BUFF_TAIL_SIZE)
  else bytes

/-- How a run of the loop of `fillBufferWithResponse` over a script ends. -/
inductive FillResult where
  /-- The function returned `numRead`, leaving the driver state and the rest of
  the script. -/
  | returned (numRead : Nat) (driver : Driver) (pipe : List ReadResult)
  /-- The script ended with the loop still waiting at its head, holding the
  bytes `readBuff[0 .. readSoFar)`. -/
  | waiting (bytes : List Char) (driver : Driver)
  deriving DecidableEq, Repr

/-- The driver state when an iteration reaches its `read` (lines 76-90): the
buffer was moved when it was full, and `numReadAttempts++` was done. -/
def driverAtRead (bytes : List Char) (d : Driver) : Driver :=
  { d with
    readBuff := if READ_BUFF_SIZE - 1 ≤ bytes.length then cString (keepTail bytes)
      else d.readBuff,
    numReadAttempts := toChar8 (d.numReadAttempts + 1) }

/-- The driver state after a `read` that returned bytes (lines 96-100):
`anythingInReadBuff = true` and `readBuff` holds `bytes` and a NUL. -/
def driverAfterData (bytes : List Char) (d : Driver) : Driver :=
  { d with anythingInReadBuff := true, readBuff := cString bytes }

/-- The `while (true)` loop of `fillBufferWithResponse` (lines 74-123).
`bytes` are `readBuff[0 .. readSoFar)`; `fuel` bounds the number of
iterations. -/
def fillLoop (inWaitingFor : Option (List Char)) :
    Nat → List Char → Driver → List ReadResult → FillResult
  | 0, bytes, d, _ => FillResult.waiting bytes d
  | _ + 1, bytes, d, [] => FillResult.waiting bytes d
  | fuel + 1, bytes, d, r :: pipe =>
      let bytes1 := keepTail bytes
      let d1 := driverAtRead bytes d
      match readPipe ((READ_BUFF_SIZE - 1) - bytes1.length) (r :: pipe) with
      | none => FillResult.waiting bytes1 d1
      | some (ReadResult.wouldBlock, rest) => fillLoop inWaitingFor fuel bytes1 d1 rest
      | some (ReadResult.error, rest) => FillResult.returned bytes1.length d1 rest
      | some (ReadResult.data got, rest) =>
          if got.isEmpty then fillLoop inWaitingFor fuel bytes1 d1 rest
          else
            let bytes2 := bytes1 ++ got
            let d2 := driverAfterData bytes2 d1
            if responseComplete inWaitingFor d2.readBuff then
              FillResult.returned bytes2.length d2 rest
            else if decide (10 < bytes2.length) && !d2.detatchJustSent &&
                found d2.readBuff "thread-group-exited".toList then
              FillResult.returned bytes2.length { d2 with programExited := true } rest
            else fillLoop inWaitingFor fuel bytes2 d2 rest

/-- `fillBufferWithResponse(inWaitingFor)`: reset `readSoFar`,
`anythingInReadBuff` and `numReadAttempts`, then run the loop.  The fuel is
enough for every `read` the script can answer. -/
def fillBufferWithResponse (inWaitingFor : Option (List Char)) (d : Driver)
    (pipe : List ReadResult) : FillResult :=
  fillLoop inWaitingFor (scriptSize pipe + 1) []
    { d with anythingInReadBuff := false, numReadAttempts := 0 } pipe

/-- `checkProgramExited` (lines 126-153). -/
def checkProgramExited (d : Driver) : Driver :=
  if d.anythingInReadBuff then
    if found d.readBuff "exited-normally".toList then { d with programExited := true }
    else if found d.readBuff "\"exited\"".toList then { d with programExited := true }
    else if found d.readBuff "stopped".toList && found d.readBuff "signal-received".toList &&
        !found d.readBuff "SIGINT".toList then { d with programExited := true }
    else d
  else d

/-- The C string left in `readBuff` by lines 366-383 of `logGDBStackResponse`:
cut at the `]` found after `,stack=[` (`closeBracket[0] = '\0'`), unchanged
when the function returns before that. -/
def readBuffAfterParse (readBuff : List Char) : List Char :=
  match strstr readBuff ",stack=[".toList with
  | none => readBuff
  | some p =>
      match strstr (readBuff.drop (p + ",stack=[".toList.length)) "]\n".toList with
      | none => readBuff
      | some c => readBuff.take (p + ",stack=[".toList.length + c)

/-- `logGDBStackResponse` (lines 350-447): fetch the response, return early
when nothing was read or the program exited, else parse and record the stack.
The result is how the call ends, with the rest of the script; `none` when the
script ends while `fillBufferWithResponse` is still waiting. -/
def logGDBStackResponse (uninit : List Char) (d : Driver) (agg : Aggregator)
    (pipe : List ReadResult) : Option (Outcome (Driver × Aggregator) × List ReadResult) :=
  match fillBufferWithResponse none d pipe with
  | FillResult.waiting _ _ => none
  | FillResult.returned numRead d1 rest =>
      if numRead = 0 then some (Outcome.returned (d1, agg), rest)
      else
        let d2 := checkProgramExited d1
        if d2.programExited then some (Outcome.returned (d2, agg), rest)
        else
          match logStackText uninit agg d2.readBuff with
          | Outcome.exited => some (Outcome.exited, rest)
          | Outcome.returned agg' =>
              some (Outcome.returned
                ({ d2 with readBuff := readBuffAfterParse d2.readBuff }, agg'), rest)

end WallClockProfiler

namespace Wcprof

open GdbPipe

/-! ## `FetchGdbResponse` (`wcprof.cpp`, lines 48-138) -/

/-- `std::string::find(pattern)`: the index of the first occurrence of `pattern`,
`none` for `npos`. -/
def find (s pattern : List Char) : Option Nat :=
  WallClockProfiler.strstr s pattern

/-- `const size_t extension = 1024 * 64`. -/
def extension : Nat := 1024 * 64

/-- The bound of `for (int i = 0; i < 180 * 1000 * 5; ++i)`. -/
def maxAttempts : Nat := 180 * 1000 * 5

/-- The tests of lines 81-110 on `gdbResponse`: `[Inferior` together with
`exited`, or one of the four messages. -/
def terminationSeen (gdbResponse : List Char) : Bool :=
  ((find gdbResponse "[Inferior".toList).isSome &&
      (find gdbResponse "exited".toList).isSome) ||
    (find gdbResponse "Program terminated with signal SIGKILL, Killed.".toList).isSome ||
    (find gdbResponse "Program terminated with signal SIGTERM, Terminated.".toList).isSome ||
    (find gdbResponse "Program received signal SIGSEGV, Segmentation fault.".toList).isSome ||
    (find gdbResponse "The program is not being run.".toList).isSome

/-- Lines 70-79 (and 113-122): when `end` (here `terminator`) is not empty and is found in
`gdbResponse`, the response is cut after it and the C string that follows
becomes `nextData`.  Returns the new `gdbResponse` and `nextData`. -/
def cutAtEnd (terminator gdbResponse : List Char) : Option (List Char × List Char) :=
  if terminator = [] then none
  else
    match find gdbResponse terminator with
    | none => none
    | some endPos =>
        let newSize := endPos + terminator.length
        some (gdbResponse.take newSize, cString (gdbResponse.drop newSize))

/-- How a run of `FetchGdbResponse` over a script ends. -/
inductive FetchResult where
  /-- The function returned `gdbResponse`, leaving the static `nextData`, the
  flag `programFinished` and the rest of the script. -/
  | returned (gdbResponse nextData : List Char) (programFinished : Bool)
      (pipe : List ReadResult)
  /-- A read error: `raise(SIGTERM)`. -/
  | raised (gdbResponse : List Char) (pipe : List ReadResult)
  /-- The script ended with the loop still running, `attemptsLeft` iterations
  before its bound. -/
  | waiting (gdbResponse : List Char) (attemptsLeft : Nat)
  deriving DecidableEq, Repr

/-- The `for` loop of `FetchGdbResponse` with `attemptsLeft` iterations to go.
Before each `read` the string is resized by `extension` zero bytes; it is
resized back after a would-block, and left as it is after a read of `0`
bytes. -/
def fetchLoop (terminator : List Char) :
    Nat → List Char → Bool → List ReadResult → FetchResult
  | 0, gdbResponse, programFinished, pipe =>
      FetchResult.returned gdbResponse [] programFinished pipe
  | attemptsLeft + 1, gdbResponse, programFinished, pipe =>
      match readPipe extension pipe with
      | none => FetchResult.waiting gdbResponse (attemptsLeft + 1)
      | some (ReadResult.data got, rest) =>
          if got.isEmpty then
            fetchLoop terminator attemptsLeft (gdbResponse ++ List.replicate extension '\x00')
              programFinished rest
          else
            match cutAtEnd terminator (gdbResponse ++ got) with
            | some cut => FetchResult.returned cut.1 cut.2 programFinished rest
            | none =>
                if terminationSeen (gdbResponse ++ got) then
                  FetchResult.returned (gdbResponse ++ got) [] true rest
                else fetchLoop terminator attemptsLeft (gdbResponse ++ got) programFinished rest
      | some (ReadResult.wouldBlock, rest) =>
          match cutAtEnd terminator (gdbResponse ++ List.replicate extension '\x00') with
          | some cut => FetchResult.returned cut.1 cut.2 programFinished rest
          | none => fetchLoop terminator attemptsLeft gdbResponse programFinished rest
      | some (ReadResult.error, rest) =>
          match cutAtEnd terminator (gdbResponse ++ List.replicate extension '\x00') with
          | some cut => FetchResult.returned cut.1 cut.2 programFinished rest
          | none => FetchResult.raised gdbResponse rest

/-- `FetchGdbResponse(end)`: `gdbResponse = nextData; nextData.clear();` and
the loop. -/
def FetchGdbResponse (terminator nextData : List Char) (programFinished : Bool)
    (pipe : List ReadResult) : FetchResult :=
  fetchLoop terminator maxAttempts nextData programFinished pipe

end Wcprof

namespace Wcprof

open GdbPipe

/-- A read result that brings between 1 and `extension` bytes, or would
block. -/
def PlainRead : ReadResult → Prop
  | ReadResult.data bytes => bytes ≠ [] ∧ bytes.length ≤ extension
  | ReadResult.wouldBlock => True
  | ReadResult.error => False

instance (r : ReadResult) : Decidable (PlainRead r) := by
  cases r <;> unfold PlainRead <;> infer_instance

end Wcprof

namespace WallClockProfiler

open GdbPipe

/-! ## The sampling loop of `main` (`wallClockProfiler.cpp`, lines 175-195, 699-770) -/

/-- What `main` does to the debugger and to the target while sampling. -/
inductive Action where
  /-- `sendCommand(command)`: a line written to GDB. -/
  | send (command : List Char)
  /-- `kill(pid, SIGINT)`: the interrupt signal sent to the target. -/
  | kill
  deriving DecidableEq, Repr

/-- The state of `main` while sampling: the driver globals, the tables,
`numSamples`, what was sent so far (oldest first), and what GDB will answer. -/
structure Controller where
  driver : Driver
  agg : Aggregator
  numSamples : Int
  actions : List Action
  pipe : List ReadResult

/-- `skipGDBResponse` (lines 175-184): fetch until the prompt, then
`checkProgramExited`.  `none` when the script ends while the fetch is still
waiting. -/
def skipGDBResponse (d : Driver) (pipe : List ReadResult) :
    Option (Driver × List ReadResult) :=
  match fillBufferWithResponse none d pipe with
  | FillResult.waiting _ _ => none
  | FillResult.returned _ d1 rest => some (checkProgramExited d1, rest)

/-- `waitForGDBInterruptResponse` (lines 186-195): fetch until the prompt and
`*stopped,` were seen, then `checkProgramExited`. -/
def waitForGDBInterruptResponse (d : Driver) (pipe : List ReadResult) :
    Option (Driver × List ReadResult) :=
  match fillBufferWithResponse (some "*stopped,".toList) d pipe with
  | FillResult.waiting _ _ => none
  | FillResult.returned _ d1 rest => some (checkProgramExited d1, rest)

/-- Lines 721-730 (and 754-762): with three arguments the target was started
with `run`, so it is interrupted by a signal; otherwise by `-exec-interrupt`. -/
def interruptAction (inNumArgs : Nat) : Action :=
  if inNumArgs = 3 then Action.kill else Action.send "-exec-interrupt".toList

/-- Lines 719-732: interrupt the target and wait for the stop. -/
def interruptBlock (inNumArgs : Nat) (c : Controller) : Option Controller :=
  match waitForGDBInterruptResponse c.driver c.pipe with
  | none => none
  | some (d, rest) =>
      some { c with driver := d, pipe := rest,
                    actions := c.actions ++ [interruptAction inNumArgs] }

/-- Lines 734-739: `if (!programExited)` send `-stack-list-frames`, log the
response and count the sample. -/
def sampleBlock (uninit : List Char) (c : Controller) : Option (Outcome Controller) :=
  if c.driver.programExited then some (Outcome.returned c)
  else
    match logGDBStackResponse uninit c.driver c.agg c.pipe with
    | none => none
    | some (Outcome.exited, _) => some Outcome.exited
    | some (Outcome.returned (d, agg), rest) =>
        some (Outcome.returned
          { driver := d, agg := agg, numSamples := c.numSamples + 1,
            actions := c.actions ++ [Action.send "-stack-list-frames".toList],
            pipe := rest })

/-- Lines 741-746: `if (!programExited)` send `-exec-continue` and skip the
response. -/
def continueBlock (c : Controller) : Option Controller :=
  if c.driver.programExited then some c
  else
    match skipGDBResponse c.driver c.pipe with
    | none => none
    | some (d, rest) =>
        some { c with driver := d, pipe := rest,
                      actions := c.actions ++ [Action.send "-exec-continue".toList] }

/-- The body of the sampling loop (lines 719-746). -/
def loopBody (uninit : List Char) (inNumArgs : Nat) (c : Controller) :
    Option (Outcome Controller) :=
  match interruptBlock inNumArgs c with
  | none => none
  | some c1 =>
      match sampleBlock uninit c1 with
      | none => none
      | some Outcome.exited => some Outcome.exited
      | some (Outcome.returned c2) => (continueBlock c2).map Outcome.returned

/-- The loop condition of line 717-718.  `now` is what `time(NULL)` returns if
it is called. -/
def loopCondition (detatchSeconds startTime now : Int) (c : Controller) : Bool :=
  !c.driver.programExited && (detatchSeconds == -1 || decide (now < startTime + detatchSeconds))

/-- The sampling loop (lines 717-747).  `clock k` is the reading of `time(NULL)`
at the `k`-th evaluation of the loop condition; `fuel` bounds the number of
iterations, and `none` also stands for a script that ends during a fetch. -/
def samplingLoop (uninit : List Char) (inNumArgs : Nat) (detatchSeconds startTime : Int)
    (clock : Nat → Int) : Nat → Nat → Controller → Option (Outcome Controller)
  | 0, _, _ => none
  | fuel + 1, k, c =>
      if loopCondition detatchSeconds startTime (clock k) c then
        match loopBody uninit inNumArgs c with
        | none => none
        | some Outcome.exited => some Outcome.exited
        | some (Outcome.returned c1) =>
            samplingLoop uninit inNumArgs detatchSeconds startTime clock fuel (k + 1) c1
      else some (Outcome.returned c)

/-- Lines 749-770, after the loop: nothing is sent when the program exited;
otherwise the target is interrupted and detached. -/
def finishSampling (inNumArgs : Nat) (c : Controller) : Option Controller :=
  if c.driver.programExited then some c
  else
    match waitForGDBInterruptResponse c.driver c.pipe with
    | none => none
    | some (d, rest) =>
        match skipGDBResponse { d with detatchJustSent := true } rest with
        | none => none
        | some (d', rest') =>
            some { c with driver := { d' with detatchJustSent := false }, pipe := rest',
                          actions := c.actions ++
                            [interruptAction inNumArgs, Action.send "-target-detach".toList] }

end WallClockProfiler

namespace WallClockProfiler

open GdbPipe

/-- An example state of `main` at the head of the sampling loop: one stack
recorded, and GDB about to answer the next interrupt with an exit notice. -/
def exampleController : Controller :=
  { driver := ⟨[], false, 0, false, false⟩,
    agg := recordAll [[⟨0x401136, "work".toList, "a.c".toList, 12⟩]],
    numSamples := 1,
    actions := [Action.kill, Action.send "-stack-list-frames".toList,
      Action.send "-exec-continue".toList],
    pipe := [ReadResult.data "*stopped,reason=\"exited-normally\"\n(gdb) \n".toList,
      ReadResult.data "(gdb) \n".toList] }

/-- The state that `exampleController` is in after one more iteration. -/
def exampleControllerExited : Controller :=
  { driver := ⟨"*stopped,reason=\"exited-normally\"\n(gdb) \n".toList, true, 1, true, false⟩,
    agg := recordAll [[⟨0x401136, "work".toList, "a.c".toList, 12⟩]],
    numSamples := 1,
    actions := [Action.kill, Action.send "-stack-list-frames".toList,
      Action.send "-exec-continue".toList, Action.kill],
    pipe := [ReadResult.data "(gdb) \n".toList] }

end WallClockProfiler

namespace WallClockProfiler

/-! ## Ranking the tables for the report (`main`, lines 814-884) -/

/-- Modelled from the spec: `SimpleVector<T>::deleteElement(i)` (`SimpleVector.hpp`
is not among the sources), taken to remove the element at index `i` and to keep
the order of the others. -/
def deleteElement {α : Type} (v : List α) (i : Nat) : List α :=
  v.eraseIdx i

/-- The scan for the maximum, `for (i = 0; i < v.size(); i++)` of lines 819-827,
843-851 and 868-876, from index `i` on: an element replaces the current choice
only when its `sampleCount` is greater than `max`.  The choice is `maxInd`
with the copied element, `none` while `maxInd = -1`. -/
def scanMax {α : Type} (sampleCount : α → Int) :
    List α → Nat → Int → Option (Nat × α) → Option (Nat × α)
  | [], _, _, choice => choice
  | r :: rest, i, max, choice =>
      if sampleCount r > max then scanMax sampleCount rest (i + 1) (sampleCount r) (some (i, r))
      else scanMax sampleCount rest (i + 1) max choice

/-- The selection loop `while (v.size() > 0)` of lines 815-834, 839-858 and
864-883: each iteration scans with `max` starting at `floor`, moves the chosen
element to the end of `sorted` and deletes it from `v`, or `break`s when
nothing was chosen.  Returns `sorted` and what is left of `v`; `none` when
`fuel` iterations were not enough. -/
def sortLoop {α : Type} (sampleCount : α → Int) (floor : Int) :
    Nat → List α → List α → Option (List α × List α)
  | 0, v, sorted => if v.isEmpty then some (sorted, v) else none
  | fuel + 1, v, sorted =>
      if v.isEmpty then some (sorted, v)
      else
        match scanMax sampleCount v 0 floor none with
        | some (maxInd, maxElem) =>
            sortLoop sampleCount floor fuel (deleteElement v maxInd) (sorted ++ [maxElem])
        | none => some (sorted, v)

/-- Lines 814-834: `sortedFunctions` and what is left of `functions`
(`int max = 1`). -/
def sortFunctions (functions : List FunctionRecord) :
    Option (List FunctionRecord × List FunctionRecord) :=
  sortLoop FunctionRecord.sampleCount 1 functions.length functions []

/-- Lines 836-858: `sortedStacks` and what is left of `stackLog`
(`int max = 0`). -/
def sortStacks (stackLog : List Stack) : Option (List Stack × List Stack) :=
  sortLoop Stack.sampleCount 0 stackLog.length stackLog []

/-- Lines 860-884, for one `r`: `sortedRootStacks[r]` and what is left of
`stackRootLog[r]` (`int max = 1`). -/
def sortRootStacks (stackRootLog : Nat → List Stack) (r : Nat) :
    Option (List Stack × List Stack) :=
  sortLoop Stack.sampleCount 1 (stackRootLog r).length (stackRootLog r) []

end WallClockProfiler

namespace WallClockProfiler

/-- The frames under which a sample is counted in `stackLog` (`insertedStack` of
`logGDBStackResponse`): those of the first entry that `stackCompare`s equal to
it, or its own when there is none. -/
def countedAs (stackLog : List Stack) (frames : List StackFrame) : List StackFrame :=
  match matchLoop (newStack frames) stackLog with
  | some p => p.2.frames
  | none => frames

end WallClockProfiler

namespace Wcprof

/-! ## Data model of the second front-end (`wcprof.cpp`, lines 158-171) -/

/-- `struct StackFrame` of `wcprof.cpp`: one sampled stack of a thread, as the
ids of its interned lines. -/
structure StackFrame where
  threadName : List Char
  stackFrameLines : List Nat
  deriving DecidableEq, Repr

/-- `struct StackFrameLine`. -/
structure StackFrameLine where
  fullLine : List Char
  functionName : List Char
  deriving DecidableEq, Repr

/-- A `std::map` as the list of its entries, with distinct keys.  The entries
are kept in order of insertion; the order in which `std::map` iterates (by key)
plays no part in what is modelled. -/
abbrev StdMap (κ ν : Type) := List (κ × ν)

/-- `m[key]++` on a `std::map<K, size_t>`: a missing key is inserted with `0`
first.  The counters count elements of vectors held in memory, so they stay
below `2^64`. -/
def increment {κ : Type} [DecidableEq κ] : StdMap κ Nat → κ → StdMap κ Nat
  | [], key => [(key, 1)]
  | (k, n) :: rest, key =>
      if k = key then (k, n + 1) :: rest else (k, n) :: increment rest key

/-- The value stored for `key`, `0` when the map has no such key. -/
def valueAt {κ : Type} [DecidableEq κ] (m : StdMap κ Nat) (key : κ) : Nat :=
  (m.lookup key).getD 0

/-! ## `PerformStatsOnSingleThread` (`wcprof.cpp`, lines 425-451) -/

/-- The loop over the lines of one stack (lines 438-444): a function name not
yet in `functionsAdded` is added to it and counted once.  `none` when a line id
is not an index of `individualStackFrameLines` (the subscript is undefined
then). -/
def countFunctions (individualStackFrameLines : List StackFrameLine) :
    List Nat → List (List Char) → StdMap (List Char) Nat → Option (StdMap (List Char) Nat)
  | [], _, samplesPerFunction => some samplesPerFunction
  | lineId :: rest, functionsAdded, samplesPerFunction =>
      match individualStackFrameLines[lineId]? with
      | none => none
      | some line =>
          if functionsAdded.contains line.functionName then
            countFunctions individualStackFrameLines rest functionsAdded samplesPerFunction
          else
            countFunctions individualStackFrameLines rest (line.functionName :: functionsAdded)
              (increment samplesPerFunction line.functionName)

/-- The loop over the sampled stacks (lines 434-445), carrying
`samplesPerFunction` and `samplesPerUniqueStack`; `functionsAdded` is cleared
for each stack. -/
def statsLoop (individualStackFrameLines : List StackFrameLine) :
    List StackFrame → StdMap (List Char) Nat × StdMap (List Nat) Nat →
      Option (StdMap (List Char) Nat × StdMap (List Nat) Nat)
  | [], maps => some maps
  | frame :: rest, (samplesPerFunction, samplesPerUniqueStack) =>
      match countFunctions individualStackFrameLines frame.stackFrameLines []
          samplesPerFunction with
      | none => none
      | some samplesPerFunction' =>
          statsLoop individualStackFrameLines rest
            (samplesPerFunction', increment samplesPerUniqueStack frame.stackFrameLines)

/-- `PerformStatsOnSingleThread`: the two local maps `samplesPerFunction` and
`samplesPerUniqueStack` as they are when the loop over `frames` has ended
(the function prints nothing and then drops them). -/
def PerformStatsOnSingleThread (individualStackFrameLines : List StackFrameLine)
    (frames : List StackFrame) : Option (StdMap (List Char) Nat × StdMap (List Nat) Nat) :=
  statsLoop individualStackFrameLines frames ([], [])

/-- The function names of the lines of one stack; `none` for an id that is not
an index of `individualStackFrameLines`. -/
def functionNames (individualStackFrameLines : List StackFrameLine) (frame : StackFrame) :
    List (Option (List Char)) :=
  frame.stackFrameLines.map
    (fun lineId => (individualStackFrameLines[lineId]?).map StackFrameLine.functionName)

end Wcprof

namespace Wcprof

open WallClockProfiler (isspace isdigit isxdigit scanSign hexValue decValue toInt32)

/-! ## Command line of the second front-end (`wcprof.cpp`, lines 175-243) -/

/-- `enum SamplingMethods`. -/
inductive SamplingMethods where
  | SINGLE_THREAD
  | ALL_THREADS
  | ROUND_ROBIN
  deriving DecidableEq, Repr

/-- Positional value of a string of octal digits. -/
def octValue (digits : List Char) : Nat :=
  digits.foldl (fun acc c => acc * 8 + (c.toNat - '0'.toNat)) 0

/-- Saturation to the range of a 64-bit `long`, as `strtol` and `strtoll`
do on overflow. -/
def clampInt64 (v : Int) : Int :=
  max (-(2 ^ 63)) (min v (2 ^ 63 - 1))

/-- The unsigned number read by `%i` after the sign, as glibc reads it: after a
leading `0`, an `x` or `X` selects base 16 and is skipped, anything else
selects base 8; without a leading `0` the base is 10.  The digits of that base
follow.  `none` when no character was stored (no number).  The binary prefix
of C23 is not modelled. -/
def scanIMagnitude : List Char → Option Nat
  | [] => none
  | c :: t =>
      if c = '0' then
        match t with
        | [] => some 0
        | x :: u =>
            if x = 'x' ∨ x = 'X' then some (hexValue (u.takeWhile isxdigit))
            else some (octValue ((x :: u).takeWhile (fun d => decide ('0' ≤ d ∧ d ≤ '7'))))
      else
        let digits := (c :: t).takeWhile isdigit
        if digits.isEmpty then none else some (decValue digits)

/-- `sscanf(s, "%i", &n)` with `int n`: white space is skipped, an optional sign
and a number in base 8, 10 or 16 are read, converted as by `strtol` and stored
in the `int`.  `none` when nothing is assigned. -/
def sscanfI (s : List Char) : Option Int :=
  let signed := scanSign (s.dropWhile isspace)
  match scanIMagnitude signed.2 with
  | none => none
  | some v =>
      some (toInt32 (clampInt64 (if signed.1 then - (v : Int) else (v : Int))))

/-- `atoll(s)`: white space is skipped, an optional sign and decimal digits are
read; `0` without digits, saturated on overflow. -/
def atoll (s : List Char) : Int :=
  let signed := scanSign (s.dropWhile isspace)
  let digits := signed.2.takeWhile isdigit
  clampInt64 (if signed.1 then - (decValue digits : Int) else (decValue digits : Int))

/-- Lines 197-220: the sampling method named by `argv[2]`, with
`maxRoundRobinThreads` (initially `1`, overwritten when `%i` reads a number).
`none` when the token is refused: a message and `Usage()` are printed and
`main` returns `1`. -/
def parseSamplingMethod (m : List Char) : Option (SamplingMethods × Int) :=
  if m = "single_thread".toList then some (SamplingMethods.SINGLE_THREAD, 1)
  else if m = "all_threads".toList then some (SamplingMethods.ALL_THREADS, 1)
  else if find m "round_robin_".toList = some 0 then
    let maxRoundRobinThreads := (sscanfI (m.drop "round_robin_".toList.length)).getD 1
    if maxRoundRobinThreads ≤ 0 ∨ maxRoundRobinThreads > 10000 then none
    else some (SamplingMethods.ROUND_ROBIN, maxRoundRobinThreads)
  else none

/-- The local variables of `main` that the command line sets. -/
structure Config where
  samplingMethod : SamplingMethods
  maxRoundRobinThreads : Int
  microsecondsDelay : Int
  attach : Bool
  programName : List Char
  programArguments : List Char
  pid : List Char
  profilingTime : Int
  deriving DecidableEq, Repr

/-- The loop of lines 234-238: each of `argv[4 ..]` between double quotes, each
preceded by a space. -/
def quoteArguments (args : List (List Char)) : List Char :=
  (args.map (fun a => " \"".toList ++ a ++ "\"".toList)).flatten

/-- Lines 177-243 of `main`: the configuration read from `argv`, or the value
that `main` returns after printing the usage.  `profilingTime` is initialised
to `0` and is assigned only for `attach`. -/
def parseArguments (argv : List (List Char)) : Except Nat Config :=
  if argv.length < 6 then Except.error 1
  else
    match parseSamplingMethod (argv.getD 2 []) with
    | none => Except.error 1
    | some (samplingMethod, maxRoundRobinThreads) =>
        if argv.getD 1 [] = "attach".toList then
          if argv.length < 7 then Except.error 1
          else
            Except.ok
              { samplingMethod := samplingMethod,
                maxRoundRobinThreads := maxRoundRobinThreads,
                microsecondsDelay := atoll (argv.getD 3 []),
                attach := true,
                programName := argv.getD 6 [],
                programArguments := [],
                pid := argv.getD 5 [],
                profilingTime := atoll (argv.getD 4 []) }
        else if argv.getD 1 [] = "run".toList then
          Except.ok
            { samplingMethod := samplingMethod,
              maxRoundRobinThreads := maxRoundRobinThreads,
              microsecondsDelay := atoll (argv.getD 3 []),
              attach := false,
              programName := argv.getD 4 [],
              programArguments := quoteArguments (argv.drop 4),
              pid := [],
              profilingTime := 0 }
        else Except.error 2

end Wcprof

namespace Wcprof

open GdbPipe

/-! ## Interning and parsing of backtrace lines (`sampling_methods.hpp`) -/

/-- The globals of lines 168-171 of `wcprof.cpp`. -/
structure Store where
  totalCapturedFramesCount : Nat
  individualStackFrameLines : List StackFrameLine
  mapIndividualStackFrameLinesToId : StdMap (List Char) Nat
  capturedStackFramesPerThread : StdMap (List Char) (List StackFrame)
  deriving DecidableEq, Repr

/-- The globals at program start. -/
def Store.empty : Store :=
  { totalCapturedFramesCount := 0, individualStackFrameLines := [],
    mapIndividualStackFrameLinesToId := [], capturedStackFramesPerThread := [] }

/-- `std::string::npos`, the greatest `size_t`. -/
def npos : Nat := 2 ^ 64 - 1

/-- `s.find(pattern, pos)`: the index of the first occurrence of `pattern` that
starts at `pos` or later, `npos` when there is none (in particular when `pos`
is beyond the end, as for `pos = npos`). -/
def findFrom (s pattern : List Char) (pos : Nat) : Nat :=
  if s.length < pos then npos
  else
    match find (s.drop pos) pattern with
    | some i => pos + i
    | none => npos

/-- `GetStackFrameLineId` (lines 8-39): the id under which `line` is interned.
A line already in the map keeps its id.  Otherwise the positions of `#`, of
the next space, of `0x` and of ` in ` are searched one after the other, then
the end of the function name; the new entry gets the next free id.  `none` is
the return value `-1`. -/
def GetStackFrameLineId (store : Store) (line : List Char) : Store × Option Nat :=
  match store.mapIndividualStackFrameLinesToId.lookup line with
  | some id => (store, some id)
  | none =>
      let pos := findFrom line "#".toList 0
      let pos := findFrom line " ".toList pos
      let lineBeginPos := findFrom line "0x".toList pos
      let funcNamePos := findFrom line " in ".toList lineBeginPos
      if funcNamePos = npos then (store, none)
      else
        let p1 := findFrom line " (...) ".toList funcNamePos
        let p2 := findFrom line " at ".toList funcNamePos
        let endFuncPos := min p1 p2
        if endFuncPos = npos then (store, none)
        else
          let l : StackFrameLine :=
            { fullLine := line.drop lineBeginPos,
              functionName := (line.drop funcNamePos).take (endFuncPos - funcNamePos) }
          let ret := store.individualStackFrameLines.length
          ({ store with
              individualStackFrameLines := store.individualStackFrameLines ++ [l],
              mapIndividualStackFrameLinesToId :=
                store.mapIndividualStackFrameLinesToId ++ [(line, ret)] },
            some ret)

/-- The characters of `std::string_view(raw.c_str() + start, length)`; `none`
when the view reaches beyond the terminating NUL of `raw`. -/
def stringView (raw : List Char) (start length : Nat) : Option (List Char) :=
  if start + length ≤ raw.length + 1 then some (((raw ++ ['\x00']).drop start).take length)
  else none

/-- The `while (true)` loop of `SplitGdbResponseIntoLines` (lines 47-58), entered
with `pos` and `ret`: the next newline is searched from `lastPos = pos` on
(that position included); the loop returns when there is none or when it is at
`lastPos` itself, skips a line shorter than 20, and otherwise pushes the view
of `pos` characters that starts at `lastPos + 1`.  `none` when `fuel`
iterations were not enough or a view is out of bounds. -/
def splitLinesLoop (raw : List Char) : Nat → Nat → List (List Char) → Option (List (List Char))
  | 0, _, _ => none
  | fuel + 1, pos, ret =>
      let lastPos := pos
      let pos := findFrom raw "\n".toList lastPos
      if pos = npos ∨ pos = lastPos then some ret
      else if pos - lastPos < 20 then splitLinesLoop raw fuel pos ret
      else
        match stringView raw (lastPos + 1) pos with
        | none => none
        | some view => splitLinesLoop raw fuel pos (ret ++ [view])

/-- `SplitGdbResponseIntoLines(raw)`, with fuel for one iteration for each
character of `raw` and one more. -/
def SplitGdbResponseIntoLines (raw : List Char) : Option (List (List Char)) :=
  splitLinesLoop raw (raw.length + 2) 0 []

/-- The loop of `ParseSingleThreadStack` (lines 67-85) over the views
`array[0 .. count)`: a view that does not start with `#`, has no ` 0x`, or whose
text from ` 0x` on gets no id is skipped; the ids of the others are appended to
`frame.stackFrameLines`. -/
def parseLines : List (List Char) → Store → List Nat → Store × List Nat
  | [], store, stackFrameLines => (store, stackFrameLines)
  | str :: rest, store, stackFrameLines =>
      if str.head? ≠ some '#' then parseLines rest store stackFrameLines
      else
        match find str " 0x".toList with
        | none => parseLines rest store stackFrameLines
        | some p =>
            match GetStackFrameLineId store (str.drop p) with
            | (store', none) => parseLines rest store' stackFrameLines
            | (store', some lineId) => parseLines rest store' (stackFrameLines ++ [lineId])

/-- `capturedStackFramesPerThread[threadName].push_back(frame)`. -/
def pushFrame : StdMap (List Char) (List StackFrame) → List Char → StackFrame →
    StdMap (List Char) (List StackFrame)
  | [], threadName, frame => [(threadName, [frame])]
  | (k, frames) :: rest, threadName, frame =>
      if k = threadName then (k, frames ++ [frame]) :: rest
      else (k, frames) :: pushFrame rest threadName frame

/-- `ParseSingleThreadStack(threadName, array, count)` (lines 62-90), `lines`
being `array[0 .. count)`: the stack is recorded, and counted, when it has at
least one line id. -/
def ParseSingleThreadStack (store : Store) (threadName : List Char)
    (lines : List (List Char)) : Store :=
  match parseLines lines store [] with
  | (store', stackFrameLines) =>
      if stackFrameLines.length > 0 then
        { store' with
            capturedStackFramesPerThread :=
              pushFrame store'.capturedStackFramesPerThread threadName
                { threadName := threadName, stackFrameLines := stackFrameLines },
            totalCapturedFramesCount := store'.totalCapturedFramesCount + 1 }
      else store'

/-- Lines 142-149 of `CollectAllThreadsStackFrames`: the thread name taken from
the view `lines[i]`: the text from after the `(` of `(LWP ` up to and with the
next `)`, or the whole view without both. -/
def threadNameOf (view : List Char) : List Char :=
  let p1 := findFrom view "(LWP ".toList 0
  let p2 := findFrom view ")".toList p1
  if p1 ≠ npos ∧ p2 ≠ npos then (view.drop (p1 + 1)).take (p2 - p1) else view

/-- The grouping loop of `CollectAllThreadsStackFrames` (lines 132-154), at
index `i`.  After a view that starts with `Thread `, `i` is advanced, `j` runs
over the views that start with `#`, and when there is one the thread name is
taken from `lines[i]` and `ParseSingleThreadStack(tn, lines.data() + i, j = i)`
is called: the count passed is the value of `i`.  `none` when `fuel`
iterations were not enough or the views `lines[i .. i + i)` do not all exist. -/
def groupLoop (lines : List (List Char)) : Nat → Nat → Store → Option Store
  | 0, _, _ => none
  | fuel + 1, i, store =>
      if i < lines.length then
        if find (lines.getD i []) "Thread ".toList = some 0 then
          let i := i + 1
          let j := i + ((lines.drop i).takeWhile (fun l => decide (l.head? = some '#'))).length
          if i < j then
            if i + i ≤ lines.length then
              groupLoop lines fuel (i + 1)
                (ParseSingleThreadStack store (threadNameOf (lines.getD i []))
                  ((lines.drop i).take i))
            else none
          else groupLoop lines fuel (i + 1) store
        else groupLoop lines fuel (i + 1) store
      else some store

/-- The parsing part of `CollectAllThreadsStackFrames` (lines 130-154) on
`gdbResponse`. -/
def parseAllThreads (store : Store) (gdbResponse : List Char) : Option Store :=
  match SplitGdbResponseIntoLines gdbResponse with
  | none => none
  | some lines => groupLoop lines (lines.length + 1) 0 store

/-- The parsing part of `CollectSingleThreadStackFrame` (lines 109-110) on
`gdbResponse`. -/
def parseSingleThread (store : Store) (gdbResponse : List Char) : Option Store :=
  match SplitGdbResponseIntoLines gdbResponse with
  | none => none
  | some lines => some (ParseSingleThreadStack store "main".toList lines)

/-- The text of a view that `ParseSingleThreadStack` passes to
`GetStackFrameLineId`: the view from its first ` 0x` on (nothing is passed when
there is none). -/
def afterAddress (str : List Char) : List Char :=
  match find str " 0x".toList with
  | some p => str.drop p
  | none => []

/-- Two backtrace lines as GDB prints them for
`backtrace -frame-arguments none -frame-info location-and-address`. -/
def exampleBacktrace : List (List Char) :=
  ["#0  0x0000000000401136 in fib (...) at fib.c:5".toList,
    "#1  0x0000000000401150 in main at fib.c:9".toList]

/-- A response to `thread apply all backtrace …` with one thread of two frames. -/
def exampleThreadsResponse : List Char :=
  ("Thread 1 (Thread 0x7ffff7d8a740 (LWP 4242) \"prog\"):\n" ++
    "#0  0x0000000000401136 in fib (...) at fib.c:5\n" ++
    "#1  0x0000000000401150 in main at fib.c:9\n" ++
    "\n(gdb) ").toList

end Wcprof

namespace Wcprof

open GdbPipe

/-! ## The sampling loop of the second front-end (`wcprof.cpp`, lines 351-400) -/

/-- How a piece of the second front-end ends. -/
inductive Run (α : Type) where
  /-- It ran to its end. -/
  | ok (value : α)
  /-- A read error made `FetchGdbResponse` raise `SIGTERM`; the handler reports
  and exits. -/
  | raised
  /-- The script ended while `FetchGdbResponse` was reading. -/
  | waiting
  /-- The iterations allowed to the model were used up. -/
  | outOfFuel
  deriving DecidableEq, Repr

/-- The globals of `wcprof.cpp` while sampling, with the commands sent so far
and what GDB will answer. -/
structure Profiler where
  store : Store
  gdbResponse : List Char
  nextData : List Char
  programFinished : Bool
  commands : List (List Char)
  pipe : List ReadResult
  deriving DecidableEq, Repr

/-- `SendCommand(com)`. -/
def SendCommand (p : Profiler) (com : List Char) : Profiler :=
  { p with commands := p.commands ++ [com] }

/-- `FetchGdbResponse("(gdb)")` on the globals. -/
def fetchPrompt (p : Profiler) : Run Profiler :=
  match FetchGdbResponse "(gdb)".toList p.nextData p.programFinished p.pipe with
  | FetchResult.returned gdbResponse nextData programFinished rest =>
      Run.ok { p with gdbResponse := gdbResponse, nextData := nextData,
                      programFinished := programFinished, pipe := rest }
  | FetchResult.raised _ _ => Run.raised
  | FetchResult.waiting _ _ => Run.waiting

/-- The shape shared by `CollectSingleThreadStackFrame` and
`CollectAllThreadsStackFrames` (lines 92-113 and 115-157): three commands, the
responses to the first two fetched, the second parsed, the third fetched.
`none` from the parser is undefined behaviour, kept as a run that does not
end. -/
def collectWith (backtrace : List Char) (parse : Store → List Char → Option Store)
    (p : Profiler) : Run Profiler :=
  let p1 := SendCommand (SendCommand (SendCommand p "interrupt".toList) backtrace) "c &".toList
  match fetchPrompt p1 with
  | Run.ok p2 =>
      match fetchPrompt p2 with
      | Run.ok p3 =>
          match parse p3.store p3.gdbResponse with
          | none => Run.outOfFuel
          | some store => fetchPrompt { p3 with store := store }
      | other => other
  | other => other

/-- `CollectSingleThreadStackFrame` (lines 92-113). -/
def CollectSingleThreadStackFrame (p : Profiler) : Run Profiler :=
  collectWith "backtrace -frame-arguments none -frame-info location-and-address".toList
    parseSingleThread p

/-- `CollectAllThreadsStackFrames` (lines 115-157). -/
def CollectAllThreadsStackFrames (p : Profiler) : Run Profiler :=
  collectWith
    "thread apply all backtrace -frame-arguments none -frame-info location-and-address".toList
    parseAllThreads p

/-- `CollectRoundRobinThreadsStackFrames` (lines 159-162): a message only. -/
def CollectRoundRobinThreadsStackFrames (_maxThreads : Int) (p : Profiler) : Run Profiler :=
  Run.ok p

/-- The `switch` of lines 376-393. -/
def collect (cfg : Config) (p : Profiler) : Run Profiler :=
  match cfg.samplingMethod with
  | SamplingMethods.SINGLE_THREAD => CollectSingleThreadStackFrame p
  | SamplingMethods.ALL_THREADS => CollectAllThreadsStackFrames p
  | SamplingMethods.ROUND_ROBIN => CollectRoundRobinThreadsStackFrames cfg.maxRoundRobinThreads p

/-- The elapsed-time check of lines 359-363: made for `attach` only. -/
def deadlinePassed (cfg : Config) (startTime now : Int) : Bool :=
  cfg.attach && decide (now > startTime + cfg.profilingTime)

/-- The sampling loop `while (!programFinished)` (lines 357-400).  `clock k` is
the reading of `time(nullptr)` in iteration `k`; `fuel` bounds the number of
iterations. -/
def samplingLoop (cfg : Config) (startTime : Int) (clock : Nat → Int) :
    Nat → Nat → Profiler → Run Profiler
  | 0, _, _ => Run.outOfFuel
  | fuel + 1, k, p =>
      if p.programFinished then Run.ok p
      else if deadlinePassed cfg startTime (clock k) then Run.ok p
      else
        match collect cfg p with
        | Run.ok p' => samplingLoop cfg startTime clock fuel (k + 1) p'
        | other => other

end Wcprof

namespace WallClockProfiler

open GdbPipe

/-! ## `fillBufferWithResponse` on the arrays `readBuff` and `tailBuff`

The loop of lines 74-123 once more, now with the two arrays and the index
`readSoFar` themselves, every access checked against the bounds of its
array. -/

/-- The arrays `readBuff[READ_BUFF_SIZE]` and `tailBuff[BUFF_TAIL_SIZE]` with the
local `readSoFar`. -/
structure Buffers where
  readBuff : List Char
  tailBuff : List Char
  readSoFar : Nat
  deriving DecidableEq, Repr

/-- `memcpy(&dst[dstStart], &src[srcStart], n)`: the new content of `dst`; `none`
when `src[srcStart .. srcStart + n)` or `dst[dstStart .. dstStart + n)` is not
inside its array. -/
def memcpy (dst : List Char) (dstStart : Nat) (src : List Char) (srcStart n : Nat) :
    Option (List Char) :=
  if srcStart + n ≤ src.length ∧ dstStart + n ≤ dst.length then
    some (dst.take dstStart ++ (src.drop srcStart).take n ++ dst.drop (dstStart + n))
  else none

/-- Lines 76-88: when `readSoFar >= READ_BUFF_SIZE - 1`, copy
`readBuff[readSoFar + 1 - BUFF_TAIL_SIZE ..]` to `tailBuff` and `tailBuff` to
the start of `readBuff`, `BUFF_TAIL_SIZE` bytes each, and set `readSoFar` to
`BUFF_TAIL_SIZE - 1`.  `none` when a copy leaves an array (also when the `int`
index `readSoFar + 1 - BUFF_TAIL_SIZE` is negative). -/
def saveTail (b : Buffers) : Option Buffers :=
  if READ_BUFF_SIZE - 1 ≤ b.readSoFar then
    if b.readSoFar + 1 < BUFF_TAIL_SIZE then none
    else
      match memcpy b.tailBuff 0 b.readBuff (b.readSoFar + 1 - BUFF_TAIL_SIZE) BUFF_TAIL_SIZE with
      | none => none
      | some tailBuff =>
          match memcpy b.readBuff 0 tailBuff 0 BUFF_TAIL_SIZE with
          | none => none
          | some readBuff =>
              some { readBuff := readBuff, tailBuff := tailBuff,
                     readSoFar := BUFF_TAIL_SIZE - 1 }
  else some b

/-- How one iteration of the loop ends. -/
inductive Step where
  /-- The loop goes on to its next iteration. -/
  | next (b : Buffers) (d : Driver) (pipe : List ReadResult)
  /-- `return readSoFar`. -/
  | done (numRead : Nat) (b : Buffers) (d : Driver) (pipe : List ReadResult)
  /-- The script has no answer for the `read`. -/
  | scriptEnd (b : Buffers) (d : Driver)
  /-- An access outside `readBuff` or `tailBuff`. -/
  | outOfBounds
  deriving DecidableEq, Repr

/-- One iteration of the loop of `fillBufferWithResponse` (lines 76-122).  The
bytes that `read` returns are stored from `readBuff[readSoFar]` on, the NUL is
stored after them, and `strstr` reads `readBuff` up to its first NUL.  The
field `readBuff` of the driver state is kept equal to the C string in the
array. -/
def fillStep (inWaitingFor : Option (List Char)) (b : Buffers) (d : Driver)
    (pipe : List ReadResult) : Step :=
  match saveTail b with
  | none => Step.outOfBounds
  | some b1 =>
      let d1 : Driver :=
        { d with readBuff := cString b1.readBuff,
                 numReadAttempts := toChar8 (d.numReadAttempts + 1) }
      if READ_BUFF_SIZE - 1 < b1.readSoFar then Step.outOfBounds
      else
        match readPipe ((READ_BUFF_SIZE - 1) - b1.readSoFar) pipe with
        | none => Step.scriptEnd b1 d1
        | some (ReadResult.wouldBlock, rest) => Step.next b1 d1 rest
        | some (ReadResult.error, rest) => Step.done b1.readSoFar b1 d1 rest
        | some (ReadResult.data got, rest) =>
            if got.isEmpty then Step.next b1 d1 rest
            else
              match memcpy b1.readBuff b1.readSoFar got 0 got.length with
              | none => Step.outOfBounds
              | some stored =>
                  match memcpy stored (b1.readSoFar + got.length) ['\x00'] 0 1 with
                  | none => Step.outOfBounds
                  | some readBuff =>
                      if '\x00' ∉ readBuff then Step.outOfBounds
                      else
                        let b2 : Buffers :=
                          { b1 with readBuff := readBuff,
                                    readSoFar := b1.readSoFar + got.length }
                        let d2 : Driver :=
                          { d1 with anythingInReadBuff := true, readBuff := cString readBuff }
                        if responseComplete inWaitingFor d2.readBuff then
                          Step.done b2.readSoFar b2 d2 rest
                        else if decide (10 < b2.readSoFar) && !d2.detatchJustSent &&
                            found d2.readBuff "thread-group-exited".toList then
                          Step.done b2.readSoFar b2 { d2 with programExited := true } rest
                        else Step.next b2 d2 rest

/-- How a run of the loop on the arrays ends. -/
inductive BufferRun where
  /-- The function returned `numRead`. -/
  | returned (numRead : Nat) (b : Buffers) (d : Driver) (pipe : List ReadResult)
  /-- The script ended with the loop still waiting. -/
  | waiting (b : Buffers) (d : Driver)
  /-- An access outside `readBuff` or `tailBuff`. -/
  | outOfBounds
  deriving DecidableEq, Repr

/-- The loop of `fillBufferWithResponse` on the arrays; `fuel` bounds the number
of iterations. -/
def fillLoopOnBuffers (inWaitingFor : Option (List Char)) :
    Nat → Buffers → Driver → List ReadResult → BufferRun
  | 0, b, d, _ => BufferRun.waiting b d
  | _ + 1, b, d, [] => BufferRun.waiting b d
  | fuel + 1, b, d, r :: pipe =>
      match fillStep inWaitingFor b d (r :: pipe) with
      | Step.next b' d' pipe' => fillLoopOnBuffers inWaitingFor fuel b' d' pipe'
      | Step.done numRead b' d' pipe' => BufferRun.returned numRead b' d' pipe'
      | Step.scriptEnd b' d' => BufferRun.waiting b' d'
      | Step.outOfBounds => BufferRun.outOfBounds

/-- `fillBufferWithResponse(inWaitingFor)` on the arrays: `readSoFar = 0`,
`anythingInReadBuff = false`, `numReadAttempts = 0`, then the loop, with fuel
for every `read` that the script can answer. -/
def fillBufferWithResponseOnBuffers (inWaitingFor : Option (List Char)) (b : Buffers)
    (d : Driver) (pipe : List ReadResult) : BufferRun :=
  fillLoopOnBuffers inWaitingFor (scriptSize pipe + 1) { b with readSoFar := 0 }
    { d with anythingInReadBuff := false, numReadAttempts := 0 } pipe

/-- The states in which the loop is at its head during a call of
`fillBufferWithResponse` that starts with the arrays `b0`, the driver state `d0`
and the script `pipe0`. -/
inductive AtLoopHead (inWaitingFor : Option (List Char)) (b0 : Buffers) (d0 : Driver)
    (pipe0 : List ReadResult) : Buffers → Driver → List ReadResult → Prop where
  /-- On entry. -/
  | entry : AtLoopHead inWaitingFor b0 d0 pipe0 { b0 with readSoFar := 0 }
      { d0 with anythingInReadBuff := false, numReadAttempts := 0 } pipe0
  /-- After an iteration that did not return. -/
  | again {b : Buffers} {d : Driver} {pipe : List ReadResult} {b' : Buffers} {d' : Driver}
      {pipe' : List ReadResult} :
      AtLoopHead inWaitingFor b0 d0 pipe0 b d pipe →
      fillStep inWaitingFor b d pipe = Step.next b' d' pipe' →
      AtLoopHead inWaitingFor b0 d0 pipe0 b' d' pipe'

/-- The arrays have their declared sizes, `readSoFar` is an index at which the
terminating NUL fits, and once bytes were stored the NUL is at `readSoFar`. -/
def BuffersOk (b : Buffers) : Prop :=
  b.readBuff.length = READ_BUFF_SIZE ∧ b.tailBuff.length = BUFF_TAIL_SIZE ∧
    b.readSoFar ≤ READ_BUFF_SIZE - 1 ∧
    (0 < b.readSoFar → b.readBuff[b.readSoFar]? = some '\x00')

/-- A response of 65535 bytes without a prompt: 32767 times `x`, one `y`, 32767
times `z`. -/
def exampleLongResponse : List Char :=
  List.replicate 32767 'x' ++ 'y' :: List.replicate 32767 'z'

/-- The two arrays filled with zero bytes, as at program start. -/
def exampleArrays : Buffers :=
  { readBuff := List.replicate 65536 '\x00', tailBuff := List.replicate 32768 '\x00',
    readSoFar := 0 }

end WallClockProfiler

namespace WallClockProfiler

open GdbPipe

/-! ## Samples requested, samples recorded and the percentages of the report
(`wallClockProfiler.cpp`, lines 350-387, 449-455, 699, 734-739, 772, 914-922) -/

/-- The command of line 736. -/
def stackCommand : Action := Action.send "-stack-list-frames".toList

/-- Whether a call of `logGDBStackResponse` leaves by one of its `return`s that
come before the stack is recorded (lines 354-356, 362-364, 370-372, 378-380,
387-389): nothing was read, the program exited, or the response holds no
stack block of the expected form. -/
def sampleDropped (uninit : List Char) (d : Driver) (pipe : List ReadResult) : Bool :=
  match fillBufferWithResponse none d pipe with
  | FillResult.waiting _ _ => false
  | FillResult.returned numRead d1 _ =>
      decide (numRead = 0) || (checkProgramExited d1).programExited ||
        decide (parseStackResponse uninit (checkProgramExited d1).readBuff = Parsed.dropped)

/-- Whether the iteration of the sampling loop that starts in `c` sends
`-stack-list-frames` and then drops the sample. -/
def iterationDropsSample (uninit : List Char) (inNumArgs : Nat) (c : Controller) : Bool :=
  match interruptBlock inNumArgs c with
  | none => false
  | some c1 => !c1.driver.programExited && sampleDropped uninit c1.driver c1.pipe

/-- The number of iterations of a run of the sampling loop that dropped their
sample.  It follows `samplingLoop` iteration by iteration. -/
def droppedSamples (uninit : List Char) (inNumArgs : Nat) (detatchSeconds startTime : Int)
    (clock : Nat → Int) : Nat → Nat → Controller → Nat
  | 0, _, _ => 0
  | fuel + 1, k, c =>
      if loopCondition detatchSeconds startTime (clock k) c then
        match loopBody uninit inNumArgs c with
        | some (Outcome.returned c1) =>
            (if iterationDropsSample uninit inNumArgs c then 1 else 0) +
              droppedSamples uninit inNumArgs detatchSeconds startTime clock fuel (k + 1) c1
        | _ => 0
      else 0

/-! ### Single-precision arithmetic of the report -/

/-- The integer nearest to `x`, the even one when two are equally near. -/
def roundHalfEven (x : ℚ) : Int :=
  if x - ⌊x⌋ < 1 / 2 then ⌊x⌋
  else if 1 / 2 < x - ⌊x⌋ then ⌊x⌋ + 1
  else if ⌊x⌋ % 2 = 0 then ⌊x⌋ else ⌊x⌋ + 1

/-- The `float` nearest to the rational `q`: IEEE 754 binary32, that is 24
significant bits with the last of them at an exponent of at least `-149`,
rounded to nearest with ties to even.  Overflow to an infinity is left out:
the values converted here come from `int`s and stay far below `2^128`. -/
def roundToFloat (q : ℚ) : ℚ :=
  if q = 0 then 0
  else (roundHalfEven (q / 2 ^ max (Int.log 2 |q| - 23) (-149)) : ℚ) *
    2 ^ max (Int.log 2 |q| - 23) (-149)

/-- The expression `a / (float)b` for two `int`s: `b` is converted to `float`,
then `a` is, and the division is done in single precision (`float` operations
are evaluated in their own precision, as on x86-64 and AArch64).  `none` for
`b = 0`, where the quotient is an infinity or a NaN. -/
def floatQuotient (a b : Int) : Option ℚ :=
  if b = 0 then none
  else some (roundToFloat (roundToFloat a / roundToFloat b))

/-- The first value handed to `printf` by `printStack` (lines 452-455),
`100 * s.sampleCount / (float)inNumTotalSamples`. -/
def percentage (s : Stack) (inNumTotalSamples : Int) : Option ℚ :=
  floatQuotient (100 * s.sampleCount) inNumTotalSamples

/-- What the conversion `%7.3f` of line 452 prints for a value: the decimal
with three digits after the point that is nearest to it, ties to even (glibc
rounds the exact value in the current rounding mode). -/
def printedF3 (value : ℚ) : ℚ :=
  (roundHalfEven (value * 1000) : ℚ) / 1000

/-- The values computed by `printStack(s, inNumTotalSamples)` for the stacks of
a list, in order; `none` when one of them is not a number. -/
def percentagesOf (inNumTotalSamples : Int) : List Stack → Option (List ℚ)
  | [] => some []
  | s :: rest =>
      match percentage s inNumTotalSamples with
      | none => none
      | some p => (percentagesOf inNumTotalSamples rest).map (fun ps => p :: ps)

/-- The percentages computed under "Full stacks with at least one sample"
(lines 914-922): `printStack(s, numSamples)` for each entry of `sortedStacks`,
in order. -/
def fullStackPercentages (c : Controller) : Option (List ℚ) :=
  (sortStacks c.agg.stackLog).bind (fun p => percentagesOf c.numSamples p.1)

/-- An example state of `main` at the head of the sampling loop at program
start (`numSamples = 0`, empty tables).  GDB will answer two rounds of
interrupt, `-stack-list-frames` and `-exec-continue`: the first stack response
holds one frame, the second is an error message without a stack block. -/
def exampleStart : Controller :=
  { driver := ⟨[], false, 0, false, false⟩,
    agg := Aggregator.empty,
    numSamples := 0,
    actions := [],
    pipe := [ReadResult.data "*stopped,reason=\"signal-received\",signal-name=\"SIGINT\"\n(gdb) \n".toList,
      ReadResult.data ("^done,stack=[frame=\x7blevel=\"0\",addr=\"0x401136\",func=\"work\"," ++
        "file=\"a.c\",line=\"12\"\x7d]\n(gdb) \n").toList,
      ReadResult.data "^running\n(gdb) \n".toList,
      ReadResult.data "*stopped,reason=\"signal-received\",signal-name=\"SIGINT\"\n(gdb) \n".toList,
      ReadResult.data "^error,msg=\"Selected thread is running.\"\n(gdb) \n".toList,
      ReadResult.data "^running\n(gdb) \n".toList] }

/-- The state of the example after its first iteration: one stack recorded. -/
def exampleAfterFirst : Controller :=
  { driver := ⟨"^running\n(gdb) \n".toList, true, 1, false, false⟩,
    agg := recordAll [[⟨0x401136, "work".toList, "a.c".toList, 12⟩]],
    numSamples := 1,
    actions := [Action.kill, stackCommand, Action.send "-exec-continue".toList],
    pipe := [ReadResult.data "*stopped,reason=\"signal-received\",signal-name=\"SIGINT\"\n(gdb) \n".toList,
      ReadResult.data "^error,msg=\"Selected thread is running.\"\n(gdb) \n".toList,
      ReadResult.data "^running\n(gdb) \n".toList] }

/-- The state of the example after its second iteration: the second sample
was dropped. -/
def exampleEnd : Controller :=
  { driver := ⟨"^running\n(gdb) \n".toList, true, 1, false, false⟩,
    agg := recordAll [[⟨0x401136, "work".toList, "a.c".toList, 12⟩]],
    numSamples := 2,
    actions := [Action.kill, stackCommand, Action.send "-exec-continue".toList,
      Action.kill, stackCommand, Action.send "-exec-continue".toList],
    pipe := [] }

/-- The clock of the example: the third evaluation of the loop condition is
past the deadline. -/
def exampleClock (k : Nat) : Int := if k < 2 then 0 else 10

/-- What GDB answers in one iteration in which the target is stopped in the
function `func` at `addr`: the stop notice, the stack of one frame, and the
answer to `-exec-continue`. -/
def exampleRound (addr func : List Char) : List ReadResult :=
  [ReadResult.data "*stopped,reason=\"signal-received\",signal-name=\"SIGINT\"\n(gdb) \n".toList,
    ReadResult.data ("^done,stack=[frame=\x7blevel=\"0\",addr=\"0x".toList ++ addr ++
      "\",func=\"".toList ++ func ++ "\",file=\"a.c\",line=\"12\"\x7d]\n(gdb) \n".toList),
    ReadResult.data "^running\n(gdb) \n".toList]

/-- An example state of `main` at the head of the sampling loop at program
start: in the seven iterations to come the target will be found five times in
`work`, once in `idle` and once in `wait`. -/
def exampleSevenStart : Controller :=
  { driver := ⟨[], false, 0, false, false⟩,
    agg := Aggregator.empty,
    numSamples := 0,
    actions := [],
    pipe := exampleRound "401136".toList "work".toList ++
      exampleRound "401136".toList "work".toList ++
      exampleRound "401136".toList "work".toList ++
      exampleRound "401136".toList "work".toList ++
      exampleRound "401136".toList "work".toList ++
      exampleRound "401150".toList "idle".toList ++
      exampleRound "401160".toList "wait".toList }

/-- The clock of that example: the eighth evaluation of the loop condition is
past the deadline. -/
def exampleSevenClock (k : Nat) : Int := if k < 7 then 0 else 10

end WallClockProfiler

namespace WallClockProfiler

/-! ## Lemmas on the table update -/

theorem sameAddresses_iff (a b : List StackFrame) (h : a.length = b.length) :
    sameAddresses a b = true ↔ addresses a = addresses b := by
  induction a generalizing b with
  | nil =>
      cases b with
      | nil => simp [sameAddresses, addresses]
      | cons y ys => simp at h
  | cons x xs ih =>
      cases b with
      | nil => simp at h
      | cons y ys =>
          have h' : xs.length = ys.length := by simpa using h
          have ih' := ih ys h'
          simp only [addresses] at ih'
          by_cases hxy : x.address = y.address
          · simp [sameAddresses, addresses, hxy, ih']
          · simp [sameAddresses, addresses, hxy]

theorem stackCompare_iff (a b : Stack) :
    stackCompare a b = true ↔ addresses a.frames = addresses b.frames := by
  unfold stackCompare
  by_cases h : a.frames.length = b.frames.length
  · simp [h, sameAddresses_iff _ _ h]
  · have hne : addresses a.frames ≠ addresses b.frames := by
      intro he
      apply h
      have := congrArg List.length he
      simpa [addresses] using this
    simp [h, hne]

theorem matchLoop_none_iff (s : Stack) (t : List Stack) :
    matchLoop s t = none ↔ addresses s.frames ∉ t.map (fun e => addresses e.frames) := by
  induction t with
  | nil => simp [matchLoop]
  | cons e rest ih =>
      by_cases hc : stackCompare e s = true
      · have := (stackCompare_iff e s).1 hc
        simp [matchLoop, hc, this]
      · have hne : ¬ addresses e.frames = addresses s.frames :=
          fun he => hc ((stackCompare_iff e s).2 he)
        have hne' : ¬ addresses s.frames = addresses e.frames := fun he => hne he.symm
        simp [matchLoop, hc, ih, hne']

theorem matchLoop_some_keys (s : Stack) (t : List Stack) (p : List Stack × Stack)
    (h : matchLoop s t = some p) :
    p.1.map (fun e => addresses e.frames) = t.map (fun e => addresses e.frames) ∧
      p.2.frames ∈ t.map Stack.frames ∧ addresses p.2.frames = addresses s.frames := by
  induction t generalizing p with
  | nil => simp [matchLoop] at h
  | cons e rest ih =>
      by_cases hc : stackCompare e s = true
      · have hk := (stackCompare_iff e s).1 hc
        simp only [matchLoop, hc, if_true, Option.some.injEq] at h
        subst h
        simp [hk]
      · simp only [matchLoop, hc] at h
        cases hm : matchLoop s rest with
        | none => simp [hm] at h
        | some q =>
            simp only [hm, Option.map_some', Bool.false_eq_true, if_false,
              Option.some.injEq] at h
            subst h
            obtain ⟨h1, h2, h3⟩ := ih q hm
            refine ⟨by simp [h1], ?_, h3⟩
            simp only [List.map_cons, List.mem_cons]
            exact Or.inr h2

theorem matchLoop_some_keyCount (s : Stack) (t : List Stack) (p : List Stack × Stack)
    (h : matchLoop s t = some p) (k : List Nat) :
    keyCount p.1 k = keyCount t k + (if k = addresses s.frames then 1 else 0) := by
  induction t generalizing p with
  | nil => simp [matchLoop] at h
  | cons e rest ih =>
      by_cases hc : stackCompare e s = true
      · have hk := (stackCompare_iff e s).1 hc
        simp only [matchLoop, hc, if_true, Option.some.injEq] at h
        subst h
        by_cases hkk : k = addresses s.frames
        · subst hkk
          simp [keyCount, List.filter_cons, hk]
          ring
        · have : ¬ addresses e.frames = k := fun he => hkk (by rw [← he, hk])
          simp [keyCount, List.filter_cons, hkk, this]
      · simp only [matchLoop, hc] at h
        cases hm : matchLoop s rest with
        | none => simp [hm] at h
        | some q =>
            simp only [hm, Option.map_some', Bool.false_eq_true, if_false,
              Option.some.injEq] at h
            subst h
            have := ih q hm
            simp only [keyCount] at this ⊢
            by_cases hek : addresses e.frames = k
            · simp [List.filter_cons, hek, this]
              ring
            · simp [List.filter_cons, hek, this]

theorem logInTable_keys (t : List Stack) (s : Stack) :
    (logInTable t s).map (fun e => addresses e.frames) =
      if addresses s.frames ∈ t.map (fun e => addresses e.frames)
      then t.map (fun e => addresses e.frames)
      else t.map (fun e => addresses e.frames) ++ [addresses s.frames] := by
  unfold logInTable
  cases hm : matchLoop s t with
  | none =>
      have := (matchLoop_none_iff s t).1 hm
      simp [this]
  | some p =>
      have hin : addresses s.frames ∈ t.map (fun e => addresses e.frames) := by
        by_contra hn
        have := (matchLoop_none_iff s t).2 hn
        simp [hm] at this
      simp only [hin, if_true]
      exact (matchLoop_some_keys s t p hm).1

theorem logInTable_keyCount (t : List Stack) (s : Stack) (hs : s.sampleCount = 1)
    (k : List Nat) :
    keyCount (logInTable t s) k =
      keyCount t k + (if k = addresses s.frames then 1 else 0) := by
  unfold logInTable
  cases hm : matchLoop s t with
  | none =>
      by_cases hkk : k = addresses s.frames
      · subst hkk
        simp [keyCount, List.filter_append, List.filter_cons, hs]
      · have : ¬ addresses s.frames = k := fun he => hkk he.symm
        simp [keyCount, List.filter_append, List.filter_cons, hkk, this]
  | some p => exact matchLoop_some_keyCount s t p hm k

theorem logInTable_totalSamples (t : List Stack) (s : Stack) (hs : s.sampleCount = 1) :
    totalSamples (logInTable t s) = totalSamples t + 1 := by
  unfold logInTable
  cases hm : matchLoop s t with
  | none => simp [totalSamples, hs]
  | some p =>
      simp only
      clear hs
      induction t generalizing p with
      | nil => simp [matchLoop] at hm
      | cons e rest ih =>
          by_cases hc : stackCompare e s = true
          · simp only [matchLoop, hc, if_true, Option.some.injEq] at hm
            subst hm
            simp [totalSamples]
            ring
          · simp only [matchLoop, hc] at hm
            cases hq : matchLoop s rest with
            | none => simp [hq] at hm
            | some q =>
                simp only [hq, Option.map_some', Bool.false_eq_true, if_false,
                  Option.some.injEq] at hm
                subst hm
                have := ih q hq
                simp only [totalSamples, List.map_cons, List.sum_cons] at this ⊢
                rw [this]
                ring

theorem keyCount_of_nodup (t : List Stack)
    (hnd : (t.map (fun e => addresses e.frames)).Nodup) (e : Stack) (he : e ∈ t) :
    keyCount t (addresses e.frames) = e.sampleCount := by
  induction t with
  | nil => simp at he
  | cons x rest ih =>
      simp only [List.map_cons, List.nodup_cons] at hnd
      rcases List.mem_cons.1 he with hx | hr
      · subst hx
        have hz : rest.filter (fun y => decide (addresses y.frames = addresses e.frames)) = [] := by
          rw [List.filter_eq_nil_iff]
          intro y hy hdec
          apply hnd.1
          have hyk : addresses y.frames = addresses e.frames := by simpa using hdec
          rw [← hyk]
          exact List.mem_map.2 ⟨y, hy, rfl⟩
        simp [keyCount, List.filter_cons, hz]
      · have hne : ¬ addresses x.frames = addresses e.frames := by
          intro hxe
          apply hnd.1
          rw [hxe]
          exact List.mem_map.2 ⟨e, hr, rfl⟩
        have := ih hnd.2 hr
        simp only [keyCount] at this ⊢
        simp [List.filter_cons, hne, this]

theorem recordAll_snoc (samples : List (List StackFrame)) (x : List StackFrame) :
    recordAll (samples ++ [x]) = recordStack (recordAll samples) (newStack x) := by
  simp [recordAll, List.foldl_append]

theorem recordStack_stackLog (agg : Aggregator) (s : Stack) :
    (recordStack agg s).stackLog = logInTable agg.stackLog s := rfl

/-- The invariant of the stack table: distinct keys, exactly the keys seen,
and per-key counts equal to the number of samples with that key. -/
theorem stackLog_invariant (samples : List (List StackFrame)) :
    ((recordAll samples).stackLog.map (fun e => addresses e.frames)).Nodup ∧
      (∀ k, k ∈ (recordAll samples).stackLog.map (fun e => addresses e.frames) ↔
        k ∈ samples.map addresses) ∧
      (∀ k, keyCount (recordAll samples).stackLog k =
        (samples.countP (fun S => decide (addresses S = k)) : Nat)) ∧
      totalSamples (recordAll samples).stackLog = (samples.length : Int) := by
  induction samples using List.reverseRecOn with
  | nil => simp [recordAll, Aggregator.empty, keyCount, totalSamples]
  | append_singleton xs x ih =>
      obtain ⟨hnd, hkeys, hcnt, htot⟩ := ih
      rw [recordAll_snoc, recordStack_stackLog]
      have hk := logInTable_keys (recordAll xs).stackLog (newStack x)
      have hfr : (newStack x).frames = x := rfl
      rw [hfr] at hk
      refine ⟨?_, ?_, ?_, ?_⟩
      · rw [hk]
        split
        · exact hnd
        · rename_i hnin
          rw [List.nodup_append]
          refine ⟨hnd, List.nodup_singleton _, ?_⟩
          intro a ha hb
          rw [List.mem_singleton] at hb
          subst hb
          exact hnin ha
      · intro k
        rw [hk]
        split
        · rename_i hin
          rw [hkeys k]
          simp only [List.map_append, List.map_cons, List.map_nil, List.mem_append,
            List.mem_singleton]
          constructor
          · exact Or.inl
          · rintro (h | h)
            · exact h
            · rw [h]; exact (hkeys _).1 hin
        · simp only [List.mem_append, List.mem_singleton, List.map_append, List.map_cons,
            List.map_nil]
          rw [hkeys k]
      · intro k
        rw [logInTable_keyCount _ _ rfl, hcnt k, hfr]
        by_cases hkx : k = addresses x
        · subst hkx
          simp [List.countP_append]
        · have : ¬ addresses x = k := fun h => hkx h.symm
          simp [List.countP_append, hkx, this]
      · rw [logInTable_totalSamples _ _ rfl, htot]
        simp

/-- C1: starting from the empty stack table, after recording the parsed stacks
`S₁ … Sₙ` the table has exactly one entry per distinct frame-address sequence
among the `Sᵢ` (names, files and lines play no role), each entry's
`sampleCount` is the number of `Sᵢ` with that address sequence, and the
`sampleCount`s sum to `n`. -/
theorem stackLog_counts_distinct_address_sequences (samples : List (List StackFrame)) :
    ((recordAll samples).stackLog.map (fun e => addresses e.frames)).Nodup ∧
      (∀ k, k ∈ (recordAll samples).stackLog.map (fun e => addresses e.frames) ↔
        k ∈ samples.map addresses) ∧
      (∀ e ∈ (recordAll samples).stackLog,
        e.sampleCount =
          ((samples.filter (fun S => decide (addresses S = addresses e.frames))).length : Int)) ∧
      totalSamples (recordAll samples).stackLog = (samples.length : Int) := by
  obtain ⟨hnd, hkeys, hcnt, htot⟩ := stackLog_invariant samples
  refine ⟨hnd, hkeys, ?_, htot⟩
  intro e he
  rw [← keyCount_of_nodup _ hnd e he, hcnt, List.countP_eq_length_filter]

end WallClockProfiler

namespace WallClockProfiler

/-! ## Lemmas on the function table -/

theorem creditLoop_none_iff (n : List Char) (c : Int) (fs : List FunctionRecord) :
    creditLoop n c fs = none ↔ n ∉ fs.map FunctionRecord.funcName := by
  induction fs with
  | nil => simp [creditLoop]
  | cons r rest ih =>
      by_cases h : r.funcName = n
      · simp [creditLoop, h]
      · have h' : ¬ n = r.funcName := fun e => h e.symm
        simp [creditLoop, h, h', ih]

theorem creditLoop_some (n : List Char) (c : Int) (fs l : List FunctionRecord)
    (h : creditLoop n c fs = some l) :
    l.map FunctionRecord.funcName = fs.map FunctionRecord.funcName ∧
      ∀ f, (functionCounts l f).sum = (functionCounts fs f).sum + (if f = n then c else 0) := by
  induction fs generalizing l with
  | nil => simp [creditLoop] at h
  | cons r rest ih =>
      by_cases hr : r.funcName = n
      · subst hr
        simp only [creditLoop, if_true, Option.some.injEq] at h
        subst h
        refine ⟨by simp, ?_⟩
        intro f
        by_cases hf : f = r.funcName
        · subst hf
          simp [functionCounts, List.filter_cons]
          ring
        · have : ¬ r.funcName = f := fun e => hf e.symm
          simp [functionCounts, List.filter_cons, hf, this]
      · simp only [creditLoop, hr, if_false] at h
        cases hq : creditLoop n c rest with
        | none => simp [hq] at h
        | some q =>
            simp only [hq, Option.map_some', Option.some.injEq] at h
            subst h
            obtain ⟨h1, h2⟩ := ih q hq
            refine ⟨by simp [h1], ?_⟩
            intro f
            have := h2 f
            simp only [functionCounts] at this ⊢
            by_cases hrf : r.funcName = f
            · simp [List.filter_cons, hrf, this]
              ring
            · simp [List.filter_cons, hrf, this]

theorem credit_names (fs : List FunctionRecord) (n : List Char) (c : Int) :
    (credit fs n c).map FunctionRecord.funcName =
      if n ∈ fs.map FunctionRecord.funcName then fs.map FunctionRecord.funcName
      else fs.map FunctionRecord.funcName ++ [n] := by
  unfold credit
  cases hm : creditLoop n c fs with
  | none =>
      have := (creditLoop_none_iff n c fs).1 hm
      simp [this]
  | some l =>
      have hin : n ∈ fs.map FunctionRecord.funcName := by
        by_contra hn
        have := (creditLoop_none_iff n c fs).2 hn
        simp [hm] at this
      simp only [hin, if_true]
      exact (creditLoop_some n c fs l hm).1

theorem credit_counts (fs : List FunctionRecord) (n : List Char) (c : Int) (f : List Char) :
    (functionCounts (credit fs n c) f).sum =
      (functionCounts fs f).sum + (if f = n then c else 0) := by
  unfold credit
  cases hm : creditLoop n c fs with
  | none =>
      by_cases hf : f = n
      · subst hf
        simp [functionCounts, List.filter_append, List.filter_cons]
      · have : ¬ n = f := fun e => hf e.symm
        simp [functionCounts, List.filter_append, List.filter_cons, hf, this]
  | some l => exact (creditLoop_some n c fs l hm).2 f

theorem credit_nodup (fs : List FunctionRecord) (n : List Char) (c : Int)
    (h : (fs.map FunctionRecord.funcName).Nodup) :
    ((credit fs n c).map FunctionRecord.funcName).Nodup := by
  rw [credit_names]
  split
  · exact h
  · rename_i hn
    rw [List.nodup_append]
    refine ⟨h, List.nodup_singleton _, ?_⟩
    intro a ha hb
    rw [List.mem_singleton] at hb
    subst hb
    exact hn ha

theorem credit_mem_names (fs : List FunctionRecord) (n : List Char) (c : Int) (f : List Char) :
    f ∈ (credit fs n c).map FunctionRecord.funcName ↔
      f ∈ fs.map FunctionRecord.funcName ∨ f = n := by
  rw [credit_names]
  split
  · rename_i hin
    constructor
    · exact Or.inl
    · rintro (h | h)
      · exact h
      · rw [h]; exact hin
  · simp

theorem creditFrames_spec (c : Int) (rest earlier : List StackFrame)
    (fs : List FunctionRecord) (hnd : (fs.map FunctionRecord.funcName).Nodup) :
    ((creditFrames c earlier rest fs).map FunctionRecord.funcName).Nodup ∧
      (∀ f, f ∈ (creditFrames c earlier rest fs).map FunctionRecord.funcName ↔
        f ∈ fs.map FunctionRecord.funcName ∨ (f ∈ funcNames rest ∧ f ∉ funcNames earlier)) ∧
      (∀ f, (functionCounts (creditFrames c earlier rest fs) f).sum =
        (functionCounts fs f).sum +
          (if f ∈ funcNames rest ∧ f ∉ funcNames earlier then c else 0)) := by
  induction rest generalizing earlier fs with
  | nil => simp [creditFrames, hnd, funcNames]
  | cons fr rest ih =>
      by_cases hdup : earlier.any (fun d => decide (fr.funcName = d.funcName)) = true
      · have hmem : fr.funcName ∈ funcNames earlier := by
          simp only [List.any_eq_true, decide_eq_true_eq] at hdup
          obtain ⟨d, hd, he⟩ := hdup
          rw [he]
          exact List.mem_map.2 ⟨d, hd, rfl⟩
        simp only [creditFrames, hdup, if_true]
        obtain ⟨h1, h2, h3⟩ := ih (earlier ++ [fr]) fs hnd
        have key : ∀ f, (f ∈ funcNames rest ∧ f ∉ funcNames (earlier ++ [fr])) ↔
            (f ∈ funcNames (fr :: rest) ∧ f ∉ funcNames earlier) := by
          intro f
          simp only [funcNames, List.map_append, List.map_cons, List.map_nil, List.mem_append,
            List.mem_singleton, List.mem_cons, not_or, List.not_mem_nil, not_false_eq_true,
            and_true, or_false]
          constructor
          · rintro ⟨a, b, _⟩; exact ⟨Or.inr a, b⟩
          · rintro ⟨a | a, b⟩
            · exfalso; apply b; rw [a]; exact hmem
            · refine ⟨a, b, ?_⟩
              intro e; apply b; rw [e]; exact hmem
        refine ⟨h1, ?_, ?_⟩
        · intro f; rw [h2 f, key f]
        · intro f; rw [h3 f]; simp only [key f]
      · have hnmem : fr.funcName ∉ funcNames earlier := by
          intro hm
          apply hdup
          simp only [List.any_eq_true, decide_eq_true_eq]
          obtain ⟨d, hd, he⟩ := List.mem_map.1 hm
          exact ⟨d, hd, he.symm⟩
        simp only [creditFrames, hdup, Bool.false_eq_true, if_false]
        obtain ⟨h1, h2, h3⟩ := ih (earlier ++ [fr]) (credit fs fr.funcName c)
          (credit_nodup fs _ c hnd)
        have key : ∀ f, (f = fr.funcName ∨ (f ∈ funcNames rest ∧ f ∉ funcNames (earlier ++ [fr]))) ↔
            (f ∈ funcNames (fr :: rest) ∧ f ∉ funcNames earlier) := by
          intro f
          simp only [funcNames, List.map_append, List.map_cons, List.map_nil, List.mem_append,
            List.mem_singleton, List.mem_cons, not_or, List.not_mem_nil, not_false_eq_true,
            and_true, or_false]
          constructor
          · rintro (a | ⟨a, b, _⟩)
            · exact ⟨Or.inl a, by rw [a]; exact hnmem⟩
            · exact ⟨Or.inr a, b⟩
          · rintro ⟨a | a, b⟩
            · exact Or.inl a
            · by_cases e : f = fr.funcName
              · exact Or.inl e
              · exact Or.inr ⟨a, b, e⟩
        refine ⟨h1, ?_, ?_⟩
        · intro f
          rw [h2 f, credit_mem_names, or_assoc, key f]
        · intro f
          rw [h3 f, credit_counts, add_assoc]
          congr 1
          by_cases e : f = fr.funcName
          · have k1 : f ∈ funcNames (fr :: rest) ∧ f ∉ funcNames earlier := (key f).1 (Or.inl e)
            have k2 : ¬ (f ∈ funcNames rest ∧ f ∉ funcNames (earlier ++ [fr])) := by
              rintro ⟨_, b⟩
              apply b
              simp [funcNames, e]
            simp only [if_pos e, if_pos k1, if_neg k2, add_zero]
          · by_cases k : f ∈ funcNames rest ∧ f ∉ funcNames (earlier ++ [fr])
            · have k1 := (key f).1 (Or.inr k)
              simp only [if_neg e, if_pos k, if_pos k1, zero_add]
            · have k1 : ¬ (f ∈ funcNames (fr :: rest) ∧ f ∉ funcNames earlier) := by
                intro hk
                rcases (key f).2 hk with a | a
                · exact e a
                · exact k a
              simp only [if_neg e, if_neg k, if_neg k1, add_zero]

end WallClockProfiler

namespace WallClockProfiler

theorem sumWhere_cons (P : List StackFrame → Bool) (e : Stack) (t : List Stack) :
    sumWhere P (e :: t) = (if P e.frames = true then e.sampleCount else 0) + sumWhere P t := by
  by_cases hp : P e.frames = true
  · simp [sumWhere, List.filter_cons, hp]
  · simp [sumWhere, List.filter_cons, hp]

theorem sumWhere_append (P : List StackFrame → Bool) (t u : List Stack) :
    sumWhere P (t ++ u) = sumWhere P t + sumWhere P u := by
  simp [sumWhere, List.filter_append]

theorem sumWhere_nil (P : List StackFrame → Bool) : sumWhere P [] = 0 := rfl

theorem functionFold_spec (T : List Stack) (fs : List FunctionRecord)
    (hnd : (fs.map FunctionRecord.funcName).Nodup) :
    ((T.foldl (fun functions s => creditFrames s.sampleCount [] s.frames functions) fs).map
        FunctionRecord.funcName).Nodup ∧
      (∀ f, f ∈ (T.foldl (fun functions s => creditFrames s.sampleCount [] s.frames functions)
            fs).map FunctionRecord.funcName ↔
          f ∈ fs.map FunctionRecord.funcName ∨ ∃ e ∈ T, f ∈ funcNames e.frames) ∧
      (∀ f, (functionCounts (T.foldl
            (fun functions s => creditFrames s.sampleCount [] s.frames functions) fs) f).sum =
          (functionCounts fs f).sum + sumWhere (fun fr => decide (f ∈ funcNames fr)) T) := by
  induction T generalizing fs with
  | nil => simp [hnd, sumWhere]
  | cons e rest ih =>
      obtain ⟨c1, c2, c3⟩ := creditFrames_spec e.sampleCount e.frames [] fs hnd
      obtain ⟨h1, h2, h3⟩ := ih (creditFrames e.sampleCount [] e.frames fs) c1
      simp only [List.foldl_cons]
      refine ⟨h1, ?_, ?_⟩
      · intro f
        rw [h2 f, c2 f]
        simp only [funcNames, List.map_nil, List.not_mem_nil, not_false_eq_true, and_true,
          List.mem_cons, exists_eq_or_imp]
        rw [or_assoc]
      · intro f
        rw [h3 f, c3 f, add_assoc]
        congr 1
        rw [sumWhere_cons]
        congr 1
        by_cases hf : f ∈ funcNames e.frames
        · have hc : f ∈ funcNames e.frames ∧ f ∉ funcNames [] := ⟨hf, by simp [funcNames]⟩
          rw [if_pos hc, if_pos (decide_eq_true hf)]
        · have hc : ¬ (f ∈ funcNames e.frames ∧ f ∉ funcNames []) := fun hh => hf hh.1
          have hd : ¬ (decide (f ∈ funcNames e.frames) = true) := by simpa using hf
          rw [if_neg hc, if_neg hd]

theorem functionCounts_of_nodup (fs : List FunctionRecord)
    (hnd : (fs.map FunctionRecord.funcName).Nodup) (f : List Char) :
    functionCounts fs f =
      if f ∈ fs.map FunctionRecord.funcName then [(functionCounts fs f).sum] else [] := by
  induction fs with
  | nil => simp [functionCounts]
  | cons r rest ih =>
      simp only [List.map_cons, List.nodup_cons] at hnd
      have ih' := ih hnd.2
      by_cases hr : r.funcName = f
      · subst hr
        have hnin : r.funcName ∉ rest.map FunctionRecord.funcName := hnd.1
        rw [if_neg hnin] at ih'
        simp only [functionCounts] at ih' ⊢
        simp [List.filter_cons, ih']
      · have hr' : ¬ f = r.funcName := fun e => hr e.symm
        simp only [functionCounts] at ih' ⊢
        simp only [List.filter_cons, hr, decide_False, Bool.false_eq_true, if_false,
          List.map_cons, List.mem_cons, hr', false_or]
        exact ih'

theorem matchLoop_some_sumWhere (P : List StackFrame → Bool) (s : Stack) (t : List Stack)
    (p : List Stack × Stack) (h : matchLoop s t = some p) :
    p.1.map Stack.frames = t.map Stack.frames ∧
      sumWhere P p.1 = sumWhere P t + (if P p.2.frames = true then 1 else 0) := by
  induction t generalizing p with
  | nil => simp [matchLoop] at h
  | cons e rest ih =>
      by_cases hc : stackCompare e s = true
      · simp only [matchLoop, hc, if_true, Option.some.injEq] at h
        subst h
        refine ⟨by simp, ?_⟩
        by_cases hp : P e.frames = true
        · simp [sumWhere, List.filter_cons, hp]
          ring
        · simp [sumWhere, List.filter_cons, hp]
      · simp only [matchLoop, hc] at h
        cases hm : matchLoop s rest with
        | none => simp [hm] at h
        | some q =>
            simp only [hm, Option.map_some', Bool.false_eq_true, if_false,
              Option.some.injEq] at h
            subst h
            obtain ⟨h1, h2⟩ := ih q hm
            refine ⟨by simp [h1], ?_⟩
            simp only [sumWhere] at h2 ⊢
            by_cases hp : P e.frames = true
            · simp [List.filter_cons, hp, h2]
              ring
            · simp [List.filter_cons, hp, h2]

/-- Under the hypothesis that equal address sequences carry the same function
names, the entries of the stack table carry frames of recorded samples and the
table's counts, restricted to entries containing `f`, add up to the number of
samples containing `f`. -/
theorem stackLog_sumWhere_funcName (samples : List (List StackFrame))
    (h : ∀ S ∈ samples, ∀ S' ∈ samples, addresses S = addresses S' →
      ∀ f ∈ funcNames S, f ∈ funcNames S') (f : List Char) :
    (∀ e ∈ (recordAll samples).stackLog, e.frames ∈ samples) ∧
      sumWhere (fun fr => decide (f ∈ funcNames fr)) (recordAll samples).stackLog =
        (samplesWithFunction samples f : Int) := by
  induction samples using List.reverseRecOn with
  | nil => simp [recordAll, Aggregator.empty, sumWhere, samplesWithFunction]
  | append_singleton xs x ih =>
      have hxs : ∀ S ∈ xs, ∀ S' ∈ xs, addresses S = addresses S' →
          ∀ f ∈ funcNames S, f ∈ funcNames S' := fun S hS S' hS' =>
        h S (List.mem_append_left _ hS) S' (List.mem_append_left _ hS')
      obtain ⟨ihm, ihs⟩ := ih hxs
      rw [recordAll_snoc, recordStack_stackLog]
      have hcount : (samplesWithFunction (xs ++ [x]) f : Int) =
          samplesWithFunction xs f + (if f ∈ funcNames x then 1 else 0) := by
        by_cases hf : f ∈ funcNames x
        · simp [samplesWithFunction, List.filter_append, hf]
        · simp [samplesWithFunction, List.filter_append, hf]
      unfold logInTable
      cases hm : matchLoop (newStack x) (recordAll xs).stackLog with
      | none =>
          refine ⟨?_, ?_⟩
          · intro e he
            rcases List.mem_append.1 he with he | he
            · exact List.mem_append_left _ (ihm e he)
            · rw [List.mem_singleton] at he
              subst he
              simp [newStack]
          · simp only
            rw [hcount, ← ihs, sumWhere_append, sumWhere_cons, sumWhere_nil]
            simp [newStack]
      | some p =>
          obtain ⟨k1, k2, k3⟩ := matchLoop_some_keys _ _ p hm
          obtain ⟨m1, m2⟩ := matchLoop_some_sumWhere (fun fr => decide (f ∈ funcNames fr)) _ _ p hm
          refine ⟨?_, ?_⟩
          · intro e he
            have : e.frames ∈ p.1.map Stack.frames := List.mem_map.2 ⟨e, he, rfl⟩
            rw [m1] at this
            obtain ⟨e', he', hfe⟩ := List.mem_map.1 this
            rw [← hfe]
            exact List.mem_append_left _ (ihm e' he')
          · simp only
            rw [m2, hcount, ihs]
            congr 1
            obtain ⟨e', he', hfe⟩ := List.mem_map.1 k2
            have hold : p.2.frames ∈ xs ++ [x] := by
              rw [← hfe]; exact List.mem_append_left _ (ihm e' he')
            have hx : x ∈ xs ++ [x] := by simp
            have hk : addresses p.2.frames = addresses x := k3
            have hiff : f ∈ funcNames p.2.frames ↔ f ∈ funcNames x :=
              ⟨h _ hold _ hx hk f, h _ hx _ hold hk.symm f⟩
            simp only [decide_eq_true_eq, hiff]

end WallClockProfiler

namespace WallClockProfiler

/-- C2 (counterexample): two recorded stacks with the same address sequence
but different function names, `[(0x1, a)]` then `[(0x1, b)]`.  Each of `a` and
`b` names a frame of exactly one sample, but the function table holds the
single record `a` with `sampleCount = 2` and no record for `b`. -/
theorem functionTable_same_address_other_name :
    buildFunctionTable
        (recordAll [[⟨1, ['a'], [], -1⟩], [⟨1, ['b'], [], -1⟩]]).stackLog =
        [⟨['a'], 2⟩] ∧
      functionCounts (buildFunctionTable
        (recordAll [[⟨1, ['a'], [], -1⟩], [⟨1, ['b'], [], -1⟩]]).stackLog) ['a'] = [2] ∧
      samplesWithFunction [[⟨1, ['a'], [], -1⟩], [⟨1, ['b'], [], -1⟩]] ['a'] = 1 ∧
      functionCounts (buildFunctionTable
        (recordAll [[⟨1, ['a'], [], -1⟩], [⟨1, ['b'], [], -1⟩]]).stackLog) ['b'] = [] ∧
      samplesWithFunction [[⟨1, ['a'], [], -1⟩], [⟨1, ['b'], [], -1⟩]] ['b'] = 1 := by
  decide

/-- C2 (amended): when recorded stacks with equal address sequences name the
same functions, the function table built at report time holds for every
function name `f` exactly one record whose `sampleCount` is the number of
samples having a frame named `f`, and no record when that number is `0`. -/
theorem functionTable_counts_samples (samples : List (List StackFrame))
    (h : ∀ S ∈ samples, ∀ S' ∈ samples, addresses S = addresses S' →
      ∀ f ∈ funcNames S, f ∈ funcNames S') (f : List Char) :
    functionCounts (buildFunctionTable (recordAll samples).stackLog) f =
      if samplesWithFunction samples f = 0 then []
      else [(samplesWithFunction samples f : Int)] := by
  have hfold := functionFold_spec (recordAll samples).stackLog [] (by simp)
  rw [show List.foldl (fun functions s => creditFrames s.sampleCount [] s.frames functions) []
      (recordAll samples).stackLog = buildFunctionTable (recordAll samples).stackLog from rfl]
    at hfold
  obtain ⟨n1, n2, n3⟩ := hfold
  obtain ⟨d1, d2⟩ := stackLog_sumWhere_funcName samples h f
  obtain ⟨_, hkeys, _, _⟩ := stackLog_invariant samples
  have hmem : f ∈ (buildFunctionTable (recordAll samples).stackLog).map FunctionRecord.funcName ↔
      samplesWithFunction samples f ≠ 0 := by
    rw [n2 f]
    simp only [List.map_nil, List.not_mem_nil, false_or]
    constructor
    · rintro ⟨e, he, hf⟩
      have hin : e.frames ∈ samples.filter (fun S => decide (f ∈ funcNames S)) := by
        rw [List.mem_filter]
        exact ⟨d1 e he, decide_eq_true hf⟩
      intro h0
      have := List.length_pos_of_mem hin
      simp only [samplesWithFunction] at h0
      omega
    · intro hne
      have hpos : 0 < (samples.filter (fun S => decide (f ∈ funcNames S))).length := by
        simp only [samplesWithFunction] at hne
        omega
      obtain ⟨S, hS⟩ := List.exists_mem_of_length_pos hpos
      rw [List.mem_filter] at hS
      have hfS : f ∈ funcNames S := by simpa using hS.2
      have hk : addresses S ∈ (recordAll samples).stackLog.map (fun e => addresses e.frames) :=
        (hkeys _).2 (List.mem_map.2 ⟨S, hS.1, rfl⟩)
      obtain ⟨e, he, hke⟩ := List.mem_map.1 hk
      exact ⟨e, he, h S hS.1 e.frames (d1 e he) hke.symm f hfS⟩
  rw [functionCounts_of_nodup _ n1 f]
  by_cases h0 : samplesWithFunction samples f = 0
  · have : f ∉ (buildFunctionTable (recordAll samples).stackLog).map FunctionRecord.funcName :=
      fun hm => (hmem.1 hm) h0
    rw [if_neg this, if_pos h0]
  · rw [if_pos (hmem.2 h0), if_neg h0]
    rw [n3 f, d2]
    simp [functionCounts]

/-- C2 (witness): the spec's scenario `[A,B,C]`, `[A,B,D]` credits `A` twice. -/
theorem functionTable_counts_samples_witness :
    (∀ S ∈ [[(⟨1, ['A'], [], -1⟩ : StackFrame), ⟨2, ['B'], [], -1⟩, ⟨3, ['C'], [], -1⟩],
          [⟨1, ['A'], [], -1⟩, ⟨2, ['B'], [], -1⟩, ⟨4, ['D'], [], -1⟩]],
        ∀ S' ∈ [[(⟨1, ['A'], [], -1⟩ : StackFrame), ⟨2, ['B'], [], -1⟩, ⟨3, ['C'], [], -1⟩],
          [⟨1, ['A'], [], -1⟩, ⟨2, ['B'], [], -1⟩, ⟨4, ['D'], [], -1⟩]],
        addresses S = addresses S' → ∀ f ∈ funcNames S, f ∈ funcNames S') ∧
      functionCounts (buildFunctionTable (recordAll
        [[(⟨1, ['A'], [], -1⟩ : StackFrame), ⟨2, ['B'], [], -1⟩, ⟨3, ['C'], [], -1⟩],
          [⟨1, ['A'], [], -1⟩, ⟨2, ['B'], [], -1⟩, ⟨4, ['D'], [], -1⟩]]).stackLog) ['A'] =
        [2] :=
  ⟨by decide,
    functionTable_counts_samples
      [[(⟨1, ['A'], [], -1⟩ : StackFrame), ⟨2, ['B'], [], -1⟩, ⟨3, ['C'], [], -1⟩],
        [⟨1, ['A'], [], -1⟩, ⟨2, ['B'], [], -1⟩, ⟨4, ['D'], [], -1⟩]]
      (by decide) ['A']⟩

end WallClockProfiler

namespace WallClockProfiler

/-! ## Root tables -/

theorem rootLoop_apply (ins : Stack) (fuel i : Nat) (roots : Nat → List Stack) (d : Nat) :
    rootLoop ins fuel i roots d =
      if i ≤ d ∧ d < i + fuel ∧ d < ins.frames.length ∧ d < NUM_ROOT_STACKS_TO_TRACK then
        logInTable (roots d) (getRoot ins d)
      else roots d := by
  induction fuel generalizing i roots with
  | zero =>
      have : ¬ (i ≤ d ∧ d < i + 0 ∧ d < ins.frames.length ∧ d < NUM_ROOT_STACKS_TO_TRACK) := by
        omega
      simp only [rootLoop, if_neg this]
  | succ n ih =>
      by_cases hc : i < ins.frames.length ∧ i < NUM_ROOT_STACKS_TO_TRACK
      · simp only [rootLoop, if_pos hc]
        rw [ih]
        by_cases hd : d = i
        · subst hd
          have h1 : ¬ (d + 1 ≤ d ∧ d < d + 1 + n ∧ d < ins.frames.length ∧
              d < NUM_ROOT_STACKS_TO_TRACK) := by omega
          have h2 : d ≤ d ∧ d < d + (n + 1) ∧ d < ins.frames.length ∧
              d < NUM_ROOT_STACKS_TO_TRACK := ⟨le_refl _, by omega, hc.1, hc.2⟩
          rw [if_neg h1, if_pos h2, Function.update_same]
        · rw [Function.update_noteq hd]
          by_cases h1 : i + 1 ≤ d ∧ d < i + 1 + n ∧ d < ins.frames.length ∧
              d < NUM_ROOT_STACKS_TO_TRACK
          · have h2 : i ≤ d ∧ d < i + (n + 1) ∧ d < ins.frames.length ∧
                d < NUM_ROOT_STACKS_TO_TRACK := ⟨by omega, by omega, h1.2.2.1, h1.2.2.2⟩
            rw [if_pos h1, if_pos h2]
          · have h2 : ¬ (i ≤ d ∧ d < i + (n + 1) ∧ d < ins.frames.length ∧
                d < NUM_ROOT_STACKS_TO_TRACK) := by
              rintro ⟨a, b, c, e⟩
              exact h1 ⟨by omega, by omega, c, e⟩
            rw [if_neg h1, if_neg h2]
      · simp only [rootLoop, if_neg hc]
        have h2 : ¬ (i ≤ d ∧ d < i + (n + 1) ∧ d < ins.frames.length ∧
            d < NUM_ROOT_STACKS_TO_TRACK) := by
          rintro ⟨a, b, c, e⟩
          apply hc
          exact ⟨by omega, by omega⟩
        rw [if_neg h2]

/-- The stack whose roots are logged: the matched old entry, or the new stack. -/
theorem insertedStack_addresses (t : List Stack) (s : Stack) :
    addresses (match matchLoop s t with
      | some p => p.2
      | none => s).frames = addresses s.frames := by
  cases hm : matchLoop s t with
  | none => rfl
  | some p => exact (matchLoop_some_keys s t p hm).2.2

theorem addresses_length (fr : List StackFrame) : (addresses fr).length = fr.length := by
  simp [addresses]

theorem recordStack_root (agg : Aggregator) (s : Stack) (d : Nat) :
    ∃ ins : Stack, addresses ins.frames = addresses s.frames ∧
      (recordStack agg s).stackRootLog d =
        if 1 ≤ d ∧ d < s.frames.length ∧ d < NUM_ROOT_STACKS_TO_TRACK then
          logInTable (agg.stackRootLog d) (getRoot ins d)
        else agg.stackRootLog d := by
  refine ⟨_, insertedStack_addresses agg.stackLog s, ?_⟩
  have hlen := congrArg List.length (insertedStack_addresses agg.stackLog s)
  rw [addresses_length, addresses_length] at hlen
  simp only [recordStack]
  rw [rootLoop_apply, hlen]
  by_cases h : 1 ≤ d ∧ d < s.frames.length ∧ d < NUM_ROOT_STACKS_TO_TRACK
  · have h' : 1 ≤ d ∧ d < 1 + NUM_ROOT_STACKS_TO_TRACK ∧ d < s.frames.length ∧
        d < NUM_ROOT_STACKS_TO_TRACK := ⟨h.1, by omega, h.2.1, h.2.2⟩
    rw [if_pos h, if_pos h']
  · have h' : ¬ (1 ≤ d ∧ d < 1 + NUM_ROOT_STACKS_TO_TRACK ∧ d < s.frames.length ∧
        d < NUM_ROOT_STACKS_TO_TRACK) := fun hh => h ⟨hh.1, hh.2.2.1, hh.2.2.2⟩
    rw [if_neg h, if_neg h']

/-- C3 (counterexample): after recording one stack of depth 1, root table 1 is
empty, so its `sampleCount`s sum to `0`, while one sample has depth `≥ 1`. -/
theorem rootTable_depth_one_sample_not_counted :
    (recordAll [[⟨1, ['f'], [], -1⟩]]).stackRootLog 1 = [] ∧
      totalSamples ((recordAll [[⟨1, ['f'], [], -1⟩]]).stackRootLog 1) = 0 ∧
      samplesOfDepthAtLeast [[⟨1, ['f'], [], -1⟩]] 1 = 1 := by
  decide

/-- C3 (amended): for every sequence of recorded stacks and every depth `d` with
`1 ≤ d < 15`, the `sampleCount`s of `stackRootLog[d]` sum to the number of
samples whose depth is strictly greater than `d`. -/
theorem rootTable_total_counts_deeper_samples (samples : List (List StackFrame)) (d : Nat)
    (h1 : 1 ≤ d) (h15 : d < NUM_ROOT_STACKS_TO_TRACK) :
    totalSamples ((recordAll samples).stackRootLog d) = (samplesDeeperThan samples d : Int) := by
  induction samples using List.reverseRecOn with
  | nil => simp [recordAll, Aggregator.empty, totalSamples, samplesDeeperThan]
  | append_singleton xs x ih =>
      rw [recordAll_snoc]
      obtain ⟨ins, _, hroot⟩ := recordStack_root (recordAll xs) (newStack x) d
      rw [hroot]
      have hfr : (newStack x).frames = x := rfl
      rw [hfr]
      by_cases hx : d < x.length
      · have hc : 1 ≤ d ∧ d < x.length ∧ d < NUM_ROOT_STACKS_TO_TRACK := ⟨h1, hx, h15⟩
        rw [if_pos hc, logInTable_totalSamples _ _ rfl, ih]
        simp [samplesDeeperThan, List.filter_append, hx]
      · have hc : ¬ (1 ≤ d ∧ d < x.length ∧ d < NUM_ROOT_STACKS_TO_TRACK) := fun hh => hx hh.2.1
        rw [if_neg hc, ih]
        simp [samplesDeeperThan, List.filter_append, hx]

/-- C3 (witness): `[A,B,C]` and `[A,B,D]` both count in root table 2. -/
theorem rootTable_total_counts_deeper_samples_witness :
    1 ≤ 2 ∧ 2 < NUM_ROOT_STACKS_TO_TRACK ∧
      totalSamples ((recordAll
        [[(⟨1, ['A'], [], -1⟩ : StackFrame), ⟨2, ['B'], [], -1⟩, ⟨3, ['C'], [], -1⟩],
          [⟨1, ['A'], [], -1⟩, ⟨2, ['B'], [], -1⟩, ⟨4, ['D'], [], -1⟩]]).stackRootLog 2) =
        (samplesDeeperThan
          [[(⟨1, ['A'], [], -1⟩ : StackFrame), ⟨2, ['B'], [], -1⟩, ⟨3, ['C'], [], -1⟩],
            [⟨1, ['A'], [], -1⟩, ⟨2, ['B'], [], -1⟩, ⟨4, ['D'], [], -1⟩]] 2 : Int) :=
  ⟨by decide, by decide,
    rootTable_total_counts_deeper_samples _ 2 (by decide) (by decide)⟩

end WallClockProfiler

namespace WallClockProfiler

theorem matchLoop_some_split (s : Stack) (t : List Stack) (p : List Stack × Stack)
    (h : matchLoop s t = some p) :
    ∃ pre e post, t = pre ++ e :: post ∧ addresses e.frames = addresses s.frames ∧
      (∀ x ∈ pre, addresses x.frames ≠ addresses s.frames) ∧
      p.1 = pre ++ { e with sampleCount := e.sampleCount + 1 } :: post := by
  induction t generalizing p with
  | nil => simp [matchLoop] at h
  | cons e rest ih =>
      by_cases hc : stackCompare e s = true
      · have hk := (stackCompare_iff e s).1 hc
        simp only [matchLoop, hc, if_true, Option.some.injEq] at h
        subst h
        exact ⟨[], e, rest, rfl, hk, by simp, rfl⟩
      · have hne : addresses e.frames ≠ addresses s.frames :=
          fun he => hc ((stackCompare_iff e s).2 he)
        simp only [matchLoop, hc] at h
        cases hm : matchLoop s rest with
        | none => simp [hm] at h
        | some q =>
            simp only [hm, Option.map_some', Bool.false_eq_true, if_false,
              Option.some.injEq] at h
            subst h
            obtain ⟨pre, e', post, h1, h2, h3, h4⟩ := ih q hm
            refine ⟨e :: pre, e', post, by simp [h1], h2, ?_, by simp [h4]⟩
            intro x hx
            rcases List.mem_cons.1 hx with hx | hx
            · rw [hx]; exact hne
            · exact h3 x hx

/-- What one table update does: either no entry has the key and the stack is
appended, or the first entry with the key has its count incremented. -/
theorem logInTable_cases (t : List Stack) (s : Stack) :
    (addresses s.frames ∉ t.map (fun e => addresses e.frames) ∧ logInTable t s = t ++ [s]) ∨
      ∃ pre e post, t = pre ++ e :: post ∧ addresses e.frames = addresses s.frames ∧
        (∀ x ∈ pre, addresses x.frames ≠ addresses s.frames) ∧
        logInTable t s = pre ++ { e with sampleCount := e.sampleCount + 1 } :: post := by
  unfold logInTable
  cases hm : matchLoop s t with
  | none => exact Or.inl ⟨(matchLoop_none_iff s t).1 hm, rfl⟩
  | some p => exact Or.inr (matchLoop_some_split s t p hm)

theorem logInTable_ne (t : List Stack) (s : Stack) : logInTable t s ≠ t := by
  rcases logInTable_cases t s with ⟨_, h⟩ | ⟨pre, e, post, h1, _, _, h4⟩
  · rw [h]
    intro he
    have := congrArg List.length he
    simp at this
  · rw [h4]
    intro he
    rw [h1] at he
    have h5 := List.append_cancel_left he
    simp only [List.cons.injEq, and_true] at h5
    have := congrArg Stack.sampleCount h5
    simp at this

theorem addresses_drop (fr : List StackFrame) (n : Nat) :
    addresses (fr.drop n) = (addresses fr).drop n := by
  simp [addresses, List.map_drop]

theorem getRoot_addresses (ins s : Stack) (d : Nat)
    (h : addresses ins.frames = addresses s.frames) :
    addresses (getRoot ins d).frames = addresses (s.frames.drop (s.frames.length - d)) := by
  have hlen := congrArg List.length h
  rw [addresses_length, addresses_length] at hlen
  simp only [getRoot]
  rw [addresses_drop, addresses_drop, h, hlen]

end WallClockProfiler

namespace WallClockProfiler

/-- C4: recording one parsed stack of depth `k` changes root table `d` exactly
when `1 ≤ d < min 15 k`; for such `d` the table changes in one entry only: the
first entry whose address sequence is that of the outermost `d` frames (the
last `d` frames of the innermost-first vector) gets `sampleCount + 1`, or, when
no entry has that address sequence, an entry with it and `sampleCount = 1` is
appended.  A stack of depth 1 changes no root table, and recording `[A,B,C]`
then `[A,B,D]` from the empty tables leaves root table 2 as `[B,C]`, `[B,D]`
and root table 1 as `[C]`, `[D]`, all with `sampleCount = 1`. -/
theorem recordStack_changes_root_tables (agg : Aggregator) (frames : List StackFrame) (d : Nat) :
    ((recordStack agg (newStack frames)).stackRootLog d ≠ agg.stackRootLog d ↔
        1 ≤ d ∧ d < min NUM_ROOT_STACKS_TO_TRACK frames.length) ∧
      (1 ≤ d ∧ d < min NUM_ROOT_STACKS_TO_TRACK frames.length →
        (addresses (frames.drop (frames.length - d)) ∉
              (agg.stackRootLog d).map (fun e => addresses e.frames) ∧
            ∃ r : Stack, r.sampleCount = 1 ∧
              addresses r.frames = addresses (frames.drop (frames.length - d)) ∧
              (recordStack agg (newStack frames)).stackRootLog d = agg.stackRootLog d ++ [r]) ∨
          ∃ pre e post, agg.stackRootLog d = pre ++ e :: post ∧
            addresses e.frames = addresses (frames.drop (frames.length - d)) ∧
            (∀ x ∈ pre, addresses x.frames ≠ addresses (frames.drop (frames.length - d))) ∧
            (recordStack agg (newStack frames)).stackRootLog d =
              pre ++ { e with sampleCount := e.sampleCount + 1 } :: post) ∧
      (frames.length = 1 →
        (recordStack agg (newStack frames)).stackRootLog = agg.stackRootLog) ∧
      (recordAll
          [[(⟨10, ['A'], [], -1⟩ : StackFrame), ⟨11, ['B'], [], -1⟩, ⟨12, ['C'], [], -1⟩],
            [⟨10, ['A'], [], -1⟩, ⟨11, ['B'], [], -1⟩, ⟨13, ['D'], [], -1⟩]]).stackRootLog 2 =
        [⟨[⟨11, ['B'], [], -1⟩, ⟨12, ['C'], [], -1⟩], 1⟩,
          ⟨[⟨11, ['B'], [], -1⟩, ⟨13, ['D'], [], -1⟩], 1⟩] ∧
      (recordAll
          [[(⟨10, ['A'], [], -1⟩ : StackFrame), ⟨11, ['B'], [], -1⟩, ⟨12, ['C'], [], -1⟩],
            [⟨10, ['A'], [], -1⟩, ⟨11, ['B'], [], -1⟩, ⟨13, ['D'], [], -1⟩]]).stackRootLog 1 =
        [⟨[⟨12, ['C'], [], -1⟩], 1⟩, ⟨[⟨13, ['D'], [], -1⟩], 1⟩] := by
  obtain ⟨ins, hins, hroot⟩ := recordStack_root agg (newStack frames) d
  have hfr : (newStack frames).frames = frames := rfl
  rw [hfr] at hroot hins
  have hcond : (1 ≤ d ∧ d < frames.length ∧ d < NUM_ROOT_STACKS_TO_TRACK) ↔
      (1 ≤ d ∧ d < min NUM_ROOT_STACKS_TO_TRACK frames.length) := by
    simp only [lt_min_iff]
    tauto
  have hkey : addresses (getRoot ins d).frames =
      addresses (frames.drop (frames.length - d)) :=
    getRoot_addresses ins (newStack frames) d hins
  refine ⟨?_, ?_, ?_, by decide, by decide⟩
  · rw [hroot, ← hcond]
    by_cases hc : 1 ≤ d ∧ d < frames.length ∧ d < NUM_ROOT_STACKS_TO_TRACK
    · simp only [if_pos hc, ne_eq, iff_true, hc, and_self]
      exact logInTable_ne _ _
    · simp only [if_neg hc, ne_eq, not_true_eq_false, false_iff]
      exact hc
  · intro hd
    rw [hroot, if_pos (hcond.2 hd)]
    rcases logInTable_cases (agg.stackRootLog d) (getRoot ins d) with
      ⟨h1, h2⟩ | ⟨pre, e, post, h1, h2, h3, h4⟩
    · left
      rw [hkey] at h1
      exact ⟨h1, getRoot ins d, rfl, hkey, h2⟩
    · right
      rw [hkey] at h2 h3
      exact ⟨pre, e, post, h1, h2, h3, h4⟩
  · intro hlen
    funext d'
    obtain ⟨ins', _, hroot'⟩ := recordStack_root agg (newStack frames) d'
    rw [hroot', hfr]
    have : ¬ (1 ≤ d' ∧ d' < frames.length ∧ d' < NUM_ROOT_STACKS_TO_TRACK) := by omega
    rw [if_neg this]

end WallClockProfiler

namespace WallClockProfiler

/-! ## Lemmas on `strstr` and `split` -/

theorem strstr_cons (c : Char) (cs n : List Char) :
    strstr (c :: cs) n =
      if n.isPrefixOf (c :: cs) then some 0 else (strstr cs n).map (fun i => i + 1) := rfl

theorem strstr_eq_none_iff (h n : List Char) : strstr h n = none ↔ ¬ n <:+: h := by
  induction h with
  | nil =>
      cases n with
      | nil => simp [strstr]
      | cons a t => simp [strstr]
  | cons c cs ih =>
      rw [List.infix_cons_iff]
      by_cases hp : n <+: c :: cs
      · have : n.isPrefixOf (c :: cs) = true := List.isPrefixOf_iff_prefix.2 hp
        simp [strstr, this, hp]
      · have : ¬ n.isPrefixOf (c :: cs) = true := fun h' => hp (List.isPrefixOf_iff_prefix.1 h')
        simp only [strstr, this, Bool.false_eq_true, if_false, Option.map_eq_none', ih, hp,
          false_or]

theorem strstr_eq_zero_iff (h n : List Char) : strstr h n = some 0 ↔ n <+: h := by
  cases h with
  | nil =>
      cases n with
      | nil => simp [strstr]
      | cons a t => simp [strstr]
  | cons c cs =>
      by_cases hp : n <+: c :: cs
      · have : n.isPrefixOf (c :: cs) = true := List.isPrefixOf_iff_prefix.2 hp
        simp [strstr, this, hp]
      · have : ¬ n.isPrefixOf (c :: cs) = true := fun h' => hp (List.isPrefixOf_iff_prefix.1 h')
        simp only [strstr, this, Bool.false_eq_true, if_false, hp, iff_false]
        cases strstr cs n with
        | none => simp
        | some i => simp

/-- Where `strstr` finds its needle: the needle occurs at the returned index
and at no smaller index. -/
theorem strstr_some_spec (h n : List Char) (i : Nat) (hs : strstr h n = some i) :
    n <+: h.drop i ∧ i + n.length ≤ h.length ∧ ∀ j, j < i → ¬ n <+: h.drop j := by
  induction h generalizing i with
  | nil =>
      cases n with
      | nil =>
          simp only [strstr, List.isEmpty_nil, if_true, Option.some.injEq] at hs
          subst hs
          simp
      | cons a t => simp [strstr] at hs
  | cons c cs ih =>
      by_cases hp : n <+: c :: cs
      · have : n.isPrefixOf (c :: cs) = true := List.isPrefixOf_iff_prefix.2 hp
        simp only [strstr, this, if_true, Option.some.injEq] at hs
        subst hs
        refine ⟨by simpa using hp, by simpa using hp.length_le, ?_⟩
        intro j hj
        omega
      · have : ¬ n.isPrefixOf (c :: cs) = true := fun h' => hp (List.isPrefixOf_iff_prefix.1 h')
        simp only [strstr, this, Bool.false_eq_true, if_false] at hs
        cases hr : strstr cs n with
        | none => simp [hr] at hs
        | some k =>
            simp only [hr, Option.map_some', Option.some.injEq] at hs
            subst hs
            obtain ⟨h1, h2, h3⟩ := ih k hr
            refine ⟨by simpa using h1, by simp only [List.length_cons]; omega, ?_⟩
            intro j hj
            cases j with
            | zero => simpa using hp
            | succ j' =>
                simp only [List.drop_succ_cons]
                exact h3 j' (by omega)

/-- A needle that does not contain `c` cannot straddle an occurrence of `c`. -/
theorem infix_split_at_char (n a b : List Char) (c : Char) (hc : c ∉ n)
    (hi : n <:+: a ++ c :: b) : n <:+: a ∨ n <:+: b := by
  induction a with
  | nil =>
      simp only [List.nil_append] at hi
      rcases List.infix_cons_iff.1 hi with hp | hb
      · rcases List.prefix_cons_iff.1 hp with rfl | ⟨t, rfl, _⟩
        · exact Or.inl List.nil_infix
        · exact absurd (List.mem_cons_self _ _) hc
      · exact Or.inr hb
  | cons y a' ih =>
      simp only [List.cons_append] at hi
      rcases List.infix_cons_iff.1 hi with hp | hb
      · have hp2 : (y :: a') ++ [c] <+: y :: (a' ++ c :: b) := by
          refine ⟨b, ?_⟩
          simp
        rcases List.prefix_or_prefix_of_prefix hp hp2 with h1 | h1
        · rcases List.prefix_concat_iff.1 h1 with h2 | h2
          · exfalso
            apply hc
            rw [h2]
            simp
          · exact Or.inl h2.isInfix
        · exfalso
          apply hc
          exact h1.subset (by simp)
      · rcases ih hb with h1 | h1
        · exact Or.inl (List.infix_cons_iff.2 (Or.inr h1))
        · exact Or.inr h1

/-- `strstr` on a string that starts with `pre ++ n`: when the needle does not
occur earlier, it is found right after `pre`. -/
theorem strstr_append_first (pre n post : List Char) (hn : n ≠ [])
    (h : ¬ n <:+: pre ++ n.dropLast) : strstr (pre ++ n ++ post) n = some pre.length := by
  induction pre with
  | nil =>
      rw [List.nil_append, List.length_nil]
      exact (strstr_eq_zero_iff _ _).2 (List.prefix_append _ _)
  | cons c cs ih =>
      have hnp : ¬ n <+: (c :: cs) ++ n ++ post := by
        intro hp
        apply h
        have h2 : (c :: cs) ++ n.dropLast <+: (c :: cs) ++ n ++ post := by
          refine ⟨[n.getLast hn] ++ post, ?_⟩
          have hl : n.dropLast ++ ([n.getLast hn] ++ post) = n ++ post := by
            rw [← List.append_assoc, List.dropLast_append_getLast hn]
          simp only [List.append_assoc, hl]
        have hlen : n.length ≤ ((c :: cs) ++ n.dropLast).length := by
          simp only [List.length_append, List.length_cons, List.length_dropLast]
          omega
        exact (List.prefix_of_prefix_length_le hp h2 hlen).isInfix
      have hnp' : ¬ n.isPrefixOf (c :: (cs ++ n ++ post)) = true := by
        intro h'
        apply hnp
        simpa using List.isPrefixOf_iff_prefix.1 h'
      have hrec : ¬ n <:+: cs ++ n.dropLast := by
        intro hi
        apply h
        rw [List.cons_append]
        exact List.infix_cons_iff.2 (Or.inr hi)
      have := ih hrec
      rw [List.cons_append, List.cons_append, strstr_cons, if_neg hnp', this]
      simp

end WallClockProfiler
namespace WallClockProfiler

theorem strstr_nil_of_ne (sep : List Char) (hsep : sep ≠ []) : strstr [] sep = none := by
  cases sep with
  | nil => exact absurd rfl hsep
  | cons a t => simp [strstr]

theorem splitLoop_fuel (sep : List Char) (hsep : sep ≠ []) (f f' : Nat) (w : List Char)
    (h : w.length ≤ f) (h' : w.length ≤ f') : splitLoop sep f w = splitLoop sep f' w := by
  induction f generalizing f' w with
  | zero =>
      have hw : w = [] := List.length_eq_zero.1 (by omega)
      subst hw
      cases f' with
      | zero => rfl
      | succ m => simp [splitLoop, strstr_nil_of_ne sep hsep]
  | succ n ih =>
      cases f' with
      | zero =>
          have hw : w = [] := List.length_eq_zero.1 (by omega)
          subst hw
          simp [splitLoop, strstr_nil_of_ne sep hsep]
      | succ m =>
          simp only [splitLoop]
          cases hs : strstr w sep with
          | none => rfl
          | some i =>
              simp only
              have hlen : 0 < sep.length := List.length_pos.2 hsep
              have hd : (w.drop (i + sep.length)).length ≤ w.length - 1 := by
                simp only [List.length_drop]
                omega
              have hw : 0 < w.length := by
                have := (strstr_some_spec w sep i hs).2.1
                omega
              rw [ih m (w.drop (i + sep.length)) (by omega) (by omega)]

/-- `split` cuts at the first separator when it does not occur earlier. -/
theorem split_append (p sep rest : List Char) (hsep : sep ≠ [])
    (h : ¬ sep <:+: p ++ sep.dropLast) :
    split (p ++ sep ++ rest) sep = p :: split rest sep := by
  have hlen : 0 < sep.length := List.length_pos.2 hsep
  have hs := strstr_append_first p sep rest hsep h
  unfold split
  have hl : (p ++ sep ++ rest).length = (p.length + sep.length + rest.length - 1) + 1 := by
    simp only [List.length_append]
    omega
  rw [hl]
  simp only [splitLoop, hs]
  have h1 : (p ++ sep ++ rest).take p.length = p := by
    rw [List.append_assoc, List.take_left']
    rfl
  have h2 : (p ++ sep ++ rest).drop (p.length + sep.length) = rest := by
    have : p.length + sep.length = (p ++ sep).length := by simp
    rw [this, List.drop_left']
    rfl
  rw [h1, h2]
  congr 1
  exact splitLoop_fuel sep hsep _ _ rest (by omega) (le_refl _)

/-- `split` of a string without the separator is the string alone. -/
theorem split_of_not_infix (p sep : List Char) (h : ¬ sep <:+: p) : split p sep = [p] := by
  have hs := (strstr_eq_none_iff p sep).2 h
  unfold split
  cases p.length with
  | zero => rfl
  | succ n => simp [splitLoop, hs]

theorem not_infix_singleton {c : Char} {p : List Char} (h : c ∉ p) : ¬ [c] <:+: p := by
  intro hi
  exact h (hi.subset (List.mem_singleton_self c))

/-- `split` at a one-character separator that does not occur in the first part. -/
theorem split_char_append (p rest : List Char) (c : Char) (h : c ∉ p) :
    split (p ++ c :: rest) [c] = p :: split rest [c] := by
  have := split_append p [c] rest (by simp) (by simpa using not_infix_singleton h)
  simpa using this

theorem split_char_of_not_mem (p : List Char) (c : Char) (h : c ∉ p) :
    split p [c] = [p] :=
  split_of_not_infix p [c] (not_infix_singleton h)

/-- `strstr` for a one-character needle that first occurs after `pre`. -/
theorem strstr_char_append (pre post : List Char) (c : Char) (h : c ∉ pre) :
    strstr (pre ++ c :: post) [c] = some pre.length := by
  have := strstr_append_first pre [c] post (by simp) (by simpa using not_infix_singleton h)
  simpa using this

end WallClockProfiler

namespace WallClockProfiler

/-! ## The address of a parsed frame -/

theorem hexDigitValue_lt (c : Char) : hexDigitValue c < 16 := by
  unfold hexDigitValue
  split
  · rename_i h
    have h1 : c.toNat ≤ '9'.toNat := h.2
    have h2 : '0'.toNat ≤ c.toNat := h.1
    have e9 : '9'.toNat = 57 := rfl
    have e0 : '0'.toNat = 48 := rfl
    omega
  · split
    · rename_i h
      have h1 : c.toNat ≤ 'f'.toNat := h.2
      have h2 : 'a'.toNat ≤ c.toNat := h.1
      have e9 : 'f'.toNat = 102 := rfl
      have e0 : 'a'.toNat = 97 := rfl
      omega
    · split
      · rename_i h
        have h1 : c.toNat ≤ 'F'.toNat := h.2
        have h2 : 'A'.toNat ≤ c.toNat := h.1
        have e9 : 'F'.toNat = 70 := rfl
        have e0 : 'A'.toNat = 65 := rfl
        omega
      · omega

theorem hexValue_snoc (ds : List Char) (c : Char) :
    hexValue (ds ++ [c]) = hexValue ds * 16 + hexDigitValue c := by
  simp [hexValue, List.foldl_append]

theorem hexValue_lt (ds : List Char) : hexValue ds < 16 ^ ds.length := by
  induction ds using List.reverseRecOn with
  | nil => simp [hexValue]
  | append_singleton xs x ih =>
      rw [hexValue_snoc, List.length_append, List.length_singleton, pow_succ]
      have := hexDigitValue_lt x
      omega

theorem hexValue_zero_cons (ds : List Char) : hexValue ('0' :: ds) = hexValue ds := by
  have : hexDigitValue '0' = 0 := by decide
  simp [hexValue, this]

theorem sscanfPointer_renderAddr (digits : List Char) (hx : ∀ c ∈ digits, isxdigit c = true)
    (hlen : digits.length ≤ 16) :
    sscanfPointer "addr=\"".toList (renderAddr digits) = some (hexValue digits) := by
  have e1 : renderAddr digits = "addr=\"".toList ++ ('0' :: 'x' :: (digits ++ ['"'])) := by
    simp [renderAddr]
  have hp : ("addr=\"".toList).isPrefixOf (renderAddr digits) = true := by
    rw [List.isPrefixOf_iff_prefix, e1]
    exact List.prefix_append _ _
  have hd : (renderAddr digits).drop ("addr=\"".toList).length =
      '0' :: 'x' :: (digits ++ ['"']) := by
    rw [e1, List.drop_left]
  have htw : (digits ++ ['"']).takeWhile isxdigit = digits := by
    rw [List.takeWhile_append_of_pos hx]
    have : isxdigit '"' = false := by decide
    simp [List.takeWhile, this]
  have hlt : hexValue digits < 2 ^ 64 := by
    have h1 := hexValue_lt digits
    have h2 : 16 ^ digits.length ≤ 16 ^ 16 := Nat.pow_le_pow_right (by norm_num) hlen
    have : (16 : Nat) ^ 16 = 2 ^ 64 := by norm_num
    omega
  unfold sscanfPointer
  rw [if_pos hp, hd]
  have hsp : List.dropWhile isspace ('0' :: 'x' :: (digits ++ ['"'])) =
      '0' :: 'x' :: (digits ++ ['"']) := by
    rw [List.dropWhile_cons_of_neg]
    decide
  have hsign : scanSign ('0' :: 'x' :: (digits ++ ['"'])) =
      (false, '0' :: 'x' :: (digits ++ ['"'])) := by
    have h1 : ('0' : Char) ≠ '-' := by decide
    have h2 : ('0' : Char) ≠ '+' := by decide
    simp [scanSign, h1, h2]
  have hdig : scanHexDigits ('0' :: 'x' :: (digits ++ ['"'])) = '0' :: digits := by
    simp [scanHexDigits, htw]
  have hmin : ¬ 2 ^ 64 - 1 < hexValue digits := by omega
  simp only [hsp, hsign, hdig, hexValue_zero_cons, List.isEmpty_cons, Bool.false_eq_true,
    if_false, hmin]

end WallClockProfiler
namespace WallClockProfiler

theorem renderAddr_no_comma (digits : List Char) (hx : ∀ c ∈ digits, isxdigit c = true) :
    ',' ∉ renderAddr digits := by
  intro h
  simp only [renderAddr, List.mem_append, List.mem_singleton] at h
  rcases h with (h | h) | h
  · revert h; decide
  · have := hx _ h
    revert this; decide
  · revert h; decide

theorem renderAddr_no_brace (digits : List Char) (hx : ∀ c ∈ digits, isxdigit c = true) :
    '}' ∉ renderAddr digits := by
  intro h
  simp only [renderAddr, List.mem_append, List.mem_singleton] at h
  rcases h with (h | h) | h
  · revert h; decide
  · have := hx _ h
    revert this; decide
  · revert h; decide

theorem renderAddr_starts (digits : List Char) : "addr=".toList <+: renderAddr digits := by
  refine ⟨'"' :: '0' :: 'x' :: (digits ++ ['"']), ?_⟩
  simp [renderAddr]

/-- The first loop of `parseFrame` on the values of a body that starts with
clean results, then the `addr` result, then nothing or a comma and more. -/
theorem scanAddress_split (before : List (List Char × List Char)) (a Z : List Char)
    (hb : ∀ f ∈ before, ',' ∉ renderField f ∧ '}' ∉ renderField f ∧
      ¬ "addr=".toList <+: renderField f)
    (ha : "addr=".toList <+: a) (hac : ',' ∉ a) (hZ : Z = [] ∨ ∃ Y, Z = ',' :: Y) :
    scanAddress (split (renderBefore before ++ a ++ Z) [',']) =
      (sscanfPointer "addr=\"".toList a).getD 0 := by
  induction before with
  | nil =>
      simp only [renderBefore, List.nil_append]
      have hs : strstr a "addr=".toList = some 0 := (strstr_eq_zero_iff _ _).2 ha
      rcases hZ with rfl | ⟨Y, rfl⟩
      · rw [List.append_nil, split_char_of_not_mem a ',' hac]
        simp only [scanAddress, hs, if_true]
      · rw [split_char_append a Y ',' hac]
        simp only [scanAddress, hs, if_true]
  | cons f fs ih =>
      have hf := hb f (List.mem_cons_self _ _)
      have hrest := ih (fun g hg => hb g (List.mem_cons_of_mem _ hg))
      have hs : strstr (renderField f) "addr=".toList ≠ some 0 :=
        fun h => hf.2.2 ((strstr_eq_zero_iff _ _).1 h)
      have e : renderBefore (f :: fs) ++ a ++ Z =
          renderField f ++ ',' :: (renderBefore fs ++ a ++ Z) := by
        simp [renderBefore]
      rw [e, split_char_append _ _ ',' hf.1]
      simp only [scanAddress, hs, if_false]
      exact hrest

theorem renderBefore_no_brace (before : List (List Char × List Char))
    (hb : ∀ f ∈ before, ',' ∉ renderField f ∧ '}' ∉ renderField f ∧
      ¬ "addr=".toList <+: renderField f) : '}' ∉ renderBefore before := by
  induction before with
  | nil => simp [renderBefore]
  | cons f fs ih =>
      have hf := hb f (List.mem_cons_self _ _)
      have hrest := ih (fun g hg => hb g (List.mem_cons_of_mem _ hg))
      simp only [renderBefore, List.mem_append, List.mem_cons, not_or]
      exact ⟨hf.2.1, by decide, hrest⟩

theorem renderAfter_head (after : List (List Char × List Char)) :
    renderAfter after = [] ∨ ∃ Y, renderAfter after = ',' :: Y := by
  cases after with
  | nil => exact Or.inl rfl
  | cons f fs => exact Or.inr ⟨_, rfl⟩

/-- `parseFrame` on the text of a well-formed record, whatever follows the
closing brace: it returns a frame whose address is the value of the digits. -/
theorem parseFrame_address (uninit : List Char) (r : FrameRecord) (hwf : WellFormedRecord r)
    (more : List Char) :
    ∃ f, parseFrame uninit ('{' :: (renderBody r ++ '}' :: more)) = some f ∧
      f.address = hexValue r.addr := by
  obtain ⟨hb, hx, hlen, _, _⟩ := hwf
  have ho : strstr ('{' :: (renderBody r ++ '}' :: more)) ['{'] = some 0 :=
    (strstr_eq_zero_iff _ _).2 ⟨renderBody r ++ '}' :: more, rfl⟩
  -- the text after the address result, up to the first closing brace
  have hmem : '}' ∈ renderAfter r.after ++ '}' :: more := by simp
  obtain ⟨Z, rest, hsplit, hZ⟩ := List.eq_append_cons_of_mem hmem
  have hZhead : Z = [] ∨ ∃ Y, Z = ',' :: Y := by
    rcases renderAfter_head r.after with h0 | ⟨Y, hY⟩
    · rw [h0, List.nil_append] at hsplit
      cases Z with
      | nil => exact Or.inl rfl
      | cons z zs =>
          exfalso
          apply hZ
          simp only [List.cons_append, List.cons.injEq] at hsplit
          rw [← hsplit.1]
          exact List.mem_cons_self _ _
    · rw [hY] at hsplit
      cases Z with
      | nil =>
          exfalso
          simp only [List.cons_append, List.nil_append, List.cons.injEq] at hsplit
          exact absurd hsplit.1 (by decide)
      | cons z zs =>
          simp only [List.cons_append, List.cons.injEq] at hsplit
          exact Or.inr ⟨zs, by rw [← hsplit.1]⟩
  have hopen : renderBody r ++ '}' :: more =
      (renderBefore r.before ++ renderAddr r.addr ++ Z) ++ '}' :: rest := by
    simp only [renderBody, List.append_assoc]
    rw [hsplit]
  have hfront : '}' ∉ renderBefore r.before ++ renderAddr r.addr ++ Z := by
    simp only [List.mem_append, not_or]
    exact ⟨⟨renderBefore_no_brace _ hb, renderAddr_no_brace _ hx⟩, hZ⟩
  have hc := strstr_char_append _ rest '}' hfront
  have htake : ((renderBefore r.before ++ renderAddr r.addr ++ Z) ++ '}' :: rest).take
      (renderBefore r.before ++ renderAddr r.addr ++ Z).length =
      renderBefore r.before ++ renderAddr r.addr ++ Z := List.take_left' rfl
  have hpf : parseFrame uninit ('{' :: (renderBody r ++ '}' :: more)) =
      some
        { address := scanAddress
            (split (renderBefore r.before ++ renderAddr r.addr ++ Z) [',']),
          funcName := cutAtQuote ((scanFields uninit
            (split (renderBefore r.before ++ renderAddr r.addr ++ Z) [','])
            { funcName := none, fileName := none, lineNum := -1 }).funcName.getD []),
          fileName := cutAtQuote ((scanFields uninit
            (split (renderBefore r.before ++ renderAddr r.addr ++ Z) [','])
            { funcName := none, fileName := none, lineNum := -1 }).fileName.getD []),
          lineNum := (scanFields uninit
            (split (renderBefore r.before ++ renderAddr r.addr ++ Z) [','])
            { funcName := none, fileName := none, lineNum := -1 }).lineNum } := by
    unfold parseFrame
    simp only [ho, Nat.zero_add, List.drop_succ_cons, List.drop_zero]
    rw [hopen]
    simp only [hc, htake]
  refine ⟨_, hpf, ?_⟩
  simp only
  rw [scanAddress_split _ _ _ hb (renderAddr_starts _) (renderAddr_no_comma _ hx) hZhead,
    sscanfPointer_renderAddr _ hx hlen]
  rfl

end WallClockProfiler
namespace WallClockProfiler

/-! ## The split of a block into frame parts -/

theorem renderFrame_eq (r : FrameRecord) :
    renderFrame r = "frame=".toList ++ '{' :: (renderBody r ++ ['}']) := by
  simp [renderFrame]

theorem no_marker_in_part (body : List Char) (h : ¬ "frame=".toList <:+: body) :
    ¬ "frame=".toList <:+: '{' :: (body ++ ['}']) := by
  intro hi
  have h1 : "frame=".toList <:+: [] ++ '{' :: (body ++ ['}']) := by simpa using hi
  rcases infix_split_at_char _ [] _ '{' (by decide) h1 with h2 | h2
  · have := h2.length_le
    simp at this
  · rcases infix_split_at_char _ body [] '}' (by decide) h2 with h3 | h3
    · exact h h3
    · have := h3.length_le
      simp at this

/-- The text after the first `frame=` of a block of well-formed records splits
at `frame=` into the parts of the records. -/
theorem split_block (records : List FrameRecord) (hne : records ≠ [])
    (hwf : ∀ r ∈ records, WellFormedRecord r) :
    ∃ tail, renderBlock records = "frame=".toList ++ tail ∧
      split tail "frame=".toList = frameParts records := by
  induction records with
  | nil => exact absurd rfl hne
  | cons r rs ih =>
      have hr := hwf r (List.mem_cons_self _ _)
      have hbody : ¬ "frame=".toList <:+: renderBody r := hr.2.2.2.2
      cases rs with
      | nil =>
          refine ⟨'{' :: (renderBody r ++ ['}']), ?_, ?_⟩
          · simp [renderBlock, renderFrame]
          · exact split_of_not_infix _ _ (no_marker_in_part _ hbody)
      | cons r' rs' =>
          obtain ⟨tail, ht1, ht2⟩ := ih (by simp)
            (fun x hx => hwf x (List.mem_cons_of_mem _ hx))
          refine ⟨('{' :: (renderBody r ++ ['}', ','])) ++ "frame=".toList ++ tail, ?_, ?_⟩
          · have : renderBlock (r :: r' :: rs') =
                renderFrame r ++ ',' :: renderBlock (r' :: rs') := rfl
            rw [this, ht1, renderFrame_eq]
            simp
          · rw [split_append _ _ _ (by decide), ht2]
            · rfl
            · intro hi
              have e : '{' :: (renderBody r ++ ['}', ',']) ++ ("frame=".toList).dropLast =
                  ('{' :: (renderBody r ++ ['}'])) ++ ',' :: ("frame=".toList).dropLast := by
                simp
              rw [e] at hi
              rcases infix_split_at_char _ _ _ ',' (by decide) hi with h2 | h2
              · exact no_marker_in_part _ hbody h2
              · have := h2.length_le
                revert this
                decide

/-- Every part of a block of well-formed records parses, and the addresses of
the parsed frames are the values of the records' digits, in order. -/
theorem parseFrames_frameParts (uninit : List Char) (records : List FrameRecord)
    (hwf : ∀ r ∈ records, WellFormedRecord r) :
    ∃ frames, parseFrames uninit (frameParts records) = some frames ∧
      addresses frames = records.map (fun r => hexValue r.addr) := by
  induction records with
  | nil => exact ⟨[], rfl, rfl⟩
  | cons r rs ih =>
      have hr := hwf r (List.mem_cons_self _ _)
      obtain ⟨fs, hfs, hadr⟩ := ih (fun x hx => hwf x (List.mem_cons_of_mem _ hx))
      cases rs with
      | nil =>
          obtain ⟨f, hf, ha⟩ := parseFrame_address uninit r hr []
          refine ⟨[f], ?_, ?_⟩
          · simp only [frameParts, parseFrames, hf]
          · simp [addresses, ha]
      | cons r' rs' =>
          obtain ⟨f, hf, ha⟩ := parseFrame_address uninit r hr [',']
          refine ⟨f :: fs, ?_, ?_⟩
          · have e : frameParts (r :: r' :: rs') =
                ('{' :: (renderBody r ++ ['}', ','])) :: frameParts (r' :: rs') := rfl
            rw [e]
            simp only [parseFrames, hf, hfs]
          · simp only [addresses, List.map_cons] at hadr ⊢
            rw [ha, hadr]

theorem renderBlock_no_newline (records : List FrameRecord)
    (hwf : ∀ r ∈ records, WellFormedRecord r) : '\n' ∉ renderBlock records := by
  induction records with
  | nil => simp [renderBlock]
  | cons r rs ih =>
      have hr := hwf r (List.mem_cons_self _ _)
      have hbody : '\n' ∉ renderBody r := hr.2.2.2.1
      have hrest := ih (fun x hx => hwf x (List.mem_cons_of_mem _ hx))
      have hframe : '\n' ∉ renderFrame r := by
        simp only [renderFrame, List.mem_append, List.mem_singleton, not_or]
        exact ⟨⟨by decide, hbody⟩, by decide⟩
      cases rs with
      | nil => simpa [renderBlock] using hframe
      | cons r' rs' =>
          have : renderBlock (r :: r' :: rs') =
              renderFrame r ++ ',' :: renderBlock (r' :: rs') := rfl
          rw [this]
          simp only [List.mem_append, List.mem_cons, not_or]
          exact ⟨hframe, by decide, hrest⟩

end WallClockProfiler
namespace WallClockProfiler

theorem hexDigitChar_hexDigitValue (c : Char) (h : isLowerHexDigit c = true) :
    hexDigitChar (hexDigitValue c) = c := by
  unfold isLowerHexDigit at h
  simp only [Bool.or_eq_true, decide_eq_true_eq] at h
  have e0 : '0'.toNat = 48 := rfl
  have e9 : '9'.toNat = 57 := rfl
  have ea : 'a'.toNat = 97 := rfl
  have ef : 'f'.toNat = 102 := rfl
  rcases h with h | h
  · have h1 : '0'.toNat ≤ c.toNat := h.1
    have h2 : c.toNat ≤ '9'.toNat := h.2
    unfold hexDigitValue hexDigitChar
    rw [if_pos h]
    have hlt : c.toNat - '0'.toNat < 10 := by omega
    rw [if_pos hlt]
    have : '0'.toNat + (c.toNat - '0'.toNat) = c.toNat := by omega
    rw [this, Char.ofNat_toNat]
  · have h1 : 'a'.toNat ≤ c.toNat := h.1
    have h2 : c.toNat ≤ 'f'.toNat := h.2
    have hn : ¬ ('0' ≤ c ∧ c ≤ '9') := by
      intro hh
      have : c.toNat ≤ '9'.toNat := hh.2
      omega
    unfold hexDigitValue hexDigitChar
    rw [if_neg hn, if_pos h]
    have hlt : ¬ (c.toNat - 'a'.toNat + 10 < 10) := by omega
    rw [if_neg hlt]
    have : 'a'.toNat + (c.toNat - 'a'.toNat + 10 - 10) = c.toNat := by omega
    rw [this, Char.ofNat_toNat]

/-- Printing the value of a string of lower-case hexadecimal digits with the
width of the string gives the string back. -/
theorem printHex_hexValue (ds : List Char) (h : ∀ c ∈ ds, isLowerHexDigit c = true) :
    printHex ds.length (hexValue ds) = ds := by
  induction ds using List.reverseRecOn with
  | nil => rfl
  | append_singleton xs x ih =>
      have hx : isLowerHexDigit x = true := h x (by simp)
      have hxs : ∀ c ∈ xs, isLowerHexDigit c = true := fun c hc => h c (by simp [hc])
      have hlt := hexDigitValue_lt x
      rw [List.length_append, List.length_singleton, hexValue_snoc]
      simp only [printHex]
      have h1 : (hexValue xs * 16 + hexDigitValue x) / 16 = hexValue xs := by omega
      have h2 : (hexValue xs * 16 + hexDigitValue x) % 16 = hexDigitValue x := by omega
      rw [h1, h2, ih hxs, hexDigitChar_hexDigitValue x hx]

theorem reprint_addresses (records : List FrameRecord)
    (h : ∀ r ∈ records, ∀ c ∈ r.addr, isLowerHexDigit c = true) :
    List.zipWith (fun a r => printHex r.addr.length a)
        (records.map (fun r => hexValue r.addr)) records =
      records.map FrameRecord.addr := by
  induction records with
  | nil => rfl
  | cons r rs ih =>
      simp only [List.map_cons, List.zipWith_cons_cons]
      rw [printHex_hexValue r.addr (h r (List.mem_cons_self _ _)),
        ih (fun x hx => h x (List.mem_cons_of_mem _ hx))]

/-- C5: for every response in which the first `,stack=[` is followed by
`K ≥ 1` well-formed `frame={…}` records and the closing `]` and newline, the
parser of `logGDBStackResponse` (the split at `frame=`, then `parseFrame` on
each part) produces a stack of exactly `K` frames whose addresses are, in the
order of the records (innermost first), the numeric values of the hexadecimal
digits of the records' `addr` results; so printing each address in
hexadecimal with the width of its record's digits gives back the digits of the
records (for lower-case digits, as GDB prints them). -/
theorem parseStackResponse_wellFormed (uninit pre post : List Char)
    (records : List FrameRecord) (hK : records ≠ [])
    (hwf : ∀ r ∈ records, WellFormedRecord r)
    (hpre : ¬ ",stack=[".toList <:+: pre ++ ",stack=".toList) :
    ∃ frames, parseStackResponse uninit (renderResponse pre records post) =
        Parsed.stack frames ∧
      frames.length = records.length ∧
      addresses frames = records.map (fun r => hexValue r.addr) ∧
      ((∀ r ∈ records, ∀ c ∈ r.addr, isLowerHexDigit c = true) →
        List.zipWith (fun a r => printHex r.addr.length a) (addresses frames) records =
          records.map FrameRecord.addr) := by
  obtain ⟨tail, hblock, hsplit⟩ := split_block records hK hwf
  obtain ⟨frames, hparse, haddr⟩ := parseFrames_frameParts uninit records hwf
  have hnl := renderBlock_no_newline records hwf
  refine ⟨frames, ?_, ?_, haddr, fun hlow => by rw [haddr]; exact reprint_addresses records hlow⟩
  · have h1 : strstr (renderResponse pre records post) ",stack=[".toList = some pre.length := by
      have := strstr_append_first pre ",stack=[".toList
        (renderBlock records ++ "]\n".toList ++ post) (by decide) hpre
      simpa [renderResponse, List.append_assoc] using this
    have h2 : (renderResponse pre records post).drop (pre.length + ",stack=[".toList.length) =
        renderBlock records ++ "]\n".toList ++ post := by
      have e : renderResponse pre records post =
          (pre ++ ",stack=[".toList) ++ (renderBlock records ++ "]\n".toList ++ post) := by
        simp [renderResponse, List.append_assoc]
      rw [e]
      exact List.drop_left' (by simp)
    have h3 : strstr (renderBlock records ++ "]\n".toList ++ post) "]\n".toList =
        some (renderBlock records).length := by
      apply strstr_append_first _ _ _ (by decide)
      intro hi
      have hm : '\n' ∈ renderBlock records ++ ("]\n".toList).dropLast :=
        hi.subset (by decide)
      rw [List.mem_append] at hm
      rcases hm with hm | hm
      · exact hnl hm
      · revert hm; decide
    have h4 : (renderBlock records ++ "]\n".toList ++ post).take (renderBlock records).length =
        renderBlock records := by
      rw [List.append_assoc]
      exact List.take_left' rfl
    have h5 : strstr (renderBlock records) "frame=".toList = some 0 := by
      rw [strstr_eq_zero_iff, hblock]
      exact List.prefix_append _ _
    have h6 : (renderBlock records).drop "frame=".toList.length = tail := by
      rw [hblock]
      exact List.drop_left' rfl
    unfold parseStackResponse
    simp only [h1, h2, h3, h4, h5, h6, hsplit, hparse, ne_eq, not_true_eq_false, if_false]
  · have := congrArg List.length haddr
    simpa [addresses] using this

set_option maxRecDepth 100000 in
/-- C5 (witness): a two-frame response as GDB prints it. -/
theorem parseStackResponse_wellFormed_witness :
    ∃ frames, parseStackResponse []
        (renderResponse "^done".toList
          [⟨[("level".toList, "0".toList)], "000055555555513d".toList,
              [("func".toList, "work".toList), ("file".toList, "a.c".toList),
                ("line".toList, "12".toList)]⟩,
            ⟨[("level".toList, "1".toList)], "00007ffff7de50b3".toList,
              [("func".toList, "main".toList)]⟩]
          "(gdb) \n".toList) = Parsed.stack frames ∧
      frames.length = 2 ∧
      addresses frames = [0x55555555513d, 0x7ffff7de50b3] ∧
      ((∀ r ∈ [(⟨[("level".toList, "0".toList)], "000055555555513d".toList,
              [("func".toList, "work".toList), ("file".toList, "a.c".toList),
                ("line".toList, "12".toList)]⟩ : FrameRecord),
            ⟨[("level".toList, "1".toList)], "00007ffff7de50b3".toList,
              [("func".toList, "main".toList)]⟩],
          ∀ c ∈ r.addr, isLowerHexDigit c = true) →
        List.zipWith (fun a r => printHex r.addr.length a) (addresses frames)
            [(⟨[("level".toList, "0".toList)], "000055555555513d".toList,
              [("func".toList, "work".toList), ("file".toList, "a.c".toList),
                ("line".toList, "12".toList)]⟩ : FrameRecord),
            ⟨[("level".toList, "1".toList)], "00007ffff7de50b3".toList,
              [("func".toList, "main".toList)]⟩] =
          ["000055555555513d".toList, "00007ffff7de50b3".toList]) :=
  parseStackResponse_wellFormed [] "^done".toList "(gdb) \n".toList
    [⟨[("level".toList, "0".toList)], "000055555555513d".toList,
        [("func".toList, "work".toList), ("file".toList, "a.c".toList),
          ("line".toList, "12".toList)]⟩,
      ⟨[("level".toList, "1".toList)], "00007ffff7de50b3".toList,
        [("func".toList, "main".toList)]⟩]
    (by simp) (by decide) (by decide)

end WallClockProfiler

namespace WallClockProfiler

/-! ## The names and line of a parsed frame -/

theorem key_prefix_iff (key k rest : List Char) (hk : '=' ∉ k) (hkey : '=' ∉ key) :
    (key ++ ['=']) <+: (k ++ '=' :: rest) ↔ k = key := by
  constructor
  · intro hp
    have hp2 : (k ++ ['=']) <+: (k ++ '=' :: rest) := ⟨rest, by simp⟩
    rcases List.prefix_or_prefix_of_prefix hp hp2 with h | h
    · rcases List.prefix_concat_iff.1 h with h1 | h1
      · exact (List.append_inj_left' h1 rfl).symm
      · exact absurd (h1.subset (by simp)) hk
    · rcases List.prefix_concat_iff.1 h with h1 | h1
      · exact List.append_inj_left' h1 rfl
      · exact absurd (h1.subset (by simp)) hkey
  · intro h
    subst h
    exact ⟨rest, by simp⟩

theorem strstr_key_iff (key : List Char) (f : List Char × List Char) (hk : '=' ∉ f.1)
    (hkey : '=' ∉ key) :
    strstr (renderField f) (key ++ ['=']) = some 0 ↔ f.1 = key := by
  have e : renderField f = f.1 ++ '=' :: ('"' :: (f.2 ++ ['"'])) := by simp [renderField]
  rw [strstr_eq_zero_iff, e]
  exact key_prefix_iff key f.1 _ hk hkey

theorem renderField_no_char (f : List Char × List Char) (c : Char) (h1 : c ∉ f.1)
    (h2 : c ∉ f.2) (h3 : c ≠ '=') (h4 : c ≠ '"') : c ∉ renderField f := by
  simp only [renderField, List.mem_append, List.mem_cons, List.mem_singleton, not_or,
    List.not_mem_nil, not_false_eq_true, and_true]
  exact ⟨⟨h1, h3, h4, h2⟩, h4⟩

/-- A numeral is its digits, with or without a sign before them. -/
theorem scanSign_cases (v : List Char) :
    (scanSign v = (true, v.drop 1) ∧ v = '-' :: v.drop 1) ∨
      (scanSign v = (false, v.drop 1) ∧ v = '+' :: v.drop 1) ∨
      (scanSign v = (false, v) ∧ ∀ t, v ≠ '-' :: t ∧ v ≠ '+' :: t) := by
  cases v with
  | nil => exact Or.inr (Or.inr ⟨rfl, fun t => ⟨by simp, by simp⟩⟩)
  | cons c t =>
      by_cases hm : c = '-'
      · subst hm
        exact Or.inl ⟨rfl, rfl⟩
      · by_cases hp : c = '+'
        · subst hp
          exact Or.inr (Or.inl ⟨rfl, rfl⟩)
        · refine Or.inr (Or.inr ⟨by simp [scanSign, hm, hp], fun u => ⟨?_, ?_⟩⟩)
          · intro h
            exact hm (List.cons.inj h).1
          · intro h
            exact hp (List.cons.inj h).1

/-- The characters of a numeral are signs and digits. -/
theorem numeral_chars (v : List Char) (h : IntNumeral v) (c : Char) (hc : c ∈ v) :
    c = '-' ∨ c = '+' ∨ isdigit c = true := by
  rcases scanSign_cases v with ⟨hs, hv⟩ | ⟨hs, hv⟩ | ⟨hs, _⟩
  · rw [hv] at hc
    rcases List.mem_cons.1 hc with h1 | h1
    · exact Or.inl h1
    · exact Or.inr (Or.inr (h.2.1 c (by rw [hs]; exact h1)))
  · rw [hv] at hc
    rcases List.mem_cons.1 hc with h1 | h1
    · exact Or.inr (Or.inl h1)
    · exact Or.inr (Or.inr (h.2.1 c (by rw [hs]; exact h1)))
  · exact Or.inr (Or.inr (h.2.1 c (by rw [hs]; exact hc)))

/-- The text of a readable part holds no comma. -/
theorem text_no_comma (p : RecordPart) (h : ReadablePart p) : ',' ∉ p.text := by
  cases p with
  | func v => exact renderField_no_char _ ',' (by dsimp only; decide) h.2.1 (by decide) (by decide)
  | file v => exact renderField_no_char _ ',' (by dsimp only; decide) h.2.1 (by decide) (by decide)
  | line v =>
      refine renderField_no_char _ ',' (by dsimp only; decide) ?_ (by decide) (by decide)
      intro hc
      rcases numeral_chars v h ',' hc with h1 | h1 | h1 <;> revert h1 <;> decide
  | other t => exact h.1

/-- The text of a readable part holds no closing brace. -/
theorem text_no_brace (p : RecordPart) (h : ReadablePart p) : '}' ∉ p.text := by
  cases p with
  | func v => exact renderField_no_char _ '}' (by dsimp only; decide) h.2.2.1 (by decide) (by decide)
  | file v => exact renderField_no_char _ '}' (by dsimp only; decide) h.2.2.1 (by decide) (by decide)
  | line v =>
      refine renderField_no_char _ '}' (by dsimp only; decide) ?_ (by decide) (by decide)
      intro hc
      rcases numeral_chars v h '}' hc with h1 | h1 | h1 <;> revert h1 <;> decide
  | other t => exact h.2.1

theorem split_renderParts (parts : List RecordPart) (hne : parts ≠ [])
    (h : ∀ p ∈ parts, ',' ∉ p.text) :
    split (renderParts parts) [','] = parts.map RecordPart.text := by
  induction parts with
  | nil => exact absurd rfl hne
  | cons f fs ih =>
      have hf := h f (List.mem_cons_self _ _)
      cases fs with
      | nil => simpa [renderParts] using split_char_of_not_mem _ ',' hf
      | cons g gs =>
          have e : renderParts (f :: g :: gs) = f.text ++ ',' :: renderParts (g :: gs) := rfl
          rw [e, split_char_append _ _ ',' hf,
            ih (by simp) (fun x hx => h x (List.mem_cons_of_mem _ hx))]
          rfl

theorem renderParts_no_char (parts : List RecordPart) (c : Char)
    (h : ∀ p ∈ parts, c ∉ p.text) (hc : c ≠ ',') : c ∉ renderParts parts := by
  induction parts with
  | nil => simp [renderParts]
  | cons f fs ih =>
      have hf := h f (List.mem_cons_self _ _)
      have hrest := ih (fun x hx => h x (List.mem_cons_of_mem _ hx))
      cases fs with
      | nil => simpa [renderParts] using hf
      | cons g gs =>
          have e : renderParts (f :: g :: gs) = f.text ++ ',' :: renderParts (g :: gs) := rfl
          rw [e]
          simp only [List.mem_append, List.mem_cons, not_or]
          exact ⟨hf, hc, hrest⟩

/-- `%499s` on the text after `key="`: the value and its closing quotation
mark, cut at 499 characters. -/
theorem sscanfWord_renderField (key : List Char) (v : List Char)
    (hsp : ∀ c ∈ v, isspace c = false) :
    sscanfWord (key ++ ['=', '"']) 499 (renderField (key, v)) =
      some ((v ++ ['"']).take 499) := by
  have e1 : renderField (key, v) = (key ++ ['=', '"']) ++ (v ++ ['"']) := by
    simp [renderField]
  have hp : (key ++ ['=', '"']).isPrefixOf (renderField (key, v)) = true := by
    rw [List.isPrefixOf_iff_prefix, e1]
    exact List.prefix_append _ _
  have hd : (renderField (key, v)).drop (key ++ ['=', '"']).length = v ++ ['"'] := by
    rw [e1, List.drop_left]
  have hq : isspace '"' = false := by decide
  have hall : ∀ c ∈ v ++ ['"'], isspace c = false := by
    intro c hc
    rcases List.mem_append.1 hc with h | h
    · exact hsp c h
    · rw [List.mem_singleton] at h
      rw [h]
      exact hq
  have hdw : (v ++ ['"']).dropWhile isspace = v ++ ['"'] := by
    cases v with
    | nil => simp [List.dropWhile, hq]
    | cons a t =>
        have := hsp a (List.mem_cons_self _ _)
        simp [List.dropWhile, this]
  have htw : (v ++ ['"']).takeWhile (fun c => !isspace c) = v ++ ['"'] := by
    rw [List.takeWhile_eq_self_iff]
    intro c hc
    simp [hall c hc]
  have hne : ((v ++ ['"']).take 499).isEmpty = false := by
    cases v with
    | nil => rfl
    | cons a t => rfl
  unfold sscanfWord
  rw [if_pos hp, hd]
  simp only [hdw, htw, hne, Bool.false_eq_true, if_false]

/-- Cutting the scanned word at its quotation mark gives back the value. -/
theorem cutAtQuote_scanned (v : List Char) (hq : '"' ∉ v) (hlen : v.length ≤ 499) :
    cutAtQuote ((v ++ ['"']).take 499) = v := by
  by_cases h : v.length = 499
  · have e : (v ++ ['"']).take 499 = v := by
      rw [← h]
      exact List.take_left' rfl
    rw [e]
    unfold cutAtQuote
    rw [(strstr_eq_none_iff v ['"']).2 (not_infix_singleton hq)]
  · have e : (v ++ ['"']).take 499 = v ++ ['"'] := by
      apply List.take_of_length_le
      simp only [List.length_append, List.length_singleton]
      omega
    rw [e]
    unfold cutAtQuote
    rw [strstr_char_append v [] '"' hq]
    exact List.take_left' rfl

theorem decValue_snoc (ds : List Char) (c : Char) :
    decValue (ds ++ [c]) = decValue ds * 10 + (c.toNat - '0'.toNat) := by
  simp [decValue, List.foldl_append]

theorem toInt32_of_range (v : Int) (h1 : -(2 ^ 31) ≤ v) (h2 : v < 2 ^ 31) : toInt32 v = v := by
  unfold toInt32
  have h : (v + 2 ^ 31) % 2 ^ 32 = v + 2 ^ 31 := by
    apply Int.emod_eq_of_lt
    · linarith
    · linarith
  rw [h]
  ring

theorem isspace_of_isdigit (a : Char) (ha : isdigit a = true) : isspace a = false := by
  unfold isdigit at ha
  have h1 : '0' ≤ a := (of_decide_eq_true ha).1
  have h2 : a ≠ ' ' := by
    rintro rfl
    revert h1; decide
  have h3 : a ≠ '\t' := by
    rintro rfl
    revert h1; decide
  have h4 : a ≠ '\n' := by
    rintro rfl
    revert h1; decide
  have h5 : a ≠ '\x0b' := by
    rintro rfl
    revert h1; decide
  have h6 : a ≠ '\x0c' := by
    rintro rfl
    revert h1; decide
  have h7 : a ≠ '\r' := by
    rintro rfl
    revert h1; decide
  simp [isspace, h2, h3, h4, h5, h6, h7]

/-- `%d` on the text after `line="` when the value is the numeral of an `int`. -/
theorem sscanfInt_renderField (v : List Char) (h : IntNumeral v) :
    sscanfInt "line=\"".toList (renderField ("line".toList, v)) = some (intOfNumeral v) := by
  have e1 : renderField ("line".toList, v) = "line=\"".toList ++ (v ++ ['"']) := by
    simp [renderField]
  have hp : ("line=\"".toList).isPrefixOf (renderField ("line".toList, v)) = true := by
    rw [List.isPrefixOf_iff_prefix, e1]
    exact List.prefix_append _ _
  have hdr : (renderField ("line".toList, v)).drop ("line=\"".toList).length = v ++ ['"'] := by
    rw [e1, List.drop_left]
  obtain ⟨hne, hd, hlo, hhi⟩ := h
  have htw : ∀ ds : List Char, (∀ c ∈ ds, isdigit c = true) →
      (ds ++ ['"']).takeWhile isdigit = ds := by
    intro ds hds
    rw [List.takeWhile_append_of_pos hds]
    have : isdigit '"' = false := by decide
    simp [List.takeWhile, this]
  have hfin : ∀ (sign : Bool) (ds : List Char), scanSign v = (sign, ds) →
      (v ++ ['"']).dropWhile isspace = v ++ ['"'] →
      scanSign (v ++ ['"']) = (sign, ds ++ ['"']) →
      sscanfInt "line=\"".toList (renderField ("line".toList, v)) =
        some (intOfNumeral v) := by
    intro sign ds hs hdw hsr
    have hds : ∀ c ∈ ds, isdigit c = true := by
      intro c hc
      exact hd c (by rw [hs]; exact hc)
    have hdne : ds ≠ [] := by
      intro hnil
      apply hne
      rw [hs, hnil]
    have hemp : ds.isEmpty = false := by
      cases ds with
      | nil => exact absurd rfl hdne
      | cons a t => rfl
    have hval : intOfNumeral v = if sign then - (decValue ds : Int) else (decValue ds : Int) := by
      unfold intOfNumeral
      rw [hs]
    have hclamp : max (-(2 ^ 63 : Int)) (min (intOfNumeral v) (2 ^ 63 - 1)) = intOfNumeral v := by
      rw [min_eq_left (by linarith), max_eq_right (by linarith)]
    unfold sscanfInt
    rw [if_pos hp, hdr]
    simp only [hdw, hsr, htw ds hds, hemp, Bool.false_eq_true, if_false]
    rw [← hval, hclamp, toInt32_of_range _ hlo hhi]
  rcases scanSign_cases v with ⟨hs, hv⟩ | ⟨hs, hv⟩ | ⟨hs, hv⟩
  · refine hfin true (v.drop 1) hs ?_ ?_
    · rw [hv]
      simp only [List.cons_append]
      rw [List.dropWhile_cons_of_neg]
      decide
    · rw [hv]
      simp [scanSign]
  · refine hfin false (v.drop 1) hs ?_ ?_
    · rw [hv]
      simp only [List.cons_append]
      rw [List.dropWhile_cons_of_neg]
      decide
    · rw [hv]
      simp [scanSign]
  · rw [hs] at hne hd
    obtain ⟨a, t, rfl⟩ := List.exists_cons_of_ne_nil hne
    have ha : isdigit a = true := hd a (List.mem_cons_self _ _)
    have hsp := isspace_of_isdigit a ha
    have hm : a ≠ '-' := fun e => (hv t).1 (by rw [e])
    have hpl : a ≠ '+' := fun e => (hv t).2 (by rw [e])
    refine hfin false (a :: t) hs ?_ ?_
    · simp [List.dropWhile, hsp]
    · simp [scanSign, hm, hpl]

end WallClockProfiler
namespace WallClockProfiler

theorem scanFields_cons_func (uninit : List Char) (v : List Char)
    (rest : List (List Char)) (acc : FrameFields) (hp : PlainName v) :
    scanFields uninit ((RecordPart.func v).text :: rest) acc =
      scanFields uninit rest { acc with funcName := some ((v ++ ['"']).take 499) } := by
  have hs : strstr (renderField ("func".toList, v)) "func=".toList = some 0 :=
    (strstr_key_iff "func".toList _ (by dsimp only; decide) (by decide)).2 rfl
  have hw : sscanfWord "func=\"".toList 499 (renderField ("func".toList, v)) =
      some ((v ++ ['"']).take 499) :=
    sscanfWord_renderField "func".toList v hp.2.2.2.1
  simp only [RecordPart.text, scanFields, hs, if_true, hw, Option.getD_some]

theorem scanFields_cons_file (uninit : List Char) (v : List Char)
    (rest : List (List Char)) (acc : FrameFields) (hp : PlainName v) :
    scanFields uninit ((RecordPart.file v).text :: rest) acc =
      scanFields uninit rest { acc with fileName := some ((v ++ ['"']).take 499) } := by
  have hs0 : strstr (renderField ("file".toList, v)) "func=".toList ≠ some 0 := by
    intro h
    have h1 := (strstr_key_iff "func".toList ("file".toList, v) (by dsimp only; decide) (by decide)).1 h
    exact absurd h1 (by dsimp only; decide)
  have hs : strstr (renderField ("file".toList, v)) "file=".toList = some 0 :=
    (strstr_key_iff "file".toList _ (by dsimp only; decide) (by decide)).2 rfl
  have hw : sscanfWord "file=\"".toList 499 (renderField ("file".toList, v)) =
      some ((v ++ ['"']).take 499) :=
    sscanfWord_renderField "file".toList v hp.2.2.2.1
  simp only [RecordPart.text, scanFields, hs0, hs, if_true, if_false, hw, Option.getD_some]

theorem scanFields_cons_line (uninit : List Char) (v : List Char)
    (rest : List (List Char)) (acc : FrameFields)
    (hp : IntNumeral v) :
    scanFields uninit ((RecordPart.line v).text :: rest) acc =
      scanFields uninit rest { acc with lineNum := intOfNumeral v } := by
  have hs0 : strstr (renderField ("line".toList, v)) "func=".toList ≠ some 0 := by
    intro h
    have h1 := (strstr_key_iff "func".toList ("line".toList, v) (by dsimp only; decide) (by decide)).1 h
    exact absurd h1 (by dsimp only; decide)
  have hs1 : strstr (renderField ("line".toList, v)) "file=".toList ≠ some 0 := by
    intro h
    have h1 := (strstr_key_iff "file".toList ("line".toList, v) (by dsimp only; decide) (by decide)).1 h
    exact absurd h1 (by dsimp only; decide)
  have hs : strstr (renderField ("line".toList, v)) "line=".toList = some 0 :=
    (strstr_key_iff "line".toList _ (by dsimp only; decide) (by decide)).2 rfl
  have hw : sscanfInt "line=\"".toList (renderField ("line".toList, v)) =
      some (intOfNumeral v) :=
    sscanfInt_renderField v hp
  simp only [RecordPart.text, scanFields, hs0, hs1, hs, if_true, if_false, hw,
    Option.getD_some]

theorem scanFields_cons_other (uninit : List Char) (t : List Char)
    (rest : List (List Char)) (acc : FrameFields)
    (h1 : ¬ "func=".toList <+: t) (h2 : ¬ "file=".toList <+: t)
    (h3 : ¬ "line=".toList <+: t) :
    scanFields uninit ((RecordPart.other t).text :: rest) acc = scanFields uninit rest acc := by
  have hs0 : strstr t "func=".toList ≠ some 0 := fun h => h1 ((strstr_eq_zero_iff _ _).1 h)
  have hs1 : strstr t "file=".toList ≠ some 0 := fun h => h2 ((strstr_eq_zero_iff _ _).1 h)
  have hs2 : strstr t "line=".toList ≠ some 0 := fun h => h3 ((strstr_eq_zero_iff _ _).1 h)
  simp only [RecordPart.text, scanFields, hs0, hs1, hs2, if_false]

/-- The second loop of `parseFrame` on the texts of readable parts: each of
`func`, `file`, `line` is set from the last part of that kind. -/
theorem scanFields_renderParts (uninit : List Char) (parts : List RecordPart)
    (acc : FrameFields) (h : ∀ p ∈ parts, ReadablePart p) :
    scanFields uninit (parts.map RecordPart.text) acc =
      { funcName := match lastValue RecordPart.funcValue parts with
          | some v => some ((v ++ ['"']).take 499)
          | none => acc.funcName,
        fileName := match lastValue RecordPart.fileValue parts with
          | some v => some ((v ++ ['"']).take 499)
          | none => acc.fileName,
        lineNum := match lastValue RecordPart.lineValue parts with
          | some v => intOfNumeral v
          | none => acc.lineNum } := by
  induction parts generalizing acc with
  | nil => simp [scanFields, lastValue]
  | cons p ps ih =>
      have hp := h p (List.mem_cons_self _ _)
      have hrest := fun x hx => h x (List.mem_cons_of_mem p hx)
      rw [List.map_cons]
      cases p with
      | func v =>
          rw [scanFields_cons_func uninit v _ acc hp, ih _ hrest]
          simp only [lastValue, RecordPart.funcValue, RecordPart.fileValue,
            RecordPart.lineValue]
          cases lastValue RecordPart.funcValue ps <;>
            cases lastValue RecordPart.fileValue ps <;>
            cases lastValue RecordPart.lineValue ps <;> simp
      | file v =>
          rw [scanFields_cons_file uninit v _ acc hp, ih _ hrest]
          simp only [lastValue, RecordPart.funcValue, RecordPart.fileValue,
            RecordPart.lineValue]
          cases lastValue RecordPart.funcValue ps <;>
            cases lastValue RecordPart.fileValue ps <;>
            cases lastValue RecordPart.lineValue ps <;> simp
      | line v =>
          rw [scanFields_cons_line uninit v _ acc hp, ih _ hrest]
          simp only [lastValue, RecordPart.funcValue, RecordPart.fileValue,
            RecordPart.lineValue]
          cases lastValue RecordPart.funcValue ps <;>
            cases lastValue RecordPart.fileValue ps <;>
            cases lastValue RecordPart.lineValue ps <;> simp
      | other t =>
          rw [scanFields_cons_other uninit t _ acc hp.2.2.1 hp.2.2.2.1 hp.2.2.2.2, ih _ hrest]
          simp only [lastValue, RecordPart.funcValue, RecordPart.fileValue,
            RecordPart.lineValue]
          cases lastValue RecordPart.funcValue ps <;>
            cases lastValue RecordPart.fileValue ps <;>
            cases lastValue RecordPart.lineValue ps <;> simp

end WallClockProfiler
namespace WallClockProfiler

theorem lastValue_func_mem (parts : List RecordPart) (v : List Char)
    (h : lastValue RecordPart.funcValue parts = some v) : RecordPart.func v ∈ parts := by
  induction parts with
  | nil => simp [lastValue] at h
  | cons p ps ih =>
      simp only [lastValue] at h
      cases hl : lastValue RecordPart.funcValue ps with
      | some w =>
          simp only [hl, Option.some.injEq] at h
          exact List.mem_cons_of_mem _ (ih (by rw [hl, h]))
      | none =>
          simp only [hl] at h
          cases p with
          | func u =>
              simp only [RecordPart.funcValue, Option.some.injEq] at h
              rw [h]
              exact List.mem_cons_self _ _
          | file u => simp [RecordPart.funcValue] at h
          | line u => simp [RecordPart.funcValue] at h
          | other u => simp [RecordPart.funcValue] at h

theorem lastValue_file_mem (parts : List RecordPart) (v : List Char)
    (h : lastValue RecordPart.fileValue parts = some v) : RecordPart.file v ∈ parts := by
  induction parts with
  | nil => simp [lastValue] at h
  | cons p ps ih =>
      simp only [lastValue] at h
      cases hl : lastValue RecordPart.fileValue ps with
      | some w =>
          simp only [hl, Option.some.injEq] at h
          exact List.mem_cons_of_mem _ (ih (by rw [hl, h]))
      | none =>
          simp only [hl] at h
          cases p with
          | func u => simp [RecordPart.fileValue] at h
          | file u =>
              simp only [RecordPart.fileValue, Option.some.injEq] at h
              rw [h]
              exact List.mem_cons_self _ _
          | line u => simp [RecordPart.fileValue] at h
          | other u => simp [RecordPart.fileValue] at h

set_option maxRecDepth 100000 in
/-- C6 (counterexample): `parseFrame` on three records whose `func` value has
no quotation mark but a space, a comma or a closing brace, and on one whose
`func` value is 500 letters long.  The returned `funcName` is `operator`,
`std::pair<int`, `main::{lambda()#1` and 499 letters, not the values
`operator new`, `std::pair<int,int>::swap`, `main::{lambda()#1}::operator()`
and the 500 letters. -/
theorem parseFrame_cuts_func_at_space_comma_brace :
    parseFrame [] "\x7blevel=\"0\",addr=\"0x1\",func=\"operator new\"\x7d".toList =
        some ⟨1, "operator".toList, [], -1⟩ ∧
      parseFrame [] "\x7blevel=\"0\",addr=\"0x1\",func=\"std::pair<int,int>::swap\"\x7d".toList =
        some ⟨1, "std::pair<int".toList, [], -1⟩ ∧
      parseFrame [] "\x7blevel=\"0\",addr=\"0x1\",func=\"main::\x7blambda()#1\x7d::operator()\"\x7d".toList =
        some ⟨1, "main::\x7blambda()#1".toList, [], -1⟩ ∧
      parseFrame [] ("\x7baddr=\"0x1\",func=\"".toList ++ List.replicate 500 'a' ++
          "\"\x7d".toList) =
        some ⟨1, List.replicate 499 'a', [], -1⟩ := by
  refine ⟨?_, ?_, ?_, ?_⟩ <;> decide

/-- C6 (amended): take a frame record whose text between `{` and the first `}`
is a list of parts separated by commas, each part being `func="v"` or
`file="v"` with `v` free of quotation marks, commas, closing braces and white
space and at most 499 characters long, or `line="n"` with `n` the decimal
numeral (with or without a sign) of an `int`, or any other text without comma
and closing brace that does not begin with `func=`, `file=` or `line=` (results
with other keys, whatever their values hold, are made of such parts).  `parseFrame` returns a
frame whose `funcName` is the value of the last `func` part, whose `fileName`
is that of the last `file` part and whose `lineNum` is the integer of the last
`line` part; a missing `func` or `file` gives the empty string, a missing
`line` gives `-1`, and the other parts play no role in these three fields. -/
theorem parseFrame_plain_fields (uninit : List Char)
    (parts : List RecordPart) (more : List Char)
    (h : ∀ p ∈ parts, ReadablePart p) :
    ∃ fr, parseFrame uninit ('{' :: (renderParts parts ++ '}' :: more)) = some fr ∧
      fr.funcName = (lastValue RecordPart.funcValue parts).getD [] ∧
      fr.fileName = (lastValue RecordPart.fileValue parts).getD [] ∧
      fr.lineNum = (match lastValue RecordPart.lineValue parts with
        | some v => intOfNumeral v
        | none => -1) := by
  have hbrace : '}' ∉ renderParts parts :=
    renderParts_no_char _ _ (fun p hp => text_no_brace p (h p hp)) (by decide)
  have ho : strstr ('{' :: (renderParts parts ++ '}' :: more)) ['{'] = some 0 :=
    (strstr_eq_zero_iff _ _).2 ⟨renderParts parts ++ '}' :: more, rfl⟩
  have hc := strstr_char_append (renderParts parts) more '}' hbrace
  have htake : (renderParts parts ++ '}' :: more).take (renderParts parts).length =
      renderParts parts := List.take_left' rfl
  have hscan : scanFields uninit (split (renderParts parts) [','])
      { funcName := none, fileName := none, lineNum := -1 } =
      scanFields uninit (parts.map RecordPart.text)
        { funcName := none, fileName := none, lineNum := -1 } := by
    cases parts with
    | nil => rfl
    | cons f fs =>
        rw [split_renderParts _ (by simp)]
        intro g hg
        exact text_no_comma g (h g hg)
  have hpf : parseFrame uninit ('{' :: (renderParts parts ++ '}' :: more)) =
      some
        { address := scanAddress (split (renderParts parts) [',']),
          funcName := cutAtQuote ((scanFields uninit (split (renderParts parts) [','])
            { funcName := none, fileName := none, lineNum := -1 }).funcName.getD []),
          fileName := cutAtQuote ((scanFields uninit (split (renderParts parts) [','])
            { funcName := none, fileName := none, lineNum := -1 }).fileName.getD []),
          lineNum := (scanFields uninit (split (renderParts parts) [','])
            { funcName := none, fileName := none, lineNum := -1 }).lineNum } := by
    unfold parseFrame
    simp only [ho, Nat.zero_add, List.drop_succ_cons, List.drop_zero, hc, htake]
  refine ⟨_, hpf, ?_, ?_, ?_⟩
  · simp only [hscan, scanFields_renderParts uninit parts _ h]
    cases hl : lastValue RecordPart.funcValue parts with
    | none => rfl
    | some v =>
        have hp : PlainName v := h _ (lastValue_func_mem parts v hl)
        simp only [Option.getD_some]
        exact cutAtQuote_scanned v hp.1 hp.2.2.2.2
  · simp only [hscan, scanFields_renderParts uninit parts _ h]
    cases hl : lastValue RecordPart.fileValue parts with
    | none => rfl
    | some v =>
        have hp : PlainName v := h _ (lastValue_file_mem parts v hl)
        simp only [Option.getD_some]
        exact cutAtQuote_scanned v hp.1 hp.2.2.2.2
  · simp only [hscan, scanFields_renderParts uninit parts _ h]

set_option maxRecDepth 100000 in
/-- C6 (witness): a record as GDB prints it for a frame of `main`, with a
`fullname` that holds a space and an `args` value that holds a comma. -/
theorem parseFrame_plain_fields_witness :
    ∃ fr, parseFrame []
        ("\x7blevel=\"0\",addr=\"0x1139\",func=\"main\",args=\"argc,argv\",file=\"a.c\"," ++
          "fullname=\"/home/me/my dir/a.c\",line=\"12\",arch=\"i386:x86-64\"\x7d,").toList =
        some fr ∧
      fr.funcName = "main".toList ∧ fr.fileName = "a.c".toList ∧ fr.lineNum = 12 :=
  have h := parseFrame_plain_fields []
    [RecordPart.other "level=\"0\"".toList, RecordPart.other "addr=\"0x1139\"".toList,
      RecordPart.func "main".toList, RecordPart.other "args=\"argc".toList,
      RecordPart.other "argv\"".toList, RecordPart.file "a.c".toList,
      RecordPart.other "fullname=\"/home/me/my dir/a.c\"".toList,
      RecordPart.line "12".toList, RecordPart.other "arch=\"i386:x86-64\"".toList]
    [','] (by decide)
  h

end WallClockProfiler

namespace WallClockProfiler

open GdbPipe

/-! ## Responses that record no sample -/

theorem parseStackResponse_unclosed (uninit pre body : List Char)
    (hpre : ¬ ",stack=[".toList <:+: pre ++ ",stack=".toList)
    (hbody : ¬ "]\n".toList <:+: body) :
    parseStackResponse uninit (pre ++ ",stack=[".toList ++ body) = Parsed.dropped := by
  have h1 : strstr (pre ++ ",stack=[".toList ++ body) ",stack=[".toList = some pre.length :=
    strstr_append_first pre ",stack=[".toList body (by decide) hpre
  have h2 : (pre ++ ",stack=[".toList ++ body).drop (pre.length + ",stack=[".toList.length) =
      body := List.drop_left' (by simp)
  have h3 : strstr body "]\n".toList = none := (strstr_eq_none_iff _ _).2 hbody
  unfold parseStackResponse
  simp only [h1, h2, h3]

set_option maxRecDepth 100000 in
/-- C7 (counterexample): two responses whose `stack=[` block has no closing
`]`, followed in the buffer by a notification that ends in `]` and a newline.
For the first, `logGDBStackResponse` records the stack `[(0x1, main)]` in the
empty stack table; for the second, whose last frame is cut before its `}`, it
terminates the process. -/
theorem logGDBStackResponse_unclosed_block_followed_by_bracket :
    (match logGDBStackResponse [] ⟨[], false, 0, false, false⟩ Aggregator.empty
        [ReadResult.data
          ("^done,stack=[frame=\x7blevel=\"0\",addr=\"0x1\",func=\"main\"\x7d\n" ++
            "=library-loaded,id=\"/lib/x.so\",ranges=[\x7bfrom=\"0x10\",to=\"0x20\"\x7d]\n" ++
            "(gdb) \n").toList] with
      | some (Outcome.returned (_, agg), _) => agg.stackLog
      | _ => []) = [⟨[⟨1, "main".toList, [], -1⟩], 1⟩] ∧
    (match logGDBStackResponse [] ⟨[], false, 0, false, false⟩ Aggregator.empty
        [ReadResult.data
          ("^done,stack=[frame=\x7blevel=\"0\",addr=\"0x1\",func=\"main\"\x7d,frame=\x7blevel=\"1\",ad\n" ++
            "=thread-group-added,ids=[]\n" ++
            "(gdb) \n").toList] with
      | some (Outcome.exited, _) => true
      | _ => false) = true := by
  constructor <;> decide

/-- C7 (amended): for every prior driver and aggregator state, when the text of
the fetched response after its first `,stack=[` contains no `]` immediately
followed by a newline, `logGDBStackResponse` returns normally and the stack
table and the root tables are the ones it was called with. -/
theorem logGDBStackResponse_unclosed_block (uninit : List Char) (d : Driver)
    (agg : Aggregator) (pipe : List ReadResult) (n : Nat) (d1 : Driver)
    (rest : List ReadResult) (pre body : List Char)
    (hfill : fillBufferWithResponse none d pipe = FillResult.returned n d1 rest)
    (hshape : d1.readBuff = pre ++ ",stack=[".toList ++ body)
    (hpre : ¬ ",stack=[".toList <:+: pre ++ ",stack=".toList)
    (hbody : ¬ "]\n".toList <:+: body) :
    ∃ d', logGDBStackResponse uninit d agg pipe = some (Outcome.returned (d', agg), rest) := by
  unfold logGDBStackResponse
  simp only [hfill]
  by_cases hn : n = 0
  · exact ⟨d1, by simp [hn]⟩
  · simp only [hn, if_false]
    by_cases he : (checkProgramExited d1).programExited = true
    · exact ⟨checkProgramExited d1, by simp [he]⟩
    · have hbuf : (checkProgramExited d1).readBuff = d1.readBuff := by
        unfold checkProgramExited
        split
        · split
          · rfl
          · split
            · rfl
            · split <;> rfl
        · rfl
      have hp : parseStackResponse uninit (checkProgramExited d1).readBuff = Parsed.dropped := by
        rw [hbuf, hshape]
        exact parseStackResponse_unclosed uninit pre body hpre hbody
      refine ⟨{ checkProgramExited d1 with
        readBuff := readBuffAfterParse (checkProgramExited d1).readBuff }, ?_⟩
      simp only [he, Bool.false_eq_true, if_false, logStackText, hp]

set_option maxRecDepth 100000 in
/-- C7 (witness): a response cut after its first frame, with the prompt. -/
theorem logGDBStackResponse_unclosed_block_witness :
    ∃ d', logGDBStackResponse [] ⟨[], false, 0, false, false⟩
        (recordAll [[⟨1, "main".toList, [], -1⟩]])
        [ReadResult.data "^done,stack=[frame=\x7blevel=\"0\",addr=\"0x1\"\n(gdb) \n".toList] =
      some (Outcome.returned (d', recordAll [[⟨1, "main".toList, [], -1⟩]]), []) :=
  logGDBStackResponse_unclosed_block [] ⟨[], false, 0, false, false⟩ _
    [ReadResult.data "^done,stack=[frame=\x7blevel=\"0\",addr=\"0x1\"\n(gdb) \n".toList]
    "^done,stack=[frame=\x7blevel=\"0\",addr=\"0x1\"\n(gdb) \n".toList.length
    ⟨"^done,stack=[frame=\x7blevel=\"0\",addr=\"0x1\"\n(gdb) \n".toList, true, 1, false, false⟩ []
    "^done".toList "frame=\x7blevel=\"0\",addr=\"0x1\"\n(gdb) \n".toList
    (by decide) (by decide) (by decide) (by decide)

end WallClockProfiler

namespace WallClockProfiler

open GdbPipe

/-! ## Frame parts with unbalanced braces -/

theorem parseFrame_unbalanced (uninit part : List Char) (h : Unbalanced part) :
    parseFrame uninit part = none := by
  by_cases ho : '{' ∈ part
  · obtain ⟨a, b, hab, ha⟩ := List.eq_append_cons_of_mem ho
    have hb : '}' ∉ b := by
      rcases h with h | h
      · exact absurd ho h
      · have e : afterOpenBrace part = b := by
          unfold afterOpenBrace
          rw [hab, List.dropWhile_append_of_pos]
          · simp [List.dropWhile]
          · intro c hc
            have : c ≠ '{' := fun e => ha (e ▸ hc)
            simpa using this
        rwa [e] at h
    have h1 : strstr part ['{'] = some a.length := by
      rw [hab]
      exact strstr_char_append a b '{' ha
    have h2 : part.drop (a.length + 1) = b := by
      rw [hab]
      have : a ++ '{' :: b = (a ++ ['{']) ++ b := by simp
      rw [this]
      exact List.drop_left' (by simp)
    have h3 : strstr b ['}'] = none := (strstr_eq_none_iff _ _).2 (not_infix_singleton hb)
    unfold parseFrame
    simp only [h1, h2, h3]
  · have h1 : strstr part ['{'] = none := (strstr_eq_none_iff _ _).2 (not_infix_singleton ho)
    unfold parseFrame
    simp only [h1]

theorem parseFrames_unbalanced (uninit : List Char) (parts : List (List Char))
    (h : ∃ part ∈ parts, Unbalanced part) : parseFrames uninit parts = none := by
  induction parts with
  | nil =>
      obtain ⟨p, hp, _⟩ := h
      simp at hp
  | cons p ps ih =>
      obtain ⟨q, hq, hu⟩ := h
      cases hpf : parseFrame uninit p with
      | none => simp only [parseFrames, hpf]
      | some f =>
          rcases List.mem_cons.1 hq with rfl | hq'
          · rw [parseFrame_unbalanced uninit q hu] at hpf
            exact absurd hpf (by simp)
          · simp only [parseFrames, hpf, ih ⟨q, hq', hu⟩]

/-- A frame part makes `parseFrame` leave by `exit(1)` exactly when its braces
are unbalanced. -/
theorem parseFrame_eq_none_iff (uninit part : List Char) :
    parseFrame uninit part = none ↔ Unbalanced part := by
  constructor
  · intro h
    by_contra hu
    unfold Unbalanced at hu
    push_neg at hu
    obtain ⟨ho, hc⟩ := hu
    obtain ⟨a, b, hab, ha⟩ := List.eq_append_cons_of_mem ho
    have e : afterOpenBrace part = b := by
      unfold afterOpenBrace
      rw [hab, List.dropWhile_append_of_pos]
      · simp [List.dropWhile]
      · intro c hc
        have : c ≠ '{' := fun e => ha (e ▸ hc)
        simpa using this
    rw [e] at hc
    obtain ⟨b1, b2, hb, hb1⟩ := List.eq_append_cons_of_mem hc
    have h1 : strstr part ['{'] = some a.length := by
      rw [hab]
      exact strstr_char_append a b '{' ha
    have h2 : part.drop (a.length + 1) = b := by
      rw [hab]
      have : a ++ '{' :: b = (a ++ ['{']) ++ b := by simp
      rw [this]
      exact List.drop_left' (by simp)
    have h3 : strstr b ['}'] = some b1.length := by
      rw [hb]
      exact strstr_char_append b1 b2 '}' hb1
    unfold parseFrame at h
    simp only [h1, h2, h3] at h
    exact absurd h (by simp)
  · exact parseFrame_unbalanced uninit part

theorem parseFrames_eq_none_iff (uninit : List Char) (parts : List (List Char)) :
    parseFrames uninit parts = none ↔ ∃ part ∈ parts, Unbalanced part := by
  constructor
  · intro h
    induction parts with
    | nil => simp [parseFrames] at h
    | cons p ps ih =>
        cases hpf : parseFrame uninit p with
        | none => exact ⟨p, List.mem_cons_self _ _, (parseFrame_eq_none_iff uninit p).1 hpf⟩
        | some f =>
            cases hps : parseFrames uninit ps with
            | none =>
                obtain ⟨q, hq, hu⟩ := ih hps
                exact ⟨q, List.mem_cons_of_mem _ hq, hu⟩
            | some fs => simp [parseFrames, hpf, hps] at h
  · exact parseFrames_unbalanced uninit parts

/-- Lines 366-403 on a response with a stack block: the block is dropped when
it does not begin with `frame=`, and otherwise its parts are parsed. -/
theorem parseStackResponse_block (uninit pre block post : List Char)
    (hpre : ¬ ",stack=[".toList <:+: pre ++ ",stack=".toList)
    (hclose : ¬ "]\n".toList <:+: block ++ [']']) :
    parseStackResponse uninit (pre ++ ",stack=[".toList ++ block ++ "]\n".toList ++ post) =
      if strstr block "frame=".toList ≠ some 0 then Parsed.dropped
      else
        match parseFrames uninit
            (split (block.drop "frame=".toList.length) "frame=".toList) with
        | none => Parsed.exited
        | some frames => Parsed.stack frames := by
  have e : pre ++ ",stack=[".toList ++ block ++ "]\n".toList ++ post =
      pre ++ ",stack=[".toList ++ (block ++ "]\n".toList ++ post) := by
    simp only [List.append_assoc]
  have h1 : strstr (pre ++ ",stack=[".toList ++ (block ++ "]\n".toList ++ post))
      ",stack=[".toList = some pre.length :=
    strstr_append_first pre ",stack=[".toList _ (by decide) hpre
  have h2 : (pre ++ ",stack=[".toList ++ (block ++ "]\n".toList ++ post)).drop
      (pre.length + ",stack=[".toList.length) = block ++ "]\n".toList ++ post :=
    List.drop_left' (by simp)
  have h3 : strstr (block ++ "]\n".toList ++ post) "]\n".toList = some block.length :=
    strstr_append_first _ _ _ (by decide) hclose
  have h4 : (block ++ "]\n".toList ++ post).take block.length = block := by
    rw [List.append_assoc]
    exact List.take_left' rfl
  rw [e]
  unfold parseStackResponse
  simp only [h1, h2, h3, h4]

set_option maxRecDepth 100000 in
/-- C8 (counterexample): a response whose only frame record lacks its `}`, and
one whose only frame record lacks its `{`.  In both cases
`logGDBStackResponse` does not return: `parseFrame` terminates the process. -/
theorem logGDBStackResponse_unbalanced_exits :
    (match logGDBStackResponse [] ⟨[], false, 0, false, false⟩ Aggregator.empty
        [ReadResult.data
          "^done,stack=[frame=\x7blevel=\"0\",addr=\"0x1\",func=\"main\"]\n(gdb) \n".toList] with
      | some (Outcome.exited, _) => true
      | _ => false) = true ∧
    (match logGDBStackResponse [] ⟨[], false, 0, false, false⟩ Aggregator.empty
        [ReadResult.data
          "^done,stack=[frame=level=\"0\",addr=\"0x1\",func=\"main\"\x7d]\n(gdb) \n".toList] with
      | some (Outcome.exited, _) => true
      | _ => false) = true := by
  constructor <;> decide

/-- C8 (amended): take a fetched response that shows no program exit and has a
stack block, the text between its first `,stack=[` and the first `]` followed
by a newline.  `logGDBStackResponse` terminates the process with `exit(1)`,
before anything is recorded, exactly when the block begins with `frame=` and
some part after a `frame=` marker has no `{` or has no `}` after its first
`{`.  When the block does not begin with `frame=`, it returns to the sampling
loop with the tables it was called with, whatever the braces are; when the
block begins with `frame=` and every part is balanced, it returns with one
stack recorded. -/
theorem logGDBStackResponse_unbalanced (uninit : List Char) (d : Driver)
    (agg : Aggregator) (pipe : List ReadResult) (n : Nat) (d1 : Driver)
    (rest : List ReadResult) (pre block post : List Char)
    (hfill : fillBufferWithResponse none d pipe = FillResult.returned n d1 rest)
    (hn : n ≠ 0) (hrun : (checkProgramExited d1).programExited = false)
    (hshape : d1.readBuff = pre ++ ",stack=[".toList ++ block ++ "]\n".toList ++ post)
    (hpre : ¬ ",stack=[".toList <:+: pre ++ ",stack=".toList)
    (hclose : ¬ "]\n".toList <:+: block ++ [']']) :
    (logGDBStackResponse uninit d agg pipe = some (Outcome.exited, rest) ↔
        "frame=".toList <+: block ∧
          ∃ part ∈ split (block.drop "frame=".toList.length) "frame=".toList,
            Unbalanced part) ∧
      (¬ "frame=".toList <+: block →
        ∃ d', logGDBStackResponse uninit d agg pipe =
          some (Outcome.returned (d', agg), rest)) ∧
      ("frame=".toList <+: block →
        (∀ part ∈ split (block.drop "frame=".toList.length) "frame=".toList,
          ¬ Unbalanced part) →
        ∃ d' frames, logGDBStackResponse uninit d agg pipe =
          some (Outcome.returned (d', recordStack agg (newStack frames)), rest)) := by
  have hbuf : (checkProgramExited d1).readBuff = d1.readBuff := by
    unfold checkProgramExited
    split
    · split
      · rfl
      · split
        · rfl
        · split <;> rfl
    · rfl
  have hp := parseStackResponse_block uninit pre block post hpre hclose
  rw [← hshape, ← hbuf] at hp
  have hlog : logGDBStackResponse uninit d agg pipe =
      match logStackText uninit agg (checkProgramExited d1).readBuff with
      | Outcome.exited => some (Outcome.exited, rest)
      | Outcome.returned agg' =>
          some (Outcome.returned
            ({ checkProgramExited d1 with
                readBuff := readBuffAfterParse (checkProgramExited d1).readBuff }, agg'),
            rest) := by
    unfold logGDBStackResponse
    simp only [hfill, hn, if_false, hrun, Bool.false_eq_true]
  rw [hlog]
  unfold logStackText
  rw [hp]
  by_cases hf : "frame=".toList <+: block
  · have h0 : strstr block "frame=".toList = some 0 := (strstr_eq_zero_iff _ _).2 hf
    simp only [h0, ne_eq, not_true_eq_false, if_false]
    cases hpf : parseFrames uninit
        (split (block.drop "frame=".toList.length) "frame=".toList) with
    | none =>
        have hu := (parseFrames_eq_none_iff uninit _).1 hpf
        refine ⟨⟨fun _ => ⟨hf, hu⟩, fun _ => rfl⟩, fun h => absurd hf h, ?_⟩
        intro _ hall
        obtain ⟨part, hmem, hbad⟩ := hu
        exact absurd hbad (hall part hmem)
    | some frames =>
        refine ⟨⟨fun h => absurd h (by simp), ?_⟩, fun h => absurd hf h, ?_⟩
        · rintro ⟨_, hu⟩
          rw [(parseFrames_eq_none_iff uninit _).2 hu] at hpf
          exact absurd hpf (by simp)
        · intro _ _
          exact ⟨_, frames, rfl⟩
  · have h0 : strstr block "frame=".toList ≠ some 0 :=
      fun h => hf ((strstr_eq_zero_iff _ _).1 h)
    simp only [h0, ne_eq, not_false_eq_true, if_true]
    refine ⟨⟨fun h => absurd h (by simp), fun h => absurd h.1 hf⟩, fun _ => ⟨_, rfl⟩, ?_⟩
    intro h
    exact absurd h hf

set_option maxRecDepth 100000 in
/-- C8 (witness): the second of two frame records lacks its `}`, and the
process is terminated. -/
theorem logGDBStackResponse_unbalanced_witness :
    logGDBStackResponse [] ⟨[], false, 0, false, false⟩
        (recordAll [[⟨1, "main".toList, [], -1⟩]])
        [ReadResult.data
          "^done,stack=[frame=\x7baddr=\"0x1\"\x7d,frame=\x7baddr=\"0x2\"]\n(gdb) \n".toList] =
      some (Outcome.exited, []) :=
  (logGDBStackResponse_unbalanced [] ⟨[], false, 0, false, false⟩ _
    [ReadResult.data
      "^done,stack=[frame=\x7baddr=\"0x1\"\x7d,frame=\x7baddr=\"0x2\"]\n(gdb) \n".toList]
    "^done,stack=[frame=\x7baddr=\"0x1\"\x7d,frame=\x7baddr=\"0x2\"]\n(gdb) \n".toList.length
    ⟨"^done,stack=[frame=\x7baddr=\"0x1\"\x7d,frame=\x7baddr=\"0x2\"]\n(gdb) \n".toList, true, 1,
      false, false⟩ []
    "^done".toList "frame=\x7baddr=\"0x1\"\x7d,frame=\x7baddr=\"0x2\"".toList "(gdb) \n".toList
    (by decide) (by decide) (by decide) (by decide) (by decide) (by decide)).1.2
    ⟨by decide, "\x7baddr=\"0x2\"".toList, by decide, by decide⟩

end WallClockProfiler

namespace Wcprof

open GdbPipe WallClockProfiler

/-! ## `FetchGdbResponse`: the response up to the terminator -/

theorem find_isSome_iff (s p : List Char) : (find s p).isSome = true ↔ p <:+: s := by
  unfold find
  rw [Option.isSome_iff_ne_none, ne_eq, strstr_eq_none_iff, not_not]

theorem terminationSeen_mono (b s : List Char) (h : b <:+: s)
    (hb : terminationSeen b = true) : terminationSeen s = true := by
  unfold terminationSeen at hb ⊢
  simp only [Bool.or_eq_true, Bool.and_eq_true, find_isSome_iff] at hb ⊢
  rcases hb with (((⟨h1, h2⟩ | h3) | h4) | h5) | h6
  · exact Or.inl (Or.inl (Or.inl (Or.inl ⟨h1.trans h, h2.trans h⟩)))
  · exact Or.inl (Or.inl (Or.inl (Or.inr (h3.trans h))))
  · exact Or.inl (Or.inl (Or.inr (h4.trans h)))
  · exact Or.inl (Or.inr (h5.trans h))
  · exact Or.inr (h6.trans h)

/-- The first occurrence found in a string is also the first occurrence in any
extension of the string. -/
theorem strstr_append_of_some (h n t : List Char) (i : Nat) (hs : strstr h n = some i) :
    strstr (h ++ t) n = some i := by
  induction h generalizing i with
  | nil =>
      cases n with
      | nil =>
          simp only [strstr, List.isEmpty_nil, if_true, Option.some.injEq] at hs
          subst hs
          exact (strstr_eq_zero_iff _ _).2 (List.nil_prefix)
      | cons a r => simp [strstr] at hs
  | cons c cs ih =>
      by_cases hp : n <+: c :: cs
      · have hi : i = 0 := by
          have := (strstr_eq_zero_iff (c :: cs) n).2 hp
          rw [this] at hs
          exact (Option.some.inj hs).symm
        subst hi
        exact (strstr_eq_zero_iff _ _).2 (hp.trans (List.prefix_append _ _))
      · have hp' : ¬ n.isPrefixOf (c :: cs) = true :=
          fun h' => hp (List.isPrefixOf_iff_prefix.1 h')
        rw [strstr_cons, if_neg hp'] at hs
        cases hr : strstr cs n with
        | none => simp [hr] at hs
        | some j =>
            simp only [hr, Option.map_some', Option.some.injEq] at hs
            subst hs
            have hlen := (strstr_some_spec cs n j hr).2.1
            have hnp : ¬ n.isPrefixOf (c :: (cs ++ t)) = true := by
              intro h'
              apply hp
              have h1 : n <+: (c :: cs) ++ t := by simpa using List.isPrefixOf_iff_prefix.1 h'
              exact List.prefix_of_prefix_length_le h1 (List.prefix_append _ _)
                (by simp only [List.length_cons]; omega)
            rw [List.cons_append, strstr_cons, if_neg hnp, ih j hr]
            rfl

theorem infix_append_replicate (x a : List Char) (c : Char) (n : Nat) (hx : x ≠ [])
    (hc : c ∉ x) (h : x <:+: a ++ List.replicate n c) : x <:+: a := by
  induction n with
  | zero => simpa using h
  | succ m ih =>
      apply ih
      rw [List.replicate_succ', ← List.append_assoc] at h
      rcases infix_split_at_char x _ [] c hc h with h1 | h1
      · exact h1
      · exact absurd (List.infix_nil.1 h1) hx

theorem cString_append_replicate (s : List Char) (hs : '\x00' ∉ s) (n : Nat) :
    cString (s ++ List.replicate n '\x00') = s := by
  unfold cString
  rw [List.takeWhile_append_of_pos]
  · cases n with
    | zero => simp
    | succ m => simp [List.replicate_succ, List.takeWhile]
  · intro c hc
    have : c ≠ '\x00' := fun e => hs (e ▸ hc)
    simpa using this

theorem cString_of_no_nul (s : List Char) (hs : '\x00' ∉ s) : cString s = s := by
  have := cString_append_replicate s hs 0
  simpa using this

/-- The cut of lines 70-79 (and 113-122) on a buffer `b` that contains the
terminator, followed by the zero bytes of a failed `read` or by nothing: the
response is the buffer up to the end of the first terminator, and `nextData`
holds the other bytes of the buffer when there is no NUL byte among them. -/
theorem cutAtEnd_found (x b pad : List Char) (i : Nat) (hx : x ≠ [])
    (hi : strstr b x = some i) (hnul : '\x00' ∉ b.drop (i + x.length))
    (hpad : pad = [] ∨ ∃ n, pad = List.replicate n '\x00') :
    cutAtEnd x (b ++ pad) = some (b.take (i + x.length), b.drop (i + x.length)) := by
  have hlen := (strstr_some_spec b x i hi).2.1
  have hfind : find (b ++ pad) x = some i := strstr_append_of_some b x pad i hi
  have htake : (b ++ pad).take (i + x.length) = b.take (i + x.length) :=
    List.take_append_of_le_length hlen
  have hdrop : (b ++ pad).drop (i + x.length) = b.drop (i + x.length) ++ pad :=
    List.drop_append_of_le_length hlen
  have hcs : cString (b.drop (i + x.length) ++ pad) = b.drop (i + x.length) := by
    rcases hpad with rfl | ⟨n, rfl⟩
    · rw [List.append_nil]
      exact cString_of_no_nul _ hnul
    · exact cString_append_replicate _ hnul n
  unfold cutAtEnd
  simp only [hx, if_false, hfind, htake, hdrop, hcs]

theorem cutAtEnd_of_not_infix (x b pad : List Char) (hx : x ≠ []) (hb : ¬ x <:+: b)
    (hnul : '\x00' ∉ x) (hpad : pad = [] ∨ ∃ n, pad = List.replicate n '\x00') :
    cutAtEnd x (b ++ pad) = none := by
  have hno : ¬ x <:+: b ++ pad := by
    rcases hpad with rfl | ⟨n, rfl⟩
    · simpa using hb
    · exact fun h => hb (infix_append_replicate x b _ n hx hnul h)
  have : find (b ++ pad) x = none := (strstr_eq_none_iff _ _).2 hno
  unfold cutAtEnd
  simp only [hx, if_false, this]

end Wcprof
namespace Wcprof

open GdbPipe WallClockProfiler

theorem infix_of_strstr_some (h n : List Char) (i : Nat) (hs : strstr h n = some i) :
    n <:+: h := by
  by_contra hn
  rw [(strstr_eq_none_iff h n).2 hn] at hs
  exact absurd hs (by simp)

theorem allBytes_append (a b : List ReadResult) :
    allBytes (a ++ b) = allBytes a ++ allBytes b := by
  induction a with
  | nil => rfl
  | cons q qs ih =>
      cases q with
      | data bytes => simp [allBytes, ih]
      | wouldBlock => simpa [allBytes] using ih
      | error => simpa [allBytes] using ih

/-- On a script of would-block results the `for` loop of `FetchGdbResponse`
uses one iteration per read and returns when none is left. -/
theorem fetchLoop_would_block (x : List Char) (hnul : '\x00' ∉ x) (k : Nat) (pf : Bool)
    (rest : List ReadResult) :
    fetchLoop x k [] pf (List.replicate k ReadResult.wouldBlock ++ rest) =
      FetchResult.returned [] [] pf rest := by
  have hcut : cutAtEnd x ([] ++ List.replicate extension '\x00') = none := by
    by_cases hx : x = []
    · simp [cutAtEnd, hx]
    · exact cutAtEnd_of_not_infix x [] _ hx (by simpa using hx) hnul (Or.inr ⟨_, rfl⟩)
  induction k with
  | zero => simp [fetchLoop]
  | succ m ih =>
      rw [List.replicate_succ, List.cons_append]
      unfold fetchLoop
      simp only [readPipe, hcut]
      exact ih

/-- After a read of `0` bytes the zero bytes that were appended for the read
stay in `gdbResponse`. -/
theorem fetchLoop_zero_length_read (x : List Char) (k : Nat) (b : List Char) (pf : Bool)
    (rest : List ReadResult) :
    fetchLoop x (k + 1) b pf (ReadResult.data [] :: rest) =
      fetchLoop x k (b ++ List.replicate extension '\x00') pf rest := by
  rw [fetchLoop]
  simp [readPipe]

theorem not_infix_replicate_append (x t : List Char) (c : Char) (n : Nat) (hc : c ∉ x)
    (ht : ¬ x <:+: t) : ¬ x <:+: List.replicate n c ++ t := by
  induction n with
  | zero => simpa using ht
  | succ m ih =>
      intro h
      rw [List.replicate_succ, List.cons_append] at h
      rcases infix_split_at_char x [] _ c hc h with h1 | h1
      · apply ht
        rw [List.infix_nil] at h1
        rw [h1]
        exact List.nil_infix
      · exact ih h1

/-- The loop returns the stream up to the end of its first terminator at the
first read `r` that leaves the terminator in the buffer, provided no earlier
data read left a termination signature there. -/
theorem fetchLoop_finds (x : List Char) (pf : Bool) (hx : x ≠ []) (hxnul : '\x00' ∉ x)
    (before : List ReadResult) (r : ReadResult) (after : List ReadResult)
    (k : Nat) (b : List Char) (i : Nat)
    (hplain : ∀ q ∈ before ++ [r], PlainRead q) (hlen : before.length < k)
    (hfirst : before = [] ∨ ¬ x <:+: b ++ allBytes before)
    (hi : strstr (b ++ allBytes (before ++ [r])) x = some i)
    (hsig : (∃ bytes, ReadResult.data bytes ∈ before) →
      terminationSeen (b ++ allBytes before) = false)
    (hnul : '\x00' ∉ (b ++ allBytes (before ++ [r])).drop (i + x.length)) :
    fetchLoop x k b pf (before ++ r :: after) =
      FetchResult.returned ((b ++ allBytes (before ++ [r])).take (i + x.length))
        ((b ++ allBytes (before ++ [r])).drop (i + x.length)) pf after := by
  induction before generalizing k b with
  | nil =>
      obtain ⟨k', rfl⟩ : ∃ k', k = k' + 1 := ⟨k - 1, by simp at hlen; omega⟩
      have hr : PlainRead r := hplain r (by simp)
      rw [List.nil_append] at hi hnul ⊢
      rw [List.nil_append]
      cases r with
      | error => exact absurd hr (by simp [PlainRead])
      | wouldBlock =>
          have hS : b ++ allBytes [ReadResult.wouldBlock] = b := by simp [allBytes]
          rw [hS] at hi hnul ⊢
          have hread : readPipe extension (ReadResult.wouldBlock :: after) =
              some (ReadResult.wouldBlock, after) := rfl
          have h1 := cutAtEnd_found x b (List.replicate extension '\x00') i hx hi hnul
            (Or.inr ⟨_, rfl⟩)
          simp only [fetchLoop, hread, h1]
      | data bytes =>
          obtain ⟨hbne, hblen⟩ : bytes ≠ [] ∧ bytes.length ≤ extension := hr
          have hS : b ++ allBytes [ReadResult.data bytes] = b ++ bytes := by simp [allBytes]
          rw [hS] at hi hnul ⊢
          have hread : readPipe extension (ReadResult.data bytes :: after) =
              some (ReadResult.data bytes, after) := by
            simp [readPipe, hblen]
          have hemp : bytes.isEmpty = false := by
            cases bytes with
            | nil => exact absurd rfl hbne
            | cons a t => rfl
          have h1 := cutAtEnd_found x (b ++ bytes) [] i hx hi hnul (Or.inl rfl)
          rw [List.append_nil] at h1
          simp only [fetchLoop, hread, hemp, Bool.false_eq_true, if_false, h1]
  | cons q qs ih =>
      obtain ⟨k', rfl⟩ : ∃ k', k = k' + 1 := ⟨k - 1, by simp at hlen; omega⟩
      have hq : PlainRead q := hplain q (by simp)
      have hqs : ∀ p ∈ qs ++ [r], PlainRead p := fun p hp =>
        hplain p (by
          rw [List.cons_append]
          exact List.mem_cons_of_mem _ hp)
      have hlen' : qs.length < k' := by simp at hlen; omega
      have hno : ¬ x <:+: b ++ allBytes (q :: qs) := by
        rcases hfirst with h | h
        · exact absurd h (by simp)
        · exact h
      rw [List.cons_append]
      cases q with
      | error => exact absurd hq (by simp [PlainRead])
      | wouldBlock =>
          have hS : ∀ l, allBytes (ReadResult.wouldBlock :: l) = allBytes l := fun _ => rfl
          rw [List.cons_append, hS] at hi hnul ⊢
          rw [hS] at hno
          have hread : readPipe extension (ReadResult.wouldBlock :: (qs ++ r :: after)) =
              some (ReadResult.wouldBlock, qs ++ r :: after) := rfl
          have hb : ¬ x <:+: b := fun h => hno (h.trans (List.prefix_append _ _).isInfix)
          have h1 := cutAtEnd_of_not_infix x b (List.replicate extension '\x00') hx hb hxnul
            (Or.inr ⟨_, rfl⟩)
          have h3 := ih k' b hqs hlen' (Or.inr hno) hi
            (fun ⟨bytes, hm⟩ => by
              have := hsig ⟨bytes, List.mem_cons_of_mem _ hm⟩
              rwa [hS] at this) hnul
          simp only [fetchLoop, hread, h1, h3]
      | data bytes =>
          obtain ⟨hbne, hblen⟩ : bytes ≠ [] ∧ bytes.length ≤ extension := hq
          have hS : ∀ l, b ++ allBytes (ReadResult.data bytes :: l) =
              (b ++ bytes) ++ allBytes l := fun l => by simp [allBytes]
          rw [List.cons_append, hS] at hi hnul ⊢
          rw [hS] at hno
          have hread : readPipe extension (ReadResult.data bytes :: (qs ++ r :: after)) =
              some (ReadResult.data bytes, qs ++ r :: after) := by
            simp [readPipe, hblen]
          have hemp : bytes.isEmpty = false := by
            cases bytes with
            | nil => exact absurd rfl hbne
            | cons a t => rfl
          have hb : ¬ x <:+: b ++ bytes :=
            fun h => hno (h.trans (List.prefix_append _ _).isInfix)
          have h1 := cutAtEnd_of_not_infix x (b ++ bytes) [] hx hb hxnul (Or.inl rfl)
          rw [List.append_nil] at h1
          have hall : terminationSeen ((b ++ bytes) ++ allBytes qs) = false := by
            have := hsig ⟨bytes, List.mem_cons_self _ _⟩
            rwa [hS] at this
          have hts : terminationSeen (b ++ bytes) = false := by
            rw [Bool.eq_false_iff]
            intro ht
            have := terminationSeen_mono (b ++ bytes) ((b ++ bytes) ++ allBytes qs)
              (List.prefix_append _ _).isInfix ht
            rw [hall] at this
            exact absurd this (by simp)
          have h3 := ih k' (b ++ bytes) hqs hlen' (Or.inr hno) hi (fun _ => hall) hnul
          simp only [fetchLoop, hread, hemp, Bool.false_eq_true, if_false, h1, hts, h3]

set_option maxRecDepth 100000 in
/-- C9 (counterexample): five streams that hold the terminator `(gdb)` (in
the last one, a NUL byte as terminator) for which `FetchGdbResponse` does not
return the shortest prefix that ends with it, or loses bytes.
1. GDB's exit notice arrives in one read and the prompt in the next: the call
   returns at the first read with the notice alone.
2. A read of `0` bytes comes first: the 65536 zero bytes appended for that
   read stay in the response, before the prompt.
3. A NUL byte follows the prompt in the same read: the bytes after the NUL are
   not kept for the next call.
4. The prompt arrives after 900000 reads that would block: the call has
   returned an empty response before.
5. The terminator is a NUL byte and the first read would block: the call
   returns a zero byte of its own buffer, with the stream unread. -/
theorem FetchGdbResponse_returns_early_on_exit_notice :
    (FetchGdbResponse "(gdb)".toList [] false
        [ReadResult.data "[Inferior 1 (process 5) exited normally]\n".toList,
          ReadResult.data "(gdb) \n".toList] =
      FetchResult.returned "[Inferior 1 (process 5) exited normally]\n".toList [] true
        [ReadResult.data "(gdb) \n".toList] ∧
      "(gdb)".toList <:+:
        allBytes [ReadResult.data "[Inferior 1 (process 5) exited normally]\n".toList,
          ReadResult.data "(gdb) \n".toList] ∧
      ¬ "(gdb)".toList <:+ "[Inferior 1 (process 5) exited normally]\n".toList) ∧
    FetchGdbResponse "(gdb)".toList [] false
        [ReadResult.data [], ReadResult.data "(gdb) \n".toList] =
      FetchResult.returned (List.replicate 65536 '\x00' ++ "(gdb)".toList) " \n".toList
        false [] ∧
    FetchGdbResponse "(gdb)".toList [] false [ReadResult.data "(gdb) \x00abc".toList] =
      FetchResult.returned "(gdb)".toList " ".toList false [] ∧
    FetchGdbResponse "(gdb)".toList [] false
        (List.replicate 900000 ReadResult.wouldBlock ++ [ReadResult.data "(gdb) \n".toList]) =
      FetchResult.returned [] [] false [ReadResult.data "(gdb) \n".toList] ∧
    FetchGdbResponse ['\x00'] [] false
        [ReadResult.wouldBlock, ReadResult.data "ab\x00cd".toList] =
      FetchResult.returned ['\x00'] [] false [ReadResult.data "ab\x00cd".toList] := by
  refine ⟨⟨?_, ?_, ?_⟩, ?_, ?_, ?_, ?_⟩
  · decide
  · decide
  · decide
  · have hno : ¬ "(gdb)".toList <:+:
        List.replicate extension '\x00' ++ "(gdb)".toList.dropLast :=
      not_infix_replicate_append _ _ _ _ (by decide) (by decide)
    have hfind : strstr (List.replicate extension '\x00' ++ "(gdb)".toList ++ " \n".toList)
        "(gdb)".toList = some (List.replicate extension '\x00').length :=
      strstr_append_first _ _ _ (by decide) hno
    have hcut := cutAtEnd_found "(gdb)".toList
      (List.replicate extension '\x00' ++ "(gdb)".toList ++ " \n".toList) []
      (List.replicate extension '\x00').length (by decide) hfind
      (by
        rw [List.append_assoc, List.drop_append]
        decide)
      (Or.inl rfl)
    rw [List.append_nil, List.append_assoc, List.take_append, List.drop_append] at hcut
    have e : FetchGdbResponse "(gdb)".toList [] false
        [ReadResult.data [], ReadResult.data "(gdb) \n".toList] =
        fetchLoop "(gdb)".toList (899998 + 1) ([] ++ List.replicate extension '\x00') false
          [ReadResult.data "(gdb) \n".toList] :=
      fetchLoop_zero_length_read _ _ _ _ _
    rw [e, fetchLoop]
    have hread : readPipe extension [ReadResult.data "(gdb) \n".toList] =
        some (ReadResult.data "(gdb) \n".toList, []) := by decide
    have hb : [] ++ List.replicate extension '\x00' ++ "(gdb) \n".toList =
        List.replicate extension '\x00' ++ ("(gdb)".toList ++ " \n".toList) := by
      rw [List.nil_append]
      rfl
    simp only [hread, hb, hcut]
    rfl
  · decide
  · exact fetchLoop_would_block "(gdb)".toList (by decide) 900000 false _
  · decide

/-- C9 (amended): let the not-yet-consumed stream be `nextData` followed by the
bytes of the read results, let `X` be a non-empty terminator without NUL byte,
and let `r` be the first read after which the accumulated bytes contain `X`
(`before` are the reads made until then, `after` the later ones).  If `r` and
the reads before it number at most 900000 and each of them brings between 1
and 65536 bytes or would block, if the reads before `r` have brought no
termination signature (when one of them brought data), and if no NUL byte
follows the first `X` in the bytes accumulated with `r`, then
`FetchGdbResponse(X)` returns the shortest prefix of the stream that ends with
`X`, and the bytes it leaves for the next call (the new `nextData` and the
unread results `after`) are exactly the stream after that prefix.  Nothing is
asked of the bytes that come after `X` in later reads. -/
theorem FetchGdbResponse_returns_shortest_prefix (x nextData : List Char) (pf : Bool)
    (before : List ReadResult) (r : ReadResult) (after : List ReadResult) (i : Nat)
    (hx : x ≠ []) (hxnul : '\x00' ∉ x)
    (hplain : ∀ q ∈ before ++ [r], PlainRead q) (hlen : before.length < maxAttempts)
    (hfirst : before = [] ∨ ¬ x <:+: nextData ++ allBytes before)
    (hi : strstr (nextData ++ allBytes (before ++ [r])) x = some i)
    (hsig : (∃ bytes, ReadResult.data bytes ∈ before) →
      terminationSeen (nextData ++ allBytes before) = false)
    (hnul : '\x00' ∉ (nextData ++ allBytes (before ++ [r])).drop (i + x.length)) :
    ∃ resp nd, FetchGdbResponse x nextData pf (before ++ r :: after) =
        FetchResult.returned resp nd pf after ∧
      resp <+: nextData ++ allBytes (before ++ r :: after) ∧ x <:+ resp ∧
      (∀ p, p <+: nextData ++ allBytes (before ++ r :: after) → x <:+ p →
        resp.length ≤ p.length) ∧
      resp ++ (nd ++ allBytes after) = nextData ++ allBytes (before ++ r :: after) := by
  have h1 := fetchLoop_finds x pf hx hxnul before r after maxAttempts nextData i hplain hlen
    hfirst hi hsig hnul
  have hS : nextData ++ allBytes (before ++ r :: after) =
      (nextData ++ allBytes (before ++ [r])) ++ allBytes after := by
    have : before ++ r :: after = (before ++ [r]) ++ after := by simp
    rw [this, allBytes_append, List.append_assoc]
  have hi' : strstr (nextData ++ allBytes (before ++ r :: after)) x = some i := by
    rw [hS]
    exact strstr_append_of_some _ _ _ _ hi
  obtain ⟨s1, s2, s3⟩ := strstr_some_spec _ _ _ hi'
  have s2' := (strstr_some_spec _ _ _ hi).2.1
  have htake : (nextData ++ allBytes (before ++ [r])).take (i + x.length) =
      (nextData ++ allBytes (before ++ r :: after)).take (i + x.length) := by
    rw [hS, List.take_append_of_le_length s2']
  refine ⟨_, _, h1, ?_, ?_, ?_, ?_⟩
  · rw [htake]
    exact List.take_prefix _ _
  · rw [htake, List.take_add]
    have : List.take x.length (List.drop i (nextData ++ allBytes (before ++ r :: after))) = x :=
      (List.prefix_iff_eq_take.1 s1).symm
    rw [this]
    exact List.suffix_append _ _
  · intro p hp hxp
    rw [htake, List.length_take, Nat.min_eq_left s2]
    by_contra hlt
    obtain ⟨q, rfl⟩ := hxp
    obtain ⟨t, ht⟩ := hp
    have hq : q.length < i := by
      simp only [List.length_append] at hlt
      omega
    apply s3 q.length hq
    rw [← ht, List.append_assoc, List.drop_left]
    exact List.prefix_append _ _
  · rw [hS, ← List.append_assoc, List.take_append_drop]

set_option maxRecDepth 100000 in
/-- C9 (witness): after a would-block, one read brings two prompts with GDB's
exit notice between them, and the read that follows brings a NUL byte; the
first fetch returns up to the first prompt and keeps the rest. -/
theorem FetchGdbResponse_returns_shortest_prefix_witness :
    ∃ resp nd, FetchGdbResponse "(gdb)".toList "^running\n".toList false
        ([ReadResult.wouldBlock] ++
          ReadResult.data "(gdb) \n[Inferior 1 (process 5) exited normally]\n(gdb) \n".toList ::
          [ReadResult.data "\x00".toList]) =
        FetchResult.returned resp nd false [ReadResult.data "\x00".toList] ∧
      resp <+: "^running\n".toList ++ allBytes ([ReadResult.wouldBlock] ++
          ReadResult.data "(gdb) \n[Inferior 1 (process 5) exited normally]\n(gdb) \n".toList ::
          [ReadResult.data "\x00".toList]) ∧
      "(gdb)".toList <:+ resp ∧
      (∀ p, p <+: "^running\n".toList ++ allBytes ([ReadResult.wouldBlock] ++
          ReadResult.data "(gdb) \n[Inferior 1 (process 5) exited normally]\n(gdb) \n".toList ::
          [ReadResult.data "\x00".toList]) →
        "(gdb)".toList <:+ p → resp.length ≤ p.length) ∧
      resp ++ (nd ++ allBytes [ReadResult.data "\x00".toList]) =
        "^running\n".toList ++ allBytes ([ReadResult.wouldBlock] ++
          ReadResult.data "(gdb) \n[Inferior 1 (process 5) exited normally]\n(gdb) \n".toList ::
          [ReadResult.data "\x00".toList]) :=
  FetchGdbResponse_returns_shortest_prefix "(gdb)".toList "^running\n".toList false
    [ReadResult.wouldBlock]
    (ReadResult.data "(gdb) \n[Inferior 1 (process 5) exited normally]\n(gdb) \n".toList)
    [ReadResult.data "\x00".toList] 9
    (by decide) (by decide) (by decide) (by decide) (by decide) (by decide)
    (fun _ => by decide) (by decide)

end Wcprof

namespace WallClockProfiler

open GdbPipe

/-! ## `fillBufferWithResponse`: when it returns -/

theorem found_iff (hay needle : List Char) : found hay needle = true ↔ needle <:+: hay := by
  unfold found
  rw [Option.isSome_iff_ne_none, ne_eq, strstr_eq_none_iff, not_not]

theorem responseComplete_iff (w : Option (List Char)) (buf : List Char) :
    responseComplete w buf = true ↔
      "(gdb)".toList <:+: buf ∧ ∀ a, w = some a → a <:+: buf := by
  unfold responseComplete
  cases w with
  | none => simp [found_iff]
  | some a => simp [found_iff]

theorem keepTail_length_lt (bytes : List Char) :
    (keepTail bytes).length < READ_BUFF_SIZE - 1 := by
  unfold keepTail
  split
  · rename_i h
    simp only [List.length_drop, READ_BUFF_SIZE, BUFF_TAIL_SIZE] at h ⊢
    omega
  · rename_i h
    omega

theorem keepTail_suffix (bytes : List Char) : keepTail bytes <:+ bytes := by
  unfold keepTail
  split
  · exact List.drop_suffix _ _
  · exact List.suffix_refl _

theorem cString_initial (bytes : List Char) : cString bytes <+: bytes :=
  List.takeWhile_prefix _

/-- One `read` that asks for at least one byte shortens the script, keeps its
bytes, and introduces no error. -/
theorem read_spec (count : Nat) (hc : 0 < count) (pipe : List ReadResult) (r : ReadResult)
    (rest : List ReadResult) (h : readPipe count pipe = some (r, rest)) :
    scriptSize rest < scriptSize pipe ∧
      (ReadResult.error ∉ pipe → r ≠ ReadResult.error ∧ ReadResult.error ∉ rest) ∧
      (∀ got, r = ReadResult.data got →
        got ++ allBytes rest = allBytes pipe ∧ got.length ≤ count) ∧
      (r = ReadResult.wouldBlock → allBytes rest = allBytes pipe) := by
  cases pipe with
  | nil => simp [readPipe] at h
  | cons x xs =>
      cases x with
      | data bytes =>
          by_cases hl : bytes.length ≤ count
          · simp only [readPipe, hl, if_true, Option.some.injEq, Prod.mk.injEq] at h
            obtain ⟨rfl, rfl⟩ := h
            refine ⟨by simp [scriptSize], ?_, ?_, ?_⟩
            · intro he
              simp only [List.mem_cons, not_or] at he
              exact ⟨by simp, he.2⟩
            · intro got hg
              simp only [ReadResult.data.injEq] at hg
              subst hg
              exact ⟨rfl, hl⟩
            · intro hw
              simp at hw
          · simp only [readPipe, hl, if_false, Option.some.injEq, Prod.mk.injEq] at h
            obtain ⟨rfl, rfl⟩ := h
            refine ⟨?_, ?_, ?_, ?_⟩
            · simp only [scriptSize, List.length_drop]
              omega
            · intro he
              simp only [List.mem_cons, not_or] at he
              refine ⟨by simp, ?_⟩
              simp only [List.mem_cons, not_or]
              exact ⟨by simp, he.2⟩
            · intro got hg
              simp only [ReadResult.data.injEq] at hg
              subst hg
              refine ⟨?_, ?_⟩
              · simp only [allBytes]
                rw [← List.append_assoc, List.take_append_drop]
              · simp only [List.length_take]
                omega
            · intro hw
              simp at hw
      | wouldBlock =>
          simp only [readPipe, Option.some.injEq, Prod.mk.injEq] at h
          obtain ⟨rfl, rfl⟩ := h
          refine ⟨by simp [scriptSize], ?_, ?_, ?_⟩
          · intro he
            simp only [List.mem_cons, not_or] at he
            exact ⟨by simp, he.2⟩
          · intro got hg
            simp at hg
          · intro _
            rfl
      | error =>
          simp only [readPipe, Option.some.injEq, Prod.mk.injEq] at h
          obtain ⟨rfl, rfl⟩ := h
          refine ⟨by simp [scriptSize], ?_, ?_, ?_⟩
          · intro he
            simp at he
          · intro got hg
            simp at hg
          · intro hw
            simp at hw

theorem read_cons_ne_none (count : Nat) (r : ReadResult) (pipe : List ReadResult) :
    readPipe count (r :: pipe) ≠ none := by
  cases r with
  | data bytes =>
      by_cases hl : bytes.length ≤ count
      · simp [readPipe, hl]
      · simp [readPipe, hl]
  | wouldBlock => simp [readPipe]
  | error => simp [readPipe]

/-- One unfolding of the loop on a non-empty script. -/
theorem fillLoop_step (w : Option (List Char)) (fuel : Nat) (bytes : List Char) (d : Driver)
    (r : ReadResult) (pipe : List ReadResult) :
    fillLoop w (fuel + 1) bytes d (r :: pipe) =
      match readPipe ((READ_BUFF_SIZE - 1) - (keepTail bytes).length) (r :: pipe) with
      | none => FillResult.waiting (keepTail bytes) (driverAtRead bytes d)
      | some (ReadResult.wouldBlock, rest) =>
          fillLoop w fuel (keepTail bytes) (driverAtRead bytes d) rest
      | some (ReadResult.error, rest) =>
          FillResult.returned (keepTail bytes).length (driverAtRead bytes d) rest
      | some (ReadResult.data got, rest) =>
          if got.isEmpty then fillLoop w fuel (keepTail bytes) (driverAtRead bytes d) rest
          else if responseComplete w (cString (keepTail bytes ++ got)) then
            FillResult.returned (keepTail bytes ++ got).length
              (driverAfterData (keepTail bytes ++ got) (driverAtRead bytes d)) rest
          else if decide (10 < (keepTail bytes ++ got).length) && !d.detatchJustSent &&
              found (cString (keepTail bytes ++ got)) "thread-group-exited".toList then
            FillResult.returned (keepTail bytes ++ got).length
              { driverAfterData (keepTail bytes ++ got) (driverAtRead bytes d) with
                programExited := true } rest
          else
            fillLoop w fuel (keepTail bytes ++ got)
              (driverAfterData (keepTail bytes ++ got) (driverAtRead bytes d)) rest := by
  rfl

end WallClockProfiler
namespace WallClockProfiler

open GdbPipe

end WallClockProfiler
namespace WallClockProfiler

open GdbPipe

end WallClockProfiler

namespace WallClockProfiler

open GdbPipe

/-! ## Attempt ceilings of the two fetch loops -/

theorem toChar8_succ (k : Int) : toChar8 (toChar8 k + 1) = toChar8 (k + 1) := by
  unfold toChar8
  omega

/-- On a script of `n` would-block results the loop of `fillBufferWithResponse`
makes `n` reads and is still waiting: the only trace of the attempts is the
wrapped `char` counter. -/
theorem fillLoop_would_block (w : Option (List Char)) (n fuel : Nat) (d : Driver) (k : Int)
    (hf : n < fuel) (hk : d.numReadAttempts = toChar8 k) :
    fillLoop w fuel [] d (List.replicate n ReadResult.wouldBlock) =
      FillResult.waiting [] { d with numReadAttempts := toChar8 (k + n) } := by
  induction n generalizing fuel d k with
  | zero =>
      obtain ⟨f, rfl⟩ : ∃ f, fuel = f + 1 := ⟨fuel - 1, by omega⟩
      simp only [List.replicate, fillLoop, Nat.cast_zero, add_zero]
      rw [← hk]
  | succ m ih =>
      obtain ⟨f, rfl⟩ : ∃ f, fuel = f + 1 := ⟨fuel - 1, by omega⟩
      rw [List.replicate_succ, fillLoop_step]
      have hkt : keepTail ([] : List Char) = [] := by
        simp [keepTail, READ_BUFF_SIZE]
      simp only [readPipe, hkt]
      have hd : driverAtRead [] d = { d with numReadAttempts := toChar8 (k + 1) } := by
        simp only [driverAtRead, READ_BUFF_SIZE, List.length_nil]
        rw [hk, toChar8_succ]
        simp
      rw [hd, ih f _ (k + 1) (by omega) rfl]
      simp only [Nat.cast_add, Nat.cast_one, FillResult.waiting.injEq, true_and]
      congr 2
      omega

theorem scriptSize_replicate_wouldBlock (n : Nat) :
    scriptSize (List.replicate n ReadResult.wouldBlock) = n := by
  induction n with
  | zero => rfl
  | succ m ih =>
      rw [List.replicate_succ]
      simp only [scriptSize, ih]
      omega

theorem readPipe_length (count : Nat) (pipe : List ReadResult) (r : ReadResult)
    (rest : List ReadResult) (h : readPipe count pipe = some (r, rest)) :
    pipe.length ≤ rest.length + 1 := by
  cases pipe with
  | nil => simp [readPipe] at h
  | cons x xs =>
      cases x with
      | data bytes =>
          by_cases hl : bytes.length ≤ count
          · simp only [readPipe, hl, if_true, Option.some.injEq, Prod.mk.injEq] at h
            obtain ⟨_, rfl⟩ := h
            simp
          · simp only [readPipe, hl, if_false, Option.some.injEq, Prod.mk.injEq] at h
            obtain ⟨_, rfl⟩ := h
            simp
      | wouldBlock =>
          simp only [readPipe, Option.some.injEq, Prod.mk.injEq] at h
          obtain ⟨_, rfl⟩ := h
          simp
      | error =>
          simp only [readPipe, Option.some.injEq, Prod.mk.injEq] at h
          obtain ⟨_, rfl⟩ := h
          simp

end WallClockProfiler

namespace Wcprof

open GdbPipe

/-- The `for` loop of `FetchGdbResponse` ends by itself when the script answers
as many reads as it has iterations left. -/
theorem fetchLoop_bounded (x : List Char) (k : Nat) (g : List Char) (pf : Bool)
    (pipe : List ReadResult) (h : k ≤ pipe.length) (g' : List Char) (k' : Nat) :
    fetchLoop x k g pf pipe ≠ FetchResult.waiting g' k' := by
  induction k generalizing g pf pipe with
  | zero => simp [fetchLoop]
  | succ m ih =>
      cases hr : readPipe extension pipe with
      | none =>
          cases pipe with
          | nil => simp at h
          | cons r rs => exact absurd hr (WallClockProfiler.read_cons_ne_none _ _ _)
      | some p =>
          obtain ⟨res, rest⟩ := p
          have hl := WallClockProfiler.readPipe_length _ _ _ _ hr
          have hm : m ≤ rest.length := by omega
          unfold fetchLoop
          rw [hr]
          cases res with
          | data got =>
              simp only
              split
              · exact ih _ _ _ hm
              · split
                · simp
                · split
                  · simp
                  · exact ih _ _ _ hm
          | wouldBlock =>
              simp only
              split
              · simp
              · exact ih _ _ _ hm
          | error =>
              simp only
              split <;> simp

end Wcprof

namespace WallClockProfiler

open GdbPipe

/-- C11 (claim: each fetch loop returns after at most a fixed number of read
attempts).  `fillBufferWithResponse` has no ceiling: for every `n`, after `n`
reads that would block it has not returned and waits for the next read, having
only counted the attempts in `numReadAttempts` (a `char` that wraps and is
never compared).  `FetchGdbResponse` does have one: on every script that
answers `maxAttempts` reads it ends within them, and after `maxAttempts` reads
that would block it returns what it has. -/
theorem fillBufferWithResponse_has_no_attempt_ceiling :
    (∀ (w : Option (List Char)) (d : Driver) (n : Nat),
      fillBufferWithResponse w d (List.replicate n ReadResult.wouldBlock) =
        FillResult.waiting []
          { d with anythingInReadBuff := false, numReadAttempts := toChar8 n }) ∧
      (∀ (terminator nextData : List Char) (pf : Bool) (pipe : List ReadResult),
        Wcprof.maxAttempts ≤ pipe.length →
        ∀ g k, Wcprof.FetchGdbResponse terminator nextData pf pipe ≠
          Wcprof.FetchResult.waiting g k) ∧
      (∀ (terminator : List Char) (pf : Bool), '\x00' ∉ terminator →
        Wcprof.FetchGdbResponse terminator [] pf
            (List.replicate Wcprof.maxAttempts ReadResult.wouldBlock) =
          Wcprof.FetchResult.returned [] [] pf []) := by
  refine ⟨?_, ?_, ?_⟩
  · intro w d n
    unfold fillBufferWithResponse
    rw [scriptSize_replicate_wouldBlock,
      fillLoop_would_block w n (n + 1) _ 0 (by omega) (by simp [toChar8])]
    simp
  · intro x nd pf pipe h g k
    exact Wcprof.fetchLoop_bounded x _ nd pf pipe h g k
  · intro x pf hnul
    have h := Wcprof.fetchLoop_would_block x hnul Wcprof.maxAttempts pf []
    rw [List.append_nil] at h
    exact h

end WallClockProfiler

namespace WallClockProfiler

open GdbPipe

/-! ## `checkProgramExited`: the signatures it recognises -/

/-- `checkProgramExited` writes no variable but `programExited`. -/
theorem checkProgramExited_frame (d : Driver) :
    checkProgramExited d = { d with programExited := (checkProgramExited d).programExited } := by
  unfold checkProgramExited
  split
  · split
    · rfl
    · split
      · rfl
      · split <;> rfl
  · rfl

/-- C12 (counterexample).  With a non-empty last response that holds one of
the five signatures of the second front-end (the `[Inferior … exited` notice or
one of the four `Program …`/`The program …` messages) and none of the three
GDB/MI ones, `checkProgramExited` leaves `programExited` false. -/
theorem checkProgramExited_misses_console_signatures :
    (checkProgramExited
        ⟨"[Inferior 1 (process 5) exited normally]\n(gdb) \n".toList, true, 1, false, false⟩
      ).programExited = false ∧
    (checkProgramExited
        ⟨"Program terminated with signal SIGKILL, Killed.\n(gdb) \n".toList, true, 1, false,
          false⟩).programExited = false ∧
    (checkProgramExited
        ⟨"Program terminated with signal SIGTERM, Terminated.\n(gdb) \n".toList, true, 1, false,
          false⟩).programExited = false ∧
    (checkProgramExited
        ⟨"Program received signal SIGSEGV, Segmentation fault.\n(gdb) \n".toList, true, 1,
          false, false⟩).programExited = false ∧
    (checkProgramExited
        ⟨"The program is not being run.\n(gdb) \n".toList, true, 1, false, false⟩
      ).programExited = false := by
  decide

/-- C12 (amended claim).  After `checkProgramExited` the flag `programExited` is
true exactly when it was true before, or the last response is non-empty and
holds `exited-normally`, or `"exited"`, or both `stopped` and
`signal-received` without the text `SIGINT`; nothing else changes.  In
particular the flag is never reset. -/
theorem checkProgramExited_sets_flag_iff (d : Driver) :
    ((checkProgramExited d).programExited = true ↔
        d.programExited = true ∨
          (d.anythingInReadBuff = true ∧
            ("exited-normally".toList <:+: d.readBuff ∨
              "\"exited\"".toList <:+: d.readBuff ∨
              ("stopped".toList <:+: d.readBuff ∧ "signal-received".toList <:+: d.readBuff ∧
                ¬ "SIGINT".toList <:+: d.readBuff)))) ∧
      (checkProgramExited d).readBuff = d.readBuff ∧
      (checkProgramExited d).anythingInReadBuff = d.anythingInReadBuff ∧
      (checkProgramExited d).numReadAttempts = d.numReadAttempts ∧
      (checkProgramExited d).detatchJustSent = d.detatchJustSent := by
  refine ⟨?_, ?_⟩
  · unfold checkProgramExited
    by_cases ha : d.anythingInReadBuff = true
    · by_cases h1 : found d.readBuff "exited-normally".toList = true
      · have h1' := (found_iff _ _).1 h1
        simp only [ha, h1, if_true]
        simp only [true_and]
        exact ⟨fun _ => Or.inr (Or.inl h1'), fun _ => trivial⟩
      · have h1' : ¬ "exited-normally".toList <:+: d.readBuff := fun h => h1 ((found_iff _ _).2 h)
        by_cases h2 : found d.readBuff "\"exited\"".toList = true
        · have h2' := (found_iff _ _).1 h2
          simp only [ha, h1, h2, if_true, if_false, Bool.false_eq_true, true_and]
          exact ⟨fun _ => Or.inr (Or.inr (Or.inl h2')), fun _ => trivial⟩
        · have h2' : ¬ "\"exited\"".toList <:+: d.readBuff :=
            fun h => h2 ((found_iff _ _).2 h)
          by_cases h3 : (found d.readBuff "stopped".toList &&
              found d.readBuff "signal-received".toList &&
              !found d.readBuff "SIGINT".toList) = true
          · simp only [ha, h1, h2, h3, if_true, if_false, Bool.false_eq_true, true_and]
            simp only [Bool.and_eq_true, Bool.not_eq_true', found_iff] at h3
            refine ⟨fun _ => Or.inr (Or.inr (Or.inr ⟨h3.1.1, h3.1.2, ?_⟩)), fun _ => trivial⟩
            intro hs
            have := (found_iff _ _).2 hs
            rw [h3.2] at this
            exact Bool.false_ne_true this
          · simp only [ha, h1, h2, h3, if_true, if_false, Bool.false_eq_true, true_and]
            constructor
            · exact fun h => Or.inl h
            · rintro (h | h | h | ⟨ha1, ha2, ha3⟩)
              · exact h
              · exact absurd h h1'
              · exact absurd h h2'
              · exfalso
                apply h3
                simp only [Bool.and_eq_true, Bool.not_eq_true']
                refine ⟨⟨(found_iff _ _).2 ha1, (found_iff _ _).2 ha2⟩, ?_⟩
                cases hf : found d.readBuff "SIGINT".toList with
                | false => rfl
                | true => exact absurd ((found_iff _ _).1 hf) ha3
    · simp only [ha, if_false, Bool.false_eq_true, false_and, or_false]
  · have h := checkProgramExited_frame d
    refine ⟨?_, ?_, ?_, ?_⟩ <;> rw [h]

end WallClockProfiler

namespace WallClockProfiler

open GdbPipe

/-! ## The sampling loop after the target's exit was detected -/

/-- `checkProgramExited` never resets the flag. -/
theorem checkProgramExited_mono (d : Driver) (h : d.programExited = true) :
    (checkProgramExited d).programExited = true := by
  unfold checkProgramExited
  split
  · split
    · rfl
    · split
      · rfl
      · split
        · rfl
        · exact h
  · exact h

/-- When `logGDBStackResponse` returns with `programExited` set, it has not
touched the tables: the flag is tested before the response is parsed. -/
theorem logGDBStackResponse_exited_keeps_tables (uninit : List Char) (d : Driver)
    (agg : Aggregator) (pipe : List ReadResult) (d' : Driver) (agg' : Aggregator)
    (rest : List ReadResult)
    (h : logGDBStackResponse uninit d agg pipe = some (Outcome.returned (d', agg'), rest))
    (hx : d'.programExited = true) : agg' = agg := by
  unfold logGDBStackResponse at h
  split at h
  · exact absurd h (by simp)
  · rename_i numRead d1 rest1 _
    by_cases h0 : numRead = 0
    · simp only [h0, if_true, Option.some.injEq, Prod.mk.injEq, Outcome.returned.injEq] at h
      exact h.1.2.symm
    · simp only [h0, if_false] at h
      by_cases h2 : (checkProgramExited d1).programExited = true
      · simp only [h2, if_true, Option.some.injEq, Prod.mk.injEq, Outcome.returned.injEq] at h
        exact h.1.2.symm
      · simp only [h2, if_false, Bool.false_eq_true] at h
        split at h
        · simp at h
        · simp only [Option.some.injEq, Prod.mk.injEq, Outcome.returned.injEq] at h
          obtain ⟨⟨hd, _⟩, _⟩ := h
          rw [← hd] at hx
          exact absurd hx (by simp)

/-- An iteration of the sampling loop that ends with `programExited` set.  The
response that set the flag was the interrupt response, the `-stack-list-frames`
response or the `-exec-continue` response; in each case the iteration sent
nothing after it and the tables are the ones held when that response was
read. -/
theorem loopBody_ends_at_detection (uninit : List Char) (inNumArgs : Nat) (c c' : Controller)
    (hb : loopBody uninit inNumArgs c = some (Outcome.returned c'))
    (hx : c'.driver.programExited = true) :
    (∃ d rest, waitForGDBInterruptResponse c.driver c.pipe = some (d, rest) ∧
          d.programExited = true ∧
          c' = { c with driver := d, pipe := rest,
                        actions := c.actions ++ [interruptAction inNumArgs] }) ∨
      (∃ d rest d2 rest2, waitForGDBInterruptResponse c.driver c.pipe = some (d, rest) ∧
          d.programExited = false ∧
          logGDBStackResponse uninit d c.agg rest =
            some (Outcome.returned (d2, c.agg), rest2) ∧
          d2.programExited = true ∧
          c' = { driver := d2, agg := c.agg, numSamples := c.numSamples + 1, pipe := rest2,
                 actions := c.actions ++ [interruptAction inNumArgs,
                   Action.send "-stack-list-frames".toList] }) ∨
      (∃ d rest d2 agg2 rest2 d3 rest3,
          waitForGDBInterruptResponse c.driver c.pipe = some (d, rest) ∧
          d.programExited = false ∧
          logGDBStackResponse uninit d c.agg rest =
            some (Outcome.returned (d2, agg2), rest2) ∧
          d2.programExited = false ∧
          skipGDBResponse d2 rest2 = some (d3, rest3) ∧
          d3.programExited = true ∧
          c' = { driver := d3, agg := agg2, numSamples := c.numSamples + 1, pipe := rest3,
                 actions := c.actions ++ [interruptAction inNumArgs,
                   Action.send "-stack-list-frames".toList,
                   Action.send "-exec-continue".toList] }) := by
  unfold loopBody interruptBlock at hb
  cases hw : waitForGDBInterruptResponse c.driver c.pipe with
  | none => simp [hw] at hb
  | some p =>
      obtain ⟨d, rest⟩ := p
      simp only [hw] at hb
      by_cases hd : d.programExited = true
      · left
        refine ⟨d, rest, rfl, hd, ?_⟩
        simp only [sampleBlock, hd, if_true, continueBlock, Option.map_some',
          Option.some.injEq, Outcome.returned.injEq] at hb
        exact hb.symm
      · right
        have hd' : d.programExited = false := by
          cases h : d.programExited with
          | true => exact absurd h hd
          | false => rfl
        simp only [sampleBlock, hd', Bool.false_eq_true, if_false] at hb
        cases hl : logGDBStackResponse uninit d c.agg rest with
        | none => simp [hl] at hb
        | some q =>
            obtain ⟨o, rest2⟩ := q
            cases o with
            | exited => simp [hl] at hb
            | returned v =>
                obtain ⟨d2, agg2⟩ := v
                simp only [hl] at hb
                by_cases hd2 : d2.programExited = true
                · left
                  have hagg := logGDBStackResponse_exited_keeps_tables _ _ _ _ _ _ _ hl hd2
                  subst hagg
                  refine ⟨d, rest, d2, rest2, rfl, hd', hl, hd2, ?_⟩
                  simp only [continueBlock, hd2, if_true, Option.map_some',
                    Option.some.injEq, Outcome.returned.injEq] at hb
                  rw [← hb]
                  simp
                · right
                  have hd2' : d2.programExited = false := by
                    cases h : d2.programExited with
                    | true => exact absurd h hd2
                    | false => rfl
                  simp only [continueBlock, hd2', Bool.false_eq_true, if_false] at hb
                  cases hs : skipGDBResponse d2 rest2 with
                  | none => simp [hs] at hb
                  | some r =>
                      obtain ⟨d3, rest3⟩ := r
                      simp only [hs, Option.map_some', Option.some.injEq,
                        Outcome.returned.injEq] at hb
                      refine ⟨d, rest, d2, agg2, rest2, d3, rest3, rfl, hd', hl, hd2', hs,
                        ?_, ?_⟩
                      · rw [← hb] at hx
                        exact hx
                      · rw [← hb]
                        simp

/-- A run of the sampling loop that returns with `programExited` set, from a
state in which it was clear, returns the state in which its last iteration
ended. -/
theorem samplingLoop_returns_last_iteration (uninit : List Char) (inNumArgs : Nat)
    (detatchSeconds startTime : Int) (clock : Nat → Int) (fuel k : Nat) (c0 cF : Controller)
    (h : samplingLoop uninit inNumArgs detatchSeconds startTime clock fuel k c0 =
      some (Outcome.returned cF))
    (hx : cF.driver.programExited = true) (h0 : c0.driver.programExited = false) :
    ∃ c, c.driver.programExited = false ∧
      loopBody uninit inNumArgs c = some (Outcome.returned cF) := by
  induction fuel generalizing k c0 with
  | zero => simp [samplingLoop] at h
  | succ f ih =>
      unfold samplingLoop at h
      split at h
      · cases hb : loopBody uninit inNumArgs c0 with
        | none => simp [hb] at h
        | some o =>
            cases o with
            | exited => simp [hb] at h
            | returned c1 =>
                simp only [hb] at h
                by_cases h1 : c1.driver.programExited = true
                · cases f with
                  | zero => simp [samplingLoop] at h
                  | succ g =>
                      simp only [samplingLoop, loopCondition, h1, Bool.not_true,
                        Bool.false_and, Bool.false_eq_true, if_false, Option.some.injEq,
                        Outcome.returned.injEq] at h
                      subst h
                      exact ⟨c0, h0, hb⟩
                · have h1' : c1.driver.programExited = false := by
                    cases hh : c1.driver.programExited with
                    | true => exact absurd hh h1
                    | false => rfl
                  exact ih _ _ h h1'
      · simp only [Option.some.injEq, Outcome.returned.injEq] at h
        subst h
        rw [h0] at hx
        exact absurd hx (by simp)

/-- C13.  Take a run of the sampling loop, from a state `c0` in which the exit
had not been detected, that returns a state `c'` with `programExited` set.
Then `c'` is the state in which the last iteration `c` ended.  The response
that set the flag in that iteration was the interrupt response, the
`-stack-list-frames` response or the `-exec-continue` response; in each case
the iteration sent nothing after it (its actions are exactly the ones issued up
to that response) and the tables are the ones held when that response was read
(a response that sets the flag is never parsed into a sample).  From `c'` the
loop ends at its next condition check, for every clock, and the code after the
loop sends nothing: the report starts from `c'`. -/
theorem samplingLoop_stops_once_exit_detected (uninit : List Char) (inNumArgs : Nat)
    (detatchSeconds startTime : Int) (clock : Nat → Int) (fuel0 k0 : Nat)
    (c0 c' : Controller)
    (hrun : samplingLoop uninit inNumArgs detatchSeconds startTime clock fuel0 k0 c0 =
      some (Outcome.returned c'))
    (h0 : c0.driver.programExited = false)
    (hx : c'.driver.programExited = true) :
    ∃ c, c.driver.programExited = false ∧
      loopBody uninit inNumArgs c = some (Outcome.returned c') ∧
      ((∃ d rest, waitForGDBInterruptResponse c.driver c.pipe = some (d, rest) ∧
          d.programExited = true ∧
          c' = { c with driver := d, pipe := rest,
                        actions := c.actions ++ [interruptAction inNumArgs] }) ∨
      (∃ d rest d2 rest2, waitForGDBInterruptResponse c.driver c.pipe = some (d, rest) ∧
          d.programExited = false ∧
          logGDBStackResponse uninit d c.agg rest =
            some (Outcome.returned (d2, c.agg), rest2) ∧
          d2.programExited = true ∧
          c' = { driver := d2, agg := c.agg, numSamples := c.numSamples + 1, pipe := rest2,
                 actions := c.actions ++ [interruptAction inNumArgs,
                   Action.send "-stack-list-frames".toList] }) ∨
      (∃ d rest d2 agg2 rest2 d3 rest3,
          waitForGDBInterruptResponse c.driver c.pipe = some (d, rest) ∧
          d.programExited = false ∧
          logGDBStackResponse uninit d c.agg rest =
            some (Outcome.returned (d2, agg2), rest2) ∧
          d2.programExited = false ∧
          skipGDBResponse d2 rest2 = some (d3, rest3) ∧
          d3.programExited = true ∧
          c' = { driver := d3, agg := agg2, numSamples := c.numSamples + 1, pipe := rest3,
                 actions := c.actions ++ [interruptAction inNumArgs,
                   Action.send "-stack-list-frames".toList,
                   Action.send "-exec-continue".toList] })) ∧
      (∀ fuel k, samplingLoop uninit inNumArgs detatchSeconds startTime clock (fuel + 1) k c' =
        some (Outcome.returned c')) ∧
      sampleBlock uninit c' = some (Outcome.returned c') ∧
      continueBlock c' = some c' ∧
      finishSampling inNumArgs c' = some c' := by
  obtain ⟨c, hc, hb⟩ := samplingLoop_returns_last_iteration uninit inNumArgs detatchSeconds
    startTime clock fuel0 k0 c0 c' hrun hx h0
  refine ⟨c, hc, hb, loopBody_ends_at_detection uninit inNumArgs c c' hb hx, ?_, ?_, ?_, ?_⟩
  · intro fuel k
    simp [samplingLoop, loopCondition, hx]
  · simp [sampleBlock, hx]
  · simp [continueBlock, hx]
  · simp [finishSampling, hx]

/-- C13 (witness).  GDB answers an interrupt with `exited-normally`: the run
ends after that iteration, having sent only that interrupt, and what follows
sends nothing. -/
theorem samplingLoop_stops_once_exit_detected_witness :
    samplingLoop [] 3 (-1) 0 (fun _ => 0) 2 0 exampleController =
        some (Outcome.returned exampleControllerExited) ∧
      exampleController.driver.programExited = false ∧
      exampleControllerExited.driver.programExited = true ∧
      exampleControllerExited.actions = exampleController.actions ++ [Action.kill] ∧
      exampleControllerExited.agg.stackLog = exampleController.agg.stackLog ∧
      (∃ c, c.driver.programExited = false ∧
        loopBody [] 3 c = some (Outcome.returned exampleControllerExited)) ∧
      finishSampling 3 exampleControllerExited = some exampleControllerExited := by
  have hb : loopBody [] 3 exampleController =
      some (Outcome.returned exampleControllerExited) := rfl
  have h1 : loopCondition (-1) 0 0 exampleController = true := rfl
  have h2 : loopCondition (-1) 0 0 exampleControllerExited = false := rfl
  have hrun : samplingLoop [] 3 (-1) 0 (fun _ => 0) 2 0 exampleController =
      some (Outcome.returned exampleControllerExited) := by
    simp only [samplingLoop, h1, h2, hb, if_true, Bool.false_eq_true, if_false]
  have h := samplingLoop_stops_once_exit_detected [] 3 (-1) 0 (fun _ => 0) 2 0
    exampleController exampleControllerExited hrun rfl rfl
  exact ⟨hrun, rfl, rfl, rfl, rfl, h.elim (fun c hc => ⟨c, hc.1, hc.2.1⟩),
    h.elim (fun _ hc => hc.2.2.2.2.2.2)⟩

end WallClockProfiler

namespace WallClockProfiler

/-! ## The ranked lists of the report -/

/-- What the scan returns: nothing new when no element exceeds `max`, otherwise
the first element that holds the greatest `sampleCount`. -/
theorem scanMax_spec {α : Type} (cnt : α → Int) (v : List α) (i : Nat) (max : Int)
    (choice : Option (Nat × α)) :
    ((∀ y ∈ v, cnt y ≤ max) ∧ scanMax cnt v i max choice = choice) ∨
      ∃ pre x post, v = pre ++ x :: post ∧ (∀ y ∈ pre, cnt y < cnt x) ∧ max < cnt x ∧
        (∀ y ∈ post, cnt y ≤ cnt x) ∧ scanMax cnt v i max choice = some (i + pre.length, x) := by
  induction v generalizing i max choice with
  | nil => exact Or.inl ⟨by simp, rfl⟩
  | cons r rest ih =>
      by_cases hr : cnt r > max
      · simp only [scanMax, hr, if_true]
        rcases ih (i + 1) (cnt r) (some (i, r)) with ⟨hall, hres⟩ | ⟨pre, x, post, hv, hpre, hmax, hpost, hres⟩
        · right
          exact ⟨[], r, rest, rfl, by simp, hr, hall, by simpa using hres⟩
        · right
          refine ⟨r :: pre, x, post, by simp [hv], ?_, by omega, hpost, ?_⟩
          · intro y hy
            rcases List.mem_cons.1 hy with rfl | hy
            · exact hmax
            · exact hpre y hy
          · rw [hres]
            simp only [List.length_cons]
            congr 2
            omega
      · simp only [scanMax, hr, if_false]
        rcases ih (i + 1) max choice with ⟨hall, hres⟩ | ⟨pre, x, post, hv, hpre, hmax, hpost, hres⟩
        · left
          refine ⟨?_, hres⟩
          intro y hy
          rcases List.mem_cons.1 hy with rfl | hy
          · omega
          · exact hall y hy
        · right
          refine ⟨r :: pre, x, post, by simp [hv], ?_, hmax, hpost, ?_⟩
          · intro y hy
            rcases List.mem_cons.1 hy with rfl | hy
            · omega
            · exact hpre y hy
          · rw [hres]
            simp only [List.length_cons]
            congr 2
            omega

theorem deleteElement_middle {α : Type} (pre post : List α) (x : α) :
    deleteElement (pre ++ x :: post) (0 + pre.length) = pre ++ post := by
  unfold deleteElement
  rw [Nat.zero_add, List.eraseIdx_append_of_length_le (Nat.le_refl _)]
  simp

theorem filter_eq_nil_of_forall {α : Type} (p : α → Bool) (l : List α)
    (h : ∀ y ∈ l, p y = false) : l.filter p = [] := by
  rw [List.filter_eq_nil_iff]
  intro y hy
  simp [h y hy]

theorem filter_eq_self_of_forall {α : Type} (p : α → Bool) (l : List α)
    (h : ∀ y ∈ l, p y = true) : l.filter p = l :=
  List.filter_eq_self.2 h

/-- The selection loop is a stable sort, greatest first, of the elements above
the floor; the others stay behind in their order. -/
theorem sortLoop_spec {α : Type} (cnt : α → Int) (floor : Int) (fuel : Nat) (v sorted : List α)
    (hf : v.length ≤ fuel) :
    ∃ S, sortLoop cnt floor fuel v sorted =
        some (sorted ++ S, v.filter (fun y => decide (cnt y ≤ floor))) ∧
      S.Perm (v.filter (fun y => decide (floor < cnt y))) ∧
      S.Pairwise (fun a b => cnt b ≤ cnt a) ∧
      ∀ m, S.filter (fun y => decide (cnt y = m)) =
        (v.filter (fun y => decide (floor < cnt y))).filter (fun y => decide (cnt y = m)) := by
  induction fuel generalizing v sorted with
  | zero =>
      have hv : v = [] := List.length_eq_zero.1 (Nat.le_zero.1 hf)
      subst hv
      exact ⟨[], by simp [sortLoop], by simp, by simp, by simp⟩
  | succ f ih =>
      cases v with
      | nil => exact ⟨[], by simp [sortLoop], by simp, by simp, by simp⟩
      | cons a as =>
          rcases scanMax_spec cnt (a :: as) 0 floor none with
            ⟨hall, hres⟩ | ⟨pre, x, post, hv, hpre, hmax, hpost, hres⟩
          · refine ⟨[], ?_, ?_, by simp, ?_⟩
            · simp only [sortLoop, List.isEmpty_cons, Bool.false_eq_true, if_false, hres,
                List.append_nil]
              rw [filter_eq_self_of_forall _ _ (fun y hy => by simpa using hall y hy)]
            · rw [filter_eq_nil_of_forall _ _ (fun y hy => by
                have := hall y hy
                simp only [decide_eq_false_iff_not, not_lt]
                exact this)]
            · intro m
              rw [filter_eq_nil_of_forall (fun y => decide (floor < cnt y)) _ (fun y hy => by
                have := hall y hy
                simp only [decide_eq_false_iff_not, not_lt]
                exact this)]
          · have hlen : (pre ++ post).length ≤ f := by
              have : (a :: as).length = (pre ++ x :: post).length := by rw [hv]
              simp only [List.length_cons, List.length_append] at this hf ⊢
              omega
            obtain ⟨S', hS', hperm, hpw, hstab⟩ := ih (pre ++ post) (sorted ++ [x]) hlen
            have hxf : decide (floor < cnt x) = true := by simpa using hmax
            have hxnf : decide (cnt x ≤ floor) = false := by
              simp only [decide_eq_false_iff_not, not_le]
              exact hmax
            refine ⟨x :: S', ?_, ?_, ?_, ?_⟩
            · simp only [sortLoop, List.isEmpty_cons, Bool.false_eq_true, if_false, hres]
              rw [hv, deleteElement_middle, hS']
              simp only [List.append_assoc, List.singleton_append, List.filter_append,
                List.filter_cons, hxnf, Bool.false_eq_true, if_false]
            · rw [hv]
              simp only [List.filter_append, List.filter_cons, hxf, if_true]
              refine List.Perm.trans ?_ List.perm_middle.symm
              refine List.Perm.cons x ?_
              simpa only [List.filter_append] using hperm
            · refine List.Pairwise.cons ?_ hpw
              intro y hy
              have hy' := (hperm.mem_iff).1 hy
              have hy'' := (List.mem_filter.1 hy').1
              rcases List.mem_append.1 hy'' with h | h
              · exact le_of_lt (hpre y h)
              · exact hpost y h
            · intro m
              rw [hv]
              simp only [List.filter_append, List.filter_cons, hxf, if_true]
              have hst := hstab m
              simp only [List.filter_append] at hst
              by_cases hm : cnt x = m
              · have hpre0 : (pre.filter (fun y => decide (floor < cnt y))).filter
                    (fun y => decide (cnt y = m)) = [] := by
                  apply filter_eq_nil_of_forall
                  intro y hy
                  have := hpre y (List.mem_filter.1 hy).1
                  simp only [decide_eq_false_iff_not]
                  omega
                simp only [hm, decide_True, if_true, hst, hpre0, List.nil_append]
              · simp only [hm, decide_False, Bool.false_eq_true, if_false, hst]

/-- Every entry of the stack table was sampled at least once. -/
theorem stackLog_sampleCount_pos (samples : List (List StackFrame)) :
    ∀ e ∈ (recordAll samples).stackLog, 0 < e.sampleCount := by
  intro e he
  obtain ⟨_, hkeys, hcount, _⟩ := stackLog_invariant samples
  have hmem : addresses e.frames ∈ samples.map addresses :=
    (hkeys _).1 (List.mem_map.2 ⟨e, he, rfl⟩)
  obtain ⟨hnd, _, _, _⟩ := stackLog_invariant samples
  have hk := keyCount_of_nodup _ hnd e he
  rw [hcount] at hk
  rw [← hk]
  obtain ⟨S, hS, hSe⟩ := List.mem_map.1 hmem
  have : 0 < samples.countP (fun S => decide (addresses S = addresses e.frames)) :=
    List.countP_pos_iff.2 ⟨S, hS, by simpa using hSe⟩
  exact_mod_cast this

/-- C14.  For the tables of every run: `sortedStacks` is a permutation of the
whole stack table (nothing is left in `stackLog`), in non-increasing
`sampleCount` order, and entries with equal `sampleCount` keep their order of
insertion; `sortedFunctions` and each `sortedRootStacks[r]` hold the entries
with more than one sample, again in non-increasing order with equal counts in
insertion order, and the single-sample entries stay behind in their table. -/
theorem ranked_lists_sorted_and_stable (samples : List (List StackFrame)) :
    (∃ sortedStacks, sortStacks (recordAll samples).stackLog = some (sortedStacks, []) ∧
        sortedStacks.Perm (recordAll samples).stackLog ∧
        sortedStacks.Pairwise (fun a b => b.sampleCount ≤ a.sampleCount) ∧
        ∀ m, sortedStacks.filter (fun s => decide (s.sampleCount = m)) =
          (recordAll samples).stackLog.filter (fun s => decide (s.sampleCount = m))) ∧
      (∃ sortedFunctions,
        sortFunctions (buildFunctionTable (recordAll samples).stackLog) =
          some (sortedFunctions, (buildFunctionTable (recordAll samples).stackLog).filter
            (fun r => decide (r.sampleCount ≤ 1))) ∧
        sortedFunctions.Perm ((buildFunctionTable (recordAll samples).stackLog).filter
          (fun r => decide (1 < r.sampleCount))) ∧
        sortedFunctions.Pairwise (fun a b => b.sampleCount ≤ a.sampleCount) ∧
        ∀ m, 1 < m → sortedFunctions.filter (fun r => decide (r.sampleCount = m)) =
          (buildFunctionTable (recordAll samples).stackLog).filter
            (fun r => decide (r.sampleCount = m))) ∧
      ∀ r, ∃ sortedRootStacks,
        sortRootStacks (recordAll samples).stackRootLog r =
          some (sortedRootStacks, ((recordAll samples).stackRootLog r).filter
            (fun s => decide (s.sampleCount ≤ 1))) ∧
        sortedRootStacks.Perm (((recordAll samples).stackRootLog r).filter
          (fun s => decide (1 < s.sampleCount))) ∧
        sortedRootStacks.Pairwise (fun a b => b.sampleCount ≤ a.sampleCount) ∧
        ∀ m, 1 < m → sortedRootStacks.filter (fun s => decide (s.sampleCount = m)) =
          ((recordAll samples).stackRootLog r).filter (fun s => decide (s.sampleCount = m)) := by
  have key : ∀ {α : Type} (cnt : α → Int) (floor : Int) (v : List α) (m : Int), floor < m →
      (v.filter (fun y => decide (floor < cnt y))).filter (fun y => decide (cnt y = m)) =
        v.filter (fun y => decide (cnt y = m)) := by
    intro α cnt floor v m hm
    rw [List.filter_filter]
    apply List.filter_congr
    intro y _
    by_cases h : cnt y = m
    · simp [h, hm]
    · simp [h]
  refine ⟨?_, ?_, ?_⟩
  · obtain ⟨S, hS, hperm, hpw, hstab⟩ :=
      sortLoop_spec Stack.sampleCount 0 _ (recordAll samples).stackLog [] (Nat.le_refl _)
    have hpos := stackLog_sampleCount_pos samples
    have hall : (recordAll samples).stackLog.filter (fun y => decide (0 < y.sampleCount)) =
        (recordAll samples).stackLog :=
      filter_eq_self_of_forall _ _ (fun y hy => by simpa using hpos y hy)
    have hnone : (recordAll samples).stackLog.filter (fun y => decide (y.sampleCount ≤ 0)) = [] :=
      filter_eq_nil_of_forall _ _ (fun y hy => by
        have := hpos y hy
        simp only [decide_eq_false_iff_not, not_le]
        exact this)
    refine ⟨S, ?_, ?_, hpw, ?_⟩
    · unfold sortStacks
      rw [hS, hnone]
      simp
    · rw [hall] at hperm
      exact hperm
    · intro m
      rw [hstab m, hall]
  · obtain ⟨S, hS, hperm, hpw, hstab⟩ :=
      sortLoop_spec FunctionRecord.sampleCount 1 _
        (buildFunctionTable (recordAll samples).stackLog) [] (Nat.le_refl _)
    refine ⟨S, ?_, hperm, hpw, ?_⟩
    · unfold sortFunctions
      rw [hS]
      simp
    · intro m hm
      rw [hstab m, key _ _ _ _ hm]
  · intro r
    obtain ⟨S, hS, hperm, hpw, hstab⟩ :=
      sortLoop_spec Stack.sampleCount 1 _ ((recordAll samples).stackRootLog r) []
        (Nat.le_refl _)
    refine ⟨S, ?_, hperm, hpw, ?_⟩
    · unfold sortRootStacks
      rw [hS]
      simp
    · intro m hm
      rw [hstab m, key _ _ _ _ hm]

end WallClockProfiler

namespace WallClockProfiler

/-! ## One sample credits a function once -/

/-- Total count of `f` in the function table, as a sum over the stack table. -/
theorem functionTable_sum (T : List Stack) (f : List Char) :
    (functionCounts (buildFunctionTable T) f).sum =
      sumWhere (fun fr => decide (f ∈ funcNames fr)) T := by
  have h := (functionFold_spec T [] (by simp)).2.2 f
  unfold buildFunctionTable
  rw [h]
  simp [functionCounts]

theorem sumWhere_logInTable (P : List StackFrame → Bool) (T : List Stack)
    (frames : List StackFrame) :
    sumWhere P (logInTable T (newStack frames)) =
      sumWhere P T + (if P (countedAs T frames) = true then 1 else 0) := by
  unfold logInTable countedAs
  cases hm : matchLoop (newStack frames) T with
  | some p => exact (matchLoop_some_sumWhere P _ _ _ hm).2
  | none =>
      simp only
      rw [sumWhere_append, sumWhere_cons, sumWhere_nil]
      simp [newStack]

theorem countedAs_mem (T : List Stack) (frames : List StackFrame) :
    countedAs T frames ∈ (logInTable T (newStack frames)).map Stack.frames := by
  unfold logInTable countedAs
  cases hm : matchLoop (newStack frames) T with
  | some p =>
      simp only
      rw [(matchLoop_some_sumWhere (fun _ => true) _ _ _ hm).1]
      exact (matchLoop_some_keys _ _ _ hm).2.1
  | none => simp [newStack]

/-- What one more sample does to the record of `f`. -/
theorem functionTable_after_sample (T : List Stack) (frames : List StackFrame) (f : List Char)
    (hf : f ∈ funcNames (countedAs T frames)) :
    functionCounts (buildFunctionTable (logInTable T (newStack frames))) f =
      [(functionCounts (buildFunctionTable T) f).sum + 1] := by
  have hspec := functionFold_spec (logInTable T (newStack frames)) [] (by simp)
  rw [show List.foldl (fun functions (s : Stack) =>
      creditFrames s.sampleCount [] s.frames functions) []
      (logInTable T (newStack frames)) =
      buildFunctionTable (logInTable T (newStack frames)) from rfl] at hspec
  have hnd := hspec.1
  have hmem : f ∈ (buildFunctionTable (logInTable T (newStack frames))).map
      FunctionRecord.funcName := by
    apply (hspec.2.1 f).2
    right
    obtain ⟨e, he, hfr⟩ := List.mem_map.1 (countedAs_mem T frames)
    exact ⟨e, he, by rw [hfr]; exact hf⟩
  rw [functionCounts_of_nodup _ hnd f, if_pos hmem, functionTable_sum, functionTable_sum,
    sumWhere_logInTable]
  simp [hf]

theorem functionTable_after_sample_other (T : List Stack) (frames : List StackFrame)
    (f : List Char) (hf : f ∉ funcNames (countedAs T frames)) :
    (functionCounts (buildFunctionTable (logInTable T (newStack frames))) f).sum =
      (functionCounts (buildFunctionTable T) f).sum := by
  rw [functionTable_sum, functionTable_sum, sumWhere_logInTable]
  simp [hf]

end WallClockProfiler

namespace Wcprof

theorem valueAt_increment {κ : Type} [DecidableEq κ] (m : StdMap κ Nat) (key f : κ) :
    valueAt (increment m key) f = valueAt m f + (if f = key then 1 else 0) := by
  induction m with
  | nil =>
      by_cases h : f = key
      · simp [increment, valueAt, List.lookup, h]
      · have : (f == key) = false := by simpa using h
        simp [increment, valueAt, List.lookup, h, this]
  | cons e rest ih =>
      obtain ⟨k, n⟩ := e
      unfold valueAt at ih ⊢
      by_cases hk : k = key
      · subst hk
        by_cases hf : f = k
        · subst hf
          simp [increment, List.lookup]
        · have : (f == k) = false := by simpa using hf
          simp [increment, List.lookup, this, hf]
      · by_cases hf : f = k
        · subst hf
          have hne : ¬ f = key := hk
          simp [increment, hk, List.lookup, hne]
        · have : (f == k) = false := by simpa using hf
          simp only [increment, hk, if_false, List.lookup, this]
          exact ih

/-- The inner loop counts a name once, however often it occurs. -/
theorem countFunctions_spec (lines : List StackFrameLine) (ids : List Nat)
    (added : List (List Char)) (spf : StdMap (List Char) Nat)
    (hv : ∀ id ∈ ids, id < lines.length) :
    ∃ spf', countFunctions lines ids added spf = some spf' ∧
      ∀ f, valueAt spf' f = valueAt spf f +
        (if some f ∈ ids.map (fun id => (lines[id]?).map StackFrameLine.functionName) ∧
            f ∉ added then 1 else 0) := by
  induction ids generalizing added spf with
  | nil => exact ⟨spf, rfl, by simp⟩
  | cons id rest ih =>
      have hid : id < lines.length := hv id (List.mem_cons_self _ _)
      have hrest : ∀ i ∈ rest, i < lines.length := fun i hi => hv i (List.mem_cons_of_mem _ hi)
      have hget : lines[id]? = some lines[id] := List.getElem?_eq_getElem hid
      by_cases hc : added.contains (lines[id]).functionName = true
      · obtain ⟨spf', h1, h2⟩ := ih added spf hrest
        refine ⟨spf', ?_, ?_⟩
        · simp only [countFunctions, hget, hc, if_true]
          exact h1
        · intro f
          rw [h2 f]
          have hin : (lines[id]).functionName ∈ added := by simpa using hc
          by_cases hfa : f ∈ added
          · simp [hfa]
          · have hne : ¬ f = (lines[id]).functionName := fun h => hfa (h ▸ hin)
            simp [hfa, hget, hne]
      · obtain ⟨spf', h1, h2⟩ :=
          ih ((lines[id]).functionName :: added) (increment spf (lines[id]).functionName) hrest
        refine ⟨spf', ?_, ?_⟩
        · simp only [countFunctions, hget, hc, if_false, Bool.false_eq_true]
          exact h1
        · intro f
          rw [h2 f, valueAt_increment]
          have hnin : (lines[id]).functionName ∉ added := by simpa using hc
          by_cases hfe : f = (lines[id]).functionName
          · subst hfe
            simp [hnin, hget]
          · by_cases hfa : f ∈ added
            · simp [hfa, hfe]
            · simp [hfa, hfe, hget]

theorem statsLoop_append (lines : List StackFrameLine) (frames more : List StackFrame)
    (maps : StdMap (List Char) Nat × StdMap (List Nat) Nat) :
    statsLoop lines (frames ++ more) maps =
      (statsLoop lines frames maps).bind (statsLoop lines more) := by
  induction frames generalizing maps with
  | nil => simp [statsLoop]
  | cons fr rest ih =>
      obtain ⟨spf, spu⟩ := maps
      simp only [List.cons_append, statsLoop]
      cases countFunctions lines fr.stackFrameLines [] spf with
      | none => simp
      | some s => exact ih _

end Wcprof

namespace WallClockProfiler

/-- C15 (counterexample).  The second sample has the addresses of the first and
other function names: it occurs once in `work2`, yet `work2` gets no record,
and the count of `work`, which it does not name, goes from 1 to 2. -/
theorem sample_with_known_addresses_credits_first_names :
    funcNames [(⟨1, "work2".toList, [], -1⟩ : StackFrame), ⟨2, "main".toList, [], -1⟩] =
        ["work2".toList, "main".toList] ∧
      functionCounts (buildFunctionTable (recordAll
        [[⟨1, "work".toList, [], -1⟩, ⟨2, "main".toList, [], -1⟩]]).stackLog) "work2".toList =
        [] ∧
      functionCounts (buildFunctionTable (recordAll
        [[⟨1, "work".toList, [], -1⟩, ⟨2, "main".toList, [], -1⟩],
          [⟨1, "work2".toList, [], -1⟩, ⟨2, "main".toList, [], -1⟩]]).stackLog)
        "work2".toList = [] ∧
      functionCounts (buildFunctionTable (recordAll
        [[⟨1, "work".toList, [], -1⟩, ⟨2, "main".toList, [], -1⟩]]).stackLog) "work".toList =
        [1] ∧
      functionCounts (buildFunctionTable (recordAll
        [[⟨1, "work".toList, [], -1⟩, ⟨2, "main".toList, [], -1⟩],
          [⟨1, "work2".toList, [], -1⟩, ⟨2, "main".toList, [], -1⟩]]).stackLog)
        "work".toList = [2] := by
  decide

/-- C15 (amended claim).  A sample is counted under the first stack recorded
with its address sequence (itself when there was none).  For every function
name that occurs `N ≥ 1` times in that stack, the sample adds exactly 1 to the
function's `sampleCount` in the function table of `main`, which then has one
record for it, and it adds nothing to any other name.  In
`PerformStatsOnSingleThread`, a stack in which a function name occurs `N ≥ 1`
times adds exactly 1 to `samplesPerFunction` of that name.  One six-frame
sample with `fib` five times and `main` once gives `fib = 1` and `main = 1` in
both. -/
theorem sample_credits_function_once :
    (∀ (agg : Aggregator) (frames : List StackFrame) (f : List Char),
      (1 ≤ (funcNames (countedAs agg.stackLog frames)).count f →
        functionCounts (buildFunctionTable (recordStack agg (newStack frames)).stackLog) f =
          [(functionCounts (buildFunctionTable agg.stackLog) f).sum + 1]) ∧
      ((funcNames (countedAs agg.stackLog frames)).count f = 0 →
        (functionCounts (buildFunctionTable (recordStack agg (newStack frames)).stackLog)
          f).sum = (functionCounts (buildFunctionTable agg.stackLog) f).sum) ∧
      (addresses frames ∉ agg.stackLog.map (fun e => addresses e.frames) →
        countedAs agg.stackLog frames = frames)) ∧
    (∀ (lines : List Wcprof.StackFrameLine) (frames : List Wcprof.StackFrame)
        (frame : Wcprof.StackFrame) (spf : Wcprof.StdMap (List Char) Nat)
        (spu : Wcprof.StdMap (List Nat) Nat) (f : List Char),
      Wcprof.PerformStatsOnSingleThread lines frames = some (spf, spu) →
      (∀ id ∈ frame.stackFrameLines, id < lines.length) →
      1 ≤ (Wcprof.functionNames lines frame).count (some f) →
      ∃ spf' spu', Wcprof.PerformStatsOnSingleThread lines (frames ++ [frame]) =
          some (spf', spu') ∧
        Wcprof.valueAt spf' f = Wcprof.valueAt spf f + 1) ∧
    buildFunctionTable (recordAll
        [[⟨0x10, "fib".toList, [], 3⟩, ⟨0x14, "fib".toList, [], 4⟩,
          ⟨0x14, "fib".toList, [], 4⟩, ⟨0x14, "fib".toList, [], 4⟩,
          ⟨0x14, "fib".toList, [], 4⟩, ⟨0x20, "main".toList, [], 9⟩]]).stackLog =
      [⟨"fib".toList, 1⟩, ⟨"main".toList, 1⟩] ∧
    (Wcprof.PerformStatsOnSingleThread
        [⟨"0x10 in fib at f.c:3".toList, "fib".toList⟩,
          ⟨"0x14 in fib at f.c:4".toList, "fib".toList⟩,
          ⟨"0x20 in main at f.c:9".toList, "main".toList⟩]
        [⟨"main".toList, [0, 1, 1, 1, 1, 2]⟩]).map Prod.fst =
      some [("fib".toList, 1), ("main".toList, 1)] := by
  refine ⟨?_, ?_, by decide, by decide⟩
  · intro agg frames f
    refine ⟨?_, ?_, ?_⟩
    · intro h
      rw [recordStack_stackLog]
      exact functionTable_after_sample _ _ _ (List.count_pos_iff.1 h)
    · intro h
      rw [recordStack_stackLog]
      exact functionTable_after_sample_other _ _ _ (List.count_eq_zero.1 h)
    · intro h
      unfold countedAs
      rw [(matchLoop_none_iff (newStack frames) agg.stackLog).2 h]
  · intro lines frames frame spf spu f hp hv hf
    have hmem : some f ∈ Wcprof.functionNames lines frame := List.count_pos_iff.1 hf
    obtain ⟨spf', h1, h2⟩ := Wcprof.countFunctions_spec lines frame.stackFrameLines [] spf hv
    refine ⟨spf', Wcprof.increment spu frame.stackFrameLines, ?_, ?_⟩
    · unfold Wcprof.PerformStatsOnSingleThread at hp ⊢
      rw [Wcprof.statsLoop_append, hp]
      simp [Wcprof.statsLoop, h1]
    · rw [h2 f]
      unfold Wcprof.functionNames at hmem
      simp [hmem]

end WallClockProfiler

namespace Wcprof

/-! ## The sampling-method token -/

/-- C16 (claim: `default` is accepted and selects single-thread sampling, like
`single_thread`).  The parser refuses the token `default` that the usage text
documents: `main` prints the usage and returns `1`, while `single_thread`
selects `SINGLE_THREAD`.  Of the other tokens, `all_threads` and
`round_robin_N` for `N` from 1 to 10000 are accepted and `round_robin_0` and
`round_robin_10001` are refused; a bare `round_robin_` is accepted with the
initial value 1, and text after the number is ignored. -/
theorem parseSamplingMethod_refuses_default :
    parseSamplingMethod "default".toList = none ∧
      parseArguments ["wcprof".toList, "run".toList, "default".toList, "1000".toList,
        "10".toList, "./prog".toList] = Except.error 1 ∧
      parseArguments ["wcprof".toList, "attach".toList, "default".toList, "1000".toList,
        "10".toList, "4242".toList, "./prog".toList] = Except.error 1 ∧
      parseSamplingMethod "single_thread".toList = some (SamplingMethods.SINGLE_THREAD, 1) ∧
      parseSamplingMethod "all_threads".toList = some (SamplingMethods.ALL_THREADS, 1) ∧
      parseSamplingMethod "round_robin_1".toList = some (SamplingMethods.ROUND_ROBIN, 1) ∧
      parseSamplingMethod "round_robin_10000".toList =
        some (SamplingMethods.ROUND_ROBIN, 10000) ∧
      parseSamplingMethod "round_robin_0".toList = none ∧
      parseSamplingMethod "round_robin_10001".toList = none ∧
      parseSamplingMethod "".toList = none ∧
      parseSamplingMethod "round_robin_".toList = some (SamplingMethods.ROUND_ROBIN, 1) ∧
      parseSamplingMethod "round_robin_8cores".toList =
        some (SamplingMethods.ROUND_ROBIN, 8) := by
  refine ⟨by decide, rfl, rfl, by decide, by decide, by decide, by decide, by decide,
    by decide, by decide, by decide, by decide⟩

end Wcprof

namespace Wcprof

/-! ## The elapsed-time check of the sampling loop -/

/-- Without `attach` the loop is left only with `programFinished` set. -/
theorem samplingLoop_run_ends_finished (cfg : Config) (h : cfg.attach = false)
    (startTime : Int) (clock : Nat → Int) (fuel k : Nat) (p p' : Profiler)
    (hr : samplingLoop cfg startTime clock fuel k p = Run.ok p') :
    p'.programFinished = true := by
  induction fuel generalizing k p with
  | zero => simp [samplingLoop] at hr
  | succ f ih =>
      unfold samplingLoop at hr
      by_cases hp : p.programFinished = true
      · simp only [hp, if_true, Run.ok.injEq] at hr
        rw [← hr]
        exact hp
      · simp only [hp, if_false, deadlinePassed, h, Bool.false_and, Bool.false_eq_true] at hr
        cases hc : collect cfg p with
        | ok q =>
            rw [hc] at hr
            exact ih _ _ hr
        | raised => rw [hc] at hr; simp at hr
        | waiting => rw [hc] at hr; simp at hr
        | outOfFuel => rw [hc] at hr; simp at hr

/-- C17 (claim: with `<time_s>` ≤ 0 the loop is never ended by the elapsed-time
check, and with a positive `<time_s>` it ends once that time has elapsed, for
`attach` and for `run`).  For `attach` with `<time_s>` = 0, or −5, the loop is
ended by the elapsed-time check as soon as the clock passes the start time plus
`<time_s>`, with `programFinished` still false and nothing sampled.  For `run`
the time argument is not read at all (`profilingTime` stays 0 and `argv[4]` is
taken as the program name), and the loop is never ended by the elapsed time,
whatever `<time_s>` is. -/
theorem samplingLoop_time_argument_not_as_documented :
    parseArguments ["wcprof".toList, "attach".toList, "single_thread".toList, "1000".toList,
        "0".toList, "4242".toList, "./prog".toList] =
      Except.ok ⟨SamplingMethods.SINGLE_THREAD, 1, 1000, true, "./prog".toList, [],
        "4242".toList, 0⟩ ∧
    (∀ (fuel k : Nat) (p : Profiler), p.programFinished = false →
      samplingLoop ⟨SamplingMethods.SINGLE_THREAD, 1, 1000, true, "./prog".toList, [],
        "4242".toList, 0⟩ 100 (fun _ => 101) (fuel + 1) k p = Run.ok p) ∧
    parseArguments ["wcprof".toList, "attach".toList, "single_thread".toList, "1000".toList,
        "-5".toList, "4242".toList, "./prog".toList] =
      Except.ok ⟨SamplingMethods.SINGLE_THREAD, 1, 1000, true, "./prog".toList, [],
        "4242".toList, -5⟩ ∧
    (∀ (fuel k : Nat) (p : Profiler), p.programFinished = false →
      samplingLoop ⟨SamplingMethods.SINGLE_THREAD, 1, 1000, true, "./prog".toList, [],
        "4242".toList, -5⟩ 100 (fun _ => 100) (fuel + 1) k p = Run.ok p) ∧
    parseArguments ["wcprof".toList, "run".toList, "single_thread".toList, "1000".toList,
        "5".toList, "./prog".toList] =
      Except.ok ⟨SamplingMethods.SINGLE_THREAD, 1, 1000, false, "5".toList,
        " \"5\" \"./prog\"".toList, [], 0⟩ ∧
    (∀ (startTime : Int) (clock : Nat → Int) (fuel k : Nat) (p p' : Profiler),
      samplingLoop ⟨SamplingMethods.SINGLE_THREAD, 1, 1000, false, "5".toList,
        " \"5\" \"./prog\"".toList, [], 0⟩ startTime clock fuel k p = Run.ok p' →
      p'.programFinished = true) := by
  refine ⟨rfl, ?_, rfl, ?_, rfl, ?_⟩
  · intro fuel k p hp
    simp [samplingLoop, hp, deadlinePassed]
  · intro fuel k p hp
    simp [samplingLoop, hp, deadlinePassed]
  · intro startTime clock fuel k p p' hr
    exact samplingLoop_run_ends_finished _ rfl _ _ _ _ _ _ hr

end Wcprof

namespace Wcprof

open WallClockProfiler (strstr_eq_none_iff not_infix_singleton)

/-! ## `ParseSingleThreadStack` and the text it hands to `GetStackFrameLineId` -/

theorem lookup_none_of_keys {ν : Type} (m : StdMap (List Char) ν) (line : List Char)
    (h : ∀ e ∈ m, e.1 ≠ line) : m.lookup line = none := by
  induction m with
  | nil => rfl
  | cons e rest ih =>
      obtain ⟨k, v⟩ := e
      have hk : k ≠ line := h (k, v) (List.mem_cons_self _ _)
      have hb : (line == k) = false := by
        simp only [beq_eq_false_iff_ne, ne_eq]
        exact fun he => hk he.symm
      simp only [List.lookup, hb]
      exact ih (fun e he => h e (List.mem_cons_of_mem _ he))

/-- A line without `#` that is not interned yet gets no id: the search for `#`
fails, so every later search starts at `npos` and fails too. -/
theorem GetStackFrameLineId_without_hash (store : Store) (line : List Char)
    (hkeys : ∀ e ∈ store.mapIndividualStackFrameLinesToId, '#' ∈ e.1)
    (hline : '#' ∉ line) (hlen : line.length < npos) :
    GetStackFrameLineId store line = (store, none) := by
  have hl : store.mapIndividualStackFrameLinesToId.lookup line = none := by
    apply lookup_none_of_keys
    intro e he heq
    exact hline (heq ▸ hkeys e he)
  have h0 : findFrom line "#".toList 0 = npos := by
    have : find (line.drop 0) "#".toList = none := by
      rw [List.drop_zero]
      exact (strstr_eq_none_iff _ _).2 (not_infix_singleton hline)
    unfold findFrom
    rw [if_neg (Nat.not_lt_zero _), this]
  have hn : ∀ pat, findFrom line pat npos = npos := by
    intro pat
    unfold findFrom
    rw [if_pos hlen]
  unfold GetStackFrameLineId
  simp only [hl, h0, hn, if_true]

theorem parseLines_without_hash (lines : List (List Char)) (store : Store) (ids : List Nat)
    (hkeys : ∀ e ∈ store.mapIndividualStackFrameLinesToId, '#' ∈ e.1)
    (hlines : ∀ l ∈ lines, '#' ∉ afterAddress l ∧ (afterAddress l).length < npos) :
    parseLines lines store ids = (store, ids) := by
  induction lines with
  | nil => rfl
  | cons str rest ih =>
      have hrest := ih (fun l hl => hlines l (List.mem_cons_of_mem _ hl))
      have hstr := hlines str (List.mem_cons_self _ _)
      rw [parseLines]
      by_cases hh : str.head? ≠ some '#'
      · rw [if_pos hh]
        exact hrest
      · rw [if_neg hh]
        cases hf : find str " 0x".toList with
        | none => exact hrest
        | some p =>
            have ha : afterAddress str = str.drop p := by
              unfold afterAddress
              rw [hf]
            rw [ha] at hstr
            simp only
            rw [GetStackFrameLineId_without_hash store _ hkeys hstr.1 hstr.2]
            exact hrest

/-- C18 (claim: `ParseSingleThreadStack` records one stack with one frame for
each line of the form `#N  0xADDR in FUNC (...) at FILE:LINE` or
`#N  0xADDR in FUNC at FILE:LINE`).  `ParseSingleThreadStack` hands
`GetStackFrameLineId` the text of a line from ` 0x` on, and
`GetStackFrameLineId` starts by searching that text for `#`.  So for all lines
whose text from ` 0x` on has no `#`, as in both forms, and every state of the
globals reached by interning (every interned key has a `#`), no line gets an id:
no stack is recorded and nothing is interned. -/
theorem ParseSingleThreadStack_records_nothing (store : Store) (threadName : List Char)
    (lines : List (List Char))
    (hkeys : ∀ e ∈ store.mapIndividualStackFrameLinesToId, '#' ∈ e.1)
    (hlines : ∀ l ∈ lines, '#' ∉ afterAddress l ∧ (afterAddress l).length < npos) :
    ParseSingleThreadStack store threadName lines = store := by
  unfold ParseSingleThreadStack
  rw [parseLines_without_hash lines store [] hkeys hlines]
  simp

/-- C18 (evaluation at the failing input).  Two lines of the two forms, taken
from the empty tables, record nothing; and even on a whole line
`GetStackFrameLineId` takes the function name with the ` in ` before it. -/
theorem ParseSingleThreadStack_records_nothing_witness :
    (∀ e ∈ Store.empty.mapIndividualStackFrameLinesToId, '#' ∈ e.1) ∧
      (∀ l ∈ exampleBacktrace, '#' ∉ afterAddress l ∧ (afterAddress l).length < npos) ∧
      ParseSingleThreadStack Store.empty "main".toList exampleBacktrace = Store.empty ∧
      (GetStackFrameLineId Store.empty
          "#0  0x0000000000401136 in fib (...) at fib.c:5".toList).1.individualStackFrameLines =
        [⟨"0x0000000000401136 in fib (...) at fib.c:5".toList, " in fib".toList⟩] :=
  ⟨by decide, by decide,
    ParseSingleThreadStack_records_nothing Store.empty "main".toList exampleBacktrace
      (by decide) (by decide),
    by decide⟩

end Wcprof

namespace Wcprof

open WallClockProfiler (strstr_some_spec strstr_eq_zero_iff)

/-! ## `SplitGdbResponseIntoLines` and the grouping of threads -/

/-- A search that starts where the last one found its match finds the same
match again. -/
theorem findFrom_again (s pat : List Char) (a b : Nat) (h : findFrom s pat a = b)
    (hb : b ≠ npos) : findFrom s pat b = b ∧ b + pat.length ≤ s.length := by
  unfold findFrom at h
  by_cases ha : s.length < a
  · rw [if_pos ha] at h
    exact absurd h.symm hb
  · rw [if_neg ha] at h
    cases hf : find (s.drop a) pat with
    | none =>
        rw [hf] at h
        exact absurd h.symm hb
    | some i =>
        rw [hf] at h
        simp only at h
        obtain ⟨hpre, hle, _⟩ := strstr_some_spec _ _ _ hf
        rw [List.length_drop] at hle
        rw [List.drop_drop] at hpre
        have hbl : b + pat.length ≤ s.length := by omega
        refine ⟨?_, hbl⟩
        unfold findFrom
        rw [if_neg (by omega)]
        have h0 : find (s.drop b) pat = some 0 := by
          rw [← h]
          exact (strstr_eq_zero_iff _ _).2 hpre
        rw [h0]
        rfl

/-- The loop of `SplitGdbResponseIntoLines` ends in its second iteration at the
latest, because the second search finds the newline of the first again: the
result is empty or the single view of the first `pos` characters after the
first one. -/
theorem SplitGdbResponseIntoLines_at_most_one (raw : List Char) :
    SplitGdbResponseIntoLines raw = some [] ∨
      ∃ view, SplitGdbResponseIntoLines raw = some [view] := by
  unfold SplitGdbResponseIntoLines
  rw [splitLinesLoop]
  by_cases h1 : findFrom raw "\n".toList 0 = npos ∨ findFrom raw "\n".toList 0 = 0
  · left
    simp only [h1, if_true]
  · simp only [h1, if_false]
    have hne : findFrom raw "\n".toList 0 ≠ npos := fun h => h1 (Or.inl h)
    obtain ⟨hagain, hlen⟩ := findFrom_again raw "\n".toList 0 _ rfl hne
    by_cases h20 : findFrom raw "\n".toList 0 - 0 < 20
    · left
      simp only [h20, if_true]
      rw [splitLinesLoop]
      simp only [hagain, or_true, if_true]
    · right
      simp only [h20, if_false]
      have hv : stringView raw (0 + 1) (findFrom raw "\n".toList 0) =
          some (((raw ++ ['\x00']).drop (0 + 1)).take (findFrom raw "\n".toList 0)) := by
        unfold stringView
        rw [if_pos]
        have : ("\n".toList).length = 1 := rfl
        omega
      rw [hv]
      refine ⟨((raw ++ ['\x00']).drop (0 + 1)).take (findFrom raw "\n".toList 0), ?_⟩
      simp only
      rw [splitLinesLoop]
      simp only [hagain, or_true, if_true, List.nil_append]

/-- With at most one view the grouping loop calls `ParseSingleThreadStack`
never: after a view that starts with `Thread ` there is no view left. -/
theorem groupLoop_at_most_one (lines : List (List Char)) (h : lines.length ≤ 1)
    (store : Store) : groupLoop lines (lines.length + 1) 0 store = some store := by
  cases lines with
  | nil => simp [groupLoop]
  | cons l rest =>
      have hr : rest = [] := by
        cases rest with
        | nil => rfl
        | cons _ _ => simp at h
      subst hr
      simp [groupLoop]

set_option maxRecDepth 100000 in
/-- C19 (claim: for a response with `m` groups of a `Thread ` header line and
`#N` frame lines, the parsing of `CollectAllThreadsStackFrames` records `m`
stacks, each with its frames and its thread name).  For every response and
every state of the globals, the parsing of `CollectAllThreadsStackFrames`
records nothing and leaves the globals as they are:
`SplitGdbResponseIntoLines` returns one view at most, so no view follows a
header.  The example response with one thread of two frames is split into the
one view that starts at its second character and ends with the first newline.
Given the four lines of that response as separate views, the grouping loop
still records nothing: it takes the thread name from the first frame line,
passes the index `i = 1` as the number of lines (`j = i`), and that line gets
no id from `GetStackFrameLineId`. -/
theorem parseAllThreads_records_nothing :
    (∀ (store : Store) (gdbResponse : List Char),
      parseAllThreads store gdbResponse = some store) ∧
    SplitGdbResponseIntoLines exampleThreadsResponse =
      some ["hread 1 (Thread 0x7ffff7d8a740 (LWP 4242) \"prog\"):\n".toList] ∧
    parseAllThreads Store.empty exampleThreadsResponse = some Store.empty ∧
    groupLoop
      ["Thread 1 (Thread 0x7ffff7d8a740 (LWP 4242) \"prog\"):".toList,
        "#0  0x0000000000401136 in fib (...) at fib.c:5".toList,
        "#1  0x0000000000401150 in main at fib.c:9".toList, [], "(gdb) ".toList] 6 0
      Store.empty = some Store.empty := by
  refine ⟨?_, by decide, by decide, by decide⟩
  intro store raw
  unfold parseAllThreads
  rcases SplitGdbResponseIntoLines_at_most_one raw with h | ⟨v, h⟩
  · rw [h]
    exact groupLoop_at_most_one [] (by simp) store
  · rw [h]
    exact groupLoop_at_most_one [v] (by simp) store

end Wcprof

namespace WallClockProfiler

open GdbPipe

/-! ## `fillBufferWithResponse` on its arrays -/

theorem memcpy_eq (dst : List Char) (dstStart : Nat) (src : List Char) (srcStart n : Nat)
    (h1 : srcStart + n ≤ src.length) (h2 : dstStart + n ≤ dst.length) :
    memcpy dst dstStart src srcStart n =
      some (dst.take dstStart ++ (src.drop srcStart).take n ++ dst.drop (dstStart + n)) := by
  unfold memcpy
  rw [if_pos ⟨h1, h2⟩]

theorem cString_append_nul (x y : List Char) : cString (x ++ '\x00' :: y) = cString x := by
  unfold cString
  induction x with
  | nil => simp
  | cons c cs ih => rw [List.cons_append, List.takeWhile_cons, List.takeWhile_cons, ih]

/-- What lines 76-88 do to the arrays, in terms of the bytes held. -/
theorem saveTail_spec (b : Buffers) (hR : b.readBuff.length = READ_BUFF_SIZE)
    (hT : b.tailBuff.length = BUFF_TAIL_SIZE) (hle : b.readSoFar ≤ READ_BUFF_SIZE - 1)
    (hnul : 0 < b.readSoFar → b.readBuff[b.readSoFar]? = some '\x00') :
    ∃ b1, saveTail b = some b1 ∧ b1.readBuff.length = READ_BUFF_SIZE ∧
      b1.tailBuff.length = BUFF_TAIL_SIZE ∧
      b1.readBuff.take b1.readSoFar = keepTail (b.readBuff.take b.readSoFar) ∧
      b1.readSoFar < READ_BUFF_SIZE - 1 ∧
      (0 < b1.readSoFar → b1.readBuff[b1.readSoFar]? = some '\x00') ∧
      (b.readSoFar < READ_BUFF_SIZE - 1 → b1 = b) ∧
      (READ_BUFF_SIZE - 1 ≤ b.readSoFar → b1.readSoFar = BUFF_TAIL_SIZE - 1) := by
  have hlen : (b.readBuff.take b.readSoFar).length = b.readSoFar := by
    rw [List.length_take]
    simp only [READ_BUFF_SIZE] at hle hR
    omega
  by_cases hfull : READ_BUFF_SIZE - 1 ≤ b.readSoFar
  · have hrs : b.readSoFar = 65535 := by
      simp only [READ_BUFF_SIZE] at hle hfull
      omega
    have hR' : b.readBuff.length = 65536 := hR
    have hT' : b.tailBuff.length = 32768 := hT
    have hd : (b.readBuff.drop 32768).length = 32768 := by
      rw [List.length_drop, hR']
    have htail : memcpy b.tailBuff 0 b.readBuff (b.readSoFar + 1 - BUFF_TAIL_SIZE) BUFF_TAIL_SIZE =
        some (b.readBuff.drop 32768) := by
      show memcpy b.tailBuff 0 b.readBuff (b.readSoFar + 1 - 32768) 32768 = _
      rw [hrs, memcpy_eq _ _ _ _ _ (by omega) (by omega)]
      simp only [List.take_zero, List.nil_append, Nat.zero_add,
        show 65535 + 1 - 32768 = 32768 from rfl]
      have h1 : List.take 32768 (List.drop 32768 b.readBuff) = List.drop 32768 b.readBuff :=
        List.take_of_length_le (by omega)
      have h2 : List.drop 32768 b.tailBuff = [] := List.drop_of_length_le (by omega)
      rw [h1, h2, List.append_nil]
    have hread : memcpy b.readBuff 0 (b.readBuff.drop 32768) 0 BUFF_TAIL_SIZE =
        some (b.readBuff.drop 32768 ++ b.readBuff.drop 32768) := by
      show memcpy b.readBuff 0 (b.readBuff.drop 32768) 0 32768 = _
      rw [memcpy_eq _ _ _ _ _ (by omega) (by omega)]
      simp only [List.take_zero, List.nil_append, Nat.zero_add, List.drop_zero]
      have h1 : List.take 32768 (List.drop 32768 b.readBuff) = List.drop 32768 b.readBuff :=
        List.take_of_length_le (by omega)
      rw [h1]
    refine ⟨{ readBuff := b.readBuff.drop 32768 ++ b.readBuff.drop 32768,
              tailBuff := b.readBuff.drop 32768, readSoFar := BUFF_TAIL_SIZE - 1 }, ?_, ?_, ?_,
      ?_, ?_, ?_, ?_, ?_⟩
    · unfold saveTail
      rw [if_pos hfull, if_neg (by simp only [BUFF_TAIL_SIZE]; omega), htail]
      simp only
      rw [hread]
    · simp only [List.length_append, hd, READ_BUFF_SIZE]
    · simp only [hd, BUFF_TAIL_SIZE]
    · simp only [BUFF_TAIL_SIZE]
      rw [List.take_append_of_le_length (by omega)]
      unfold keepTail
      rw [if_pos (by rw [hlen]; exact hfull), hlen, hrs]
      simp only [BUFF_TAIL_SIZE]
      show _ = List.drop 32768 (List.take 65535 b.readBuff)
      rw [List.drop_take]
    · simp only [BUFF_TAIL_SIZE, READ_BUFF_SIZE]
      omega
    · intro _
      simp only [BUFF_TAIL_SIZE]
      rw [List.getElem?_append_left (by omega), List.getElem?_drop]
      have := hnul (by omega)
      rw [hrs] at this
      exact this
    · intro h
      omega
    · intro _
      rfl
  · refine ⟨b, ?_, hR, hT, ?_, by omega, hnul, fun _ => rfl, fun h => absurd h hfull⟩
    · unfold saveTail
      rw [if_neg hfull]
    · unfold keepTail
      rw [if_neg (by rw [hlen]; exact hfull)]


/-- What storing the bytes of a `read` and the NUL after them does. -/
theorem store_spec (rb : List Char) (rs : Nat) (got : List Char)
    (hR : rb.length = READ_BUFF_SIZE) (hfit : rs + got.length ≤ READ_BUFF_SIZE - 1) :
    memcpy rb rs got 0 got.length = some (rb.take rs ++ got ++ rb.drop (rs + got.length)) ∧
      memcpy (rb.take rs ++ got ++ rb.drop (rs + got.length)) (rs + got.length) ['\x00'] 0 1 =
        some (rb.take rs ++ got ++ '\x00' :: rb.drop (rs + got.length + 1)) ∧
      (rb.take rs ++ got ++ '\x00' :: rb.drop (rs + got.length + 1)).length = READ_BUFF_SIZE ∧
      (rb.take rs ++ got).length = rs + got.length := by
  have hR' : rb.length = 65536 := hR
  have hfit' : rs + got.length ≤ 65535 := hfit
  have hl : (rb.take rs ++ got).length = rs + got.length := by
    rw [List.length_append, List.length_take]
    omega
  refine ⟨?_, ?_, ?_, hl⟩
  · rw [memcpy_eq _ _ _ _ _ (by omega) (by omega)]
    rw [List.drop_zero, List.take_length]
  · have hlen : (rb.take rs ++ got ++ rb.drop (rs + got.length)).length = 65536 := by
      rw [List.length_append, hl, List.length_drop]
      omega
    rw [memcpy_eq _ _ _ _ _ (by simp) (by omega)]
    have h1 : List.take (rs + got.length) (rb.take rs ++ got ++ rb.drop (rs + got.length)) =
        rb.take rs ++ got := by
      rw [List.take_append_of_le_length (by omega)]
      exact List.take_of_length_le (by omega)
    have h2 : List.drop (rs + got.length + 1)
        (rb.take rs ++ got ++ rb.drop (rs + got.length)) = rb.drop (rs + got.length + 1) := by
      rw [List.drop_append_eq_append_drop, hl]
      have h3 : List.drop (rs + got.length + 1) (rb.take rs ++ got) = [] :=
        List.drop_of_length_le (by omega)
      rw [h3, List.nil_append, List.drop_drop]
      congr 1
      omega
    rw [h1, h2]
    simp
  · rw [List.length_append, hl, List.length_cons, List.length_drop]
    simp only [READ_BUFF_SIZE]
    omega

/-- One iteration on the arrays, in terms of the bytes `readBuff[0 .. readSoFar)`
held before it. -/
theorem fillStep_spec (w : Option (List Char)) (b : Buffers) (d : Driver)
    (pipe : List ReadResult) (hb : BuffersOk b) (hd : d.readBuff = cString b.readBuff) :
    ∃ b1, saveTail b = some b1 ∧ BuffersOk b1 ∧
      b1.readBuff.take b1.readSoFar = keepTail (b.readBuff.take b.readSoFar) ∧
      b1.readSoFar = (keepTail (b.readBuff.take b.readSoFar)).length ∧
      (b.readSoFar < READ_BUFF_SIZE - 1 → b1 = b) ∧
      (READ_BUFF_SIZE - 1 ≤ b.readSoFar → b1.readSoFar = BUFF_TAIL_SIZE - 1) ∧
      { d with readBuff := cString b1.readBuff,
               numReadAttempts := toChar8 (d.numReadAttempts + 1) } =
        driverAtRead (b.readBuff.take b.readSoFar) d ∧
      (readPipe ((READ_BUFF_SIZE - 1) - b1.readSoFar) pipe = none →
        fillStep w b d pipe =
          Step.scriptEnd b1 (driverAtRead (b.readBuff.take b.readSoFar) d)) ∧
      (∀ rest, readPipe ((READ_BUFF_SIZE - 1) - b1.readSoFar) pipe =
          some (ReadResult.wouldBlock, rest) →
        fillStep w b d pipe =
          Step.next b1 (driverAtRead (b.readBuff.take b.readSoFar) d) rest) ∧
      (∀ rest, readPipe ((READ_BUFF_SIZE - 1) - b1.readSoFar) pipe =
          some (ReadResult.error, rest) →
        fillStep w b d pipe =
          Step.done b1.readSoFar b1 (driverAtRead (b.readBuff.take b.readSoFar) d) rest) ∧
      (∀ rest, readPipe ((READ_BUFF_SIZE - 1) - b1.readSoFar) pipe =
          some (ReadResult.data [], rest) →
        fillStep w b d pipe =
          Step.next b1 (driverAtRead (b.readBuff.take b.readSoFar) d) rest) ∧
      (∀ got rest, readPipe ((READ_BUFF_SIZE - 1) - b1.readSoFar) pipe =
          some (ReadResult.data got, rest) → got ≠ [] →
        ∃ b2, BuffersOk b2 ∧
          b2.readBuff.take b2.readSoFar = keepTail (b.readBuff.take b.readSoFar) ++ got ∧
          b2.readSoFar = (keepTail (b.readBuff.take b.readSoFar) ++ got).length ∧
          b2.readSoFar = b1.readSoFar + got.length ∧
          cString b2.readBuff = cString (keepTail (b.readBuff.take b.readSoFar) ++ got) ∧
          fillStep w b d pipe =
            if responseComplete w
                (cString (keepTail (b.readBuff.take b.readSoFar) ++ got)) then
              Step.done b2.readSoFar b2
                (driverAfterData (keepTail (b.readBuff.take b.readSoFar) ++ got)
                  (driverAtRead (b.readBuff.take b.readSoFar) d)) rest
            else if decide (10 < b2.readSoFar) && !d.detatchJustSent &&
                found (cString (keepTail (b.readBuff.take b.readSoFar) ++ got))
                  "thread-group-exited".toList then
              Step.done b2.readSoFar b2
                { driverAfterData (keepTail (b.readBuff.take b.readSoFar) ++ got)
                    (driverAtRead (b.readBuff.take b.readSoFar) d) with
                  programExited := true } rest
            else
              Step.next b2
                (driverAfterData (keepTail (b.readBuff.take b.readSoFar) ++ got)
                  (driverAtRead (b.readBuff.take b.readSoFar) d)) rest) := by
  obtain ⟨hR, hT, hle, hnul⟩ := hb
  obtain ⟨b1, hs, hR1, hT1, htake, hlt, hnul1, hsame, hfullrs⟩ :=
    saveTail_spec b hR hT hle hnul
  have hlen1 : b1.readSoFar = (keepTail (b.readBuff.take b.readSoFar)).length := by
    rw [← htake, List.length_take]
    simp only [READ_BUFF_SIZE] at hlt hR1
    omega
  have hok1 : BuffersOk b1 := ⟨hR1, hT1, by omega, hnul1⟩
  have hblen : (b.readBuff.take b.readSoFar).length = b.readSoFar := by
    rw [List.length_take]
    simp only [READ_BUFF_SIZE] at hle hR
    omega
  -- the driver state at the read
  have hd1 : ({ d with readBuff := cString b1.readBuff,
                       numReadAttempts := toChar8 (d.numReadAttempts + 1) } : Driver) =
        driverAtRead (b.readBuff.take b.readSoFar) d := by
    unfold driverAtRead
    by_cases hfull : READ_BUFF_SIZE - 1 ≤ b.readSoFar
    · rw [if_pos (by rw [hblen]; exact hfull)]
      have hpos : 0 < b1.readSoFar := by
        rw [hfullrs hfull]
        simp [BUFF_TAIL_SIZE]
      have hn := hnul1 hpos
      have hsplit : b1.readBuff = b1.readBuff.take b1.readSoFar ++
          '\x00' :: b1.readBuff.drop (b1.readSoFar + 1) := by
        have hlt' : b1.readSoFar < b1.readBuff.length := by
          simp only [READ_BUFF_SIZE] at hlt hR1
          omega
        rw [List.getElem?_eq_getElem hlt'] at hn
        have hget : b1.readBuff[b1.readSoFar] = '\x00' := Option.some.inj hn
        conv_lhs => rw [← List.take_append_drop b1.readSoFar b1.readBuff]
        rw [List.drop_eq_getElem_cons hlt', hget]
      have hc : cString b1.readBuff = cString (keepTail (b.readBuff.take b.readSoFar)) := by
        rw [hsplit, cString_append_nul, htake]
      rw [hc]
    · rw [if_neg (by rw [hblen]; exact hfull)]
      have : b1 = b := hsame (by omega)
      rw [this, ← hd]
  refine ⟨b1, hs, hok1, htake, hlen1, hsame, hfullrs, hd1, ?_, ?_, ?_, ?_, ?_⟩
  · intro hr
    unfold fillStep
    rw [hs]
    simp only
    rw [if_neg (by omega), hr, hd1]
  · intro rest hr
    unfold fillStep
    rw [hs]
    simp only
    rw [if_neg (by omega), hr, hd1]
  · intro rest hr
    unfold fillStep
    rw [hs]
    simp only
    rw [if_neg (by omega), hr, hd1]
  · intro rest hr
    unfold fillStep
    rw [hs]
    simp only
    rw [if_neg (by omega), hr, hd1]
    simp
  · intro got rest hr hgot
    have hcount : 0 < (READ_BUFF_SIZE - 1) - b1.readSoFar := by omega
    obtain ⟨_, _, hdata, _⟩ := read_spec _ hcount _ _ _ hr
    obtain ⟨_, hglen⟩ := hdata got rfl
    have hfit : b1.readSoFar + got.length ≤ READ_BUFF_SIZE - 1 := by omega
    obtain ⟨hm1, hm2, hlenrb, hl⟩ := store_spec b1.readBuff b1.readSoFar got hR1 hfit
    have hmemnul : '\x00' ∈ b1.readBuff.take b1.readSoFar ++ got ++
        '\x00' :: b1.readBuff.drop (b1.readSoFar + got.length + 1) := by simp
    have hcs : cString (b1.readBuff.take b1.readSoFar ++ got ++
        '\x00' :: b1.readBuff.drop (b1.readSoFar + got.length + 1)) =
        cString (keepTail (b.readBuff.take b.readSoFar) ++ got) := by
      rw [cString_append_nul, htake]
    have hgl : 0 < got.length := List.length_pos.2 hgot
    refine ⟨{ b1 with
        readBuff := b1.readBuff.take b1.readSoFar ++ got ++
          '\x00' :: b1.readBuff.drop (b1.readSoFar + got.length + 1),
        readSoFar := b1.readSoFar + got.length }, ⟨hlenrb, hT1, hfit, ?_⟩, ?_, ?_, rfl, hcs, ?_⟩
    · intro _
      show (b1.readBuff.take b1.readSoFar ++ got ++
        '\x00' :: b1.readBuff.drop (b1.readSoFar + got.length + 1))[b1.readSoFar + got.length]? =
        some '\x00'
      rw [List.getElem?_append_right (by omega), hl]
      simp
    · show List.take (b1.readSoFar + got.length) (b1.readBuff.take b1.readSoFar ++ got ++
        '\x00' :: b1.readBuff.drop (b1.readSoFar + got.length + 1)) = _
      rw [List.take_append_of_le_length (by omega), List.take_of_length_le (by omega), htake]
    · show b1.readSoFar + got.length = _
      rw [List.length_append, ← hlen1]
    · unfold fillStep
      rw [hs]
      simp only
      rw [if_neg (by omega), hr]
      simp only
      have hne : got.isEmpty = false := by
        cases got with
        | nil => exact absurd rfl hgot
        | cons _ _ => rfl
      rw [hne]
      simp only [Bool.false_eq_true, if_false]
      rw [hm1]
      simp only
      rw [hm2]
      simp only
      rw [if_neg (not_not.2 hmemnul), hcs]
      rfl

/-- The iteration does not read the field `readBuff` of the driver state. -/
theorem fillStep_readBuff (w : Option (List Char)) (b : Buffers) (d : Driver)
    (pipe : List ReadResult) (x : List Char) :
    fillStep w b { d with readBuff := x } pipe = fillStep w b d pipe := by
  rfl

/-- The outcomes of one iteration from a state within bounds: it stays within
bounds, and the bytes held afterwards are the kept tail of the bytes held
before followed by the bytes of this `read`. -/
theorem fillStep_cases (w : Option (List Char)) (b : Buffers) (d : Driver)
    (pipe : List ReadResult) (hb : BuffersOk b) :
    fillStep w b d pipe ≠ Step.outOfBounds ∧
      (∀ b' d' pipe', fillStep w b d pipe = Step.next b' d' pipe' →
        BuffersOk b' ∧ scriptSize pipe' < scriptSize pipe ∧
          ∃ got, got ++ allBytes pipe' = allBytes pipe ∧
            b'.readBuff.take b'.readSoFar = keepTail (b.readBuff.take b.readSoFar) ++ got) ∧
      (∀ n b' d' pipe', fillStep w b d pipe = Step.done n b' d' pipe' →
        n = b'.readSoFar ∧ BuffersOk b' ∧
          ∃ got, got ++ allBytes pipe' = allBytes pipe ∧
            b'.readBuff.take b'.readSoFar = keepTail (b.readBuff.take b.readSoFar) ++ got) := by
  rw [← fillStep_readBuff w b d pipe (cString b.readBuff)]
  obtain ⟨b1, hs, hok1, htake, hlen1, _, _, _, hnone, hwb, herr, hempty, hdata⟩ :=
    fillStep_spec w b { d with readBuff := cString b.readBuff } pipe hb rfl
  have hcount : 0 < (READ_BUFF_SIZE - 1) - b1.readSoFar := by
    have := keepTail_length_lt (b.readBuff.take b.readSoFar)
    omega
  cases hr : readPipe ((READ_BUFF_SIZE - 1) - b1.readSoFar) pipe with
  | none =>
      rw [hnone hr]
      exact ⟨by simp, by simp, by simp⟩
  | some p =>
      obtain ⟨r, rest⟩ := p
      obtain ⟨hsz, _, hd, hw⟩ := read_spec _ hcount _ _ _ hr
      cases r with
      | wouldBlock =>
          rw [hwb rest hr]
          refine ⟨by simp, ?_, by simp⟩
          intro b' d' pipe' h
          simp only [Step.next.injEq] at h
          obtain ⟨rfl, _, rfl⟩ := h
          exact ⟨hok1, hsz, [], by simpa using hw rfl, by simpa using htake⟩
      | error =>
          rw [herr rest hr]
          refine ⟨by simp, by simp, ?_⟩
          intro n b' d' pipe' h
          simp only [Step.done.injEq] at h
          obtain ⟨rfl, rfl, _, rfl⟩ := h
          refine ⟨rfl, hok1, [], ?_, by simpa using htake⟩
          cases pipe with
          | nil => simp [readPipe] at hr
          | cons x xs =>
              cases x with
              | data bytes =>
                  by_cases hl : bytes.length ≤ (READ_BUFF_SIZE - 1) - b1.readSoFar
                  · simp [readPipe, hl] at hr
                  · simp [readPipe, hl] at hr
              | wouldBlock => simp [readPipe] at hr
              | error =>
                  simp only [readPipe, Option.some.injEq, Prod.mk.injEq, true_and] at hr
                  subst hr
                  simp [allBytes]
      | data got =>
          obtain ⟨hall, _⟩ := hd got rfl
          by_cases hg : got = []
          · subst hg
            rw [hempty rest hr]
            refine ⟨by simp, ?_, by simp⟩
            intro b' d' pipe' h
            simp only [Step.next.injEq] at h
            obtain ⟨rfl, _, rfl⟩ := h
            exact ⟨hok1, hsz, [], hall, by simpa using htake⟩
          · obtain ⟨b2, hok2, htake2, _, _, _, hstep⟩ := hdata got rest hr hg
            rw [hstep]
            refine ⟨?_, ?_, ?_⟩
            · split
              · simp
              · split <;> simp
            · intro b' d' pipe' h
              split at h
              · simp at h
              · split at h
                · simp at h
                · simp only [Step.next.injEq] at h
                  obtain ⟨rfl, _, rfl⟩ := h
                  exact ⟨hok2, hsz, got, hall, htake2⟩
            · intro n b' d' pipe' h
              split at h
              · simp only [Step.done.injEq] at h
                obtain ⟨rfl, rfl, _, rfl⟩ := h
                exact ⟨rfl, hok2, got, hall, htake2⟩
              · split at h
                · simp only [Step.done.injEq] at h
                  obtain ⟨rfl, rfl, _, rfl⟩ := h
                  exact ⟨rfl, hok2, got, hall, htake2⟩
                · simp at h

theorem suffix_append_right {x s : List Char} (h : x <:+ s) (t : List Char) :
    x ++ t <:+ s ++ t := by
  obtain ⟨p, hp⟩ := h
  exact ⟨p, by rw [← List.append_assoc, hp]⟩

theorem drop_of_suffix {x s : List Char} (h : x <:+ s) (k : Nat) (hk : k ≤ x.length) :
    x.drop (x.length - k) = s.drop (s.length - k) := by
  obtain ⟨p, rfl⟩ := h
  rw [List.length_append,
    show p.length + x.length - k = p.length + (x.length - k) by omega, List.drop_append]

/-- The loop on the arrays never leaves them, and what it returns is a suffix of
what it held on entry followed by what it read. -/
theorem fillLoopOnBuffers_inv (w : Option (List Char)) (fuel : Nat) (b : Buffers) (d : Driver)
    (pipe : List ReadResult) (hb : BuffersOk b) :
    fillLoopOnBuffers w fuel b d pipe ≠ BufferRun.outOfBounds ∧
      ∀ n b' d' rest, fillLoopOnBuffers w fuel b d pipe = BufferRun.returned n b' d' rest →
        n = b'.readSoFar ∧ BuffersOk b' ∧
          ∃ got, got ++ allBytes rest = allBytes pipe ∧
            ∀ seen, b.readBuff.take b.readSoFar <:+ seen →
              b'.readBuff.take n <:+ seen ++ got := by
  induction fuel generalizing b d pipe with
  | zero => exact ⟨by simp [fillLoopOnBuffers], by simp [fillLoopOnBuffers]⟩
  | succ f ih =>
      cases pipe with
      | nil => exact ⟨by simp [fillLoopOnBuffers], by simp [fillLoopOnBuffers]⟩
      | cons r pipe' =>
          obtain ⟨hsafe, hnext, hdone⟩ := fillStep_cases w b d (r :: pipe') hb
          unfold fillLoopOnBuffers
          cases hst : fillStep w b d (r :: pipe') with
          | outOfBounds => exact absurd hst hsafe
          | scriptEnd b' d' => exact ⟨by simp, by simp⟩
          | next b' d' rest' =>
              obtain ⟨hok', _, got, hgot, htake⟩ := hnext b' d' rest' hst
              obtain ⟨ih1, ih2⟩ := ih b' d' rest' hok'
              refine ⟨ih1, ?_⟩
              intro n b'' d'' rest hres
              obtain ⟨hn, hok'', got', hgot', hsuf⟩ := ih2 n b'' d'' rest hres
              refine ⟨hn, hok'', got ++ got', ?_, ?_⟩
              · rw [List.append_assoc, hgot', hgot]
              · intro seen hseen
                rw [← List.append_assoc]
                apply hsuf
                rw [htake]
                exact suffix_append_right ((keepTail_suffix _).trans hseen) got
          | done n b' d' rest' =>
              obtain ⟨hn, hok', got, hgot, htake⟩ := hdone n b' d' rest' hst
              refine ⟨by simp, ?_⟩
              intro m b'' d'' rest hres
              simp only [BufferRun.returned.injEq] at hres
              obtain ⟨rfl, rfl, rfl, rfl⟩ := hres
              refine ⟨hn, hok', got, hgot, ?_⟩
              intro seen hseen
              rw [hn, htake]
              exact suffix_append_right ((keepTail_suffix _).trans hseen) got

/-- More fuel than the script can answer reads changes nothing: the loop on the
arrays stops by returning or by the end of the script. -/
theorem fillLoopOnBuffers_fuel (w : Option (List Char)) (f f' : Nat) (b : Buffers) (d : Driver)
    (pipe : List ReadResult) (hb : BuffersOk b) (h : scriptSize pipe < f)
    (h' : scriptSize pipe < f') :
    fillLoopOnBuffers w f b d pipe = fillLoopOnBuffers w f' b d pipe := by
  induction f generalizing f' b d pipe with
  | zero => omega
  | succ n ih =>
      obtain ⟨m, rfl⟩ : ∃ m, f' = m + 1 := ⟨f' - 1, by omega⟩
      cases pipe with
      | nil => simp [fillLoopOnBuffers]
      | cons r pipe' =>
          obtain ⟨_, hnext, _⟩ := fillStep_cases w b d (r :: pipe') hb
          rw [fillLoopOnBuffers, fillLoopOnBuffers]
          cases hst : fillStep w b d (r :: pipe') with
          | next b' d' rest =>
              obtain ⟨hok', hsz, _⟩ := hnext b' d' rest hst
              exact ih m b' d' rest hok' (by omega) (by omega)
          | done n' b' d' rest => rfl
          | scriptEnd b' d' => rfl
          | outOfBounds => rfl

/-- At every loop head the arrays are within bounds and hold a suffix of the
bytes received so far. -/
theorem atLoopHead_inv (w : Option (List Char)) (b0 : Buffers) (d0 : Driver)
    (pipe0 : List ReadResult) (hR : b0.readBuff.length = READ_BUFF_SIZE)
    (hT : b0.tailBuff.length = BUFF_TAIL_SIZE) (b : Buffers) (d : Driver)
    (pipe : List ReadResult) (h : AtLoopHead w b0 d0 pipe0 b d pipe) :
    BuffersOk b ∧ ∃ seen, seen ++ allBytes pipe = allBytes pipe0 ∧
      b.readBuff.take b.readSoFar <:+ seen := by
  induction h with
  | entry =>
      refine ⟨⟨hR, hT, Nat.zero_le _, fun h => absurd h (Nat.lt_irrefl 0)⟩, [], rfl, ?_⟩
      simp
  | again _ hstep ih =>
      obtain ⟨hok, seen, hseen, hsuf⟩ := ih
      obtain ⟨_, hnext, _⟩ := fillStep_cases w _ _ _ hok
      obtain ⟨hok', _, got, hgot, htake⟩ := hnext _ _ _ hstep
      refine ⟨hok', seen ++ got, ?_, ?_⟩
      · rw [List.append_assoc, hgot, hseen]
      · rw [htake]
        exact suffix_append_right ((keepTail_suffix _).trans hsuf) got

/-- The loop on the arrays and the loop on the bytes held agree: they return the
same count, driver state and rest of the script, or wait holding the same
bytes. -/
theorem fillLoopOnBuffers_refines (w : Option (List Char)) (fuel : Nat) (b : Buffers)
    (d : Driver) (pipe : List ReadResult) (hb : BuffersOk b)
    (hd : d.readBuff = cString b.readBuff) :
    (∃ n b' d' rest,
        fillLoop w fuel (b.readBuff.take b.readSoFar) d pipe = FillResult.returned n d' rest ∧
        fillLoopOnBuffers w fuel b d pipe = BufferRun.returned n b' d' rest ∧
        b'.readSoFar = n) ∨
      ∃ b' d',
        fillLoop w fuel (b.readBuff.take b.readSoFar) d pipe =
          FillResult.waiting (b'.readBuff.take b'.readSoFar) d' ∧
        fillLoopOnBuffers w fuel b d pipe = BufferRun.waiting b' d' := by
  induction fuel generalizing b d pipe with
  | zero => exact Or.inr ⟨b, d, by simp [fillLoop], by simp [fillLoopOnBuffers]⟩
  | succ f ih =>
      cases pipe with
      | nil => exact Or.inr ⟨b, d, by simp [fillLoop], by simp [fillLoopOnBuffers]⟩
      | cons r pipe' =>
          obtain ⟨b1, _, hok1, htake, hlen1, _, _, hd1, hnone, hwb, herr, hempty, hdata⟩ :=
            fillStep_spec w b d (r :: pipe') hb hd
          have hd1r : (driverAtRead (b.readBuff.take b.readSoFar) d).readBuff =
              cString b1.readBuff := by
            rw [← hd1]
          rw [fillLoop_step, fillLoopOnBuffers, ← hlen1]
          cases hr : readPipe ((READ_BUFF_SIZE - 1) - b1.readSoFar) (r :: pipe') with
          | none => exact absurd hr (read_cons_ne_none _ _ _)
          | some p =>
              obtain ⟨res, rest⟩ := p
              cases res with
              | wouldBlock =>
                  rw [hwb rest hr]
                  simp only
                  rw [← htake]
                  exact ih b1 _ rest hok1 hd1r
              | error =>
                  rw [herr rest hr]
                  simp only
                  exact Or.inl ⟨_, b1, _, rest, rfl, by rw [hlen1], rfl⟩
              | data got =>
                  by_cases hg : got = []
                  · subst hg
                    rw [hempty rest hr]
                    simp only [List.isEmpty_nil, if_true]
                    rw [← htake]
                    exact ih b1 _ rest hok1 hd1r
                  · obtain ⟨b2, hok2, htake2, hrs2, _, hcs2, hstep⟩ := hdata got rest hr hg
                    have hne : got.isEmpty = false := by
                      cases got with
                      | nil => exact absurd rfl hg
                      | cons _ _ => rfl
                    rw [hstep]
                    simp only [hne, Bool.false_eq_true, if_false]
                    rw [← hrs2]
                    by_cases h1 : responseComplete w
                        (cString (keepTail (b.readBuff.take b.readSoFar) ++ got)) = true
                    · rw [if_pos h1, if_pos h1]
                      exact Or.inl ⟨_, b2, _, rest, rfl, rfl, rfl⟩
                    · rw [if_neg h1, if_neg h1]
                      by_cases h2 : (decide (10 < b2.readSoFar) && !d.detatchJustSent &&
                          found (cString (keepTail (b.readBuff.take b.readSoFar) ++ got))
                            "thread-group-exited".toList) = true
                      · rw [if_pos h2, if_pos h2]
                        exact Or.inl ⟨_, b2, _, rest, rfl, rfl, rfl⟩
                      · rw [if_neg h2, if_neg h2]
                        simp only
                        rw [← htake2]
                        exact ih b2 _ rest hok2 (by
                          show cString (List.take b2.readSoFar b2.readBuff) = _
                          rw [htake2, hcs2])

/-- `fillBufferWithResponse` on the arrays agrees with `fillBufferWithResponse` on
the bytes held, when the driver state starts with the C string of `readBuff`. -/
theorem fillBufferWithResponseOnBuffers_agrees (w : Option (List Char)) (b0 : Buffers)
    (d0 : Driver) (pipe0 : List ReadResult) (hR : b0.readBuff.length = READ_BUFF_SIZE)
    (hT : b0.tailBuff.length = BUFF_TAIL_SIZE) (hd : d0.readBuff = cString b0.readBuff) :
    (∃ n b' d' rest,
        fillBufferWithResponse w d0 pipe0 = FillResult.returned n d' rest ∧
        fillBufferWithResponseOnBuffers w b0 d0 pipe0 = BufferRun.returned n b' d' rest ∧
        b'.readSoFar = n) ∨
      ∃ b' d',
        fillBufferWithResponse w d0 pipe0 =
          FillResult.waiting (b'.readBuff.take b'.readSoFar) d' ∧
        fillBufferWithResponseOnBuffers w b0 d0 pipe0 = BufferRun.waiting b' d' := by
  have hentry : BuffersOk { b0 with readSoFar := 0 } :=
    ⟨hR, hT, Nat.zero_le _, fun h => absurd h (Nat.lt_irrefl 0)⟩
  have h := fillLoopOnBuffers_refines w (scriptSize pipe0 + 1) { b0 with readSoFar := 0 }
    { d0 with anythingInReadBuff := false, numReadAttempts := 0 } pipe0 hentry hd
  simp only [List.take_zero] at h
  exact h

/-- C20 (amended claim).  With `READ_BUFF_SIZE = 65536` and
`BUFF_TAIL_SIZE = 32768`, from arrays of these sizes and for every script: a
call of `fillBufferWithResponse` makes no access outside `readBuff` and
`tailBuff`, and on return `readBuff[0 .. numRead)` is a suffix of the bytes read
during the call, with `numRead ≤ READ_BUFF_SIZE - 1`.  At every loop head the
bytes held, `readBuff[0 .. readSoFar)`, are a suffix of the bytes received so
far.  When the buffer is exhausted there (`readSoFar ≥ READ_BUFF_SIZE - 1`),
lines 76-88 leave `readSoFar = BUFF_TAIL_SIZE - 1` and, at the start of
`readBuff`, exactly the last `BUFF_TAIL_SIZE - 1` bytes received so far, in
order, with the NUL after them; the iteration then stores the bytes it reads
right after them. -/
theorem fillBufferWithResponse_keeps_tail_within_bounds (w : Option (List Char))
    (b0 : Buffers) (d0 : Driver) (pipe0 : List ReadResult)
    (hR : b0.readBuff.length = READ_BUFF_SIZE) (hT : b0.tailBuff.length = BUFF_TAIL_SIZE) :
    fillBufferWithResponseOnBuffers w b0 d0 pipe0 ≠ BufferRun.outOfBounds ∧
      (∀ n b d rest,
        fillBufferWithResponseOnBuffers w b0 d0 pipe0 = BufferRun.returned n b d rest →
        n = b.readSoFar ∧ n ≤ READ_BUFF_SIZE - 1 ∧ b.readBuff.length = READ_BUFF_SIZE ∧
          ∃ seen, seen ++ allBytes rest = allBytes pipe0 ∧ b.readBuff.take n <:+ seen) ∧
      (∀ b d pipe seen, AtLoopHead w b0 d0 pipe0 b d pipe →
        seen ++ allBytes pipe = allBytes pipe0 →
        BuffersOk b ∧ b.readBuff.take b.readSoFar <:+ seen ∧
          fillStep w b d pipe ≠ Step.outOfBounds ∧
          (READ_BUFF_SIZE - 1 ≤ b.readSoFar →
            ∃ b1, saveTail b = some b1 ∧ b1.readSoFar = BUFF_TAIL_SIZE - 1 ∧
              b1.readBuff.take (BUFF_TAIL_SIZE - 1) =
                seen.drop (seen.length - (BUFF_TAIL_SIZE - 1)) ∧
              (seen.drop (seen.length - (BUFF_TAIL_SIZE - 1))).length = BUFF_TAIL_SIZE - 1 ∧
              b1.readBuff[BUFF_TAIL_SIZE - 1]? = some '\x00' ∧
              ∀ b' d' pipe',
                (fillStep w b d pipe = Step.next b' d' pipe' ∨
                  ∃ n, fillStep w b d pipe = Step.done n b' d' pipe') →
                ∃ got, got ++ allBytes pipe' = allBytes pipe ∧
                  b'.readBuff.take b'.readSoFar =
                    seen.drop (seen.length - (BUFF_TAIL_SIZE - 1)) ++ got)) := by
  have hentry : BuffersOk { b0 with readSoFar := 0 } :=
    ⟨hR, hT, Nat.zero_le _, fun h => absurd h (Nat.lt_irrefl 0)⟩
  obtain ⟨hsafe, hret⟩ := fillLoopOnBuffers_inv w (scriptSize pipe0 + 1)
    { b0 with readSoFar := 0 } { d0 with anythingInReadBuff := false, numReadAttempts := 0 }
    pipe0 hentry
  refine ⟨hsafe, ?_, ?_⟩
  · intro n b d rest hres
    obtain ⟨hn, hok, got, hgot, hsuf⟩ := hret n b d rest hres
    refine ⟨hn, ?_, hok.1, got, hgot, ?_⟩
    · rw [hn]
      exact hok.2.2.1
    · have := hsuf [] (by simp)
      simpa using this
  · intro b d pipe seen hat hseen
    obtain ⟨hok, seen', hseen', hsuf⟩ := atLoopHead_inv w b0 d0 pipe0 hR hT b d pipe hat
    have hs : seen' = seen := by
      have : seen' ++ allBytes pipe = seen ++ allBytes pipe := by rw [hseen', hseen]
      exact List.append_cancel_right this
    subst hs
    obtain ⟨hstepsafe, hnext, hdone⟩ := fillStep_cases w b d pipe hok
    refine ⟨hok, hsuf, hstepsafe, ?_⟩
    intro hfull
    obtain ⟨hRb, hTb, hle, hnul⟩ := hok
    obtain ⟨b1, hs1, hR1, hT1, htake, hlt, hnul1, _, hrs⟩ := saveTail_spec b hRb hTb hle hnul
    have hrs1 := hrs hfull
    have hblen : (b.readBuff.take b.readSoFar).length = b.readSoFar := by
      rw [List.length_take]
      simp only [READ_BUFF_SIZE] at hle hRb
      omega
    have hbrs : b.readSoFar = 65535 := by
      simp only [READ_BUFF_SIZE] at hle hfull
      omega
    have hkeep : keepTail (b.readBuff.take b.readSoFar) =
        seen'.drop (seen'.length - (BUFF_TAIL_SIZE - 1)) := by
      unfold keepTail
      rw [if_pos (by rw [hblen]; exact hfull),
        ← drop_of_suffix hsuf (BUFF_TAIL_SIZE - 1)
          (by rw [hblen, hbrs]; simp [BUFF_TAIL_SIZE]), hblen, hbrs]
      rfl
    have hseenlen : 65535 ≤ seen'.length := by
      have := hsuf.length_le
      rw [hblen, hbrs] at this
      exact this
    refine ⟨b1, hs1, hrs1, ?_, ?_, ?_, ?_⟩
    · rw [← hkeep, ← htake, hrs1]
    · rw [List.length_drop]
      simp only [BUFF_TAIL_SIZE]
      omega
    · have := hnul1 (by rw [hrs1]; simp [BUFF_TAIL_SIZE])
      rw [hrs1] at this
      exact this
    · intro b' d' pipe' hcase
      rcases hcase with h | ⟨n, h⟩
      · obtain ⟨_, _, got, hgot, ht⟩ := hnext b' d' pipe' h
        exact ⟨got, hgot, by rw [ht, hkeep]⟩
      · obtain ⟨_, _, got, hgot, ht⟩ := hdone n b' d' pipe' h
        exact ⟨got, hgot, by rw [ht, hkeep]⟩

/-- C20 (witness).  Arrays of the declared sizes and a script with one
response. -/
theorem fillBufferWithResponse_keeps_tail_within_bounds_witness :
    (List.replicate 65536 '\x00').length = READ_BUFF_SIZE ∧
      (List.replicate 32768 '\x00').length = BUFF_TAIL_SIZE ∧
      fillBufferWithResponseOnBuffers none
          ⟨List.replicate 65536 '\x00', List.replicate 32768 '\x00', 0⟩
          ⟨[], false, 0, false, false⟩ [ReadResult.data "^done\n(gdb) \n".toList] ≠
        BufferRun.outOfBounds :=
  ⟨List.length_replicate _ _, List.length_replicate _ _,
    (fillBufferWithResponse_keeps_tail_within_bounds none
      ⟨List.replicate 65536 '\x00', List.replicate 32768 '\x00', 0⟩
      ⟨[], false, 0, false, false⟩ [ReadResult.data "^done\n(gdb) \n".toList]
      (List.length_replicate _ _) (List.length_replicate _ _)).1⟩

theorem readPipe_data_fits (count : Nat) (bytes : List Char) (rest : List ReadResult)
    (h : bytes.length ≤ count) :
    readPipe count (ReadResult.data bytes :: rest) = some (ReadResult.data bytes, rest) := by
  simp [readPipe, h]

theorem exampleLongResponse_length : exampleLongResponse.length = 65535 := by
  rw [exampleLongResponse, List.length_append, List.length_replicate, List.length_cons,
    List.length_replicate]

theorem exampleLongResponse_chars (c : Char) (hc : c ∈ exampleLongResponse) :
    c = 'x' ∨ c = 'y' ∨ c = 'z' := by
  rw [exampleLongResponse] at hc
  rcases List.mem_append.1 hc with h | h
  · exact Or.inl (List.eq_of_mem_replicate h)
  · rcases List.mem_cons.1 h with h | h
    · exact Or.inr (Or.inl h)
    · exact Or.inr (Or.inr (List.eq_of_mem_replicate h))

theorem exampleLongResponse_lacks (needle : List Char) (c : Char) (hc : c ∈ needle)
    (hx : c ≠ 'x') (hy : c ≠ 'y') (hz : c ≠ 'z') :
    ¬ needle <:+: cString exampleLongResponse := by
  intro h
  have h1 : c ∈ cString exampleLongResponse := h.subset hc
  have h2 : c ∈ exampleLongResponse := (cString_initial _).subset h1
  rcases exampleLongResponse_chars c h2 with h | h | h
  · exact hx h
  · exact hy h
  · exact hz h

theorem exampleLongResponse_tail :
    exampleLongResponse.drop 32768 = List.replicate 32767 'z' ∧
      exampleLongResponse.drop (exampleLongResponse.length - BUFF_TAIL_SIZE) =
        'y' :: List.replicate 32767 'z' := by
  have hx : (List.replicate 32767 'x').length = 32767 := List.length_replicate _ _
  constructor
  · rw [exampleLongResponse, List.drop_append_eq_append_drop, hx,
      List.drop_of_length_le (by omega), List.nil_append]
    rfl
  · rw [exampleLongResponse_length, exampleLongResponse, List.drop_append_eq_append_drop, hx]
    have h0 : List.drop (65535 - BUFF_TAIL_SIZE) (List.replicate 32767 'x') = [] :=
      List.drop_of_length_le (by rw [hx]; simp [BUFF_TAIL_SIZE])
    rw [h0, List.nil_append]
    rfl

theorem scriptSize_response_then_block (bytes : List Char) :
    scriptSize [ReadResult.data bytes, ReadResult.wouldBlock] + 1 = bytes.length + 1 + 2 := by
  simp only [scriptSize]

/-- Three iterations on a script of one response and one would-block. -/
theorem fillLoopOnBuffers_two_reads (w : Option (List Char)) (fuel : Nat) (b b2 b3 : Buffers)
    (d d2 d3 : Driver) (r1 r2 : ReadResult)
    (h1 : fillStep w b d [r1, r2] = Step.next b2 d2 [r2])
    (h2 : fillStep w b2 d2 [r2] = Step.next b3 d3 []) :
    fillLoopOnBuffers w (fuel + 1 + 2) b d [r1, r2] = BufferRun.waiting b3 d3 := by
  rw [fillLoopOnBuffers, h1]
  simp only
  rw [fillLoopOnBuffers, h2]
  simp only
  rw [fillLoopOnBuffers]

/-- C20 (counterexample).  GDB sends 65535 bytes without a prompt (32767 `x`,
one `y`, 32767 `z`) and then nothing.  The buffer is exhausted; when the loop
stands at its head again it holds `readSoFar = 32767` bytes, the `z`s, with the
NUL after them, while the last `BUFF_TAIL_SIZE = 32768` bytes received start
with the `y`: the first `BUFF_TAIL_SIZE` bytes of the buffer are not the last
`BUFF_TAIL_SIZE` bytes received. -/
theorem fillBufferWithResponse_keeps_one_byte_less :
    ∃ b d, fillBufferWithResponseOnBuffers none exampleArrays ⟨[], false, 0, false, false⟩
          [ReadResult.data exampleLongResponse, ReadResult.wouldBlock] =
        BufferRun.waiting b d ∧
      b.readSoFar = 32767 ∧
      b.readBuff.take 32767 = List.replicate 32767 'z' ∧
      b.readBuff[32767]? = some '\x00' ∧
      allBytes [ReadResult.data exampleLongResponse, ReadResult.wouldBlock] =
        exampleLongResponse ∧
      exampleLongResponse.drop (exampleLongResponse.length - BUFF_TAIL_SIZE) =
        'y' :: List.replicate 32767 'z' ∧
      b.readBuff.take BUFF_TAIL_SIZE ≠ 'y' :: List.replicate 32767 'z' := by
  obtain ⟨rb, tb, hrb, htb, hex⟩ : ∃ rb tb : List Char, rb.length = READ_BUFF_SIZE ∧
      tb.length = BUFF_TAIL_SIZE ∧ exampleArrays = ⟨rb, tb, 0⟩ :=
    ⟨List.replicate 65536 '\x00', List.replicate 32768 '\x00', List.length_replicate _ _,
      List.length_replicate _ _, rfl⟩
  rw [hex]
  have hfuel : scriptSize [ReadResult.data exampleLongResponse, ReadResult.wouldBlock] + 1 =
      65535 + 1 + 2 := by
    have h := scriptSize_response_then_block exampleLongResponse
    rw [exampleLongResponse_length] at h
    exact h
  have hok0 : BuffersOk ⟨rb, tb, 0⟩ :=
    ⟨hrb, htb, Nat.zero_le _, fun h => absurd h (Nat.lt_irrefl 0)⟩
  -- first iteration: the 65535 bytes are stored
  obtain ⟨b1, _, _, _, hlen1, hsame1, _, _, _, _, _, _, hdata1⟩ :=
    fillStep_spec none ⟨rb, tb, 0⟩
      ⟨cString rb, false, 0, false, false⟩
      [ReadResult.data exampleLongResponse, ReadResult.wouldBlock] hok0 rfl
  have hb1 : b1 = ⟨rb, tb, 0⟩ :=
    hsame1 (by show 0 < READ_BUFF_SIZE - 1; simp [READ_BUFF_SIZE])
  have hk0 : keepTail ((⟨rb, tb, 0⟩ : Buffers).readBuff.take (⟨rb, tb, 0⟩ : Buffers).readSoFar) = [] := by
    show keepTail (List.take 0 _) = []
    rw [List.take_zero]
    simp [keepTail, READ_BUFF_SIZE]
  have hread1 : readPipe ((READ_BUFF_SIZE - 1) - b1.readSoFar)
      [ReadResult.data exampleLongResponse, ReadResult.wouldBlock] =
      some (ReadResult.data exampleLongResponse, [ReadResult.wouldBlock]) := by
    rw [hb1]
    exact readPipe_data_fits _ _ _ (by rw [exampleLongResponse_length]; exact Nat.le_refl 65535)
  have hne : exampleLongResponse ≠ [] := by
    intro h
    have := exampleLongResponse_length
    rw [h] at this
    simp at this
  obtain ⟨b2, hok2, htake2, hrs2, _, _, hstep1⟩ := hdata1 _ _ hread1 hne
  rw [hk0, List.nil_append] at htake2 hrs2 hstep1
  have hrc : responseComplete none (cString exampleLongResponse) = false := by
    cases h : responseComplete none (cString exampleLongResponse) with
    | false => rfl
    | true =>
        exact absurd ((responseComplete_iff _ _).1 h).1
          (exampleLongResponse_lacks _ '(' (by decide) (by decide) (by decide) (by decide))
  have htge : found (cString exampleLongResponse) "thread-group-exited".toList = false := by
    cases h : found (cString exampleLongResponse) "thread-group-exited".toList with
    | false => rfl
    | true =>
        exact absurd ((found_iff _ _).1 h)
          (exampleLongResponse_lacks _ 't' (by decide) (by decide) (by decide) (by decide))
  rw [hrc, htge] at hstep1
  simp only [Bool.false_eq_true, if_false, Bool.and_false] at hstep1
  rw [exampleLongResponse_length] at hrs2
  -- second iteration: the buffer is exhausted, the tail is kept, the read would block
  obtain ⟨b3, _, hok3, htake3, _, _, hrs3, _, _, hwb3, _, _, _⟩ :=
    fillStep_spec none b2
      (driverAfterData exampleLongResponse
        (driverAtRead (List.take 0 rb)
          ⟨cString rb, false, 0, false, false⟩))
      [ReadResult.wouldBlock] hok2 (by
        show cString exampleLongResponse = cString b2.readBuff
        have hlt : b2.readSoFar < b2.readBuff.length := by
          rw [hok2.1, hrs2]
          simp [READ_BUFF_SIZE]
        have hn := hok2.2.2.2 (by rw [hrs2]; omega)
        rw [List.getElem?_eq_getElem hlt] at hn
        have hget : b2.readBuff[b2.readSoFar] = '\x00' := Option.some.inj hn
        have hsplit : b2.readBuff = b2.readBuff.take b2.readSoFar ++
            '\x00' :: b2.readBuff.drop (b2.readSoFar + 1) := by
          conv_lhs => rw [← List.take_append_drop b2.readSoFar b2.readBuff]
          rw [List.drop_eq_getElem_cons hlt, hget]
        rw [hsplit, cString_append_nul, htake2])
  have hrs3' : b3.readSoFar = 32767 := by
    rw [hrs3 (by rw [hrs2]; simp [READ_BUFF_SIZE])]
    rfl
  have hstep2 := hwb3 [] (by simp [readPipe])
  have hkeep' : b3.readBuff.take b3.readSoFar = List.replicate 32767 'z' := by
    rw [htake3, htake2]
    unfold keepTail
    rw [if_pos (by rw [exampleLongResponse_length]; simp [READ_BUFF_SIZE]),
      exampleLongResponse_length]
    exact exampleLongResponse_tail.1
  have hkeep : b3.readBuff.take 32767 = List.replicate 32767 'z' := by
    rw [hrs3'] at hkeep'
    exact hkeep'
  refine ⟨b3, driverAtRead (b2.readBuff.take b2.readSoFar)
    (driverAfterData exampleLongResponse
      (driverAtRead (List.take 0 rb)
        ⟨cString rb, false, 0, false, false⟩)),
    ?_, hrs3', hkeep, ?_, ?_, exampleLongResponse_tail.2, ?_⟩
  · unfold fillBufferWithResponseOnBuffers
    rw [hfuel]
    exact fillLoopOnBuffers_two_reads none _ _ _ _ _ _ _ _ _
      ((fillStep_readBuff none ⟨rb, tb, 0⟩ _ _ (cString rb)).symm.trans
        hstep1) hstep2
  · have := hok3.2.2.2 (by rw [hrs3']; omega)
    rw [hrs3'] at this
    exact this
  · simp [allBytes]
  · intro h
    have h1 : (b3.readBuff.take BUFF_TAIL_SIZE).take 32767 =
        ('y' :: List.replicate 32767 'z').take 32767 := by rw [h]
    rw [List.take_take, show min 32767 BUFF_TAIL_SIZE = 32767 from rfl, hkeep,
      show (32767 : Nat) = 32766 + 1 from rfl, List.replicate_succ, List.take_succ_cons] at h1
    exact absurd (List.cons.inj h1).1 (by decide)

end WallClockProfiler

namespace WallClockProfiler

open GdbPipe

/-! ## `numSamples` against the samples recorded in the stack table -/

/-- A call of `logGDBStackResponse` that returns either left early, with the
tables as they were, or recorded exactly one parsed stack. -/
theorem logGDBStackResponse_records_or_drops (uninit : List Char) (d : Driver)
    (agg : Aggregator) (pipe : List ReadResult) (d' : Driver) (agg' : Aggregator)
    (rest : List ReadResult)
    (h : logGDBStackResponse uninit d agg pipe = some (Outcome.returned (d', agg'), rest)) :
    (sampleDropped uninit d pipe = true ∧ agg' = agg) ∨
      (sampleDropped uninit d pipe = false ∧
        ∃ frames, agg' = recordStack agg (newStack frames)) := by
  unfold logGDBStackResponse at h
  unfold sampleDropped
  cases hf : fillBufferWithResponse none d pipe with
  | waiting b dd => simp [hf] at h
  | returned numRead d1 rest1 =>
      simp only [hf] at h ⊢
      by_cases h0 : numRead = 0
      · left
        simp only [h0, if_true, Option.some.injEq, Prod.mk.injEq, Outcome.returned.injEq] at h
        exact ⟨by simp [h0], h.1.2.symm⟩
      · simp only [h0, if_false] at h
        by_cases hx : (checkProgramExited d1).programExited = true
        · left
          simp only [hx, if_true, Option.some.injEq, Prod.mk.injEq, Outcome.returned.injEq] at h
          exact ⟨by simp [hx], h.1.2.symm⟩
        · simp only [hx, if_false, Bool.false_eq_true] at h
          unfold logStackText at h
          cases hp : parseStackResponse uninit (checkProgramExited d1).readBuff with
          | dropped =>
              left
              simp only [hp, Option.some.injEq, Prod.mk.injEq, Outcome.returned.injEq] at h
              exact ⟨by simp, h.1.2.symm⟩
          | exited => simp [hp] at h
          | stack frames =>
              right
              simp only [hp, Option.some.injEq, Prod.mk.injEq, Outcome.returned.injEq] at h
              exact ⟨by simp [h0, hx], frames, h.1.2.symm⟩

theorem count_stackCommand_interruptAction (inNumArgs : Nat) :
    [interruptAction inNumArgs].count stackCommand = 0 := by
  unfold interruptAction stackCommand
  split <;> decide

/-- What one iteration of the sampling loop does to `numSamples`, to the
tables and to the commands sent: either `-stack-list-frames` was not sent and
nothing changed, or it was sent once and `numSamples` went up by one, with the
tables unchanged when the sample was dropped and with one stack recorded
otherwise. -/
theorem loopBody_counts (uninit : List Char) (inNumArgs : Nat) (c c' : Controller)
    (h : loopBody uninit inNumArgs c = some (Outcome.returned c')) :
    ∃ sent, c'.actions = c.actions ++ sent ∧
      ((sent.count stackCommand = 0 ∧ c'.numSamples = c.numSamples ∧ c'.agg = c.agg ∧
          iterationDropsSample uninit inNumArgs c = false) ∨
        (sent.count stackCommand = 1 ∧ c'.numSamples = c.numSamples + 1 ∧
          ((iterationDropsSample uninit inNumArgs c = true ∧ c'.agg = c.agg) ∨
            (iterationDropsSample uninit inNumArgs c = false ∧
              ∃ frames, c'.agg = recordStack c.agg (newStack frames))))) := by
  unfold loopBody at h
  unfold iterationDropsSample
  cases hi : interruptBlock inNumArgs c with
  | none => simp [hi] at h
  | some c1 =>
      have hc1 : c1.actions = c.actions ++ [interruptAction inNumArgs] ∧
          c1.numSamples = c.numSamples ∧ c1.agg = c.agg := by
        unfold interruptBlock at hi
        split at hi
        · simp at hi
        · simp only [Option.some.injEq] at hi
          subst hi
          exact ⟨rfl, rfl, rfl⟩
      obtain ⟨ha1, hn1, hg1⟩ := hc1
      simp only [hi] at h ⊢
      by_cases hx : c1.driver.programExited = true
      · simp only [sampleBlock, hx, if_true, continueBlock, Option.map_some',
          Option.some.injEq, Outcome.returned.injEq] at h
        subst h
        refine ⟨[interruptAction inNumArgs], ha1, Or.inl ⟨?_, hn1, hg1, by simp [hx]⟩⟩
        exact count_stackCommand_interruptAction inNumArgs
      · have hx' : c1.driver.programExited = false := by
          cases hh : c1.driver.programExited with
          | true => exact absurd hh hx
          | false => rfl
        simp only [sampleBlock, hx', Bool.false_eq_true, if_false] at h
        cases hl : logGDBStackResponse uninit c1.driver c1.agg c1.pipe with
        | none => simp [hl] at h
        | some q =>
            obtain ⟨o, rest2⟩ := q
            cases o with
            | exited => simp [hl] at h
            | returned v =>
                obtain ⟨d2, agg2⟩ := v
                simp only [hl] at h
                have hrd := logGDBStackResponse_records_or_drops _ _ _ _ _ _ _ hl
                rw [hg1] at hrd
                have hcont : ∃ tail, c'.actions = c.actions ++
                      (interruptAction inNumArgs :: stackCommand :: tail) ∧
                    tail.count stackCommand = 0 ∧
                    c'.numSamples = c.numSamples + 1 ∧ c'.agg = agg2 := by
                  by_cases hx2 : d2.programExited = true
                  · simp only [continueBlock, hx2, if_true, Option.map_some',
                      Option.some.injEq, Outcome.returned.injEq] at h
                    subst h
                    refine ⟨[], ?_, rfl, ?_, rfl⟩
                    · simp [ha1, stackCommand]
                    · simp [hn1]
                  · have hx2' : d2.programExited = false := by
                      cases hh : d2.programExited with
                      | true => exact absurd hh hx2
                      | false => rfl
                    simp only [continueBlock, hx2', Bool.false_eq_true, if_false] at h
                    cases hs : skipGDBResponse d2 rest2 with
                    | none => simp [hs] at h
                    | some r =>
                        obtain ⟨d3, rest3⟩ := r
                        simp only [hs, Option.map_some', Option.some.injEq,
                          Outcome.returned.injEq] at h
                        subst h
                        refine ⟨[Action.send "-exec-continue".toList], ?_, by decide, ?_, rfl⟩
                        · simp [ha1, stackCommand]
                        · simp [hn1]
                obtain ⟨tail, hact, htail, hnum, hagg⟩ := hcont
                refine ⟨_, hact, Or.inr ⟨?_, hnum, ?_⟩⟩
                · have h0 := count_stackCommand_interruptAction inNumArgs
                  rw [List.count_cons, List.count_cons, htail]
                  rw [List.count_cons, List.count_nil] at h0
                  simp only [beq_self_eq_true, if_true]
                  omega
                · rw [hagg]
                  simpa [hx'] using hrd

/-- The counts of a run of the sampling loop that starts with the tables of
`samples`: the run records some more stacks, and both the number of
`-stack-list-frames` commands it sends and the growth of `numSamples` are the
number of stacks recorded plus the number of samples dropped. -/
theorem samplingLoop_counts (uninit : List Char) (inNumArgs : Nat)
    (detatchSeconds startTime : Int) (clock : Nat → Int) (fuel k : Nat) (c cF : Controller)
    (samples : List (List StackFrame))
    (h : samplingLoop uninit inNumArgs detatchSeconds startTime clock fuel k c =
      some (Outcome.returned cF))
    (hagg : c.agg = recordAll samples) :
    ∃ more sent, cF.agg = recordAll (samples ++ more) ∧
      cF.actions = c.actions ++ sent ∧
      sent.count stackCommand = more.length +
        droppedSamples uninit inNumArgs detatchSeconds startTime clock fuel k c ∧
      cF.numSamples = c.numSamples + (sent.count stackCommand : Nat) := by
  induction fuel generalizing k c samples with
  | zero => simp [samplingLoop] at h
  | succ f ih =>
      unfold samplingLoop at h
      unfold droppedSamples
      by_cases hc : loopCondition detatchSeconds startTime (clock k) c = true
      · simp only [hc, if_true] at h ⊢
        cases hb : loopBody uninit inNumArgs c with
        | none => simp [hb] at h
        | some o =>
            cases o with
            | exited => simp [hb] at h
            | returned c1 =>
                simp only [hb] at h ⊢
                obtain ⟨sent1, ha1, hcase⟩ := loopBody_counts uninit inNumArgs c c1 hb
                rcases hcase with ⟨hs0, hn, hg, hd⟩ | ⟨hs1, hn, ⟨hd, hg⟩ | ⟨hd, frames, hg⟩⟩
                · obtain ⟨more, sent, hF, haF, hcnt, hnF⟩ :=
                    ih (k + 1) c1 samples h (by rw [hg, hagg])
                  refine ⟨more, sent1 ++ sent, hF, ?_, ?_, ?_⟩
                  · rw [haF, ha1, List.append_assoc]
                  · rw [List.count_append, hs0, hcnt, hd]
                    simp
                  · rw [hnF, hn, List.count_append, hs0]
                    simp
                · obtain ⟨more, sent, hF, haF, hcnt, hnF⟩ :=
                    ih (k + 1) c1 samples h (by rw [hg, hagg])
                  refine ⟨more, sent1 ++ sent, hF, ?_, ?_, ?_⟩
                  · rw [haF, ha1, List.append_assoc]
                  · rw [List.count_append, hs1, hcnt, hd]
                    simp only [if_true]
                    omega
                  · rw [hnF, hn, List.count_append, hs1]
                    push_cast
                    omega
                · obtain ⟨more, sent, hF, haF, hcnt, hnF⟩ :=
                    ih (k + 1) c1 (samples ++ [frames]) h (by rw [hg, hagg, recordAll_snoc])
                  refine ⟨frames :: more, sent1 ++ sent, ?_, ?_, ?_, ?_⟩
                  · rw [hF, List.append_assoc, List.singleton_append]
                  · rw [haF, ha1, List.append_assoc]
                  · rw [List.count_append, hs1, hcnt, hd]
                    simp only [Bool.false_eq_true, if_false, List.length_cons]
                    omega
                  · rw [hnF, hn, List.count_append, hs1]
                    push_cast
                    omega
      · simp only [hc, if_false, Option.some.injEq, Outcome.returned.injEq,
          Bool.false_eq_true] at h ⊢
        subst h
        exact ⟨[], [], by simp [hagg], by simp, by simp, by simp⟩

/-! ## The single-precision percentages -/

theorem roundHalfEven_le (x : ℚ) : (roundHalfEven x : ℚ) ≤ x + 1 / 2 := by
  have h1 := Int.floor_le x
  have h2 := Int.lt_floor_add_one x
  unfold roundHalfEven
  split
  · linarith
  · split
    · push_cast; linarith
    · split
      · linarith
      · push_cast; linarith

theorem roundHalfEven_ge (x : ℚ) : x - 1 / 2 ≤ (roundHalfEven x : ℚ) := by
  have h1 := Int.floor_le x
  have h2 := Int.lt_floor_add_one x
  unfold roundHalfEven
  split
  · linarith
  · split
    · push_cast; linarith
    · split
      · linarith
      · push_cast; linarith

theorem roundHalfEven_intCast (m : Int) : roundHalfEven (m : ℚ) = m := by
  unfold roundHalfEven
  simp

/-- The nearest integer when it is nearer than one half. -/
theorem roundHalfEven_eq (x : ℚ) (m : Int) (h1 : (m : ℚ) - 1 / 2 < x) (h2 : x < m + 1 / 2) :
    roundHalfEven x = m := by
  have hle := roundHalfEven_le x
  have hge := roundHalfEven_ge x
  have ha : (roundHalfEven x : ℚ) < m + 1 := by linarith
  have hb : (m : ℚ) - 1 < roundHalfEven x := by linarith
  have ha' : roundHalfEven x < m + 1 := by exact_mod_cast ha
  have hb' : m - 1 < roundHalfEven x := by exact_mod_cast hb
  omega

theorem log_eq_of_bounds (q : ℚ) (k : Int) (hq : 0 < q) (h1 : (2 : ℚ) ^ k ≤ q)
    (h2 : q < 2 ^ (k + 1)) : Int.log 2 q = k := by
  have a := (Int.zpow_le_iff_le_log (by norm_num : 1 < 2) hq).1 h1
  have b := (Int.lt_zpow_iff_log_lt (by norm_num : 1 < 2) hq).1 h2
  omega

/-- The value of `roundToFloat` from the position of the leading bit. -/
theorem roundToFloat_eq (q : ℚ) (k : Int) (hq : 0 < q) (h1 : (2 : ℚ) ^ k ≤ q)
    (h2 : q < 2 ^ (k + 1)) (hk : -126 ≤ k) :
    roundToFloat q = (roundHalfEven (q / 2 ^ (k - 23)) : ℚ) * 2 ^ (k - 23) := by
  unfold roundToFloat
  rw [if_neg (ne_of_gt hq), abs_of_pos hq, log_eq_of_bounds q k hq h1 h2,
    max_eq_left (by omega)]

theorem roundToFloat_le (q : ℚ) (hq : (2 : ℚ) ^ (-126 : Int) ≤ q) :
    roundToFloat q ≤ q * (1 + 1 / 2 ^ 24) := by
  have hpos : 0 < q := lt_of_lt_of_le (by positivity) hq
  have h1 := Int.zpow_log_le_self (by norm_num : 1 < 2) hpos
  have h2 := Int.lt_zpow_succ_log_self (by norm_num : 1 < 2) q
  have hk : -126 ≤ Int.log 2 q := (Int.zpow_le_iff_le_log (by norm_num : 1 < 2) hpos).1 hq
  rw [roundToFloat_eq q _ hpos (by exact_mod_cast h1) (by exact_mod_cast h2) hk]
  have hs : (0 : ℚ) < 2 ^ (Int.log 2 q - 23) := by positivity
  have hr := roundHalfEven_le (q / 2 ^ (Int.log 2 q - 23))
  have e : (2 : ℚ) ^ (Int.log 2 q - 23) = 2 ^ Int.log 2 q / 2 ^ 23 := by
    rw [zpow_sub₀ (by norm_num)]
    norm_num
  calc (roundHalfEven (q / 2 ^ (Int.log 2 q - 23)) : ℚ) * 2 ^ (Int.log 2 q - 23)
      ≤ (q / 2 ^ (Int.log 2 q - 23) + 1 / 2) * 2 ^ (Int.log 2 q - 23) :=
        mul_le_mul_of_nonneg_right hr hs.le
    _ = q + 2 ^ (Int.log 2 q - 23) / 2 := by
        field_simp
        ring
    _ ≤ q * (1 + 1 / 2 ^ 24) := by
        rw [e]
        have : (2 : ℚ) ^ Int.log 2 q ≤ q := by exact_mod_cast h1
        linarith

theorem roundToFloat_ge (q : ℚ) (hq : (2 : ℚ) ^ (-126 : Int) ≤ q) :
    q * (1 - 1 / 2 ^ 24) ≤ roundToFloat q := by
  have hpos : 0 < q := lt_of_lt_of_le (by positivity) hq
  have h1 := Int.zpow_log_le_self (by norm_num : 1 < 2) hpos
  have h2 := Int.lt_zpow_succ_log_self (by norm_num : 1 < 2) q
  have hk : -126 ≤ Int.log 2 q := (Int.zpow_le_iff_le_log (by norm_num : 1 < 2) hpos).1 hq
  rw [roundToFloat_eq q _ hpos (by exact_mod_cast h1) (by exact_mod_cast h2) hk]
  have hs : (0 : ℚ) < 2 ^ (Int.log 2 q - 23) := by positivity
  have hr := roundHalfEven_ge (q / 2 ^ (Int.log 2 q - 23))
  have e : (2 : ℚ) ^ (Int.log 2 q - 23) = 2 ^ Int.log 2 q / 2 ^ 23 := by
    rw [zpow_sub₀ (by norm_num)]
    norm_num
  calc q * (1 - 1 / 2 ^ 24) ≤ q - 2 ^ (Int.log 2 q - 23) / 2 := by
        rw [e]
        have : (2 : ℚ) ^ Int.log 2 q ≤ q := by exact_mod_cast h1
        linarith
    _ = (q / 2 ^ (Int.log 2 q - 23) - 1 / 2) * 2 ^ (Int.log 2 q - 23) := by
        field_simp
        ring
    _ ≤ (roundHalfEven (q / 2 ^ (Int.log 2 q - 23)) : ℚ) * 2 ^ (Int.log 2 q - 23) :=
        mul_le_mul_of_nonneg_right hr hs.le

/-- An `int` of at most 24 bits converts to `float` without rounding. -/
theorem roundToFloat_intCast (n : Int) (h0 : 0 < n) (h1 : n ≤ 2 ^ 24) :
    roundToFloat (n : ℚ) = n := by
  have hpos : (0 : ℚ) < n := by exact_mod_cast h0
  have hl1 := Int.zpow_log_le_self (by norm_num : 1 < 2) hpos
  have hl2 := Int.lt_zpow_succ_log_self (by norm_num : 1 < 2) (n : ℚ)
  have hk0 : 0 ≤ Int.log 2 (n : ℚ) := by
    apply (Int.zpow_le_iff_le_log (by norm_num : 1 < 2) hpos).1
    have : (1 : ℚ) ≤ n := by exact_mod_cast h0
    simpa using this
  rw [roundToFloat_eq _ _ hpos (by exact_mod_cast hl1) (by exact_mod_cast hl2) (by omega)]
  have hk24 : Int.log 2 (n : ℚ) ≤ 24 := by
    by_contra hc
    have h25 : (25 : Int) ≤ Int.log 2 (n : ℚ) := by omega
    have := (Int.zpow_le_iff_le_log (by norm_num : 1 < 2) hpos).2 h25
    have hn : (n : ℚ) ≤ 2 ^ 24 := by exact_mod_cast h1
    have : ((2 : ℕ) : ℚ) ^ (25 : Int) ≤ 2 ^ 24 := le_trans this hn
    norm_num at this
  obtain ⟨k, hk⟩ : ∃ k : Nat, Int.log 2 (n : ℚ) = k := ⟨_, (Int.toNat_of_nonneg hk0).symm⟩
  rw [hk] at hl1 hk24 ⊢
  by_cases h24 : k = 24
  · subst h24
    have hn : (n : ℚ) = 2 ^ 24 := by
      apply le_antisymm
      · exact_mod_cast h1
      · have := hl1
        norm_num at this ⊢
        exact this
    rw [hn]
    have e : ((2 : ℚ) ^ 24) / 2 ^ (((24 : Nat) : Int) - 23) = ((2 ^ 23 : Int) : ℚ) := by
      norm_num
    rw [e, roundHalfEven_intCast]
    norm_num
  · have hk23 : k ≤ 23 := by omega
    have e : (n : ℚ) / 2 ^ ((k : Int) - 23) = ((n * 2 ^ (23 - k) : Int) : ℚ) := by
      have : (k : Int) - 23 = -((23 - k : Nat) : Int) := by omega
      rw [this, zpow_neg, zpow_natCast]
      push_cast
      field_simp
    rw [e, roundHalfEven_intCast]
    have : (k : Int) - 23 = -((23 - k : Nat) : Int) := by omega
    rw [this, zpow_neg, zpow_natCast]
    push_cast
    field_simp

/-- The decimal printed by `%7.3f` is at most 0.0005 above the value. -/
theorem printedF3_le (v : ℚ) : printedF3 v ≤ v + 1 / 2000 := by
  unfold printedF3
  have h := roundHalfEven_le (v * 1000)
  rw [div_le_iff₀ (by norm_num)]
  linarith

/-- The decimal printed by `%7.3f` is at most 0.0005 below the value. -/
theorem printedF3_ge (v : ℚ) : v - 1 / 2000 ≤ printedF3 v := by
  unfold printedF3
  have h := roundHalfEven_ge (v * 1000)
  rw [le_div_iff₀ (by norm_num)]
  linarith

theorem printedF3_sum_le (ps : List ℚ) :
    (ps.map printedF3).sum ≤ ps.sum + (ps.length : ℚ) / 2000 := by
  induction ps with
  | nil => simp
  | cons p rest ih =>
      have h := printedF3_le p
      simp only [List.map_cons, List.sum_cons, List.length_cons]
      push_cast
      linarith

/-- The single-precision quotient of two positive `int`s, the divisor of at
most 24 bits, is within two roundings of the exact quotient. -/
theorem floatQuotient_bounds (a b : Int) (ha : 1 ≤ a) (hb0 : 0 < b) (hb : b ≤ 2 ^ 24) :
    ∃ p, floatQuotient a b = some p ∧
      (a : ℚ) / b * (1 - 1 / 2 ^ 24) ^ 2 ≤ p ∧ p ≤ (a : ℚ) / b * (1 + 1 / 2 ^ 24) ^ 2 := by
  have hbq : (0 : ℚ) < b := by exact_mod_cast hb0
  have haq : (1 : ℚ) ≤ a := by exact_mod_cast ha
  have hbq' : (b : ℚ) ≤ 2 ^ 24 := by exact_mod_cast hb
  have hfb : roundToFloat (b : ℚ) = b := roundToFloat_intCast b hb0 hb
  have ha126 : (2 : ℚ) ^ (-126 : Int) ≤ a := by
    have : (2 : ℚ) ^ (-126 : Int) ≤ 1 := by
      rw [zpow_neg]
      apply inv_le_one_of_one_le₀
      exact one_le_zpow₀ (by norm_num) (by norm_num)
    linarith
  have hfa1 := roundToFloat_le (a : ℚ) ha126
  have hfa2 := roundToFloat_ge (a : ℚ) ha126
  have hfa0 : (1 : ℚ) / 2 ≤ roundToFloat (a : ℚ) := by
    have : (a : ℚ) * (1 - 1 / 2 ^ 24) ≥ 1 * (1 - 1 / 2 ^ 24) :=
      mul_le_mul_of_nonneg_right haq (by norm_num)
    have h2 : (1 : ℚ) / 2 ≤ 1 * (1 - 1 / 2 ^ 24) := by norm_num
    linarith
  have hq126 : (2 : ℚ) ^ (-126 : Int) ≤ roundToFloat (a : ℚ) / b := by
    rw [le_div_iff₀ hbq]
    have h1 : (2 : ℚ) ^ (-126 : Int) * b ≤ 2 ^ (-126 : Int) * 2 ^ 24 :=
      mul_le_mul_of_nonneg_left hbq' (by positivity)
    have h2 : (2 : ℚ) ^ (-126 : Int) * 2 ^ 24 ≤ 1 / 2 := by
      rw [zpow_neg]
      norm_num
    exact le_trans (le_trans h1 h2) hfa0
  have hq1 := roundToFloat_le _ hq126
  have hq2 := roundToFloat_ge _ hq126
  refine ⟨roundToFloat (roundToFloat (a : ℚ) / b), ?_, ?_, ?_⟩
  · unfold floatQuotient
    rw [if_neg (ne_of_gt hb0), hfb]
  · calc (a : ℚ) / b * (1 - 1 / 2 ^ 24) ^ 2
        = (a : ℚ) * (1 - 1 / 2 ^ 24) / b * (1 - 1 / 2 ^ 24) := by ring
      _ ≤ roundToFloat (a : ℚ) / b * (1 - 1 / 2 ^ 24) := by
          apply mul_le_mul_of_nonneg_right _ (by norm_num)
          exact div_le_div_of_nonneg_right hfa2 hbq.le
      _ ≤ roundToFloat (roundToFloat (a : ℚ) / b) := hq2
  · calc roundToFloat (roundToFloat (a : ℚ) / b)
        ≤ roundToFloat (a : ℚ) / b * (1 + 1 / 2 ^ 24) := hq1
      _ ≤ (a : ℚ) * (1 + 1 / 2 ^ 24) / b * (1 + 1 / 2 ^ 24) := by
          apply mul_le_mul_of_nonneg_right _ (by norm_num)
          exact div_le_div_of_nonneg_right hfa1 hbq.le
      _ = (a : ℚ) / b * (1 + 1 / 2 ^ 24) ^ 2 := by ring

/-- The percentages of a list of stacks are numbers when there is no stack or
the number of samples is not zero. -/
theorem percentagesOf_some (n : Int) (l : List Stack) (h : l = [] ∨ n ≠ 0) :
    ∃ ps, percentagesOf n l = some ps ∧ ps.length = l.length := by
  induction l with
  | nil => exact ⟨[], rfl, rfl⟩
  | cons s rest ih =>
      have hn : n ≠ 0 := by
        rcases h with h | h
        · exact absurd h (by simp)
        · exact h
      obtain ⟨ps, hps, hlen⟩ := ih (Or.inr hn)
      refine ⟨roundToFloat (roundToFloat ((100 * s.sampleCount : Int) : ℚ) / roundToFloat n) ::
        ps, ?_, by simp [hlen]⟩
      simp only [percentagesOf, percentage, floatQuotient, hn, if_false, hps, Option.map_some']

/-- The percentages of a list of stacks with positive counts, for a number of
samples of at most 24 bits, sum to the exact percentage of their total count
within two roundings. -/
theorem percentagesOf_sum_bounds (n : Int) (l : List Stack) (ps : List ℚ)
    (hn0 : 0 < n) (hn : n ≤ 2 ^ 24) (hl : ∀ s ∈ l, 0 < s.sampleCount)
    (hps : percentagesOf n l = some ps) :
    ((100 * totalSamples l : Int) : ℚ) / n * (1 - 1 / 2 ^ 24) ^ 2 ≤ ps.sum ∧
      ps.sum ≤ ((100 * totalSamples l : Int) : ℚ) / n * (1 + 1 / 2 ^ 24) ^ 2 := by
  induction l generalizing ps with
  | nil =>
      simp only [percentagesOf, Option.some.injEq] at hps
      subst hps
      simp [totalSamples]
  | cons s rest ih =>
      have hs := hl s (List.mem_cons_self _ _)
      obtain ⟨p, hp, hp1, hp2⟩ := floatQuotient_bounds (100 * s.sampleCount) n (by omega) hn0 hn
      simp only [percentagesOf, percentage, hp] at hps
      cases hr : percentagesOf n rest with
      | none => simp [hr] at hps
      | some qs =>
          simp only [hr, Option.map_some', Option.some.injEq] at hps
          subst hps
          obtain ⟨i1, i2⟩ := ih qs (fun t ht => hl t (List.mem_cons_of_mem _ ht)) hr
          have e : ((100 * totalSamples (s :: rest) : Int) : ℚ) / n =
              ((100 * s.sampleCount : Int) : ℚ) / n + ((100 * totalSamples rest : Int) : ℚ) / n := by
            simp only [totalSamples, List.map_cons, List.sum_cons]
            push_cast
            ring
          rw [List.sum_cons, e]
          constructor
          · linarith
          · linarith

/-- The exact percentages of a list of stacks sum to the percentage of their
total count. -/
theorem exact_percentage_sum (l : List Stack) (n : Int) :
    (l.map (fun s => ((100 * s.sampleCount : Int) : ℚ) / (n : ℚ))).sum =
      ((100 * totalSamples l : Int) : ℚ) / (n : ℚ) := by
  induction l with
  | nil => simp [totalSamples]
  | cons s rest ih =>
      rw [List.map_cons, List.sum_cons, ih]
      simp only [totalSamples, List.map_cons, List.sum_cons]
      push_cast
      ring

theorem totalSamples_perm (a b : List Stack) (h : a.Perm b) :
    totalSamples a = totalSamples b := by
  unfold totalSamples
  exact (h.map Stack.sampleCount).sum_eq

/-- The full-stack list of the report holds every entry of the table of a
run. -/
theorem sortStacks_recordAll (samples : List (List StackFrame)) :
    ∃ sortedStacks, sortStacks (recordAll samples).stackLog = some (sortedStacks, []) ∧
      sortedStacks.Perm (recordAll samples).stackLog := by
  obtain ⟨S, hS, hperm, _, _⟩ :=
    sortLoop_spec Stack.sampleCount 0 _ (recordAll samples).stackLog [] (Nat.le_refl _)
  have hpos := stackLog_sampleCount_pos samples
  have hall : (recordAll samples).stackLog.filter (fun y => decide (0 < y.sampleCount)) =
      (recordAll samples).stackLog :=
    filter_eq_self_of_forall _ _ (fun y hy => by simpa using hpos y hy)
  have hnone : (recordAll samples).stackLog.filter (fun y => decide (y.sampleCount ≤ 0)) = [] :=
    filter_eq_nil_of_forall _ _ (fun y hy => by
      have := hpos y hy
      simp only [decide_eq_false_iff_not, not_le]
      exact this)
  refine ⟨S, ?_, ?_⟩
  · unfold sortStacks
    rw [hS, hnone]
    simp
  · rw [hall] at hperm
    exact hperm

theorem finishSampling_keeps_counts (inNumArgs : Nat) (c cR : Controller)
    (h : finishSampling inNumArgs c = some cR) :
    cR.numSamples = c.numSamples ∧ cR.agg = c.agg := by
  unfold finishSampling at h
  split at h
  · simp only [Option.some.injEq] at h
    subst h
    exact ⟨rfl, rfl⟩
  · split at h
    · simp at h
    · split at h
      · simp at h
      · simp only [Option.some.injEq] at h
        subst h
        exact ⟨rfl, rfl⟩

/-- The single-precision quotient of two `int`s of at most 24 bits, from the
position `k` of the leading bit of the exact quotient and the integer `m`
nearest to the quotient scaled to 24 bits. -/
theorem floatQuotient_eq (a b k m : Int) (ha0 : 0 < a) (ha : a ≤ 2 ^ 24) (hb0 : 0 < b)
    (hb : b ≤ 2 ^ 24) (h1 : (2 : ℚ) ^ k ≤ (a : ℚ) / b) (h2 : (a : ℚ) / b < 2 ^ (k + 1))
    (hk : -126 ≤ k) (hm1 : (m : ℚ) - 1 / 2 < (a : ℚ) / b / 2 ^ (k - 23))
    (hm2 : (a : ℚ) / b / 2 ^ (k - 23) < m + 1 / 2) :
    floatQuotient a b = some ((m : ℚ) * 2 ^ (k - 23)) := by
  have hpos : (0 : ℚ) < (a : ℚ) / b := by
    have h3 : (0 : ℚ) < a := by exact_mod_cast ha0
    have h4 : (0 : ℚ) < b := by exact_mod_cast hb0
    positivity
  unfold floatQuotient
  rw [if_neg (ne_of_gt hb0), roundToFloat_intCast a ha0 ha, roundToFloat_intCast b hb0 hb,
    roundToFloat_eq _ k hpos h1 h2 hk, roundHalfEven_eq _ m hm1 hm2]

theorem roundHalfEven_tie_even (m : Int) (h : m % 2 = 0) :
    roundHalfEven ((m : ℚ) + 1 / 2) = m := by
  have hf : ⌊(m : ℚ) + 1 / 2⌋ = m := by
    rw [Int.floor_eq_iff]
    constructor <;> norm_num
  unfold roundHalfEven
  rw [hf]
  norm_num [h]

/-- One stack of `2^24` samples and one dropped sample: the computed
percentage is exactly 100. -/
theorem percentage_of_all_but_one :
    percentage ⟨[], 2 ^ 24⟩ (2 ^ 24 + 1) = some 100 := by
  have hb : roundToFloat (((2 ^ 24 + 1 : Int)) : ℚ) = 2 ^ 24 := by
    rw [roundToFloat_eq _ 24 (by norm_num) (by norm_num) (by norm_num) (by norm_num)]
    have e : (((2 ^ 24 + 1 : Int)) : ℚ) / 2 ^ ((24 : Int) - 23) = ((8388608 : Int) : ℚ) + 1 / 2 := by
      norm_num
    rw [e, roundHalfEven_tie_even _ (by decide)]
    norm_num
  have ha : roundToFloat (((100 * 2 ^ 24 : Int)) : ℚ) = 100 * 2 ^ 24 := by
    rw [roundToFloat_eq _ 30 (by norm_num) (by norm_num) (by norm_num) (by norm_num)]
    have e : (((100 * 2 ^ 24 : Int)) : ℚ) / 2 ^ ((30 : Int) - 23) = ((13107200 : Int) : ℚ) := by
      norm_num
    rw [e, roundHalfEven_intCast]
    norm_num
  have hq : roundToFloat (100 : ℚ) = 100 := by
    have := roundToFloat_intCast 100 (by norm_num) (by norm_num)
    simpa using this
  unfold percentage floatQuotient
  rw [if_neg (by norm_num)]
  simp only []
  rw [ha, hb]
  have e : (100 * 2 ^ 24 : ℚ) / 2 ^ 24 = 100 := by norm_num
  rw [e, hq]

/-- One sample of 600 is printed as 0.167 percent. -/
theorem printed_percentage_of_one_in_600 :
    (percentage ⟨[], 1⟩ 600).map printedF3 = some (167 / 1000) := by
  have h : percentage ⟨[], 1⟩ 600 = some (((11184811 : Int) : ℚ) * (2 : ℚ) ^ ((-3 : Int) - 23)) := by
    unfold percentage
    exact floatQuotient_eq (100 * 1) 600 (-3) 11184811 (by norm_num) (by norm_num)
      (by norm_num) (by norm_num) (by norm_num) (by norm_num) (by norm_num) (by norm_num)
      (by norm_num)
  rw [h, Option.map_some']
  unfold printedF3
  rw [roundHalfEven_eq _ 167 (by norm_num) (by norm_num)]
  norm_num

/-- The percentages computed for the table of the seven-sample example. -/
theorem percentagesOf_seven :
    percentagesOf 7
        [⟨[⟨0x401136, "work".toList, "a.c".toList, 12⟩], 5⟩,
          ⟨[⟨0x401150, "idle".toList, "a.c".toList, 12⟩], 1⟩,
          ⟨[⟨0x401160, "wait".toList, "a.c".toList, 12⟩], 1⟩] =
      some [4681143 / 65536, 14979657 / 1048576, 14979657 / 1048576] := by
  have h5 : floatQuotient (100 * 5) 7 = some (4681143 / 65536) := by
    rw [floatQuotient_eq (100 * 5) 7 6 9362286 (by norm_num) (by norm_num) (by norm_num)
      (by norm_num) (by norm_num) (by norm_num) (by norm_num) (by norm_num) (by norm_num)]
    norm_num
  have h1 : floatQuotient (100 * 1) 7 = some (14979657 / 1048576) := by
    rw [floatQuotient_eq (100 * 1) 7 3 14979657 (by norm_num) (by norm_num) (by norm_num)
      (by norm_num) (by norm_num) (by norm_num) (by norm_num) (by norm_num) (by norm_num)]
    norm_num
  simp only [percentagesOf, percentage, h5, h1, Option.map_some']

set_option maxRecDepth 1000000 in
/-- C21 (counterexample).  A run takes seven samples and drops none: the target
is found five times in `work`, once in `idle` and once in `wait`.  The three
percentages that `printStack` computes are the `float`s nearest to 500/7,
100/7 and 100/7; they sum to 100 + 1/524288, and the figures printed for them,
71.429, 14.286 and 14.286, sum to 100.001: more than 100 both ways.  For larger
runs the other clause fails as well: with one stack of `2^24` samples and one
dropped sample the computed percentage is exactly 100, and with 599 stacks of
one sample each and one dropped sample every stack is printed as 0.167, which
sums to 100.033. -/
theorem fullStackPercentages_sum_above_100 :
    (∃ c, samplingLoop [] 3 5 0 exampleSevenClock 8 0 exampleSevenStart =
          some (Outcome.returned c) ∧
        droppedSamples [] 3 5 0 exampleSevenClock 8 0 exampleSevenStart = 0 ∧
        c.numSamples = 7 ∧ totalSamples c.agg.stackLog = 7 ∧
        fullStackPercentages c =
          some [4681143 / 65536, 14979657 / 1048576, 14979657 / 1048576] ∧
        (100 : ℚ) < ([4681143 / 65536, 14979657 / 1048576, 14979657 / 1048576] : List ℚ).sum ∧
        ([4681143 / 65536, 14979657 / 1048576, 14979657 / 1048576] : List ℚ).map printedF3 =
          [71429 / 1000, 14286 / 1000, 14286 / 1000] ∧
        (100 : ℚ) < ([71429 / 1000, 14286 / 1000, 14286 / 1000] : List ℚ).sum) ∧
      percentage ⟨[], 2 ^ 24⟩ (2 ^ 24 + 1) = some 100 ∧
      (percentage ⟨[], 1⟩ 600).map printedF3 = some (167 / 1000) ∧
      (100 : ℚ) < 599 * (167 / 1000) := by
  refine ⟨⟨_, rfl, by decide, by decide, by decide, ?_, by norm_num, ?_, by norm_num⟩,
    percentage_of_all_but_one, printed_percentage_of_one_in_600, by norm_num⟩
  · have hlog : sortStacks
          [⟨[⟨0x401136, "work".toList, "a.c".toList, 12⟩], 5⟩,
            ⟨[⟨0x401150, "idle".toList, "a.c".toList, 12⟩], 1⟩,
            ⟨[⟨0x401160, "wait".toList, "a.c".toList, 12⟩], 1⟩] =
        some ([⟨[⟨0x401136, "work".toList, "a.c".toList, 12⟩], 5⟩,
            ⟨[⟨0x401150, "idle".toList, "a.c".toList, 12⟩], 1⟩,
            ⟨[⟨0x401160, "wait".toList, "a.c".toList, 12⟩], 1⟩], []) := by decide
    exact (congrArg (fun o => o.bind (fun p => percentagesOf 7 p.1)) hlog).trans
      percentagesOf_seven
  · have e1 : printedF3 (4681143 / 65536) = 71429 / 1000 := by
      unfold printedF3
      rw [roundHalfEven_eq _ 71429 (by norm_num) (by norm_num)]
      norm_num
    have e2 : printedF3 (14979657 / 1048576) = 14286 / 1000 := by
      unfold printedF3
      rw [roundHalfEven_eq _ 14286 (by norm_num) (by norm_num)]
      norm_num
    simp only [List.map_cons, List.map_nil, e1, e2]

/-- C21 (amended).  Take a run of the sampling loop from the start of `main`
(`numSamples = 0`, empty tables) that returns the state `c`, from which the
report is printed.  Every iteration adds to `numSamples` the number of
`-stack-list-frames` commands it sends (none or one), and an iteration that
drops its sample counts it all the same and leaves the tables as they were.
So `numSamples` is the number of those commands sent in the run, and it is the
sum of `sampleCount` over the stack table plus the number of dropped samples:
the sum is at most `numSamples`, with equality exactly when no sample was
dropped.  The exact quotients `100 * sampleCount / numSamples` of the stack
table therefore sum to at most 100, and to less than 100 when a sample was
dropped.  The report holds one percentage for each entry of the table, computed
in single precision; for runs of at most `2^23` samples these values sum to at
most `100 * (1 + 2^-24)^2`, and to less than 100 when a sample was dropped.
The figures printed with three decimals sum to at most the sum of the computed
values plus 0.0005 for each stack.  The code between the loop and the report
changes neither `numSamples` nor the tables. -/
theorem numSamples_counts_dropped_samples (uninit : List Char) (inNumArgs : Nat)
    (detatchSeconds startTime : Int) (clock : Nat → Int) (fuel k : Nat) (c0 c : Controller)
    (hrun : samplingLoop uninit inNumArgs detatchSeconds startTime clock fuel k c0 =
      some (Outcome.returned c))
    (hagg : c0.agg = Aggregator.empty) (hnum : c0.numSamples = 0) :
    (∀ c1 c2, loopBody uninit inNumArgs c1 = some (Outcome.returned c2) →
        ∃ sent, c2.actions = c1.actions ++ sent ∧ sent.count stackCommand ≤ 1 ∧
          c2.numSamples = c1.numSamples + (sent.count stackCommand : Nat) ∧
          (iterationDropsSample uninit inNumArgs c1 = true →
            sent.count stackCommand = 1 ∧ c2.agg = c1.agg)) ∧
      (∃ sent, c.actions = c0.actions ++ sent ∧
        c.numSamples = (sent.count stackCommand : Nat)) ∧
      c.numSamples = totalSamples c.agg.stackLog +
        (droppedSamples uninit inNumArgs detatchSeconds startTime clock fuel k c0 : Nat) ∧
      totalSamples c.agg.stackLog ≤ c.numSamples ∧
      (totalSamples c.agg.stackLog = c.numSamples ↔
        droppedSamples uninit inNumArgs detatchSeconds startTime clock fuel k c0 = 0) ∧
      ((c.agg.stackLog.map
          (fun s => ((100 * s.sampleCount : Int) : ℚ) / (c.numSamples : ℚ))).sum ≤ 100 ∧
        (0 < droppedSamples uninit inNumArgs detatchSeconds startTime clock fuel k c0 →
          (c.agg.stackLog.map
            (fun s => ((100 * s.sampleCount : Int) : ℚ) / (c.numSamples : ℚ))).sum < 100)) ∧
      (∃ ps, fullStackPercentages c = some ps ∧ ps.length = c.agg.stackLog.length ∧
        (c.numSamples ≤ 2 ^ 23 →
          ps.sum ≤ 100 * (1 + 1 / 2 ^ 24) ^ 2 ∧
          (0 < droppedSamples uninit inNumArgs detatchSeconds startTime clock fuel k c0 →
            ps.sum < 100)) ∧
        (ps.map printedF3).sum ≤ ps.sum + (ps.length : ℚ) / 2000) ∧
      (∀ cR, finishSampling inNumArgs c = some cR →
        cR.numSamples = c.numSamples ∧ cR.agg = c.agg) := by
  obtain ⟨more, sent, hF, haF, hcnt, hnF⟩ :=
    samplingLoop_counts uninit inNumArgs detatchSeconds startTime clock fuel k c0 c [] hrun
      (by rw [hagg]; rfl)
  rw [List.nil_append] at hF
  rw [hnum, zero_add] at hnF
  have htot : totalSamples c.agg.stackLog = (more.length : Int) := by
    rw [hF]
    exact (stackLog_invariant more).2.2.2
  have hsum : c.numSamples = totalSamples c.agg.stackLog +
      (droppedSamples uninit inNumArgs detatchSeconds startTime clock fuel k c0 : Nat) := by
    rw [hnF, hcnt, htot]
    push_cast
    rfl
  have hT0 : 0 ≤ totalSamples c.agg.stackLog := by
    rw [htot]
    positivity
  have hexact := exact_percentage_sum c.agg.stackLog c.numSamples
  refine ⟨?_, ⟨sent, haF, hnF⟩, hsum, ?_, ?_, ⟨?_, ?_⟩, ?_, ?_⟩
  · intro c1 c2 hb
    obtain ⟨s1, ha, hcase⟩ := loopBody_counts uninit inNumArgs c1 c2 hb
    refine ⟨s1, ha, ?_, ?_, ?_⟩
    · rcases hcase with ⟨h0, _⟩ | ⟨h1, _⟩ <;> omega
    · rcases hcase with ⟨h0, hn, _⟩ | ⟨h1, hn, _⟩
      · rw [hn, h0]
        simp
      · rw [hn, h1]
        simp
    · intro hd
      rcases hcase with ⟨_, _, _, hd0⟩ | ⟨h1, _, ⟨_, hg⟩ | ⟨hd0, _⟩⟩
      · rw [hd] at hd0
        exact absurd hd0 (by simp)
      · exact ⟨h1, hg⟩
      · rw [hd] at hd0
        exact absurd hd0 (by simp)
  · omega
  · omega
  · rw [hexact]
    by_cases hz : c.numSamples = 0
    · rw [hz]
      simp
    · have hp : (0 : ℚ) < (c.numSamples : ℚ) := by
        have : 0 < c.numSamples := by omega
        exact_mod_cast this
      rw [div_le_iff₀ hp]
      have : 100 * totalSamples c.agg.stackLog ≤ 100 * c.numSamples := by omega
      exact_mod_cast this
  · intro hd
    rw [hexact]
    have hp : (0 : ℚ) < (c.numSamples : ℚ) := by
      have : 0 < c.numSamples := by omega
      exact_mod_cast this
    rw [div_lt_iff₀ hp]
    have : 100 * totalSamples c.agg.stackLog < 100 * c.numSamples := by omega
    exact_mod_cast this
  · obtain ⟨S, hS, hperm⟩ := sortStacks_recordAll more
    rw [← hF] at hS hperm
    have hSemp : S = [] ∨ c.numSamples ≠ 0 := by
      by_cases hz : c.numSamples = 0
      · left
        have hm : more = [] := by
          apply List.eq_nil_of_length_eq_zero
          omega
        have hl : c.agg.stackLog = [] := by
          rw [hF, hm]
          rfl
        rw [hl] at hperm
        exact List.Perm.eq_nil hperm
      · exact Or.inr hz
    obtain ⟨ps, hps, hlen⟩ := percentagesOf_some c.numSamples S hSemp
    refine ⟨ps, ?_, ?_, ?_, printedF3_sum_le ps⟩
    · unfold fullStackPercentages
      rw [hS]
      exact hps
    · rw [hlen]
      exact hperm.length_eq
    · intro hN
      have hposS : ∀ s ∈ S, 0 < s.sampleCount := by
        intro s hs
        have hmem : s ∈ (recordAll more).stackLog := by
          rw [← hF]
          exact hperm.subset hs
        exact stackLog_sampleCount_pos more s hmem
      have hTS : totalSamples S = totalSamples c.agg.stackLog := totalSamples_perm _ _ hperm
      by_cases hz : c.numSamples = 0
      · have hSnil : S = [] := by
          rcases hSemp with h | h
          · exact h
          · exact absurd hz h
        rw [hSnil] at hps
        simp only [percentagesOf, Option.some.injEq] at hps
        subst hps
        refine ⟨by norm_num, fun hd => ?_⟩
        norm_num
      · have hn0 : 0 < c.numSamples := by omega
        have hp : (0 : ℚ) < (c.numSamples : ℚ) := by exact_mod_cast hn0
        obtain ⟨_, hup⟩ := percentagesOf_sum_bounds c.numSamples S ps hn0 (by omega) hposS hps
        rw [hTS] at hup
        have hTq : ((100 * totalSamples c.agg.stackLog : Int) : ℚ) / c.numSamples ≤ 100 := by
          rw [div_le_iff₀ hp]
          have : 100 * totalSamples c.agg.stackLog ≤ 100 * c.numSamples := by omega
          exact_mod_cast this
        have hTq0 : 0 ≤ ((100 * totalSamples c.agg.stackLog : Int) : ℚ) / c.numSamples := by
          apply div_nonneg _ hp.le
          have : 0 ≤ 100 * totalSamples c.agg.stackLog := by omega
          exact_mod_cast this
        refine ⟨?_, fun hd => ?_⟩
        · calc ps.sum ≤ ((100 * totalSamples c.agg.stackLog : Int) : ℚ) / c.numSamples *
                (1 + 1 / 2 ^ 24) ^ 2 := hup
            _ ≤ 100 * (1 + 1 / 2 ^ 24) ^ 2 :=
                mul_le_mul_of_nonneg_right hTq (by positivity)
        · have hT1 : totalSamples c.agg.stackLog ≤ c.numSamples - 1 := by omega
          have hTN : ((100 * totalSamples c.agg.stackLog : Int) : ℚ) / c.numSamples ≤
              100 * ((c.numSamples : ℚ) - 1) / c.numSamples := by
            apply div_le_div_of_nonneg_right _ hp.le
            have : 100 * totalSamples c.agg.stackLog ≤ 100 * (c.numSamples - 1) := by omega
            have h2 : ((100 * totalSamples c.agg.stackLog : Int) : ℚ) ≤
                ((100 * (c.numSamples - 1) : Int) : ℚ) := by exact_mod_cast this
            push_cast at h2 ⊢
            exact h2
          have hNq : (c.numSamples : ℚ) ≤ 2 ^ 23 := by exact_mod_cast hN
          have hN1 : (1 : ℚ) ≤ c.numSamples := by exact_mod_cast hn0
          have hkey : 100 * ((c.numSamples : ℚ) - 1) / c.numSamples * (1 + 1 / 2 ^ 24) ^ 2 <
              100 := by
            rw [div_mul_eq_mul_div, div_lt_iff₀ hp]
            have hw : ((c.numSamples : ℚ) - 1) * ((1 + 1 / 2 ^ 24) ^ 2 - 1) ≤
                (2 ^ 23 - 1) * ((1 + 1 / 2 ^ 24) ^ 2 - 1) :=
              mul_le_mul_of_nonneg_right (by linarith) (by norm_num)
            have hw2 : ((2 : ℚ) ^ 23 - 1) * ((1 + 1 / 2 ^ 24) ^ 2 - 1) < 1 := by norm_num
            nlinarith
          calc ps.sum ≤ ((100 * totalSamples c.agg.stackLog : Int) : ℚ) / c.numSamples *
                (1 + 1 / 2 ^ 24) ^ 2 := hup
            _ ≤ 100 * ((c.numSamples : ℚ) - 1) / c.numSamples * (1 + 1 / 2 ^ 24) ^ 2 :=
                mul_le_mul_of_nonneg_right hTN (by positivity)
            _ < 100 := hkey
  · intro cR hR
    exact finishSampling_keeps_counts inNumArgs c cR hR

set_option maxRecDepth 100000 in
/-- C21 (witness).  Two samples are requested; GDB answers the second request
with an error message, so that sample is dropped: `numSamples` is 2, the stack
table holds one stack with one sample, and the percentages of the report sum
to less than 100. -/
theorem numSamples_counts_dropped_samples_witness :
    samplingLoop [] 3 5 0 exampleClock 3 0 exampleStart = some (Outcome.returned exampleEnd) ∧
      exampleStart.agg = Aggregator.empty ∧ exampleStart.numSamples = 0 ∧
      droppedSamples [] 3 5 0 exampleClock 3 0 exampleStart = 1 ∧
      exampleEnd.numSamples = 2 ∧
      totalSamples exampleEnd.agg.stackLog = 1 ∧
      totalSamples exampleEnd.agg.stackLog ≤ exampleEnd.numSamples ∧
      ∃ ps, fullStackPercentages exampleEnd = some ps ∧ ps.length = 1 ∧ ps.sum < 100 := by
  have hrun : samplingLoop [] 3 5 0 exampleClock 3 0 exampleStart =
      some (Outcome.returned exampleEnd) := rfl
  have hdrop : droppedSamples [] 3 5 0 exampleClock 3 0 exampleStart = 1 := by decide
  have h := numSamples_counts_dropped_samples [] 3 5 0 exampleClock 3 0 exampleStart
    exampleEnd hrun rfl rfl
  obtain ⟨ps, hps, hlen, hb, _⟩ := h.2.2.2.2.2.2.1
  exact ⟨hrun, rfl, rfl, hdrop, rfl, by decide, h.2.2.2.1, ps, hps, hlen,
    (hb (by decide)).2 (by rw [hdrop]; decide)⟩

end WallClockProfiler

